import Mathlib

/-!
# CodeLite editor core (`LiteEditor/cl_editor.cpp`): a shallow embedding

The editor class `clEditor` derives from the styled-text control.  The control
itself is an external collaborator: only the primitives the editor calls are
embedded (marker storage, position to line mapping, line visibility, fold
state, and, for the functions that work on the text, the text with its undo
grouping), each next to the editor function that uses it.  What other
collaborators answer (command processor, breakpoint manager, plugins, file
system, platform) is a parameter of the function that asks.  C++ `int` values
are embedded as `Int`; none of the embedded arithmetic leaves the 32-bit range
for line numbers of a real document.  The clangd detector of
`LanguageServer/detectors/LSPClangdDetector.cpp` is embedded at the end of the
definitions.
-/

namespace CodeLite

/-! ## Data model -/

/-- Status of a line in the modification tracker.  The enumeration is declared
in the editor header; the code under study names `LINE_MODIFIED` and
`LINE_SAVED` and treats every other value alike (`LINE_NONE`). -/
inductive LineStatus where
  | LINE_NONE
  | LINE_MODIFIED
  | LINE_SAVED
  deriving DecidableEq, Repr

/-- Origin of a breakpoint record (`BO_Editor` is the only value written by the
editor). -/
inductive BreakpointOrigin where
  | BO_Editor
  | BO_Other
  deriving DecidableEq, Repr

/-- A breakpoint record (`clDebuggerBreakpoint`): the fields rewritten by
`UpdateBreakpoints` plus the payload it must leave alone. -/
structure clDebuggerBreakpoint where
  file : String
  lineno : Int
  origin : BreakpointOrigin
  conditions : String
  is_temp : Bool
  is_enabled : Bool
  deriving DecidableEq, Repr

/-- Margin styles (`constexpr int STYLE_* = wxSTC_STYLE_MAX - k`). -/
def wxSTC_STYLE_MAX : Int := 255
def STYLE_CURRENT_LINE : Int := wxSTC_STYLE_MAX - 1
def STYLE_NORMAL_LINE : Int := wxSTC_STYLE_MAX - 2
def STYLE_MODIFIED_LINE : Int := wxSTC_STYLE_MAX - 3
def STYLE_SAVED_LINE : Int := wxSTC_STYLE_MAX - 4
def STYLE_CURRENT_LINE_MODIFIED : Int := wxSTC_STYLE_MAX - 5
def STYLE_CURRENT_LINE_SAVED : Int := wxSTC_STYLE_MAX - 6

/-- Modification flags of a change notification (values of the styled-text
control). -/
def wxSTC_MOD_INSERTTEXT : Nat := 0x1
def wxSTC_MOD_DELETETEXT : Nat := 0x2
def wxSTC_PERFORMED_UNDO : Nat := 0x20
def wxSTC_PERFORMED_REDO : Nat := 0x40
def wxSTC_STARTACTION : Nat := 0x2000

def wxNOT_FOUND : Int := -1

/-- Calls the editor makes to collaborators outside the modelled state
(event queue, main frame, breakpoint manager, margin of the control, command
processor, delta cache), recorded in program order. -/
inductive Call where
  | NotifyMarkerChanged (line : Int)
  | CenterLine (line : Int)
  | EnsureVisible (line : Int)
  | EnsureCaretVisible
  | DeleteAllBreakpointsByFileName (file : String)
  | SetBreakpoints (bps : List clDebuggerBreakpoint)
  | BreakpointViewInitialize
  | MarginSetText (line : Int) (text : String)
  | MarginSetStyle (line : Int) (style : Int)
  | SetPageTitle (modified : Bool)
  | DoUpdateTLWTitle
  | AppendToTextCommand (position : Int)
  | DeltasPop
  | DeltasPush (position : Int) (delta : Int)
  | DeltasClear
  | ProcessToggleBreakpointEvent (file : String) (lineno : Int)
  | GetBreakpoint (file : String) (lineno : Int)
  | SetExpectingControl (expecting : Bool)
  | AddBreakpointByLineno (file : String) (lineno : Int) (conditions : String)
      (is_temp is_disabled : Bool)
  | DelBreakpointByLineno (file : String) (lineno : Int)
  | MessageBox (message : String)
  | StatusBarMessage (message : String)
  | BraceHighlight (pos endPos : Int)
  | BraceBadLight (pos : Int)
  | SetHighlightGuide (column : Int)
  | ToggleFoldShowText (line : Int)
  | SetCaretAt (pos : Int)
  | LineScroll (columns lines : Int)
  | UpdateNavBar (line : Int)
  | SetFoldExpanded (line : Int) (expanded : Bool)
  | ShowLines (lineStart lineEnd : Int)
  | HideLines (lineStart lineEnd : Int)
  deriving DecidableEq, Repr

/-- One marker of the control: the handle returned by `MarkerAdd`, the line it
currently sits on and its marker number. -/
structure MarkerHandleNumber where
  handle : Int
  line : Int
  number : Nat
  deriving DecidableEq, Repr

/-- The part of the styled-text control the editor core reads and drives. -/
structure wxStyledTextCtrl where
  -- `GetLineCount()`
  lineCount : Nat
  -- `GetCurrentPos()`
  currentPos : Int
  -- line of a position inside the document, for positions after offset 0
  lineOfPosition : Int → Int
  -- markers, one entry per handle
  markers : List MarkerHandleNumber
  -- last handle handed out by `MarkerAdd`
  handleCurrent : Int
  -- `GetLineVisible(line)`
  lineVisible : Int → Bool
  -- `GetFirstVisibleLine()` (a display line)
  firstVisibleLine : Int
  -- `DocLineFromVisible(displayLine)`
  docLineFromVisible : Int → Int
  -- `LinesOnScreen()`
  linesOnScreen : Int
  -- `GetModify()`
  modify : Bool
  -- `GetSelectionStart()` / `GetSelectionEnd()`
  selectionStart : Int
  selectionEnd : Int
  -- `BraceMatch(pos)` of the control, its structural matcher
  braceMatch : Int → Int
  -- `GetIndentationGuides()`
  indentationGuides : Int
  -- `GetIndent()`
  indent : Int
  -- `GetLineIndentation(line)`
  lineIndentation : Int → Int
  -- fold level of a line of the document, flags included
  foldLevel : Int → Nat
  -- `GetFoldExpanded(line)`
  foldExpanded : Int → Bool
  -- `GetLastChild(line, -1)`
  lastChild : Int → Int
  -- `GetFoldParent(line)`
  foldParent : Int → Int
  -- `PositionFromLine(line)`
  positionFromLine : Int → Int

/-- Modelled from the spec: `EditorViewState` (declared in a header that is not
part of the sources), the record {current line, selection bounds, first visible
line, line count} used as a change-detection key. -/
structure EditorViewState where
  current_line : Int
  selection_start : Int
  selection_end : Int
  first_visible_line : Int
  line_count : Int
  deriving DecidableEq, Repr

/-- Marker numbers and masks of the editor header (`sci_marker_types`,
`marker_mask_type`), which is not part of the sources: taken as a parameter. -/
structure MarkerConstants where
  smt_FIRST_BMK_TYPE : Nat
  smt_LAST_BMK_TYPE : Nat
  smt_find_bookmark : Nat
  smt_cond_bp_disabled : Nat
  smt_bp_cmdlist_disabled : Nat
  smt_bp_disabled : Nat
  smt_bp_ignored : Nat
  smt_cond_bp : Nat
  smt_bp_cmdlist : Nat
  smt_breakpoint : Nat
  mmt_standard_bookmarks : Nat
  mmt_find_bookmark : Nat
  mmt_all_bookmarks : Nat
  deriving DecidableEq, Repr

/-- The values the editor header gives these constants: bookmark kinds are the
markers 3..7, the last one being the find bookmark; every kind owns one bit and
the all-bookmarks mask is the union of the standard and the find bits. -/
def codeliteMarkers : MarkerConstants where
  smt_FIRST_BMK_TYPE := 3
  smt_LAST_BMK_TYPE := 7
  smt_find_bookmark := 7
  smt_cond_bp_disabled := 8
  smt_bp_cmdlist_disabled := 9
  smt_bp_disabled := 10
  smt_bp_ignored := 11
  smt_cond_bp := 12
  smt_bp_cmdlist := 13
  smt_breakpoint := 14
  mmt_standard_bookmarks := 0x78
  mmt_find_bookmark := 0x80
  mmt_all_bookmarks := 0xf8

/-- Breakpoint kinds (`BreakpointType`); the first five have a margin marker. -/
inductive BreakpointType where
  | BP_type_break
  | BP_type_cmdlistbreak
  | BP_type_condbreak
  | BP_type_ignoredbreak
  | BP_type_tempbreak
  | BP_type_watchpt
  deriving DecidableEq, Repr

/-- Entry of the table marrying a breakpoint type to its markers. -/
structure BPtoMarker where
  bp_type : BreakpointType
  marker : Nat
  marker_disabled : Nat
  deriving DecidableEq, Repr

/-- The answers of the command processor at the two `wxCHECK_RET` assertions of
`OnChange` (the processor is not part of the sources). -/
structure CommandsProcessorView where
  hasOpenCommand : Bool
  canAppend : Bool
  deriving DecidableEq, Repr

/-- A change notification of the control (`wxStyledTextEvent`). -/
structure wxStyledTextEvent where
  modificationType : Nat
  position : Int
  length : Int
  linesAdded : Int
  deriving DecidableEq, Repr

/-- The editor: the control it derives from and the members the modelled
functions use. -/
structure clEditor where
  ctrl : wxStyledTextCtrl
  m_modifiedLines : List (Int × LineStatus)
  m_clearModifiedLines : Bool
  m_trackChanges : Bool
  m_isVisible : Bool
  m_reloadingFile : Bool
  m_breakpointsInfo : List (Int × List clDebuggerBreakpoint)
  m_BPstoMarkers : List BPtoMarker
  m_editorState : EditorViewState
  -- `GetRemotePathOrLocal()`
  remotePathOrLocal : String
  -- `IsFindBookmarksActive()`
  findBookmarksActive : Bool
  -- `BookmarkManager::Get().GetActiveBookmarkType()`
  activeBookmarkType : Nat
  -- `GetOptions()->IsLineNumberHighlightCurrent()`
  lineNumberHighlightCurrent : Bool
  -- `GetOptions()->GetRelativeLineNumbers()`
  relativeLineNumbers : Bool
  -- `GetOptions()->GetDisplayLineNumbers()`
  displayLineNumbers : Bool
  m_hasBraceHighlight : Bool
  -- calls made to outside collaborators, oldest first
  log : List Call

/-! ## Primitives of the styled-text control -/

/-- The control's `LineFromPosition`: positions at or before the start of the
document are on line 0. -/
def LineFromPosition (c : wxStyledTextCtrl) (pos : Int) : Int :=
  if pos ≤ 0 then 0 else c.lineOfPosition pos

/-- The control's `GetCurrentLine`: the line of the caret. -/
def GetCurrentLine (c : wxStyledTextCtrl) : Int :=
  LineFromPosition c c.currentPos

/-- The control's `MarkerGet`: the union of the bits of the markers on a line. -/
def MarkerGet (c : wxStyledTextCtrl) (line : Int) : Nat :=
  (c.markers.filter (fun m => m.line == line)).foldl
    (fun bits m => bits ||| (1 <<< m.number)) 0

/-- The control's `MarkerAdd`: on a line of the document the marker gets the
next handle, which is returned; on any other line nothing is added and the
result is -1. -/
def MarkerAdd (c : wxStyledTextCtrl) (line : Int) (markerNumber : Nat) :
    wxStyledTextCtrl × Int :=
  if 0 ≤ line ∧ line < (c.lineCount : Int) then
    ({ c with
        markers := { handle := c.handleCurrent + 1, line := line, number := markerNumber }
          :: c.markers
        handleCurrent := c.handleCurrent + 1 },
     c.handleCurrent + 1)
  else (c, -1)

/-- The control's `MarkerLineFromHandle`: the line the marker with this handle
sits on, -1 when there is none. -/
def MarkerLineFromHandle (c : wxStyledTextCtrl) (handle : Int) : Int :=
  match c.markers.find? (fun m => m.handle == handle) with
  | some m => m.line
  | none => -1

/-- The control's `MarkerNext`: the first line at or after `lineStart` carrying
a marker of the mask, -1 when there is none. -/
def MarkerNext (c : wxStyledTextCtrl) (lineStart : Int) (mask : Nat) : Int :=
  match (List.range c.lineCount).find?
      (fun (l : Nat) => decide (lineStart ≤ (l : Int)) && (MarkerGet c (l : Int) &&& mask != 0)) with
  | some l => (l : Int)
  | none => -1

/-- The control's reaction to `k` lines being inserted before line `line`: the
lines from `line` on move down by `k` and take their markers, handles
included, with them. -/
def InsertLines (c : wxStyledTextCtrl) (line : Int) (k : Nat) : wxStyledTextCtrl :=
  { c with
      lineCount := c.lineCount + k
      markers := c.markers.map
        (fun m => if line ≤ m.line then { m with line := m.line + (k : Int) } else m) }

/-! ## Modification tracker -/

/-- Lookup in the modified-lines map: `m_modifiedLines.find(line)`. -/
def modifiedLinesFind : List (Int × LineStatus) → Int → Option LineStatus
  | [], _ => none
  | (k, v) :: rest, line => if k = line then some v else modifiedLinesFind rest line

/-- Assignment through the subscript: `m_modifiedLines[line] = status`
overwrites the entry of `line` or creates it. -/
def modifiedLinesAssign :
    List (Int × LineStatus) → Int → LineStatus → List (Int × LineStatus)
  | [], line, status => [(line, status)]
  | (k, v) :: rest, line, status =>
      if k = line then (k, status) :: rest
      else (k, v) :: modifiedLinesAssign rest line status

/-- The loop `for (int i = 0; i <= numlines; i++) m_modifiedLines[curline + i] =
LINE_MODIFIED;` of `OnChange`: its body runs for i = 0, ..., numlines, and not
at all when `numlines` is negative. -/
def markModifiedLines (m : List (Int × LineStatus)) (curline numlines : Int) :
    List (Int × LineStatus) :=
  (List.range (numlines + 1).toNat).foldl
    (fun acc (i : Nat) => modifiedLinesAssign acc (curline + (i : Int)) LineStatus.LINE_MODIFIED) m

/-- The loop of `OnSavePoint` over the map: every `LINE_MODIFIED` status
becomes `LINE_SAVED`. -/
def markSaved (m : List (Int × LineStatus)) : List (Int × LineStatus) :=
  m.map (fun p => (p.1, if p.2 = LineStatus.LINE_MODIFIED then LineStatus.LINE_SAVED else p.2))

/-- The editor's `ClearModifiedLines`. -/
def ClearModifiedLines (e : clEditor) : clEditor :=
  { e with m_clearModifiedLines := true }

/-! ## Breakpoints -/

/-- The editor's `UpdateBreakpoints`: every record stored under a handle that
still has a line gets that line plus one, the editor origin and the file of the
editor; every stored list is pushed to the breakpoint manager. -/
def UpdateBreakpoints (e : clEditor) : clEditor :=
  let file_path := e.remotePathOrLocal
  let info := e.m_breakpointsInfo.map (fun d =>
    let handle := d.1
    let line := MarkerLineFromHandle e.ctrl handle
    if line ≥ 0 then
      (handle, d.2.map (fun bp =>
        { bp with lineno := line + 1, origin := BreakpointOrigin.BO_Editor, file := file_path }))
    else d)
  { e with
      m_breakpointsInfo := info
      log := e.log ++ [Call.DeleteAllBreakpointsByFileName file_path]
        ++ info.flatMap (fun d => [Call.SetBreakpoints d.2, Call.BreakpointViewInitialize]) }

/-- The editor's `FillBPtoMarkerArray`. -/
def FillBPtoMarkerArray (K : MarkerConstants) : List BPtoMarker :=
  [ { bp_type := BreakpointType.BP_type_break,
      marker := K.smt_breakpoint, marker_disabled := K.smt_bp_disabled },
    { bp_type := BreakpointType.BP_type_cmdlistbreak,
      marker := K.smt_bp_cmdlist, marker_disabled := K.smt_bp_cmdlist_disabled },
    { bp_type := BreakpointType.BP_type_condbreak,
      marker := K.smt_cond_bp, marker_disabled := K.smt_cond_bp_disabled },
    { bp_type := BreakpointType.BP_type_ignoredbreak,
      marker := K.smt_bp_ignored, marker_disabled := K.smt_bp_ignored },
    { bp_type := BreakpointType.BP_type_tempbreak,
      marker := K.smt_breakpoint, marker_disabled := K.smt_bp_disabled } ]

/-- The editor's `GetMarkerForBreakpt`: the first entry of the table for the
type; the source dereferences the end iterator when there is none, which has no
defined result (`none`). -/
def GetMarkerForBreakpt (e : clEditor) (bp_type : BreakpointType) : Option BPtoMarker :=
  e.m_BPstoMarkers.find? (fun b => b.bp_type == bp_type)

/-- Insertion into the handle table: `m_breakpointsInfo.insert(std::make_pair(handle,
bps))` keeps an entry already stored under the handle. -/
def breakpointsInfoInsert (info : List (Int × List clDebuggerBreakpoint)) (handle : Int)
    (bps : List clDebuggerBreakpoint) : List (Int × List clDebuggerBreakpoint) :=
  if info.any (fun d => d.1 == handle) then info else info ++ [(handle, bps)]

/-- The editor's `SetBreakpointMarker`. -/
def SetBreakpointMarker (e : clEditor) (lineno : Int) (bptype : BreakpointType)
    (is_disabled : Bool) (bps : List clDebuggerBreakpoint) : Option clEditor :=
  match GetMarkerForBreakpt e bptype with
  | none => none
  | some bpm =>
    let markertype := if is_disabled then bpm.marker_disabled else bpm.marker
    let r := MarkerAdd e.ctrl (lineno - 1) markertype
    let markerHandle := r.2
    some { e with
      ctrl := r.1
      log := e.log ++ [Call.NotifyMarkerChanged (lineno - 1)]
      m_breakpointsInfo := breakpointsInfoInsert e.m_breakpointsInfo markerHandle bps }

/-! ## Change notification and save point -/

/-- Appends calls to the record of calls made to outside collaborators. -/
def logCalls (e : clEditor) (calls : List Call) : clEditor :=
  { e with log := e.log ++ calls }

/-- First block of `OnChange` under `isInsert || isDelete`, after its two
assertions have passed: outside a reload, an undo and a redo the text of the
change is appended to the open text command. -/
def OnChange_recordCommand (e : clEditor) (recording : Bool) (event : wxStyledTextEvent) :
    clEditor :=
  if recording then logCalls e [Call.AppendToTextCommand event.position] else e

/-- Second block of `OnChange`: the delta cache pops on an undo and otherwise
pushes the position and the signed length of the change. -/
def OnChange_cacheDeltas (e : clEditor) (isUndo isDelete : Bool) (event : wxStyledTextEvent) :
    clEditor :=
  if isUndo then logCalls e [Call.DeltasPop]
  else logCalls e
    [Call.DeltasPush event.position (event.length * (if isDelete then -1 else 1))]

/-- Third block of `OnChange`: when lines were added or removed the breakpoints
are synchronised, or, during a reload, the delta cache is cleared. -/
def OnChange_syncBreakpoints (e : clEditor) (numlines : Int) : clEditor :=
  if numlines ≠ 0 then
    if e.m_reloadingFile = false then UpdateBreakpoints e
    else logCalls e [Call.DeltasClear]
  else e

/-- Whether a call goes to the breakpoint manager or to the breakpoints pane:
the calls `UpdateBreakpoints` makes. -/
def isBreakpointsCall : Call → Bool
  | Call.DeleteAllBreakpointsByFileName _ => true
  | Call.SetBreakpoints _ => true
  | Call.BreakpointViewInitialize => true
  | _ => false

/-- Last block of `OnChange`: outside a reload the lines of the change are
recorded as modified. -/
def OnChange_trackLines (e : clEditor) (event : wxStyledTextEvent) (numlines : Int) :
    clEditor :=
  if !e.m_reloadingFile then
    let curline := LineFromPosition e.ctrl event.position
    if numlines = 0 then
      { e with m_modifiedLines :=
          modifiedLinesAssign e.m_modifiedLines curline LineStatus.LINE_MODIFIED }
    else
      { e with m_modifiedLines := markModifiedLines e.m_modifiedLines curline numlines }
  else e

/-- The editor's `OnChange`, from the test `isInsert || isDelete` on.  The
statements before it bump a counter and queue notifications; they neither
return nor touch the members modelled here.  `cmd` holds what the command
processor answers at the two `wxCHECK_RET` assertions, each of which returns
from the handler when it fails. -/
def OnChange (e : clEditor) (cmd : CommandsProcessorView) (event : wxStyledTextEvent) :
    clEditor :=
  let modification_flags := event.modificationType
  let isInsert := modification_flags &&& wxSTC_MOD_INSERTTEXT != 0
  let isDelete := modification_flags &&& wxSTC_MOD_DELETETEXT != 0
  let isUndo := modification_flags &&& wxSTC_PERFORMED_UNDO != 0
  let isRedo := modification_flags &&& wxSTC_PERFORMED_REDO != 0
  if isInsert || isDelete then
    let recording := !e.m_reloadingFile && !isUndo && !isRedo
    if recording && !cmd.hasOpenCommand then e
    else if recording && !cmd.canAppend then e
    else
      let numlines := event.linesAdded
      OnChange_trackLines
        (OnChange_syncBreakpoints
          (OnChange_cacheDeltas (OnChange_recordCommand e recording event) isUndo isDelete event)
          numlines)
        event numlines
  else e

/-! ## Margin renderer -/

/-- Modelled from the spec: `EditorViewState::From`, the snapshot of the
editor's current line, selection bounds, first visible line and line count
(defined in a header that is not part of the sources). -/
def EditorViewState.From (e : clEditor) : EditorViewState :=
  { current_line := GetCurrentLine e.ctrl
    selection_start := e.ctrl.selectionStart
    selection_end := e.ctrl.selectionEnd
    first_visible_line := e.ctrl.firstVisibleLine
    line_count := (e.ctrl.lineCount : Int) }

/-- Modelled from the spec: `GetNumberOfLines`, an accessor of the editor
interface that is not part of the sources; it reports the number of lines of
the document, so the lines of the document are 0, ..., GetNumberOfLines() - 1. -/
def GetNumberOfLines (e : clEditor) : Int :=
  (e.ctrl.lineCount : Int)

/-- The loop `while ((counter < linesOnScreen + 1) && curline <= lastLine)` of
`DoUpdateLineNumbers`, returning the lines pushed to `lines` in order.  Every
iteration advances `curline`, so `lastLine + 1 - curline` iterations are
enough; `fuel` is that bound. -/
def collectLines (c : wxStyledTextCtrl) (linesOnScreen lastLine : Int) :
    Nat → Int → Int → List Int
  | 0, _, _ => []
  | fuel + 1, counter, curline =>
    if counter < linesOnScreen + 1 ∧ curline ≤ lastLine then
      if c.lineVisible curline then
        curline :: collectLines c linesOnScreen lastLine fuel (counter + 1) (curline + 1)
      else collectLines c linesOnScreen lastLine fuel counter (curline + 1)
    else []

/-- The vector `lines` of `DoUpdateLineNumbers`: the lines it renders. -/
def renderedLines (e : clEditor) : List Int :=
  let linesOnScreen := e.ctrl.linesOnScreen
  let lastLine := GetNumberOfLines e
  let first_visible_line := e.ctrl.docLineFromVisible e.ctrl.firstVisibleLine
  collectLines e.ctrl linesOnScreen lastLine (lastLine + 1 - first_visible_line).toNat
    0 first_visible_line

/-- The number `DoUpdateLineNumbers` displays for a line. -/
def lineToRender (relative_numbers : Bool) (current_line line : Int) : Int :=
  if relative_numbers then
    if line < current_line then current_line - line
    else if line = current_line then line + 1
    else line - current_line
  else line + 1

/-- The vector `lines_to_draw` of `DoUpdateLineNumbers`. -/
def linesToDraw (relative_numbers : Bool) (current_line : Int) (lines : List Int) :
    List (Int × Int) :=
  lines.map (fun line => (line, lineToRender relative_numbers current_line line))

/-- The style `DoUpdateLineNumbers` gives the margin of a line. -/
def marginStyle (e : clEditor) (current_line line_number : Int) : Int :=
  let is_current_line := decide (line_number = current_line)
  if e.m_trackChanges then
    match modifiedLinesFind e.m_modifiedLines line_number with
    | some line_status =>
      if line_status = LineStatus.LINE_MODIFIED then
        (if is_current_line then STYLE_CURRENT_LINE_MODIFIED else STYLE_MODIFIED_LINE)
      else if line_status = LineStatus.LINE_SAVED then
        (if is_current_line then STYLE_CURRENT_LINE_SAVED else STYLE_SAVED_LINE)
      else (if is_current_line then STYLE_CURRENT_LINE else STYLE_NORMAL_LINE)
    | none => (if is_current_line then STYLE_CURRENT_LINE else STYLE_NORMAL_LINE)
  else (if is_current_line then STYLE_CURRENT_LINE else STYLE_NORMAL_LINE)

/-- The text `Printf("%d", n)` produces. -/
def formatLineNumber (n : Int) : String :=
  toString n

/-- The editor's `DoUpdateLineNumbers`: the calls `MarginSetText` and
`MarginSetStyle` it makes, in order (none when the view state is unchanged or
the current-line highlight is off, unless forced). -/
def DoUpdateLineNumbers (e : clEditor) (relative_numbers force : Bool) : List Call :=
  let state := EditorViewState.From e
  if state = e.m_editorState ∧ force = false then []
  else if e.lineNumberHighlightCurrent = false ∧ force = false then []
  else
    let current_line := GetCurrentLine e.ctrl
    let lines := renderedLines e
    let lines_to_draw := linesToDraw relative_numbers current_line lines
    lines_to_draw.flatMap (fun d =>
      [Call.MarginSetText d.1 (formatLineNumber d.2),
       Call.MarginSetStyle d.1 (marginStyle e current_line d.1)])

/-- The editor's `OnSavePoint`. -/
def OnSavePoint (e : clEditor) : clEditor :=
  if !e.m_isVisible then e
  else
    let e1 := { e with m_modifiedLines := markSaved e.m_modifiedLines }
    let e2 := if !e1.ctrl.modify && e1.m_trackChanges then
        let e1c := if e1.m_clearModifiedLines then
            { e1 with m_modifiedLines := [], m_clearModifiedLines := false }
          else e1
        { e1c with log := e1c.log ++ DoUpdateLineNumbers e1c e1c.relativeLineNumbers false }
      else e1
    { e2 with log := e2.log ++ [Call.SetPageTitle e2.ctrl.modify, Call.DoUpdateTLWTitle] }

/-! ## Bookmarks -/

/-- The editor's `GetActiveBookmarkType`. -/
def GetActiveBookmarkType (K : MarkerConstants) (e : clEditor) : Nat :=
  if e.findBookmarksActive then K.smt_find_bookmark else e.activeBookmarkType

/-- The editor's `GetActiveBookmarkMask`. -/
def GetActiveBookmarkMask (K : MarkerConstants) (e : clEditor) : Nat :=
  if e.findBookmarksActive then K.mmt_find_bookmark else 1 <<< e.activeBookmarkType

/-- The editor's `AddMarker`. -/
def AddMarker (K : MarkerConstants) (e : clEditor) : clEditor :=
  let nPos := e.ctrl.currentPos
  let nLine := LineFromPosition e.ctrl nPos
  let nBits := MarkerGet e.ctrl nLine
  if nBits &&& K.mmt_standard_bookmarks != 0 then e
  else
    { e with
        ctrl := (MarkerAdd e.ctrl nLine (GetActiveBookmarkType K e)).1
        log := e.log ++ [Call.NotifyMarkerChanged nLine] }

/-- The line `FindNextMarker` ends up with in `nFoundLine`. -/
def FindNextMarkerLine (K : MarkerConstants) (e : clEditor) : Int :=
  let nPos := e.ctrl.currentPos
  let nLine := LineFromPosition e.ctrl nPos
  let nFoundLine := MarkerNext e.ctrl (nLine + 1) (GetActiveBookmarkMask K e)
  if nFoundLine ≥ 0 then nFoundLine
  else
    let nLine := LineFromPosition e.ctrl 0
    MarkerNext e.ctrl nLine (GetActiveBookmarkMask K e)

/-- The editor's `FindNextMarker`: the found line is centred and made visible;
nothing happens when no line is found. -/
def FindNextMarker (K : MarkerConstants) (e : clEditor) : clEditor :=
  let nFoundLine := FindNextMarkerLine K e
  if nFoundLine ≥ 0 then
    { e with log := e.log ++
        [Call.CenterLine nFoundLine, Call.EnsureVisible nFoundLine, Call.EnsureCaretVisible] }
  else e

/-! ## Breakpoints: toggling -/

/-- What the collaborators of the breakpoint functions answer: whether a plugin
handles the toggle event, whether the breakpoint manager has no breakpoint at a
file and line, and the results of its add and delete requests. -/
structure BreakpointsManagerView where
  toggleEventHandled : Bool
  breakpointIsNull : String → Int → Bool
  addBreakpointByLineno : Bool
  delBreakpointByLineno : Int

def wxID_CANCEL : Int := 5101

/-- The editor's `AddBreakpoint`; called with the line alone, its other
arguments take the defaults `""`, `false` and `false`. -/
def AddBreakpoint (e : clEditor) (mgr : BreakpointsManagerView) (lineno : Int)
    (conditions : String) (is_temp is_disabled : Bool) : clEditor :=
  let lineno := if lineno = -1 then GetCurrentLine e.ctrl + 1 else lineno
  let file_path := e.remotePathOrLocal
  let e1 := logCalls e [Call.SetExpectingControl true,
    Call.AddBreakpointByLineno file_path lineno conditions is_temp is_disabled]
  if !mgr.addBreakpointByLineno then
    logCalls e1 [Call.MessageBox "Failed to insert breakpoint"]
  else
    let message := "Breakpoint successfully added"
    let kind :=
      if is_temp then "Temporary "
      else if is_disabled then "Disabled "
      else if !conditions.isEmpty then "Conditional "
      else ""
    logCalls e1 [Call.BreakpointViewInitialize, Call.StatusBarMessage (kind ++ message)]

/-- The editor's `DelBreakpoint`. -/
def DelBreakpoint (e : clEditor) (mgr : BreakpointsManagerView) (lineno : Int) : clEditor :=
  let lineno := if lineno = -1 then GetCurrentLine e.ctrl + 1 else lineno
  let file_path := e.remotePathOrLocal
  let e1 := logCalls e [Call.SetExpectingControl true,
    Call.DelBreakpointByLineno file_path lineno]
  let result := mgr.delBreakpointByLineno
  if result = 1 then
    logCalls e1 [Call.BreakpointViewInitialize,
      Call.StatusBarMessage "Breakpoint successfully deleted"]
  else if result = wxID_CANCEL then e1
  else if result = 0 then logCalls e1 [Call.MessageBox "No breakpoint found on this line"]
  else logCalls e1 [Call.MessageBox "Breakpoint deletion failed"]

/-- The editor's `ToggleBreakpoint`.  The debugger name put on the event before
it is offered to the plugins is read from the workspace or the quick-debug
settings and has no part in what follows. -/
def ToggleBreakpoint (e : clEditor) (mgr : BreakpointsManagerView) (lineno : Int) : clEditor :=
  let lineno := if lineno = -1 then GetCurrentLine e.ctrl + 1 else lineno
  let file_path := e.remotePathOrLocal
  let e1 := logCalls e [Call.ProcessToggleBreakpointEvent file_path lineno]
  if mgr.toggleEventHandled then e1
  else
    let e2 := logCalls e1 [Call.GetBreakpoint file_path lineno]
    if mgr.breakpointIsNull file_path lineno then AddBreakpoint e2 mgr lineno "" false false
    else DelBreakpoint e2 mgr lineno

/-! ## Brace matching -/

def wxSTC_INVALID_POSITION : Int := -1

/-- The editor's `BraceMatch(long pos)`: the control's structural matcher
decides; the division is the truncating division of C++. -/
def BraceMatch (e : clEditor) (pos : Int) : clEditor :=
  let e := { e with m_hasBraceHighlight := true }
  let indentCol : Int := 0
  let endPos := e.ctrl.braceMatch pos
  if endPos ≠ wxSTC_INVALID_POSITION then
    let e1 := logCalls e [Call.BraceHighlight pos endPos]
    if e1.ctrl.indentationGuides ≠ 0 ∧ e1.ctrl.indent > 0 then
      let indentCol := min (e1.ctrl.lineIndentation (LineFromPosition e1.ctrl pos))
        (e1.ctrl.lineIndentation (LineFromPosition e1.ctrl endPos))
      let indentCol := Int.tdiv indentCol e1.ctrl.indent
      let indentCol := indentCol * e1.ctrl.indent
      let e2 := logCalls e1
        [Call.SetHighlightGuide (e1.ctrl.lineIndentation (LineFromPosition e1.ctrl pos))]
      logCalls e2 [Call.SetHighlightGuide indentCol]
    else logCalls e1 [Call.SetHighlightGuide indentCol]
  else
    let e1 := logCalls e [Call.BraceBadLight pos]
    logCalls e1 [Call.SetHighlightGuide indentCol]

/-! ## User-interface update tick -/

/-- The editor's `UpdateLineNumbers`: the margin is drawn by the editor only
when line numbers are displayed with the current line highlighted. -/
def UpdateLineNumbers (e : clEditor) (force : Bool) : List Call :=
  if !e.displayLineNumbers || !e.lineNumberHighlightCurrent then []
  else DoUpdateLineNumbers e e.relativeLineNumbers force

/-- The editor's `OnSciUpdateUI`: the line numbers are updated, the navigation
bar is told of a change of line, and the view state is recorded.  The caret of
the main selection is the caret of the control.  The statements left out (the
pending completion trigger, the clearing of the match indicator, the status bar
text, brace matching and the notification of the context) neither return from
the handler nor write the view state, the caret or the navigation bar. -/
def OnSciUpdateUI (e : clEditor) : clEditor :=
  let lastLine := e.m_editorState.current_line
  let e1 := logCalls e (UpdateLineNumbers e false)
  let mainSelectionPos := e1.ctrl.currentPos
  let curLine := LineFromPosition e1.ctrl mainSelectionPos
  let e2 := if curLine ≠ lastLine then logCalls e1 [Call.UpdateNavBar curLine] else e1
  { e2 with m_editorState := EditorViewState.From e2 }

/-- A run of ticks: before each tick the control has moved on to the next of
the given states (the caret was moved, the text edited, the view scrolled),
and then `OnSciUpdateUI` runs. -/
def updateTicks (e : clEditor) : List wxStyledTextCtrl → clEditor
  | [] => e
  | c :: rest => updateTicks (OnSciUpdateUI { e with ctrl := c }) rest

/-- Recognises the navigation-bar notification among the calls. -/
def isUpdateNavBar : Call → Bool
  | Call.UpdateNavBar _ => true
  | _ => false

/-- The number of ticks on which the line differs from the line of the tick
before, `previous` being the line before the first tick. -/
def lineChanges : Int → List Int → Nat
  | _, [] => 0
  | previous, line :: rest => (if line ≠ previous then 1 else 0) + lineChanges line rest

/-! ## Language-server detector (`LanguageServer/detectors/LSPClangdDetector.cpp`) -/

/-- The members of the detector base class that the clangd detector writes (the
base class is declared in a header that is not part of the sources). -/
structure LSPDetector where
  m_name : String
  m_command : String
  m_languages : List String
  m_connectionString : String
  deriving DecidableEq, Repr

/-- The collaborators of the detector, none of them part of the sources: the
platform's search for an executable by name and version list, the quoting of a
path, and the number of completion items read from the code-completion
configuration. -/
structure DetectorPlatform where
  WhichWithVersion : String → List Nat → Option String
  WrapWithQuotes : String → String
  ccNumberOfDisplayItems : Nat

/-- The detector's `ConfigureFile`. -/
def LSPClangdDetector.ConfigureFile (P : DetectorPlatform) (d : LSPDetector)
    (clangdExe : String) : LSPDetector :=
  let command := P.WrapWithQuotes clangdExe
  let limit_results := P.ccNumberOfDisplayItems
  let command := command ++ " --limit-results=" ++ toString limit_results
    ++ " --header-insertion-decorators=0 --compile-commands-dir=$(WorkspacePath) --background-index"
  { d with
      m_command := command
      m_languages := d.m_languages ++ ["c"] ++ ["cpp"]
      m_connectionString := "stdio" }

/-- The detector's `DoLocate`: its result and the detector afterwards. -/
def LSPClangdDetector.DoLocate (P : DetectorPlatform) (d : LSPDetector) : Bool × LSPDetector :=
  match P.WhichWithVersion "clangd" [16, 17, 18, 19, 20, 21, 22, 23, 24, 25] with
  | none => (false, d)
  | some path => (true, LSPClangdDetector.ConfigureFile P d path)

/-! ## Folds -/

def wxSTC_FOLDLEVELBASE : Nat := 0x400
def wxSTC_FOLDLEVELHEADERFLAG : Nat := 0x2000
def wxSTC_FOLDLEVELNUMBERMASK : Nat := 0x0FFF
def FOLD_MARGIN_ID : Int := 0

/-- The control's `GetFoldLevel`: a line outside the document has the base
level and no flag. -/
def GetFoldLevel (c : wxStyledTextCtrl) (line : Int) : Nat :=
  if 0 ≤ line ∧ line < (c.lineCount : Int) then c.foldLevel line else wxSTC_FOLDLEVELBASE

/-- The test `GetFoldLevel(line) & wxSTC_FOLDLEVELHEADERFLAG`. -/
def isFoldHeader (c : wxStyledTextCtrl) (line : Int) : Bool :=
  GetFoldLevel c line &&& wxSTC_FOLDLEVELHEADERFLAG != 0

/-- The editor's `DoSetCaretAt`, which `SetCaretAt` stands for: the caret and
both ends of the selection go to the position and its line is made visible. -/
def SetCaretAt (e : clEditor) (pos : Int) : clEditor :=
  let c := { e.ctrl with currentPos := pos, selectionStart := pos, selectionEnd := pos }
  let line := LineFromPosition c pos
  { e with
      ctrl := c
      log := e.log ++ (if line ≥ 0 then [Call.SetCaretAt pos, Call.EnsureVisible line]
        else [Call.SetCaretAt pos]) }

/-- The editor's `DoToggleFold`: the control toggles the fold of the line;
`toggle` is what the control's `ToggleFoldShowText` does to its state. -/
def DoToggleFold (toggle : wxStyledTextCtrl → Int → wxStyledTextCtrl) (e : clEditor)
    (line : Int) : clEditor :=
  { e with ctrl := toggle e.ctrl line, log := e.log ++ [Call.ToggleFoldShowText line] }

/-- The search of the loops `while (line >= 0) { if (header && visible) { ...;
break; } line--; }`: the first line, going up from `line`, that is a visible
fold header. -/
def visibleHeaderAtOrAbove (c : wxStyledTextCtrl) : Nat → Option Nat
  | 0 => if isFoldHeader c 0 ∧ c.lineVisible 0 = true then some 0 else none
  | line + 1 =>
    if isFoldHeader c ((line + 1 : Nat) : Int) ∧ c.lineVisible ((line + 1 : Nat) : Int) = true
    then some (line + 1)
    else visibleHeaderAtOrAbove c line

/-- The loop that repairs the caret after a fold, shared by `ToggleCurrentFold`,
`FoldAll` and `OnMarginClick`: the caret goes to the start of the first visible
fold header found going up from `line`, and stays where it is when there is
none. -/
def moveCaretToVisibleHeader (e : clEditor) (line : Int) : clEditor :=
  if line ≥ 0 then
    match visibleHeaderAtOrAbove e.ctrl line.toNat with
    | some header => SetCaretAt e (e.ctrl.positionFromLine (header : Int))
    | none => e
  else e

/-- The editor's `ToggleCurrentFold`. -/
def ToggleCurrentFold (toggle : wxStyledTextCtrl → Int → wxStyledTextCtrl) (e : clEditor) :
    clEditor :=
  let line := GetCurrentLine e.ctrl
  if line ≥ 0 then
    let e1 := DoToggleFold toggle e line
    if e1.ctrl.lineVisible line = false then moveCaretToVisibleHeader e1 line else e1
  else e

/-- The block of `FoldAll`, `OnMarginClick` after the toggling: when the line of
the caret is hidden the caret is repaired. -/
def repairCaret (e : clEditor) : clEditor :=
  let curpos := e.ctrl.currentPos
  if curpos ≠ wxNOT_FOUND then
    let curline := LineFromPosition e.ctrl curpos
    if curline ≠ wxNOT_FOUND ∧ e.ctrl.lineVisible curline = false then
      moveCaretToVisibleHeader e curline
    else e
  else e

/-- The editor's `OnMarginClick` for a click in the fold margin at a position:
the fold of the clicked line is toggled, the caret repaired and the view
scrolled back when the fold head is above the screen. -/
def OnMarginClick_FOLD_MARGIN (toggle : wxStyledTextCtrl → Int → wxStyledTextCtrl)
    (e : clEditor) (position : Int) : clEditor :=
  let nLine := LineFromPosition e.ctrl position
  let e1 := repairCaret (DoToggleFold toggle e nLine)
  let foldparent := e1.ctrl.foldParent nLine
  let firstvisibleline := e1.ctrl.firstVisibleLine
  if !isFoldHeader e1.ctrl nLine ∧ foldparent < firstvisibleline then
    let linestoscroll := foldparent - e1.ctrl.lastChild foldparent
    if firstvisibleline + linestoscroll ≥ 0 then logCalls e1 [Call.LineScroll 0 linestoscroll]
    else e1
  else e1

/-- The first loop of `FoldAll`: the fold point of a line is the line itself
when it is a fold header, else its fold parent, else the fold point of the line
above; there is none when the top of the document is passed. -/
def FoldAll_seek (c : wxStyledTextCtrl) : Nat → Option Int
  | 0 =>
    if isFoldHeader c 0 then some 0
    else if c.foldParent 0 ≥ 0 then some (c.foldParent 0)
    else none
  | lineSeek + 1 =>
    if isFoldHeader c ((lineSeek + 1 : Nat) : Int) then some ((lineSeek + 1 : Nat) : Int)
    else if c.foldParent ((lineSeek + 1 : Nat) : Int) ≥ 0 then
      some (c.foldParent ((lineSeek + 1 : Nat) : Int))
    else FoldAll_seek c lineSeek

/-- The loops `while (!(GetFoldLevel(line) & wxSTC_FOLDLEVELHEADERFLAG)) { if
(++line >= maxLine) ...; }` of `FoldAll`: the line they stop at, or none when
`maxLine` is reached.  Every iteration advances the line, so
`maxLine - line + 1` iterations are enough; `fuel` is that bound. -/
def FoldAll_nextHeader (c : wxStyledTextCtrl) (maxLine : Int) : Nat → Int → Option Int
  | 0, _ => none
  | fuel + 1, line =>
    if isFoldHeader c line then some line
    else if line + 1 ≥ maxLine then none
    else FoldAll_nextHeader c maxLine fuel (line + 1)

/-- The test of the last loop of `FoldAll` on the level of a line. -/
def FoldAll_levelMatches (level : Nat) (expanded SkipTopFold : Bool) : Bool :=
  (level &&& wxSTC_FOLDLEVELHEADERFLAG != 0) &&
    (if expanded then
      (level &&& wxSTC_FOLDLEVELNUMBERMASK) == wxSTC_FOLDLEVELBASE + (if SkipTopFold then 1 else 0)
     else decide ((level &&& wxSTC_FOLDLEVELNUMBERMASK) ≥ wxSTC_FOLDLEVELBASE))

/-- The body of the last loop of `FoldAll`. -/
def FoldAll_toggleLine (toggle : wxStyledTextCtrl → Int → wxStyledTextCtrl)
    (expanded SkipTopFold : Bool) (e : clEditor) (line : Nat) : clEditor :=
  let level := GetFoldLevel e.ctrl (line : Int)
  if FoldAll_levelMatches level expanded SkipTopFold then
    if e.ctrl.foldExpanded (line : Int) = expanded then DoToggleFold toggle e (line : Int) else e
  else e

/-- The part of `FoldAll` before the caret is repaired: the editor after the
folds have been toggled, or none where `FoldAll` returns before that. -/
def FoldAll_toggled (toggle : wxStyledTextCtrl → Int → wxStyledTextCtrl) (e : clEditor) :
    Option clEditor :=
  let lineSeek := GetCurrentLine e.ctrl
  let found :=
    if lineSeek ≥ 0 then FoldAll_seek e.ctrl lineSeek.toNat
    else if isFoldHeader e.ctrl lineSeek then some lineSeek
    else if e.ctrl.foldParent lineSeek ≥ 0 then some (e.ctrl.foldParent lineSeek)
    else none
  match found with
  | none => none
  | some lineSeek =>
    let expanded := e.ctrl.foldExpanded lineSeek
    let maxLine : Int := (e.ctrl.lineCount : Int)
    let top : Option Bool :=
      if expanded then
        match FoldAll_nextHeader e.ctrl maxLine (maxLine.toNat + 1) 0 with
        | none => none
        | some topline =>
          let BottomOfFold := e.ctrl.lastChild topline
          if BottomOfFold ≥ maxLine ∨ BottomOfFold = -1 then none
          else
            some (FoldAll_nextHeader e.ctrl maxLine ((maxLine - (BottomOfFold + 1)).toNat + 1)
              (BottomOfFold + 1)).isNone
      else some false
    match top with
    | none => none
    | some SkipTopFold =>
      some ((List.range e.ctrl.lineCount).foldl
        (FoldAll_toggleLine toggle expanded SkipTopFold) e)

/-- The editor's `FoldAll`. -/
def FoldAll (toggle : wxStyledTextCtrl → Int → wxStyledTextCtrl) (e : clEditor) : clEditor :=
  match FoldAll_toggled toggle e with
  | none => e
  | some e1 => repairCaret e1

/-- The lines whose fold was toggled, read off the calls in order. -/
def toggledLines (log : List Call) : List Int :=
  log.filterMap (fun call =>
    match call with
    | Call.ToggleFoldShowText line => some line
    | _ => none)

/-- Whether the line of the caret is visible. -/
def caretLineVisible (e : clEditor) : Bool :=
  e.ctrl.lineVisible (GetCurrentLine e.ctrl)

/-- The line `header` is the nearest line at or above `line` that is a visible
fold header. -/
def nearestVisibleHeader (c : wxStyledTextCtrl) (line : Int) (header : Nat) : Prop :=
  (header : Int) ≤ line ∧ isFoldHeader c (header : Int) = true ∧
  c.lineVisible (header : Int) = true ∧
  ∀ j : Nat, header < j → (j : Int) ≤ line →
    ¬ (isFoldHeader c (j : Int) = true ∧ c.lineVisible (j : Int) = true)

/-- The expanded fold headers of the document whose level number is `level`, in
order. -/
def expandedHeadersAtLevel (c : wxStyledTextCtrl) (level : Nat) : List Int :=
  ((List.range c.lineCount).filter (fun (l : Nat) =>
      isFoldHeader c (l : Int) &&
      ((GetFoldLevel c (l : Int) &&& wxSTC_FOLDLEVELNUMBERMASK) == level) &&
      c.foldExpanded (l : Int))).map (fun (l : Nat) => (l : Int))

/-! ## The editor seen through its text -/

/-- Calls the text functions of the editor make to the control, the context
and the user interface, recorded in program order. -/
inductive TextCall where
  | BeginUndoAction
  | EndUndoAction
  | InsertText (pos : Int) (text : List Char)
  | SetSelection (anchor caret : Int)
  | ReplaceSelection (text : List Char)
  | ReplaceTarget (targetStart targetEnd : Int) (text : List Char)
  | CharRight
  | SetCaretAt (pos : Int)
  | AutoIndent (ch : Char)
  | EnsureVisible (line : Int)
  | MessageBox (message : String)
  | SetSavePoint
  | Undo
  | ClearSelections
  | AddSelection (caret anchor : Int)
  deriving DecidableEq, Repr

/-- The text of the document and what the text functions of the editor read
besides it.  A position of the control is an index into `text`, one cell for
every byte of the document: for the documents of single-byte characters that
the embedding covers but for `GetEOLByContent`, a cell is a character, and the
position before a position `p > 0` is `p - 1`. -/
structure TextEditor where
  text : List Char
  -- `GetCurrentPos()`
  currentPos : Int
  -- `GetSelectionStart()` / `GetSelectionEnd()`
  selectionStart : Int
  selectionEnd : Int
  -- `m_context->IsCommentOrString(pos)`
  IsCommentOrString : Int → Bool
  -- `m_context->IsDefaultContext()`
  IsDefaultContext : Bool
  -- `GetEolString()`
  eolString : List Char
  -- nesting of `BeginUndoAction` / `EndUndoAction`
  undoDepth : Nat
  -- undo steps, latest first: the text each step goes back to and the caret
  -- the control leaves when it takes the step back
  undoStack : List (List Char × Int)
  m_modifiedLines : List (Int × LineStatus)
  m_lastCharEntered : Char
  m_lastCharEnteredPos : Int
  m_autoAddMatchedCurlyBrace : Bool
  m_disableSmartIndent : Bool
  -- `GetOptions()->GetTrimLine()`, `GetAppendLF()`, `GetTrimOnlyModifiedLines()`,
  -- `GetDontTrimCaretLine()`
  trimLine : Bool
  appendLF : Bool
  trimOnlyModifiedLines : Bool
  dontTrimCaretLine : Bool
  -- calls made to the control and to outside collaborators, oldest first
  calls : List TextCall
  -- `m_prevSelectionInfo`: the selections `OnKeyDown` recorded, start and end each
  m_prevSelectionInfo : List (Int × Int) := []
  -- the selections of the control, start and end each, as `SetSelection`,
  -- `AddSelection` and `ClearSelections` left them
  selections : List (Int × Int) := []
  -- whether the open group of changes holds no change yet
  undoGroupFresh : Bool := false

/-- The control's `GetCharAt`: the character at a position, NUL outside the
document. -/
def GetCharAt (t : TextEditor) (pos : Int) : Char :=
  if 0 ≤ pos ∧ pos < (t.text.length : Int) then t.text.getD pos.toNat (Char.ofNat 0)
  else Char.ofNat 0

/-- The `switch` of `MatchBraceBack`: the opening brace of a closing brace. -/
def openBraceOf (chCloseBrace : Char) : Option Char :=
  if chCloseBrace = '}' then some '{'
  else if chCloseBrace = ')' then some '('
  else if chCloseBrace = ']' then some '['
  else if chCloseBrace = '>' then some '<'
  else none

/-- The loop of `MatchBraceBack`, by recursion on `nPrevPos`: the loop ends at
position 0, and otherwise steps to the position before and looks at it. -/
def MatchBraceBack_scan (t : TextEditor) (chOpenBrace chCloseBrace : Char) :
    Nat → Int → Option Int
  | 0, _ => none
  | nPrevPos + 1, depth =>
    if t.IsCommentOrString (nPrevPos : Int) then
      MatchBraceBack_scan t chOpenBrace chCloseBrace nPrevPos depth
    else
      let ch := GetCharAt t (nPrevPos : Int)
      if ch = chOpenBrace then
        if depth - 1 = 0 then some (nPrevPos : Int)
        else MatchBraceBack_scan t chOpenBrace chCloseBrace nPrevPos (depth - 1)
      else if ch = chCloseBrace then
        MatchBraceBack_scan t chOpenBrace chCloseBrace nPrevPos (depth + 1)
      else MatchBraceBack_scan t chOpenBrace chCloseBrace nPrevPos depth

/-- The editor's `MatchBraceBack`: `some matchedPos` when it returns true, none
when it returns false. -/
def MatchBraceBack (t : TextEditor) (chCloseBrace : Char) (pos : Int) : Option Int :=
  if pos ≤ 0 then none
  else
    match openBraceOf chCloseBrace with
    | none => none
    | some chOpenBrace => MatchBraceBack_scan t chOpenBrace chCloseBrace pos.toNat 1

/-- The character at a position as far as brace matching goes: none inside a
comment or a string. -/
def codeCharAt (t : TextEditor) (pos : Nat) : Option Char :=
  if t.IsCommentOrString (pos : Int) then none else some (GetCharAt t (pos : Int))

/-- Balance of a stretch of text for one kind of brace, read forwards with
`open` braces waiting for their partner: an opening brace adds one, a closing
brace needs one waiting, and none may be left at the end. -/
def braceBalanced (chOpenBrace chCloseBrace : Char) : List (Option Char) → Nat → Bool
  | [], waiting => waiting == 0
  | x :: rest, waiting =>
    if x = some chOpenBrace then braceBalanced chOpenBrace chCloseBrace rest (waiting + 1)
    else if x = some chCloseBrace then
      (match waiting with
       | 0 => false
       | w + 1 => braceBalanced chOpenBrace chCloseBrace rest w)
    else braceBalanced chOpenBrace chCloseBrace rest waiting

/-- The opening partner of a closing brace standing at position `pos`: the
position `q` before `pos` that holds the opening brace, outside comments and
strings, with a balanced stretch of text between the two. -/
def isOpeningPartner (t : TextEditor) (chOpenBrace chCloseBrace : Char) (q pos : Nat) : Prop :=
  q < pos ∧ codeCharAt t q = some chOpenBrace ∧
  braceBalanced chOpenBrace chCloseBrace
    ((List.range' (q + 1) (pos - q - 1)).map (codeCharAt t)) 0 = true

/-- The braces of a stretch of text counted with sign: an opening brace counts
1, a closing brace -1. -/
def braceExcess (chOpenBrace chCloseBrace : Char) : List (Option Char) → Int
  | [] => 0
  | x :: rest =>
    (if x = some chOpenBrace then 1 else if x = some chCloseBrace then -1 else 0)
      + braceExcess chOpenBrace chCloseBrace rest

/-! ## Text primitives of the control

A line ends with a line feed, with a carriage return, or with a carriage
return and a line feed, which together are one line end. -/

/-- Whether a character completes a line end, given the text behind it: a line
feed does, and so does a carriage return that no line feed follows. -/
def completesLineEnd (ch : Char) (rest : List Char) : Bool :=
  ch = '\n' || (ch = '\r' && rest.head? != some '\n')

/-- The start of line `line` in a text, the length of the text when the text
has no such line. -/
def lineStart : List Char → Nat → Nat
  | _, 0 => 0
  | [], _ + 1 => 0
  | ch :: rest, line + 1 =>
    1 + (if completesLineEnd ch rest then lineStart rest line else lineStart rest (line + 1))

/-- The end of line `line` in a text, before its line end. -/
def lineEnd : List Char → Nat → Nat
  | [], _ => 0
  | ch :: rest, 0 => if ch = '\n' ∨ ch = '\r' then 0 else 1 + lineEnd rest 0
  | ch :: rest, line + 1 =>
    1 + (if completesLineEnd ch rest then lineEnd rest line else lineEnd rest (line + 1))

/-- The number of line ends of a text. -/
def countLineEnds : List Char → Nat
  | [] => 0
  | ch :: rest => (if completesLineEnd ch rest then 1 else 0) + countLineEnds rest

/-- The number of line ends of a text that are complete before a position. -/
def lineEndsBefore : List Char → Nat → Nat
  | _, 0 => 0
  | [], _ + 1 => 0
  | ch :: rest, pos + 1 => (if completesLineEnd ch rest then 1 else 0) + lineEndsBefore rest pos

/-- The control's `GetLength`. -/
def GetLength (t : TextEditor) : Int :=
  (t.text.length : Int)

/-- The control's `GetLineCount`: one more than the number of line ends. -/
def GetLineCount (t : TextEditor) : Int :=
  ((countLineEnds t.text + 1 : Nat) : Int)

/-- The control's `LineFromPosition`: the number of line ends that are complete
before the position. -/
def TextEditor.LineFromPosition (t : TextEditor) (pos : Int) : Int :=
  if pos ≤ 0 then 0 else ((lineEndsBefore t.text pos.toNat : Nat) : Int)

/-- The editor's `GetCurrentLine`. -/
def TextEditor.GetCurrentLine (t : TextEditor) : Int :=
  t.LineFromPosition t.currentPos

/-- The control's `PositionFromLine`: a negative line stands for the line of
the selection start, the line after the last one starts at the end of the
document, and a line beyond that has position -1. -/
def TextEditor.PositionFromLine (t : TextEditor) (line : Int) : Int :=
  let line := if line < 0 then t.LineFromPosition t.selectionStart else line
  if line > GetLineCount t then -1 else ((lineStart t.text line.toNat : Nat) : Int)

/-- The control's `GetLineEndPosition`. -/
def GetLineEndPosition (t : TextEditor) (line : Int) : Int :=
  ((lineEnd t.text line.toNat : Nat) : Int)

/-- The control's `LineLength`: the length of a line with its line end, 0 for
a line outside the document. -/
def LineLength (t : TextEditor) (line : Int) : Int :=
  if line < 0 ∨ line ≥ GetLineCount t then 0
  else ((lineStart t.text (line.toNat + 1) : Nat) : Int) - ((lineStart t.text line.toNat : Nat) : Int)

/-- The editor's `LineEnd`. -/
def LineEnd (t : TextEditor) (line : Int) : Int :=
  let pos := t.PositionFromLine line
  pos + LineLength t line

/-- The control's `GetTextRange`. -/
def GetTextRange (t : TextEditor) (startPos endPos : Int) : List Char :=
  (t.text.drop startPos.toNat).take (endPos - startPos).toNat

/-- A change of the text is recorded in the undo history.  `undoCaret` is where
the control leaves the caret when it takes the change back: the position of
the change, and for a removal the position behind the text put back.  Outside
a group the change is an undo step of its own; in a group it belongs to the
step of the group, and the first change of the group settles the caret of that
step, the control taking the changes of a step back from the last to the
first. -/
def recordUndoStep (t : TextEditor) (undoCaret : Int) : TextEditor :=
  if t.undoDepth = 0 then { t with undoStack := (t.text, undoCaret) :: t.undoStack }
  else if t.undoGroupFresh then
    match t.undoStack with
    | (text, _) :: rest =>
      { t with undoStack := (text, undoCaret) :: rest, undoGroupFresh := false }
    | [] => { t with undoGroupFresh := false }
  else t

/-- The control's `BeginUndoAction`: the outermost call starts an undo step,
which holds no change yet. -/
def BeginUndoAction (t : TextEditor) : TextEditor :=
  let t1 :=
    if t.undoDepth = 0 then
      { t with undoStack := (t.text, t.currentPos) :: t.undoStack, undoGroupFresh := true }
    else t
  { t1 with undoDepth := t1.undoDepth + 1, calls := t1.calls ++ [TextCall.BeginUndoAction] }

/-- The control's `EndUndoAction`: the outermost call closes the group; a group
closed without a change leaves no undo step. -/
def EndUndoAction (t : TextEditor) : TextEditor :=
  let t1 :=
    if t.undoDepth = 1 ∧ t.undoGroupFresh = true then
      { t with undoStack := t.undoStack.tail, undoGroupFresh := false }
    else t
  { t1 with undoDepth := t1.undoDepth - 1, calls := t1.calls ++ [TextCall.EndUndoAction] }

/-- The control's `Undo`: the latest undo step is taken back.  The text is the
one the step started from; the caret is left at the first change of the step,
behind the text put back when that change was a removal. -/
def Undo (t : TextEditor) : TextEditor :=
  match t.undoStack with
  | [] => t
  | (text, caret) :: rest =>
    { t with text := text, currentPos := caret, selectionStart := caret, selectionEnd := caret,
             undoStack := rest }

/-- The control's `InsertText`: the text goes in at the position, a caret
after the position moves along, and the selection is emptied.  An empty text
is no change. -/
def InsertText (t : TextEditor) (pos : Int) (text : List Char) : TextEditor :=
  if 0 ≤ pos ∧ pos ≤ GetLength t then
    let t1 := if text = [] then t else recordUndoStep t pos
    let caret := if t1.currentPos > pos then t1.currentPos + (text.length : Int) else t1.currentPos
    { t1 with
        text := t1.text.take pos.toNat ++ text ++ t1.text.drop pos.toNat
        currentPos := caret, selectionStart := caret, selectionEnd := caret
        calls := t1.calls ++ [TextCall.InsertText pos text] }
  else { t with calls := t.calls ++ [TextCall.InsertText pos text] }

/-- Removal of the characters from `startPos` up to `endPos`, a caret behind
the start moving back. -/
def deleteRange (t : TextEditor) (startPos endPos : Int) : TextEditor :=
  let caret :=
    if t.currentPos ≥ endPos then t.currentPos - (endPos - startPos)
    else if t.currentPos > startPos then startPos
    else t.currentPos
  { t with
      text := t.text.take startPos.toNat ++ t.text.drop endPos.toNat
      currentPos := caret, selectionStart := caret, selectionEnd := caret }

/-- The control's `SetTargetStart`, `SetTargetEnd` and `ReplaceTarget("")`; an
empty target is no change. -/
def ReplaceTarget_empty (t : TextEditor) (targetStart targetEnd : Int) : TextEditor :=
  if 0 ≤ targetStart ∧ targetStart ≤ targetEnd ∧ targetEnd ≤ GetLength t then
    let t1 := deleteRange (if targetStart = targetEnd then t else recordUndoStep t targetEnd)
      targetStart targetEnd
    { t1 with calls := t1.calls ++ [TextCall.ReplaceTarget targetStart targetEnd []] }
  else { t with calls := t.calls ++ [TextCall.ReplaceTarget targetStart targetEnd []] }

/-- The control's `SetSelection(from, to)`: the caret goes to `to`. -/
def SetSelection (t : TextEditor) (anchor caret : Int) : TextEditor :=
  { t with
      currentPos := caret, selectionStart := min anchor caret, selectionEnd := max anchor caret
      calls := t.calls ++ [TextCall.SetSelection anchor caret]
      selections := [(min anchor caret, max anchor caret)] }

/-- The control's `ReplaceSelection("")`: the selected text is removed; an
empty selection is no change. -/
def ReplaceSelection_empty (t : TextEditor) : TextEditor :=
  if 0 ≤ t.selectionStart ∧ t.selectionStart ≤ t.selectionEnd ∧ t.selectionEnd ≤ GetLength t then
    let t1 := if t.selectionStart = t.selectionEnd then t else recordUndoStep t t.selectionEnd
    { t1 with
        text := t1.text.take t1.selectionStart.toNat ++ t1.text.drop t1.selectionEnd.toNat
        currentPos := t1.selectionStart, selectionEnd := t1.selectionStart
        calls := t1.calls ++ [TextCall.ReplaceSelection []] }
  else { t with calls := t.calls ++ [TextCall.ReplaceSelection []] }

/-- The control's `CharRight`: the caret moves one character on. -/
def CharRight (t : TextEditor) : TextEditor :=
  let caret := if t.currentPos < GetLength t then t.currentPos + 1 else t.currentPos
  { t with
      currentPos := caret, selectionStart := caret, selectionEnd := caret
      calls := t.calls ++ [TextCall.CharRight] }

/-- The editor's `SetCaretAt` on the text. -/
def TextEditor.SetCaretAt (t : TextEditor) (pos : Int) : TextEditor :=
  { t with
      currentPos := pos, selectionStart := pos, selectionEnd := pos
      calls := t.calls ++ [TextCall.SetCaretAt pos] }

/-! ## Trimming and saving -/

/-- The flags of `TrimText`, declared in a header that is not part of the
sources: taken as a parameter. -/
structure TrimConstants where
  TRIM_ENABLED : Nat
  TRIM_APPEND_LF : Nat
  TRIM_MODIFIED_LINES : Nat
  TRIM_IGNORE_CARET_LINE : Nat
  deriving DecidableEq, Repr

/-- The test `((size_t)line < m_modifiedLines.size()) && (m_modifiedLines[line]
== LINE_MODIFIED)` of `TrimText`: its value and the map afterwards, the
subscript creating the entry of a line that has none. -/
def TrimText_isModifiedLine (m : List (Int × LineStatus)) (line : Int) :
    Bool × List (Int × LineStatus) :=
  if line < (m.length : Int) then
    match modifiedLinesFind m line with
    | some status => (decide (status = LineStatus.LINE_MODIFIED), m)
    | none => (false, m ++ [(line, LineStatus.LINE_NONE)])
  else (false, m)

/-- The loop `while ((i >= lineStart) && ((ch == ' ') || (ch == '\t'))) { i--;
ch = GetCharAt(i); }` of `TrimText`: the position it ends at.  It steps down
from the end of the line and stops below `lineStart` at the latest, so the
length of the line is enough fuel. -/
def TrimText_scan (t : TextEditor) (lineStart : Int) : Nat → Int → Int
  | 0, i => i
  | fuel + 1, i =>
    if i ≥ lineStart ∧ (GetCharAt t i = ' ' ∨ GetCharAt t i = '\t') then
      TrimText_scan t lineStart fuel (i - 1)
    else i

/-- The trimming of one line in `TrimText`. -/
def TrimText_line (t : TextEditor) (line : Int) : TextEditor :=
  let lineStart := t.PositionFromLine line
  let lineEnd := GetLineEndPosition t line
  let i := TrimText_scan t lineStart (lineEnd - lineStart).toNat (lineEnd - 1)
  if i < lineEnd - 1 then ReplaceTarget_empty t (i + 1) lineEnd else t

/-- The body of the loop of `TrimText` over the lines. -/
def TrimText_step (dontTrimCaretLine trimOnlyModifiedLInes : Bool) (currLine : Int)
    (t : TextEditor) (line : Nat) : TextEditor :=
  let r := TrimText_isModifiedLine t.m_modifiedLines (line : Int)
  let is_modified_line := r.1
  let t := { t with m_modifiedLines := r.2 }
  if trimOnlyModifiedLInes ∧ !is_modified_line then t
  else
    let canTrim := decide ((line : Int) ≠ currLine) ||
      (decide ((line : Int) = currLine) && !dontTrimCaretLine)
    if !canTrim then t else TrimText_line t (line : Int)

/-- The editor's `TrimText(size_t flags)`. -/
def TrimText_flags (K : TrimConstants) (t : TextEditor) (flags : Nat) : TextEditor :=
  let trim := flags &&& K.TRIM_ENABLED != 0
  let appendLf := flags &&& K.TRIM_APPEND_LF != 0
  let dontTrimCaretLine := flags &&& K.TRIM_IGNORE_CARET_LINE != 0
  let trimOnlyModifiedLInes := flags &&& K.TRIM_MODIFIED_LINES != 0
  if !trim && !appendLf then t
  else
    let t1 := BeginUndoAction t
    let t2 :=
      if trim then
        let maxLines := GetLineCount t1
        let currLine := t1.GetCurrentLine
        (List.range maxLines.toNat).foldl
          (TrimText_step dontTrimCaretLine trimOnlyModifiedLInes currLine) t1
      else t1
    let t3 :=
      if appendLf then
        let maxLines := GetLineCount t2
        let enddoc := t2.PositionFromLine maxLines
        if maxLines ≤ 1 ∨ enddoc > t2.PositionFromLine (maxLines - 1) then
          InsertText t2 enddoc t2.eolString
        else t2
      else t2
    EndUndoAction t3

/-- The editor's `TrimText(bool trim, bool appendLf)`. -/
def TrimText (K : TrimConstants) (t : TextEditor) (trim appendLf : Bool) : TextEditor :=
  let flags : Nat := 0
  let flags := if trim then flags ||| K.TRIM_ENABLED else flags
  let flags := if appendLf then flags ||| K.TRIM_APPEND_LF else flags
  let flags := if t.trimOnlyModifiedLines then flags ||| K.TRIM_MODIFIED_LINES else flags
  let flags := if t.dontTrimCaretLine then flags ||| K.TRIM_IGNORE_CARET_LINE else flags
  TrimText_flags K t flags

/-- What the world outside the editor answers during `SaveToFile`: whether the
plugins allow the save, whether the intermediate file is still there after its
removal, whether it can be opened for writing, what the conversion of the text
to the file encoding gives (none when it has no data), whether the target is
read-only, whether the user then wants to continue, and whether the rename
succeeds. -/
structure SaveEnvironment where
  saveAllowed : Bool
  intermediateFileExists : Bool
  fileOpened : Bool
  mb_str : List Char → Option (List Char)
  targetReadOnly : Bool
  continueAnswer : Bool
  renameFile : Bool

/-- The editor's `SaveToFile`, outside Windows: its result and the editor
afterwards.  The statements after the rename set the save point and refresh
the title and the margin. -/
def SaveToFile (K : TrimConstants) (t : TextEditor) (env : SaveEnvironment) :
    Bool × TextEditor :=
  if !env.saveAllowed then (false, t)
  else
    let t1 := TrimText K t t.trimLine t.appendLF
    let theText := t1.text
    if env.intermediateFileExists then
      (false, { t1 with calls := t1.calls ++
        [TextCall.MessageBox "Unable to create intermediate file for writing. File already exists!"] })
    else if !env.fileOpened then
      (false, { t1 with calls := t1.calls ++ [TextCall.MessageBox "Failed to open file for write"] })
    else
      match env.mb_str theText with
      | none =>
        (false, { t1 with calls := t1.calls ++ [TextCall.MessageBox "Save file failed!"] })
      | some buf =>
        if buf.length = 0 ∧ theText ≠ [] then
          (false, { t1 with calls := t1.calls ++
            [TextCall.MessageBox "File text conversion failed!"] })
        else if env.targetReadOnly ∧ env.continueAnswer = false then (false, t1)
        else if !env.renameFile then
          (false, { t1 with calls := t1.calls ++
            [TextCall.MessageBox "Failed to override read-only file"] })
        else (true, { t1 with calls := t1.calls ++ [TextCall.SetSavePoint] })

/-! ## Character added: the newline after an opening brace -/

/-- The control's `PositionBefore`, for single-byte characters. -/
def PositionBefore (t : TextEditor) (pos : Int) : Int :=
  min (max (pos - 1) 0) (GetLength t)

/-- White space as `wxString::Trim` sees it. -/
def isSpace (ch : Char) : Bool :=
  ch = ' ' || ch = '\t' || ch = '\n' || ch = '\r' || ch = Char.ofNat 11 || ch = Char.ofNat 12

/-- The string operation `Trim().Trim(false)`: white space is removed at the
end and at the start. -/
def trimBothEnds (s : List Char) : List Char :=
  ((s.reverse.dropWhile isSpace).reverse).dropWhile isSpace

/-- The condition of the close-and-indent branch of `OnCharAdded`, evaluated
from left to right. -/
def OnCharAdded_closesBrace (t : TextEditor) : Bool :=
  if t.m_lastCharEntered = '{' ∧ t.m_autoAddMatchedCurlyBrace = true ∧
      t.m_disableSmartIndent = false then
    match MatchBraceBack t '}' t.currentPos with
    | some matchedPos => !t.IsDefaultContext && decide (matchedPos = t.m_lastCharEnteredPos)
    | none => false
  else false

/-- The local `lineEndPos` of the close-and-indent branch of `OnCharAdded`: the
end of the caret line, without its line end. -/
def OnCharAdded_lineEndPos (t : TextEditor) : Int :=
  LineEnd t t.GetCurrentLine - (t.eolString.length : Int)

/-- The local `shiftCode` of the close-and-indent branch of `OnCharAdded`:
whether the rest of the line behind `pos` holds code to be moved between the
braces. -/
def OnCharAdded_shiftCode (t : TextEditor) (pos : Int) : Bool :=
  let restOfLine := GetTextRange t pos (OnCharAdded_lineEndPos t)
  let restOfLineTrimmed := trimBothEnds restOfLine
  !(restOfLineTrimmed.head? == some ')') && !restOfLineTrimmed.isEmpty

/-- The close-and-indent branch of `OnCharAdded`, from `BeginUndoAction` to
`EndUndoAction`; `pos` is the caret position read at the start of the handler
and `AutoIndent` is what the context's `AutoIndent` does. -/
def OnCharAdded_closeAndIndent (AutoIndent : Char → TextEditor → TextEditor) (t : TextEditor)
    (pos : Int) : TextEditor :=
  let matchChar := '}'
  let t := BeginUndoAction t
  let curline := t.GetCurrentLine
  let lineEndPos := LineEnd t curline - (t.eolString.length : Int)
  let restOfLine := GetTextRange t pos lineEndPos
  let restOfLineTrimmed := trimBothEnds restOfLine
  let shiftCode := !(restOfLineTrimmed.head? == some ')') && !restOfLineTrimmed.isEmpty
  let t := if shiftCode then ReplaceSelection_empty (SetSelection t pos lineEndPos) else t
  let t := InsertText t pos [matchChar]
  let t := CharRight t
  let t := AutoIndent '}' t
  let t := InsertText t pos t.eolString
  let t := CharRight t
  let t := t.SetCaretAt pos
  let t := if shiftCode then InsertText t pos restOfLine else t
  let t := AutoIndent '\n' t
  EndUndoAction t

/-- The editor's `OnCharAdded` for the key `\n` typed with a single caret, no
selection to wrap and no match indicator at the caret: the `case '\n'` of its
switch and the record of the last character entered.  Nothing else in the
handler changes the text for this key: with `matchChar` being `}` no closing
character is inserted after the switch. -/
def OnCharAdded_newline (AutoIndent : Char → TextEditor → TextEditor) (t : TextEditor) :
    TextEditor :=
  let pos := t.currentPos
  let curLine := t.LineFromPosition pos
  let t1 :=
    if OnCharAdded_closesBrace t then OnCharAdded_closeAndIndent AutoIndent t pos
    else
      let t2 := AutoIndent '\n' t
      { t2 with calls := t2.calls ++ [TextCall.EnsureVisible (curLine + 1)] }
  { t1 with m_lastCharEntered := '\n', m_lastCharEnteredPos := PositionBefore t1 t1.currentPos }

/-- An operation keeps the undo bookkeeping of an open group of changes: in a
state with a group open that holds a change already, it neither closes the
group nor starts an undo step. -/
def keepsUndoGroup (f : TextEditor → TextEditor) : Prop :=
  ∀ s : TextEditor, 0 < s.undoDepth → s.undoGroupFresh = false →
    (f s).undoDepth = s.undoDepth ∧ (f s).undoStack = s.undoStack ∧
    (f s).undoGroupFresh = false

/-- The control's handling of a typed character, which comes before the
notification of the editor (`OnCharAdded` runs with the character already in
the text and the caret behind it): the character goes in at the caret as a
change of its own and the caret moves behind it. -/
def AddCharacter (t : TextEditor) (ch : Char) : TextEditor :=
  let t1 := InsertText t t.currentPos [ch]
  { t1 with
      currentPos := t.currentPos + 1
      selectionStart := t.currentPos + 1
      selectionEnd := t.currentPos + 1 }

/-! ## Backward brace matching: the reference scan -/

/-- The opener of a closing brace, read off the table of the four pairs. -/
def referenceOpener (c : Char) : Option Char :=
  [('}', '{'), (')', '('), (']', '['), ('>', '<')].lookup c

/-- The depth of the reference scan once it has visited the positions from
`pos - 1` down to `q`: seeded at 1, one less for every opener and one more for
every closer among them, positions inside comments and strings not counting. -/
def referenceDepth (t : TextEditor) (o c : Char) (pos q : Nat) : Int :=
  1 - braceExcess o c ((List.range' q (pos - q)).map (codeCharAt t))

/-- The reference backward scan, in the words of the specification: among the
positions `pos - 1` down to 0, the first one at which the depth reaches 0; none
when there is no such position, when `pos <= 0` or when `c` is not a closing
brace. -/
def referenceBackwardScan (t : TextEditor) (c : Char) (pos : Int) : Option Int :=
  if pos ≤ 0 then none
  else
    match referenceOpener c with
    | none => none
    | some o =>
      ((List.range pos.toNat).reverse.find?
        (fun q => decide (referenceDepth t o c pos.toNat q = 0))).map Int.ofNat

/-! ## End-of-line mode of the content and the open parenthesis before the caret -/

def wxSTC_EOL_CRLF : Int := 0
def wxSTC_EOL_CR : Int := 1
def wxSTC_EOL_LF : Int := 2

/-- Whether a text starts with a given string. -/
def startsWith : List Char → List Char → Bool
  | _, [] => true
  | [], _ :: _ => false
  | a :: rest, b :: sub => a = b && startsWith rest sub

/-- The string operation `wxString::Find(sub)`: the index of the first
occurrence of `sub`, `wxNOT_FOUND` when there is none. -/
def Find : List Char → List Char → Int
  | [], sub => if sub = [] then 0 else wxNOT_FOUND
  | ch :: rest, sub =>
    if startsWith (ch :: rest) sub then 0
    else if Find rest sub = wxNOT_FOUND then wxNOT_FOUND else Find rest sub + 1

/-- The conversion `static_cast<size_t>(...)` of an `int`, `size_t` having 64
bits. -/
def static_cast_size_t (x : Int) : Nat :=
  (x % 18446744073709551616).toNat

/-- The conversion of a `size_t` to the `int` parameter of a call. -/
def size_t_to_int (n : Nat) : Int :=
  if n % 4294967296 < 2147483648 then ((n % 4294967296 : Nat) : Int)
  else ((n % 4294967296 : Nat) : Int) - 4294967296

/-- The editor's `SafeGetChar`: NUL for a position outside the document. -/
def SafeGetChar (t : TextEditor) (pos : Int) : Char :=
  if pos < 0 ∨ pos ≥ GetLength t then Char.ofNat 0 else GetCharAt t pos

/-- The bytes of one character in UTF-8, the encoding the control keeps its
document in, each byte as one cell of the text. -/
def utf8Bytes (c : Char) : List Char :=
  let n := c.toNat
  if n < 0x80 then [c]
  else if n < 0x800 then [Char.ofNat (0xC0 + n / 64), Char.ofNat (0x80 + n % 64)]
  else if n < 0x10000 then
    [Char.ofNat (0xE0 + n / 4096), Char.ofNat (0x80 + n / 64 % 64), Char.ofNat (0x80 + n % 64)]
  else
    [Char.ofNat (0xF0 + n / 262144), Char.ofNat (0x80 + n / 4096 % 64),
      Char.ofNat (0x80 + n / 64 % 64), Char.ofNat (0x80 + n % 64)]

/-- The bytes of a string in UTF-8. -/
def utf8Encode (txt : List Char) : List Char :=
  txt.flatMap utf8Bytes

/-- The editor's `GetEOLByContent`.  Two ways of counting meet in it: `txt` is
the string `GetText()` answers, the characters of the document, and
`wxString::Find` answers an index into these characters; `GetLength` and
`SafeGetChar` are the control's and count the cells of `t.text`, which hold the
bytes of the document (`utf8Encode txt`).  The source passes the index of the
string on as a position of the control. -/
def GetEOLByContent (t : TextEditor) (txt : List Char) : Int :=
  if GetLength t = 0 then wxNOT_FOUND
  else
    let pos1 := static_cast_size_t (Find txt ['\n'])
    let pos2 := static_cast_size_t (Find txt ['\r', '\n'])
    let pos3 := static_cast_size_t (Find txt ['\r'])
    let max_size_t := static_cast_size_t (-1)
    if pos1 = max_size_t ∧ pos2 = max_size_t ∧ pos3 = max_size_t then wxNOT_FOUND
    else
      let first_eol_pos := if pos2 < pos1 then pos2 else pos1
      let first_eol_pos := if pos3 < first_eol_pos then pos3 else first_eol_pos
      let ch := SafeGetChar t (size_t_to_int first_eol_pos)
      if ch = '\n' then wxSTC_EOL_LF
      else if ch = '\r' then
        let secondCh := SafeGetChar t (size_t_to_int ((first_eol_pos + 1) % 18446744073709551616))
        if secondCh = '\n' then wxSTC_EOL_CRLF else wxSTC_EOL_CR
      else wxNOT_FOUND

/-- The control's `PositionAfter`, for single-byte characters. -/
def PositionAfter (t : TextEditor) (pos : Int) : Int :=
  min (max (pos + 1) 0) (GetLength t)

/-- The loop of `DoGetOpenBracePos`, by recursion on `pos`: the position, the
depth and the number of characters tested it ends with.  The loop starts inside
the document, where the position before `pos + 1` is `pos`. -/
def DoGetOpenBracePos_loop (t : TextEditor) : Nat → Int → Nat → Int × Int × Nat
  | 0, depth, char_tested => (0, depth, char_tested)
  | pos + 1, depth, char_tested =>
    if char_tested < 256 then
      let ch := SafeGetChar t ((pos + 1 : Nat) : Int)
      if t.IsCommentOrString ((pos + 1 : Nat) : Int) then
        DoGetOpenBracePos_loop t pos depth char_tested
      else
        let char_tested := char_tested + 1
        if ch = '{' then DoGetOpenBracePos_loop t pos (depth + 1) char_tested
        else if ch = '}' then DoGetOpenBracePos_loop t pos (depth - 1) char_tested
        else if ch = ';' then (((pos + 1 : Nat) : Int), depth, char_tested)
        else if ch = '(' then
          if depth + 1 = 1 then (PositionAfter t ((pos + 1 : Nat) : Int), depth + 1, char_tested)
          else DoGetOpenBracePos_loop t pos (depth + 1) char_tested
        else if ch = ')' then DoGetOpenBracePos_loop t pos (depth - 1) char_tested
        else DoGetOpenBracePos_loop t pos depth char_tested
    else (((pos + 1 : Nat) : Int), depth, char_tested)

/-- The editor's `DoGetOpenBracePos`; `calltip` is the start position the
calltip window reports when there is one and it is shown. -/
def DoGetOpenBracePos (t : TextEditor) (calltip : Option Int) : Int :=
  match calltip with
  | some editorStartPosition => editorStartPosition
  | none =>
    let pos := PositionBefore t t.currentPos
    let r := DoGetOpenBracePos_loop t pos.toNat 0 0
    if r.2.2 = 256 then wxNOT_FOUND
    else if r.2.1 = 1 ∧ r.1 ≥ 0 then r.1
    else wxNOT_FOUND

/-! ## Saving and restoring the bookmarks around a reformatting -/

/-- The control's `MarkerDeleteAll(markerNumber)`: the markers of that number
go, on every line; -1 stands for all markers. -/
def MarkerDeleteAll (c : wxStyledTextCtrl) (markerNumber : Int) : wxStyledTextCtrl :=
  { c with
      markers :=
        if markerNumber = -1 then []
        else c.markers.filter (fun m => decide ((m.number : Int) ≠ markerNumber)) }

/-- The body of the loop of `DoSaveMarkers` over the bookmark types, for the
line `nFoundLine`: the test reads the markers of `nLine`. -/
def DoSaveMarkers_types (K : MarkerConstants) (c : wxStyledTextCtrl) (nLine nFoundLine : Int)
    (saved : List (Int × Nat)) : List (Int × Nat) :=
  (List.range' K.smt_FIRST_BMK_TYPE (K.smt_LAST_BMK_TYPE - K.smt_FIRST_BMK_TYPE)).foldl
    (fun saved type =>
      let mask := 1 <<< type
      if MarkerGet c nLine &&& mask != 0 then saved ++ [(nFoundLine, type)] else saved)
    saved

/-- The loop `while (nFoundLine >= 0)` of `DoSaveMarkers`.  Every round moves
`nFoundLine` to a later line of the document, so one round per line and one
more are enough; the result is none if the rounds given do not suffice. -/
def DoSaveMarkers_loop (K : MarkerConstants) (c : wxStyledTextCtrl) (nLine : Int) :
    Nat → Int → List (Int × Nat) → Option (List (Int × Nat))
  | 0, _, _ => none
  | fuel + 1, nFoundLine, saved =>
    if nFoundLine ≥ 0 then
      DoSaveMarkers_loop K c nLine fuel (MarkerNext c (nFoundLine + 1) K.mmt_all_bookmarks)
        (DoSaveMarkers_types K c nLine nFoundLine saved)
    else some saved

/-- The editor's `DoSaveMarkers`: the list `m_savedMarkers` it builds. -/
def DoSaveMarkers (K : MarkerConstants) (e : clEditor) : Option (List (Int × Nat)) :=
  let nLine := LineFromPosition e.ctrl 0
  let nFoundLine := MarkerNext e.ctrl nLine K.mmt_all_bookmarks
  DoSaveMarkers_loop K e.ctrl nLine (e.ctrl.lineCount + 1) nFoundLine []

/-- The editor's `DoRestoreMarkers`, for the list `m_savedMarkers`: the editor
afterwards and the list, which is cleared. -/
def DoRestoreMarkers (K : MarkerConstants) (e : clEditor) (m_savedMarkers : List (Int × Nat)) :
    clEditor × List (Int × Nat) :=
  let c := MarkerDeleteAll e.ctrl (K.mmt_all_bookmarks : Int)
  let c :=
    (List.range' K.smt_FIRST_BMK_TYPE (m_savedMarkers.length - K.smt_FIRST_BMK_TYPE)).foldl
      (fun c i =>
        match m_savedMarkers.get? i with
        | some saved => (MarkerAdd c saved.1 saved.2).1
        | none => c)
      c
  (logCalls { e with ctrl := c } [Call.NotifyMarkerChanged wxNOT_FOUND], [])

/-- What a formatter does to the bookmarks when it replaces the text: the
markers of the bookmark types are gone. -/
def bookmarksRemoved (K : MarkerConstants) (c : wxStyledTextCtrl) : wxStyledTextCtrl :=
  { c with
      markers := c.markers.filter
        (fun m => !(decide (K.smt_FIRST_BMK_TYPE ≤ m.number) && decide (m.number ≤ K.smt_LAST_BMK_TYPE))) }

/-- The round trip of the bookmarks around a reformatting: `DoSaveMarkers`,
the loss of the bookmarks, `DoRestoreMarkers`. -/
def saveFormatRestore (K : MarkerConstants) (e : clEditor) : Option (clEditor × List (Int × Nat)) :=
  match DoSaveMarkers K e with
  | none => none
  | some saved => some (DoRestoreMarkers K { e with ctrl := bookmarksRemoved K e.ctrl } saved)

/-! ## Text dropped on the editor (`clEditorDropTarget::DoTextDrop`) -/

/-- The rest of a text behind a string it starts with, none when it does not
start with the string. -/
def stripStart : List Char → List Char → Option (List Char)
  | s, [] => some s
  | [], _ :: _ => none
  | a :: rest, b :: sub => if a = b then stripStart rest sub else none

/-- A match of the regular expression `\{Class:Notebook,TabIndex:([0-9]+)\}\{.*?\}`
at the start of a text: the fixed words, one digit or more, the two braces,
and further on a closing brace. -/
def notebookTabAt (s : List Char) : Bool :=
  match stripStart s "\x7bClass:Notebook,TabIndex:".toList with
  | none => false
  | some r =>
    !(r.takeWhile Char.isDigit).isEmpty &&
      (match stripStart (r.dropWhile Char.isDigit) "\x7d\x7b".toList with
       | none => false
       | some r3 => r3.elem '\x7d')

/-- The test `re.Matches(text)` of `DoTextDrop`: the regular expression matches
somewhere in the text. -/
def notebookTabMatches (text : List Char) : Bool :=
  text.tails.any notebookTabAt

/-- The drop target's `DoTextDrop`, up to its return: the result and the
editor.  `pos` is what `PositionFromPoint` gives for the point of the drop; the
selection of the moved text, requested with `CallAfter`, comes after the
return. -/
def DoTextDrop (t : TextEditor) (text : List Char) (pos : Int) (moving : Bool) :
    Bool × TextEditor :=
  if pos = wxNOT_FOUND then (false, t)
  else if notebookTabMatches text then (false, t)
  else
    let selStart := t.selectionStart
    let selEnd := t.selectionEnd
    if pos ≥ selStart ∧ pos ≤ selEnd then (false, t)
    else
      let length := selEnd - selStart
      let t := BeginUndoAction t
      let r : TextEditor × Int :=
        if moving then
          let movingForward := decide (pos > selEnd)
          let t := InsertText t pos text
          let r : TextEditor × Int :=
            if movingForward then (ReplaceTarget_empty t selStart selEnd, pos - length)
            else (ReplaceTarget_empty t (selStart + length) (selEnd + length), pos)
          ({ r.1 with selectionStart := r.2, selectionEnd := r.2, currentPos := r.2 }, r.2)
        else
          let t := { t with selectionStart := pos, selectionEnd := pos }
          let t := InsertText t pos text
          ({ t with currentPos := pos }, pos)
      (true, EndUndoAction r.1)

/-- The document with the characters from `s` up to `e` taken out of their
place and put in at the drop point `p`, in the words of the specification; the
second component is where the moved text starts in the new document. -/
def movedText (doc : List Char) (s e p : Nat) : List Char × Nat :=
  let selected := (doc.drop s).take (e - s)
  let removed := doc.take s ++ doc.drop e
  let dropPoint := if p > e then p - (e - s) else p
  (removed.take dropPoint ++ selected ++ removed.drop dropPoint, dropPoint)

/-! ## Cscope results (`cscope/cscopetab.cpp`) -/

/-- What `BuildTable` reads of an entry of the result table. -/
structure CscopeEntryData where
  m_file : List Char
  m_line : Int
  m_scope : List Char
  m_pattern : List Char
  deriving DecidableEq, Repr

/-- The match view of the tab: the text of `m_stc` and the map `m_matchesInStc`
from view lines to entries, in the order of insertion. -/
structure CscopeTab where
  m_stc : List Char
  m_matchesInStc : List (Int × CscopeEntryData)
  deriving DecidableEq, Repr

/-- An `int` written in decimal. -/
def formatInt (n : Int) : List Char :=
  if n < 0 then '-' :: Nat.toDigits 10 n.natAbs else Nat.toDigits 10 n.toNat

/-- The conversion `%5d`: the number, with blanks before it up to five
characters. -/
def format5d (n : Int) : List Char :=
  List.replicate (5 - (formatInt n).length) ' ' ++ formatInt n

/-- The text `display_string` of an entry in `BuildTable`. -/
def display_string (entry : CscopeEntryData) : List Char :=
  "Line: ".toList ++ formatInt entry.m_line ++ ", ".toList ++ entry.m_scope ++ ", ".toList
    ++ entry.m_pattern

/-- The tab's `AddMatch`. -/
def AddMatch (tab : CscopeTab) (line : Int) (pattern : List Char) : CscopeTab :=
  { tab with m_stc := tab.m_stc ++ (" ".toList ++ format5d line ++ ": ".toList ++ pattern ++ ['\n']) }

/-- The tab's `AddFile`. -/
def AddFile (tab : CscopeTab) (filename : List Char) : CscopeTab :=
  { tab with m_stc := tab.m_stc ++ (filename ++ ['\n']) }

/-- The `insert` of `m_matchesInStc`: a key already there keeps its entry. -/
def matchesInStcInsert (m : List (Int × CscopeEntryData)) (lineno : Int)
    (entry : CscopeEntryData) : List (Int × CscopeEntryData) :=
  if m.any (fun p => p.1 == lineno) then m else m ++ [(lineno, entry)]

/-- The body of the loop of `BuildTable` over the entries of a file; the
second component is the set `insertedItems`. -/
def BuildTable_entry (st : CscopeTab × List (List Char)) (entry : CscopeEntryData) :
    CscopeTab × List (List Char) :=
  if st.2.count (display_string entry) = 0 then
    let insertedItems := display_string entry :: st.2
    let lineno : Int := ((st.1.m_stc.count '\n' + 1 : Nat) : Int) - 1
    let tab := AddMatch st.1 entry.m_line entry.m_pattern
    ({ tab with m_matchesInStc := matchesInStcInsert tab.m_matchesInStc lineno entry },
      insertedItems)
  else st

/-- The body of the loop of `BuildTable` over the files. -/
def BuildTable_file (st : CscopeTab × List (List Char))
    (fileEntries : List Char × List CscopeEntryData) : CscopeTab × List (List Char) :=
  fileEntries.2.foldl BuildTable_entry (AddFile st.1 fileEntries.1, st.2)

/-- The tab's `BuildTable`; the table is the files in the order of the map,
each with its entries, none for a null pointer. -/
def BuildTable (tab : CscopeTab) (table : Option (List (List Char × List CscopeEntryData))) :
    CscopeTab :=
  match table with
  | none => tab
  | some table =>
    let tab : CscopeTab := { m_stc := [], m_matchesInStc := [] }
    (table.foldl BuildTable_file (tab, [])).1

/-! ## Wrapping the previous selections with a pair of characters -/

/-- The control's `Undo` called right after `BeginUndoAction` has opened a
group: the start of the group, which holds no change yet, is dropped, and the
step before it is taken back; the group then starts from the restored text. -/
def Undo_inOpenedGroup (t : TextEditor) : TextEditor :=
  match t.undoStack with
  | _ :: (text, caret) :: rest =>
    { t with
        text := text, currentPos := caret, selectionStart := caret, selectionEnd := caret
        undoStack := (text, caret) :: rest
        calls := t.calls ++ [TextCall.Undo] }
  | _ => { t with calls := t.calls ++ [TextCall.Undo] }

/-- The control's `ClearSelections`: one empty selection at 0 is left. -/
def ClearSelections (t : TextEditor) : TextEditor :=
  { t with
      currentPos := 0, selectionStart := 0, selectionEnd := 0
      selections := [(0, 0)]
      calls := t.calls ++ [TextCall.ClearSelections] }

/-- The control's `AddSelection(caret, anchor)`: a further selection, which
becomes the main one. -/
def AddSelection (t : TextEditor) (caret anchor : Int) : TextEditor :=
  { t with
      currentPos := caret, selectionStart := min anchor caret, selectionEnd := max anchor caret
      selections := t.selections ++ [(min anchor caret, max anchor caret)]
      calls := t.calls ++ [TextCall.AddSelection caret anchor] }

/-- The body of the first loop of `DoWrapPrevSelectionWithChars`, for one
previous selection: the editor, `charsAdded` and the vector `selections`. -/
def DoWrapPrevSelectionWithChars_insert (first last : Char)
    (st : TextEditor × Int × List (Int × Int)) (sel : Int × Int) :
    TextEditor × Int × List (Int × Int) :=
  let t := st.1
  let charsAdded := st.2.1
  let startPos := sel.1 + charsAdded
  let t := InsertText t startPos [first]
  let charsAdded := charsAdded + 1
  let endPos := sel.2 + charsAdded
  let t := InsertText t endPos [last]
  let charsAdded := charsAdded + 1
  (t, charsAdded, st.2.2 ++ [(startPos + 1, endPos)])

/-- The body of the second loop of `DoWrapPrevSelectionWithChars`. -/
def DoWrapPrevSelectionWithChars_select (t : TextEditor) (i : Nat) (range : Int × Int) :
    TextEditor :=
  if i = 0 then SetSelection t range.1 range.2 else AddSelection t range.1 range.2

/-- The editor's `DoWrapPrevSelectionWithChars`. -/
def DoWrapPrevSelectionWithChars (t : TextEditor) (first last : Char) : TextEditor :=
  let t := BeginUndoAction t
  let t := Undo_inOpenedGroup t
  let t := ClearSelections t
  let r := t.m_prevSelectionInfo.foldl (DoWrapPrevSelectionWithChars_insert first last) (t, 0, [])
  let t := r.2.2.enum.foldl
    (fun t range => DoWrapPrevSelectionWithChars_select t range.1 range.2) r.1
  EndUndoAction t

/-- The text with `first` put right before and `last` right after each of the
ranges, in the words of the specification: what is left of the text from
position `pos` on, the ranges being ascending and behind `pos`. -/
def wrappedText (text : List Char) (first last : Char) : Nat → List (Nat × Nat) → List Char
  | pos, [] => text.drop pos
  | pos, (s, e) :: rest =>
    (text.drop pos).take (s - pos) ++ [first] ++ (text.drop s).take (e - s) ++ [last]
      ++ wrappedText text first last e rest

/-- The selections after the wrapping, in the words of the specification: the
i-th one is the i-th range moved on by `2i + 1`. -/
def wrappedSelections (sels : List (Nat × Nat)) : List (Int × Int) :=
  sels.enum.map (fun p => ((p.2.1 : Int) + 2 * (p.1 : Int) + 1, (p.2.2 : Int) + 2 * (p.1 : Int) + 1))

/-- Ranges that are sorted ascending and pairwise disjoint, from `pos` on and
inside a text of length `len`. -/
def ascendingRanges (len : Nat) : Nat → List (Nat × Nat) → Prop
  | pos, [] => pos ≤ len
  | pos, (s, e) :: rest => pos ≤ s ∧ s ≤ e ∧ ascendingRanges len e rest

/-! ## Trimming: the lines of a text -/

/-- The lines of a text whose line ends are line feeds, without their line
ends. -/
def splitLines : List Char → List (List Char)
  | [] => [[]]
  | ch :: rest =>
    if ch = '\n' then [] :: splitLines rest
    else
      match splitLines rest with
      | [] => [[ch]]
      | line :: lines => (ch :: line) :: lines

/-- The text made of lines, a line feed between every two of them. -/
def joinLines : List (List Char) → List Char
  | [] => []
  | [line] => line
  | line :: next :: lines => line ++ '\n' :: joinLines (next :: lines)

/-- A space or a tab. -/
def isBlank (ch : Char) : Bool :=
  ch = ' ' || ch = '\t'

/-- A line without the longest run of spaces and tabs at its end. -/
def withoutTrailingBlanks (line : List Char) : List Char :=
  (line.reverse.dropWhile isBlank).reverse

/-- Whether `TrimText` is allowed to trim a line: with the modified-only option
the line has the status `LINE_MODIFIED`, and with the caret-line option it is
not the line of the caret. -/
def TrimText_allowed (t : TextEditor) (dontTrimCaretLine trimOnlyModifiedLInes : Bool)
    (line : Nat) : Bool :=
  (!trimOnlyModifiedLInes ||
      decide (modifiedLinesFind t.m_modifiedLines (line : Int) = some LineStatus.LINE_MODIFIED)) &&
    (decide ((line : Int) ≠ t.GetCurrentLine) || !dontTrimCaretLine)

/-- A line of the document, given with its number, after the trimming, in the
words of the specification: a line that may be trimmed loses the longest run of
spaces and tabs at its end, every other line is as it was. -/
def trimmedLine (t : TextEditor) (dontTrimCaretLine trimOnlyModifiedLInes : Bool)
    (p : Nat × List Char) : List Char :=
  if TrimText_allowed t dontTrimCaretLine trimOnlyModifiedLInes p.1 then
    withoutTrailingBlanks p.2
  else p.2

/-- The lines of the document after the trimming. -/
def trimmedLines (t : TextEditor) (dontTrimCaretLine trimOnlyModifiedLInes : Bool) :
    List (List Char) :=
  (splitLines t.text).enum.map (trimmedLine t dontTrimCaretLine trimOnlyModifiedLInes)

/-! ## Expanding and collapsing the folds of a range of lines -/

/-- The control's `SetFoldExpanded`: the flag of the line is set. -/
def SetFoldExpanded (e : clEditor) (line : Int) (expanded : Bool) : clEditor :=
  { e with
      ctrl := { e.ctrl with
        foldExpanded := fun l => if l = line then expanded else e.ctrl.foldExpanded l }
      log := e.log ++ [Call.SetFoldExpanded line expanded] }

/-- The control's `ShowLines`: the lines from `lineStart` to `lineEnd` become
visible. -/
def ShowLines (e : clEditor) (lineStart lineEnd : Int) : clEditor :=
  { e with
      ctrl := { e.ctrl with
        lineVisible := fun l => if lineStart ≤ l ∧ l ≤ lineEnd then true else e.ctrl.lineVisible l }
      log := e.log ++ [Call.ShowLines lineStart lineEnd] }

/-- The control's `HideLines`: the lines from `lineStart` to `lineEnd` become
hidden. -/
def HideLines (e : clEditor) (lineStart lineEnd : Int) : clEditor :=
  { e with
      ctrl := { e.ctrl with
        lineVisible := fun l => if lineStart ≤ l ∧ l ≤ lineEnd then false else e.ctrl.lineVisible l }
      log := e.log ++ [Call.HideLines lineStart lineEnd] }

/-- One call comes before another in a list of calls. -/
def occursBefore (x y : Call) (log : List Call) : Prop :=
  ∃ l1 l2 l3 : List Call, log = l1 ++ x :: l2 ++ y :: l3

/-- A control over a document of 100 lines of ten characters each, caret on
line 20, lines 18 to 22 on screen, nothing folded, no markers. -/
def sampleCtrl : wxStyledTextCtrl where
  lineCount := 100
  currentPos := 200
  lineOfPosition := fun pos => pos / 10
  markers := []
  handleCurrent := 0
  lineVisible := fun _ => true
  firstVisibleLine := 18
  docLineFromVisible := fun l => l
  linesOnScreen := 4
  modify := false
  selectionStart := 200
  selectionEnd := 200
  braceMatch := fun _ => -1
  indentationGuides := 0
  indent := 4
  lineIndentation := fun _ => 0
  foldLevel := fun _ => 0x400
  foldExpanded := fun _ => true
  lastChild := fun l => l
  foldParent := fun _ => -1
  positionFromLine := fun l => l * 10

/-- A visible editor over `sampleCtrl` with change tracking on. -/
def sampleEditor : clEditor where
  ctrl := sampleCtrl
  m_modifiedLines := []
  m_clearModifiedLines := false
  m_trackChanges := true
  m_isVisible := true
  m_reloadingFile := false
  m_breakpointsInfo := []
  m_BPstoMarkers := FillBPtoMarkerArray codeliteMarkers
  m_editorState :=
    { current_line := 0, selection_start := 0, selection_end := 0,
      first_visible_line := 0, line_count := 0 }
  remotePathOrLocal := "main.cpp"
  findBookmarksActive := false
  activeBookmarkType := 3
  lineNumberHighlightCurrent := true
  relativeLineNumbers := true
  displayLineNumbers := true
  m_hasBraceHighlight := false
  log := []

/-- A command processor that passes both assertions of `OnChange`. -/
def sampleCmd : CommandsProcessorView where
  hasOpenCommand := true
  canAppend := true

/-- An insertion of three characters at position 55 (line 5) that adds two
lines, performed by the user. -/
def sampleInsert : wxStyledTextEvent where
  modificationType := 0x11
  position := 55
  length := 3
  linesAdded := 2

/-- A deletion by the user at position 55 (line 5) that removes one line
break. -/
def sampleDelete : wxStyledTextEvent where
  modificationType := 0x12
  position := 55
  length := 11
  linesAdded := -1

/-- A hidden editor in which line 3 is modified. -/
def hiddenEditor : clEditor :=
  { sampleEditor with
      m_isVisible := false
      m_modifiedLines := [(3, LineStatus.LINE_MODIFIED)] }

/-- A visible editor with unsaved changes (`GetModify()` is true, as when the
save point has just been left) whose line 3 has been saved before. -/
def dirtyEditor : clEditor :=
  { sampleEditor with
      ctrl := { sampleCtrl with modify := true }
      m_modifiedLines := [(3, LineStatus.LINE_SAVED)] }

/-- A visible, unmodified editor with tracked lines. -/
def trackedEditor : clEditor :=
  { sampleEditor with
      m_modifiedLines := [(3, LineStatus.LINE_MODIFIED), (4, LineStatus.LINE_SAVED),
        (9, LineStatus.LINE_NONE)] }

/-- An editor over a document of a single line (line 0) with room for ten lines
on screen, nothing folded. -/
def oneLineEditor : clEditor :=
  { sampleEditor with
      ctrl := { sampleCtrl with
        lineCount := 1, currentPos := 0, firstVisibleLine := 0, linesOnScreen := 10,
        selectionStart := 0, selectionEnd := 0 } }

/-- An editor whose caret line (line 20) carries the find bookmark and nothing
else; the active bookmark type is the first standard one. -/
def findMarkedEditor : clEditor :=
  { sampleEditor with
      ctrl := { sampleCtrl with
        markers := [{ handle := 1, line := 20, number := 7 }], handleCurrent := 1 } }

/-- An editor whose caret line (line 20) carries a standard bookmark. -/
def bookmarkedEditor : clEditor :=
  { sampleEditor with
      ctrl := { sampleCtrl with
        markers := [{ handle := 1, line := 20, number := 4 }], handleCurrent := 1 } }

/-- An editor with bookmarks of the active type on lines 5 and 20, the caret
being on line 20, the last marked line. -/
def twoBookmarksEditor : clEditor :=
  { sampleEditor with
      ctrl := { sampleCtrl with
        markers := [{ handle := 2, line := 20, number := 3 }, { handle := 1, line := 5, number := 3 }],
        handleCurrent := 2 } }

/-- A breakpoint record as the breakpoint manager hands it to the editor for
line 10 of the file. -/
def sampleBreakpoint : clDebuggerBreakpoint where
  file := "main.cpp"
  lineno := 10
  origin := BreakpointOrigin.BO_Other
  conditions := ""
  is_temp := false
  is_enabled := true

/-- A breakpoint manager with a single breakpoint, at line 3 of `main.cpp`,
that accepts every request; no plugin handles the toggle event. -/
def sampleManager : BreakpointsManagerView where
  toggleEventHandled := false
  breakpointIsNull := fun file lineno => !(file == "main.cpp" && lineno == 3)
  addBreakpointByLineno := true
  delBreakpointByLineno := 1

/-- An editor with indentation guides on and an indent width of 4, in which the
brace at position 105 (line 10, indented by 10 columns) matches position 307
(line 30, indented by 6 columns). -/
def braceEditor : clEditor :=
  { sampleEditor with
      ctrl := { sampleCtrl with
        braceMatch := fun pos => if pos = 105 then 307 else -1
        indentationGuides := 1
        indent := 4
        lineIndentation := fun line => if line = 10 then 10 else if line = 30 then 6 else 0 } }

/-- A detector as constructed for clangd, with nothing configured yet. -/
def sampleDetector : LSPDetector where
  m_name := "clangd"
  m_command := ""
  m_languages := []
  m_connectionString := ""

/-- A platform on which clangd is installed as version 18 (and no other), paths
with a blank get quoted and 150 completion items are displayed. -/
def samplePlatform : DetectorPlatform where
  WhichWithVersion := fun name versions =>
    if name = "clangd" ∧ 18 ∈ versions then some "/usr/bin/clangd-18" else none
  WrapWithQuotes := fun path => if ' ' ∈ path.data then "\"" ++ path ++ "\"" else path
  ccNumberOfDisplayItems := 150

/-- A platform without clangd. -/
def barePlatform : DetectorPlatform :=
  { samplePlatform with WhichWithVersion := fun _ _ => none }

/-- A fold toggle of the control: the fold toggled is the one of the line when
it is a fold header and the one of its fold parent otherwise; contracting a fold
hides the lines below the header down to its last child, expanding it shows
them. -/
def sampleToggleFold (c : wxStyledTextCtrl) (line : Int) : wxStyledTextCtrl :=
  let header := if isFoldHeader c line then line else c.foldParent line
  if header ≥ 0 then
    { c with
        foldExpanded := fun l => if l = header then !c.foldExpanded header else c.foldExpanded l
        lineVisible := fun l =>
          if header < l ∧ l ≤ c.lastChild header then !c.foldExpanded header
          else c.lineVisible l }
  else c

/-- A header file of ten lines under an include guard: line 0 opens the fold of
the whole file, the lines 2 and 6 open the folds 2..4 and 6..8 inside it;
everything is expanded and the caret is on line 7. -/
def guardedHeaderEditor : clEditor :=
  { sampleEditor with
      ctrl := { sampleCtrl with
        lineCount := 10
        currentPos := 70
        firstVisibleLine := 0
        linesOnScreen := 20
        foldLevel := fun l =>
          if l = 0 then 0x2400
          else if l = 2 ∨ l = 6 then 0x2401
          else if l = 3 ∨ l = 4 ∨ l = 7 ∨ l = 8 then 0x402
          else 0x401
        lastChild := fun l => if l = 0 then 9 else if l = 2 then 4 else if l = 6 then 8 else l
        foldParent := fun l =>
          if l = 3 ∨ l = 4 then 2 else if l = 7 ∨ l = 8 then 6
          else if 1 ≤ l ∧ l ≤ 9 then 0 else -1 } }

/-- A file of ten lines with two functions side by side: the lines 0 and 5 open
the folds 0..3 and 5..8, the first holding an inner fold 1..2; everything is
expanded and the caret is on line 7. -/
def twoFunctionsEditor : clEditor :=
  { sampleEditor with
      ctrl := { sampleCtrl with
        lineCount := 10
        currentPos := 70
        firstVisibleLine := 0
        linesOnScreen := 20
        foldLevel := fun l =>
          if l = 0 ∨ l = 5 then 0x2400
          else if l = 1 then 0x2401
          else if l = 2 then 0x402
          else if l = 3 ∨ l = 6 ∨ l = 7 ∨ l = 8 then 0x401
          else 0x400
        lastChild := fun l => if l = 0 then 3 else if l = 1 then 2 else if l = 5 then 8 else l
        foldParent := fun l =>
          if l = 2 then 1 else if l = 1 ∨ l = 3 then 0
          else if 6 ≤ l ∧ l ≤ 8 then 5 else -1 } }

/-- The text `a(b(c)d)e` without comments or strings, the caret being just
after the last closing brace. -/
def nestedBraces : TextEditor where
  text := "a(b(c)d)e".data
  currentPos := 8
  selectionStart := 8
  selectionEnd := 8
  IsCommentOrString := fun _ => false
  IsDefaultContext := false
  eolString := ['\n']
  undoDepth := 0
  undoStack := []
  m_modifiedLines := []
  m_lastCharEntered := 'e'
  m_lastCharEnteredPos := 8
  m_autoAddMatchedCurlyBrace := true
  m_disableSmartIndent := false
  trimLine := false
  appendLF := false
  trimOnlyModifiedLines := false
  dontTrimCaretLine := false
  calls := []

/-- The flags of `TrimText` as single bits. -/
def trimBits : TrimConstants where
  TRIM_ENABLED := 1
  TRIM_APPEND_LF := 2
  TRIM_MODIFIED_LINES := 4
  TRIM_IGNORE_CARET_LINE := 8

/-- A document `abc` of one line without line end; a line end is to be appended
on saving. -/
def unterminatedText : TextEditor :=
  { nestedBraces with
      text := "abc".data
      currentPos := 3
      selectionStart := 3
      selectionEnd := 3
      appendLF := true }

/-- A document with blanks at the end of its first line; lines are to be
trimmed on saving. -/
def blankEndedText : TextEditor :=
  { nestedBraces with
      text := "ab  \ncd".data
      currentPos := 6
      selectionStart := 6
      selectionEnd := 6
      trimLine := true }

/-- A save in which everything goes well. -/
def goodSave : SaveEnvironment where
  saveAllowed := true
  intermediateFileExists := false
  fileOpened := true
  mb_str := fun text => some text
  targetReadOnly := false
  continueAnswer := true
  renameFile := true

/-- A save in which the intermediate file cannot be opened for writing. -/
def unwritableSave : SaveEnvironment :=
  { goodSave with fileOpened := false }

/-- A save that a plugin vetoes. -/
def vetoedSave : SaveEnvironment :=
  { goodSave with saveAllowed := false }

/-- An indenter of the context that goes through the control: after a newline
it inserts four blanks at the caret and puts the caret behind them. -/
def sampleAutoIndent (ch : Char) (t : TextEditor) : TextEditor :=
  if ch = '\n' then
    (InsertText t t.currentPos [' ', ' ', ' ', ' ']).SetCaretAt (t.currentPos + 4)
  else t

/-- The text `if (x) {` followed by the newline just typed, the brace being the
character entered before it, at position 7. -/
def braceThenNewline : TextEditor :=
  { nestedBraces with
      text := "if (x) \x7b\n".data
      currentPos := 9
      selectionStart := 9
      selectionEnd := 9
      m_lastCharEntered := '{'
      m_lastCharEnteredPos := 7 }

/-- The text `f(a, {` followed by the newline just typed and by `b);` and a line
end, the brace being the character entered before the newline, at position 5. -/
def braceBeforeCode : TextEditor :=
  { nestedBraces with
      text := "f(a, \x7b\nb);\n".data
      currentPos := 7
      selectionStart := 7
      selectionEnd := 7
      m_lastCharEntered := '{'
      m_lastCharEnteredPos := 5 }

/-- The text `f(a, {b);` and a line end, the caret being behind the brace just
entered at position 5, before the newline is typed. -/
def braceTyped : TextEditor :=
  { nestedBraces with
      text := "f(a, \x7bb);\n".data
      currentPos := 6
      selectionStart := 6
      selectionEnd := 6
      m_lastCharEntered := '{'
      m_lastCharEnteredPos := 5 }

/-- A statement followed by an opening brace, the caret at the end of the text,
nothing of it comment or string. -/
def braceAfterStatement : TextEditor :=
  { nestedBraces with
      text := "a;\x7bb".toList
      currentPos := 4 }

/-- A text whose first line ends with a carriage return and a line feed. -/
def crlfText : TextEditor :=
  { nestedBraces with text := "ab\r\ncd\nef".toList }

/-- The control holding the document of an accented letter (U+00E9), a carriage
return and a line feed: the two bytes of the letter in UTF-8 and the two
bytes of the line end. -/
def accentedCrlfText : TextEditor :=
  { nestedBraces with text := utf8Encode [Char.ofNat 0xE9, '\r', '\n'] }

/-- An editor with a bookmark of the first type and one of the second type on
line 0, and nothing else. -/
def bookmarksOnFirstLine : clEditor :=
  { sampleEditor with
      ctrl := { sampleCtrl with
        markers := [{ handle := 2, line := 0, number := 4 }, { handle := 1, line := 0, number := 3 }],
        handleCurrent := 2 } }

/-- A document that starts with the description of a notebook tab, which is
selected, the caret being at the end of the selection. -/
def tabDescriptionSelected : TextEditor :=
  { nestedBraces with
      text := "\x7bClass:Notebook,TabIndex:1\x7d\x7bx\x7d yz".toList
      selectionStart := 0
      selectionEnd := 30
      currentPos := 30 }

/-- The document `one two three` with `two ` selected. -/
def wordSelected : TextEditor :=
  { nestedBraces with
      text := "one two three".toList
      selectionStart := 4
      selectionEnd := 8
      currentPos := 8 }

/-- The same line of the same function found in two files. -/
def sameLineInTwoFiles : List (List Char × List CscopeEntryData) :=
  [("a.c".toList,
      [{ m_file := "a.c".toList, m_line := 3, m_scope := "main".toList, m_pattern := "int x;".toList }]),
   ("b.c".toList,
      [{ m_file := "b.c".toList, m_line := 3, m_scope := "main".toList, m_pattern := "int x;".toList }])]

/-- A tab with nothing in its match view. -/
def emptyTab : CscopeTab where
  m_stc := []
  m_matchesInStc := []

/-- A document of three lines that end in blanks, of which the third is the
only one the map of the modified lines knows; the caret is on the first. -/
def modifiedThirdLine : TextEditor :=
  { nestedBraces with
      text := "a \nb\t\nc  ".toList
      currentPos := 0
      m_modifiedLines := [(2, LineStatus.LINE_MODIFIED)] }

/-- The document `x ( y (` after an opening parenthesis was typed over the two
selected words of `x abc y de`, with the undo step of the typing. -/
def typedOverSelections : TextEditor :=
  { nestedBraces with
      text := "x ( y (".toList
      currentPos := 7
      selectionStart := 7
      selectionEnd := 7
      undoDepth := 0
      undoStack := [("x abc y de".toList, 10)]
      m_prevSelectionInfo := [(2, 5), (8, 10)] }

/-- An editor with one breakpoint, stored for line 10 of the file under the
handle of a marker that the control has meanwhile moved to line index 11. -/
def movedBreakpointEditor : clEditor :=
  { sampleEditor with
      ctrl := { sampleCtrl with
        markers := [{ handle := 1, line := 11, number := 14 }],
        handleCurrent := 1 }
      m_breakpointsInfo := [(1, [sampleBreakpoint])] }

/-- A document of three lines, the first ended by a carriage return alone, the
second, of two blanks, by a line feed; the third ends in two blanks.  The
caret is on the first line. -/
def mixedLineEnds : TextEditor :=
  { nestedBraces with
      text := "a\r  \nb  ".toList
      currentPos := 0 }

/-- A document of two lines that end in blanks, each ended by a carriage return
and a line feed. -/
def crlfLines : TextEditor :=
  { nestedBraces with
      text := "ab  \r\ncd\t\r\n".toList
      currentPos := 0 }

/-! # Properties -/

/-! ## Modification tracker: lemmas -/

theorem lookup_modifiedLinesAssign (m : List (Int × LineStatus)) (k : Int) (v : LineStatus)
    (j : Int) :
    modifiedLinesFind (modifiedLinesAssign m k v) j
      = if j = k then some v else modifiedLinesFind m j := by
  induction m with
  | nil =>
    by_cases h : j = k
    · simp [modifiedLinesAssign, modifiedLinesFind, h]
    · have h2 : ¬ k = j := fun x => h x.symm
      simp [modifiedLinesAssign, modifiedLinesFind, h, h2]
  | cons p rest ih =>
    obtain ⟨k1, v1⟩ := p
    by_cases hk : k1 = k
    · subst hk
      by_cases h : j = k1
      · simp [modifiedLinesAssign, modifiedLinesFind, h]
      · have h2 : ¬ k1 = j := fun x => h x.symm
        simp [modifiedLinesAssign, modifiedLinesFind, h, h2]
    · by_cases h1 : k1 = j
      · have hjk : ¬ j = k := fun h => hk (h1.trans h)
        simp [modifiedLinesAssign, modifiedLinesFind, hk, h1, hjk]
      · simp [modifiedLinesAssign, modifiedLinesFind, hk, h1, ih]

theorem lookup_foldl_assign (curline : Int) (j : Int) (t : Nat) :
    ∀ m : List (Int × LineStatus),
      modifiedLinesFind ((List.range t).foldl
        (fun acc (i : Nat) =>
          modifiedLinesAssign acc (curline + (i : Int)) LineStatus.LINE_MODIFIED) m) j
      = if curline ≤ j ∧ j < curline + (t : Int) then some LineStatus.LINE_MODIFIED
        else modifiedLinesFind m j := by
  induction t with
  | zero =>
    intro m
    have h0 : ¬ (curline ≤ j ∧ j < curline + ((0 : Nat) : Int)) := by
      intro h; omega
    rw [if_neg h0]; rfl
  | succ t ih =>
    intro m
    rw [List.range_succ, List.foldl_append]
    simp only [List.foldl_cons, List.foldl_nil]
    rw [lookup_modifiedLinesAssign, ih]
    by_cases h1 : j = curline + (t : Int)
    · have h3 : curline ≤ j ∧ j < curline + ((t + 1 : Nat) : Int) := by
        constructor <;> omega
      rw [if_pos h1, if_pos h3]
    · rw [if_neg h1]
      by_cases h2 : curline ≤ j ∧ j < curline + (t : Int)
      · have h3 : curline ≤ j ∧ j < curline + ((t + 1 : Nat) : Int) := by
          constructor <;> omega
        rw [if_pos h2, if_pos h3]
      · have h3 : ¬ (curline ≤ j ∧ j < curline + ((t + 1 : Nat) : Int)) := by
          intro h; apply h2; constructor <;> omega
        rw [if_neg h2, if_neg h3]

theorem lookup_markModifiedLines (m : List (Int × LineStatus)) (curline numlines j : Int) :
    modifiedLinesFind (markModifiedLines m curline numlines) j
      = if curline ≤ j ∧ j ≤ curline + numlines then some LineStatus.LINE_MODIFIED
        else modifiedLinesFind m j := by
  unfold markModifiedLines
  rw [lookup_foldl_assign]
  by_cases h : curline ≤ j ∧ j ≤ curline + numlines
  · have h3 : curline ≤ j ∧ j < curline + (((numlines + 1).toNat : Nat) : Int) := by
      constructor <;> omega
    rw [if_pos h, if_pos h3]
  · have h3 : ¬ (curline ≤ j ∧ j < curline + (((numlines + 1).toNat : Nat) : Int)) := by
      intro h2; apply h; constructor <;> omega
    rw [if_neg h, if_neg h3]

theorem lookup_markSaved (m : List (Int × LineStatus)) (j : Int) :
    modifiedLinesFind (markSaved m) j
      = (modifiedLinesFind m j).map
          (fun s => if s = LineStatus.LINE_MODIFIED then LineStatus.LINE_SAVED else s) := by
  induction m with
  | nil => simp [markSaved, modifiedLinesFind]
  | cons p rest ih =>
    obtain ⟨k1, v1⟩ := p
    have ih2 : modifiedLinesFind (List.map (fun p : Int × LineStatus =>
        (p.1, if p.2 = LineStatus.LINE_MODIFIED then LineStatus.LINE_SAVED else p.2)) rest) j
        = (modifiedLinesFind rest j).map
          (fun s => if s = LineStatus.LINE_MODIFIED then LineStatus.LINE_SAVED else s) := ih
    by_cases h : k1 = j
    · simp [markSaved, modifiedLinesFind, h]
    · simp [markSaved, modifiedLinesFind, h, ih2]

theorem UpdateBreakpoints_fields (e : clEditor) :
    (UpdateBreakpoints e).m_modifiedLines = e.m_modifiedLines ∧
    (UpdateBreakpoints e).m_reloadingFile = e.m_reloadingFile ∧
    (UpdateBreakpoints e).ctrl = e.ctrl ∧
    (UpdateBreakpoints e).m_clearModifiedLines = e.m_clearModifiedLines := by
  simp [UpdateBreakpoints]

theorem OnChange_recordCommand_fields (e : clEditor) (recording : Bool)
    (event : wxStyledTextEvent) :
    (OnChange_recordCommand e recording event).m_modifiedLines = e.m_modifiedLines ∧
    (OnChange_recordCommand e recording event).m_reloadingFile = e.m_reloadingFile ∧
    (OnChange_recordCommand e recording event).ctrl = e.ctrl ∧
    (OnChange_recordCommand e recording event).m_clearModifiedLines
      = e.m_clearModifiedLines := by
  unfold OnChange_recordCommand
  split_ifs <;> simp [logCalls]

theorem OnChange_cacheDeltas_fields (e : clEditor) (isUndo isDelete : Bool)
    (event : wxStyledTextEvent) :
    (OnChange_cacheDeltas e isUndo isDelete event).m_modifiedLines = e.m_modifiedLines ∧
    (OnChange_cacheDeltas e isUndo isDelete event).m_reloadingFile = e.m_reloadingFile ∧
    (OnChange_cacheDeltas e isUndo isDelete event).ctrl = e.ctrl ∧
    (OnChange_cacheDeltas e isUndo isDelete event).m_clearModifiedLines
      = e.m_clearModifiedLines := by
  unfold OnChange_cacheDeltas
  split_ifs <;> simp [logCalls]

theorem OnChange_syncBreakpoints_fields (e : clEditor) (numlines : Int) :
    (OnChange_syncBreakpoints e numlines).m_modifiedLines = e.m_modifiedLines ∧
    (OnChange_syncBreakpoints e numlines).m_reloadingFile = e.m_reloadingFile ∧
    (OnChange_syncBreakpoints e numlines).ctrl = e.ctrl ∧
    (OnChange_syncBreakpoints e numlines).m_clearModifiedLines
      = e.m_clearModifiedLines := by
  unfold OnChange_syncBreakpoints
  split_ifs <;> simp [UpdateBreakpoints, logCalls]

/-- The blocks of `OnChange` before the last one leave the tracker, the reload
flag, the control and the clear request alone. -/
theorem OnChange_blocks_fields (e : clEditor) (recording isUndo isDelete : Bool)
    (event : wxStyledTextEvent) (numlines : Int) :
    (OnChange_syncBreakpoints
      (OnChange_cacheDeltas (OnChange_recordCommand e recording event) isUndo isDelete event)
      numlines).m_modifiedLines = e.m_modifiedLines ∧
    (OnChange_syncBreakpoints
      (OnChange_cacheDeltas (OnChange_recordCommand e recording event) isUndo isDelete event)
      numlines).m_reloadingFile = e.m_reloadingFile ∧
    (OnChange_syncBreakpoints
      (OnChange_cacheDeltas (OnChange_recordCommand e recording event) isUndo isDelete event)
      numlines).ctrl = e.ctrl ∧
    (OnChange_syncBreakpoints
      (OnChange_cacheDeltas (OnChange_recordCommand e recording event) isUndo isDelete event)
      numlines).m_clearModifiedLines = e.m_clearModifiedLines := by
  obtain ⟨a1, a2, a3, a4⟩ := OnChange_recordCommand_fields e recording event
  obtain ⟨b1, b2, b3, b4⟩ := OnChange_cacheDeltas_fields
    (OnChange_recordCommand e recording event) isUndo isDelete event
  obtain ⟨c1, c2, c3, c4⟩ := OnChange_syncBreakpoints_fields
    (OnChange_cacheDeltas (OnChange_recordCommand e recording event) isUndo isDelete event)
    numlines
  exact ⟨c1.trans (b1.trans a1), c2.trans (b2.trans a2), c3.trans (b3.trans a3),
    c4.trans (b4.trans a4)⟩

theorem OnChange_trackLines_clear (e : clEditor) (event : wxStyledTextEvent) (numlines : Int) :
    (OnChange_trackLines e event numlines).m_clearModifiedLines = e.m_clearModifiedLines := by
  unfold OnChange_trackLines
  split_ifs <;> simp

theorem OnChange_clearModifiedLines (e : clEditor) (cmd : CommandsProcessorView)
    (event : wxStyledTextEvent) :
    (OnChange e cmd event).m_clearModifiedLines = e.m_clearModifiedLines := by
  unfold OnChange
  simp only []
  split_ifs
  · rfl
  · rfl
  · rw [OnChange_trackLines_clear]
    exact (OnChange_blocks_fields e _ _ _ event _).2.2.2
  · rfl

theorem OnSavePoint_savedMap (e : clEditor) (hvis : e.m_isVisible = true)
    (hclear : e.m_clearModifiedLines = false) :
    (OnSavePoint e).m_modifiedLines = markSaved e.m_modifiedLines := by
  unfold OnSavePoint
  simp only [hvis, hclear]
  split_ifs <;> simp_all

/-! ## Modification tracker: claims -/

/-- C1: for an insert or delete notification handled by `OnChange` (both
assertions on the command processor passing), a reloading editor keeps its
modified-lines map, and otherwise the new map sends every line between the line
of the change position and that line plus `linesAdded` to `LINE_MODIFIED` and
every other line to the status it had. -/
theorem OnChange_modifiedLines (e : clEditor) (cmd : CommandsProcessorView)
    (event : wxStyledTextEvent)
    (hmod : event.modificationType &&& wxSTC_MOD_INSERTTEXT ≠ 0 ∨
      event.modificationType &&& wxSTC_MOD_DELETETEXT ≠ 0)
    (hcmd : cmd.hasOpenCommand = true ∧ cmd.canAppend = true) :
    (e.m_reloadingFile = true →
      (OnChange e cmd event).m_modifiedLines = e.m_modifiedLines) ∧
    (e.m_reloadingFile = false → ∀ line : Int,
      modifiedLinesFind (OnChange e cmd event).m_modifiedLines line
        = if LineFromPosition e.ctrl event.position ≤ line ∧
              line ≤ LineFromPosition e.ctrl event.position + event.linesAdded
          then some LineStatus.LINE_MODIFIED
          else modifiedLinesFind e.m_modifiedLines line) := by
  obtain ⟨hc1, hc2⟩ := hcmd
  have hmod2 : (event.modificationType &&& wxSTC_MOD_INSERTTEXT != 0 ||
      event.modificationType &&& wxSTC_MOD_DELETETEXT != 0) = true := by
    rcases hmod with h | h
    · simp [h]
    · simp [h]
  have hrun : OnChange e cmd event
      = OnChange_trackLines
        (OnChange_syncBreakpoints
          (OnChange_cacheDeltas
            (OnChange_recordCommand e
              (!e.m_reloadingFile && !(event.modificationType &&& wxSTC_PERFORMED_UNDO != 0)
                && !(event.modificationType &&& wxSTC_PERFORMED_REDO != 0)) event)
            (event.modificationType &&& wxSTC_PERFORMED_UNDO != 0)
            (event.modificationType &&& wxSTC_MOD_DELETETEXT != 0) event)
          event.linesAdded)
        event event.linesAdded := by
    unfold OnChange
    simp only [hmod2, hc1, hc2]
    simp
  rw [hrun]
  generalize (!e.m_reloadingFile && !(event.modificationType &&& wxSTC_PERFORMED_UNDO != 0)
    && !(event.modificationType &&& wxSTC_PERFORMED_REDO != 0)) = recording
  generalize (event.modificationType &&& wxSTC_PERFORMED_UNDO != 0) = isUndo
  generalize (event.modificationType &&& wxSTC_MOD_DELETETEXT != 0) = isDelete
  obtain ⟨hm, hr2, hctrl, _⟩ :=
    OnChange_blocks_fields e recording isUndo isDelete event event.linesAdded
  unfold OnChange_trackLines
  constructor
  · intro hr
    rw [hr2, hr]
    simpa using hm
  · intro hr line
    rw [hr2, hr, hctrl, hm]
    by_cases hn : event.linesAdded = 0
    · simp only [hn, Bool.not_false, if_true, lookup_modifiedLinesAssign]
      by_cases hl : line = LineFromPosition e.ctrl event.position
      · have hc : LineFromPosition e.ctrl event.position ≤ line ∧
            line ≤ LineFromPosition e.ctrl event.position + 0 := by
          constructor <;> omega
        rw [if_pos hl, if_pos hc]
      · have hc : ¬ (LineFromPosition e.ctrl event.position ≤ line ∧
            line ≤ LineFromPosition e.ctrl event.position + 0) := by
          intro h; apply hl; omega
        rw [if_neg hl, if_neg hc]
    · simp only [hn, Bool.not_false, if_true, if_false, lookup_markModifiedLines]

/-- Witness of C1: the sample insertion at line 5 adding two lines marks line 6. -/
theorem OnChange_modifiedLines_witness :
    modifiedLinesFind (OnChange sampleEditor sampleCmd sampleInsert).m_modifiedLines 6
      = some LineStatus.LINE_MODIFIED := by
  have h := (OnChange_modifiedLines sampleEditor sampleCmd sampleInsert
    (by decide) (by decide)).2 (by rfl) 6
  rw [h]
  decide

/-- C2 (evaluation at the failing input): after the sample deletion that
removes a line break on line 5, `OnChange` has recorded no status for line 5. -/
theorem OnChange_line_break_removed :
    LineFromPosition sampleEditor.ctrl sampleDelete.position = 5 ∧
    sampleDelete.modificationType &&& wxSTC_MOD_DELETETEXT ≠ 0 ∧
    sampleEditor.m_reloadingFile = false ∧
    modifiedLinesFind (OnChange sampleEditor sampleCmd sampleDelete).m_modifiedLines 5
      = none := by
  decide

/-- C3 (counterexample): a hidden editor with no clear request pending keeps
line 3 in status `LINE_MODIFIED` across `OnSavePoint`. -/
theorem OnSavePoint_hidden_keeps_modified :
    hiddenEditor.m_clearModifiedLines = false ∧
    modifiedLinesFind hiddenEditor.m_modifiedLines 3 = some LineStatus.LINE_MODIFIED ∧
    modifiedLinesFind (OnSavePoint hiddenEditor).m_modifiedLines 3
      = some LineStatus.LINE_MODIFIED := by
  decide

/-- C3 (amended): for a visible editor with no clear request pending, after
`OnSavePoint` no line is `LINE_MODIFIED`: a line that was `LINE_MODIFIED` is
`LINE_SAVED`, and every other line keeps its status (or stays absent). -/
theorem OnSavePoint_marks_saved (e : clEditor) (hvis : e.m_isVisible = true)
    (hclear : e.m_clearModifiedLines = false) :
    (∀ line : Int, modifiedLinesFind (OnSavePoint e).m_modifiedLines line
        = (modifiedLinesFind e.m_modifiedLines line).map
            (fun s => if s = LineStatus.LINE_MODIFIED then LineStatus.LINE_SAVED else s)) ∧
    (∀ line : Int, modifiedLinesFind (OnSavePoint e).m_modifiedLines line
        ≠ some LineStatus.LINE_MODIFIED) := by
  have key : (OnSavePoint e).m_modifiedLines = markSaved e.m_modifiedLines := by
    unfold OnSavePoint
    simp only [hvis, hclear]
    split_ifs <;> simp_all
  have h1 : ∀ line : Int, modifiedLinesFind (OnSavePoint e).m_modifiedLines line
        = (modifiedLinesFind e.m_modifiedLines line).map
            (fun s => if s = LineStatus.LINE_MODIFIED then LineStatus.LINE_SAVED else s) := by
    intro line
    rw [key, lookup_markSaved]
  refine ⟨h1, ?_⟩
  intro line
  rw [h1]
  cases hf : modifiedLinesFind e.m_modifiedLines line with
  | none => simp
  | some s => cases s <;> simp

/-- Witness of C3 (amended): in the sample editor with tracked lines, line 3
(modified) is saved after `OnSavePoint`. -/
theorem OnSavePoint_marks_saved_witness :
    modifiedLinesFind (OnSavePoint trackedEditor).m_modifiedLines 3
      = some LineStatus.LINE_SAVED := by
  have h := (OnSavePoint_marks_saved trackedEditor (by decide) (by decide)).1 3
  rw [h]
  decide

/-- C4 (counterexample): with unsaved changes in the buffer, the `OnSavePoint`
that follows `ClearModifiedLines` neither empties the map nor resets the
request. -/
theorem OnSavePoint_clear_not_honoured :
    (OnSavePoint (ClearModifiedLines dirtyEditor)).m_modifiedLines
      = [(3, LineStatus.LINE_SAVED)] ∧
    (OnSavePoint (ClearModifiedLines dirtyEditor)).m_clearModifiedLines = true := by
  decide

/-- C4 (amended): when the editor is visible, the buffer has no unsaved changes
and change tracking is on, the `OnSavePoint` that follows `ClearModifiedLines`
leaves the map empty and resets the request; after any further change
notifications a later `OnSavePoint` clears nothing: every line recorded in the
map is still recorded. -/
theorem OnSavePoint_clear_one_shot (e : clEditor) (hvis : e.m_isVisible = true)
    (hmod : e.ctrl.modify = false) (htrack : e.m_trackChanges = true) :
    (OnSavePoint (ClearModifiedLines e)).m_modifiedLines = [] ∧
    (OnSavePoint (ClearModifiedLines e)).m_clearModifiedLines = false ∧
    ∀ (changes : List (CommandsProcessorView × wxStyledTextEvent)) (line : Int),
      (modifiedLinesFind (OnSavePoint (changes.foldl (fun s x => OnChange s x.1 x.2)
          (OnSavePoint (ClearModifiedLines e)))).m_modifiedLines line).isSome
        = (modifiedLinesFind (changes.foldl (fun s x => OnChange s x.1 x.2)
          (OnSavePoint (ClearModifiedLines e))).m_modifiedLines line).isSome := by
  have hflag : (OnSavePoint (ClearModifiedLines e)).m_clearModifiedLines = false := by
    simp [OnSavePoint, ClearModifiedLines, hvis, hmod, htrack]
  refine ⟨?_, hflag, ?_⟩
  · simp [OnSavePoint, ClearModifiedLines, hvis, hmod, htrack]
  · intro changes line
    have hkeep : ∀ (l : List (CommandsProcessorView × wxStyledTextEvent)) (s : clEditor),
        s.m_clearModifiedLines = false →
        (l.foldl (fun s x => OnChange s x.1 x.2) s).m_clearModifiedLines = false := by
      intro l
      induction l with
      | nil => intro s hs; simpa using hs
      | cons x rest ih =>
        intro s hs
        simp only [List.foldl_cons]
        apply ih
        rw [OnChange_clearModifiedLines]; exact hs
    have h2 := hkeep changes _ hflag
    generalize changes.foldl (fun s x => OnChange s x.1 x.2)
      (OnSavePoint (ClearModifiedLines e)) = e2 at h2 ⊢
    by_cases hv : e2.m_isVisible = true
    · rw [(OnSavePoint_savedMap e2 hv h2), lookup_markSaved]
      cases modifiedLinesFind e2.m_modifiedLines line <;> simp
    · have : OnSavePoint e2 = e2 := by
        simp [OnSavePoint, hv]
      rw [this]

/-- Witness of C4 (amended): the sample editor with tracked lines has an empty
map after a clear request and a save point. -/
theorem OnSavePoint_clear_one_shot_witness :
    (OnSavePoint (ClearModifiedLines trackedEditor)).m_modifiedLines = [] :=
  (OnSavePoint_clear_one_shot trackedEditor (by decide) (by decide) (by decide)).1

/-! ## Margin renderer -/

theorem mem_DoUpdateLineNumbers (e : clEditor) (relative_numbers force : Bool) (call : Call)
    (h : call ∈ DoUpdateLineNumbers e relative_numbers force) :
    ∃ l ∈ renderedLines e,
      call = Call.MarginSetText l
          (formatLineNumber (lineToRender relative_numbers (GetCurrentLine e.ctrl) l)) ∨
      call = Call.MarginSetStyle l (marginStyle e (GetCurrentLine e.ctrl) l) := by
  unfold DoUpdateLineNumbers at h
  simp only [] at h
  split_ifs at h
  · simp at h
  · simp at h
  · rw [List.mem_flatMap] at h
    obtain ⟨d, hd, hcall⟩ := h
    unfold linesToDraw at hd
    rw [List.mem_map] at hd
    obtain ⟨l, hl, rfl⟩ := hd
    refine ⟨l, hl, ?_⟩
    simpa using hcall

theorem DoUpdateLineNumbers_forced (e : clEditor) (relative_numbers : Bool) (l : Int)
    (hl : l ∈ renderedLines e) :
    Call.MarginSetText l
        (formatLineNumber (lineToRender relative_numbers (GetCurrentLine e.ctrl) l))
      ∈ DoUpdateLineNumbers e relative_numbers true ∧
    Call.MarginSetStyle l (marginStyle e (GetCurrentLine e.ctrl) l)
      ∈ DoUpdateLineNumbers e relative_numbers true := by
  unfold DoUpdateLineNumbers
  simp only []
  rw [if_neg (by simp), if_neg (by simp)]
  constructor
  · rw [List.mem_flatMap]
    exact ⟨(l, lineToRender relative_numbers (GetCurrentLine e.ctrl) l),
      by unfold linesToDraw; rw [List.mem_map]; exact ⟨l, hl, rfl⟩, by simp⟩
  · rw [List.mem_flatMap]
    exact ⟨(l, lineToRender relative_numbers (GetCurrentLine e.ctrl) l),
      by unfold linesToDraw; rw [List.mem_map]; exact ⟨l, hl, rfl⟩, by simp⟩

theorem lineToRender_eq (relative_numbers : Bool) (c l : Int) :
    lineToRender relative_numbers c l
      = if relative_numbers = true then (if l = c then l + 1 else |l - c|) else l + 1 := by
  unfold lineToRender
  cases relative_numbers
  · simp
  · simp only [if_true]
    rcases lt_trichotomy l c with h | h | h
    · rw [if_pos h, if_neg (by omega), abs_of_neg (by omega)]; omega
    · rw [if_neg (by omega), if_pos h, if_pos h]
    · rw [if_neg (by omega), if_neg (by omega), if_neg (by omega), abs_of_pos (by omega)]

/-- C5: every margin text `DoUpdateLineNumbers` writes for a line l is, in
relative mode, the decimal text of |l - c| when l is not the current line c and
of l + 1 when it is, and in absolute mode the decimal text of l + 1; a forced
update writes that text for every rendered line. -/
theorem DoUpdateLineNumbers_text (e : clEditor) (relative_numbers : Bool) :
    (∀ (force : Bool) (l : Int) (text : String),
      Call.MarginSetText l text ∈ DoUpdateLineNumbers e relative_numbers force →
      text = formatLineNumber
        (if relative_numbers = true then
          (if l = GetCurrentLine e.ctrl then l + 1 else |l - GetCurrentLine e.ctrl|)
         else l + 1)) ∧
    (∀ l ∈ renderedLines e,
      Call.MarginSetText l (formatLineNumber
        (if relative_numbers = true then
          (if l = GetCurrentLine e.ctrl then l + 1 else |l - GetCurrentLine e.ctrl|)
         else l + 1)) ∈ DoUpdateLineNumbers e relative_numbers true) := by
  constructor
  · intro force l text h
    obtain ⟨l2, _, hc | hc⟩ := mem_DoUpdateLineNumbers e relative_numbers force _ h
    · injection hc with h1 h2
      rw [h2, h1, lineToRender_eq]
    · cases hc
  · intro l hl
    rw [← lineToRender_eq]
    exact (DoUpdateLineNumbers_forced e relative_numbers l hl).1

/-- Witness of C5: with the caret on line 20 and relative numbers, lines 18 and
22 show "2" and line 20 shows "21". -/
theorem DoUpdateLineNumbers_text_witness :
    GetCurrentLine sampleEditor.ctrl = 20 ∧
    Call.MarginSetText 18 "2" ∈ DoUpdateLineNumbers sampleEditor true true ∧
    Call.MarginSetText 22 "2" ∈ DoUpdateLineNumbers sampleEditor true true ∧
    Call.MarginSetText 20 "21" ∈ DoUpdateLineNumbers sampleEditor true true ∧
    "2" = formatLineNumber
        (if true = true then
          (if (18 : Int) = GetCurrentLine sampleEditor.ctrl then 18 + 1
           else |18 - GetCurrentLine sampleEditor.ctrl|)
         else 18 + 1) :=
  ⟨by decide, by decide, by decide, by decide,
    (DoUpdateLineNumbers_text sampleEditor true).1 true 18 "2" (by decide)⟩

/-- C6 (evaluation at the failing input): for a document of one line with room
for ten lines on screen, `DoUpdateLineNumbers` renders line 0 and line 1, and
writes the margin text "2" for line 1, although line 0 is the last line of the
document. -/
theorem DoUpdateLineNumbers_renders_past_last_line :
    GetNumberOfLines oneLineEditor = 1 ∧
    renderedLines oneLineEditor = [0, 1] ∧
    Call.MarginSetText 1 "2" ∈ DoUpdateLineNumbers oneLineEditor false true := by
  decide

/-- C7: every margin style `DoUpdateLineNumbers` sets for a line depends only
on whether the line is the current line and, when change tracking is on, on the
status of the line in the modification map; a forced update sets a style for
every rendered line. -/
theorem DoUpdateLineNumbers_style (e : clEditor) (relative_numbers : Bool) :
    (∀ (force : Bool) (l : Int) (style : Int),
      Call.MarginSetStyle l style ∈ DoUpdateLineNumbers e relative_numbers force →
      (e.m_trackChanges = false →
        style = if l = GetCurrentLine e.ctrl then STYLE_CURRENT_LINE else STYLE_NORMAL_LINE) ∧
      (e.m_trackChanges = true →
        modifiedLinesFind e.m_modifiedLines l = some LineStatus.LINE_MODIFIED →
        style = if l = GetCurrentLine e.ctrl then STYLE_CURRENT_LINE_MODIFIED
          else STYLE_MODIFIED_LINE) ∧
      (e.m_trackChanges = true →
        modifiedLinesFind e.m_modifiedLines l = some LineStatus.LINE_SAVED →
        style = if l = GetCurrentLine e.ctrl then STYLE_CURRENT_LINE_SAVED
          else STYLE_SAVED_LINE) ∧
      (e.m_trackChanges = true →
        modifiedLinesFind e.m_modifiedLines l ≠ some LineStatus.LINE_MODIFIED →
        modifiedLinesFind e.m_modifiedLines l ≠ some LineStatus.LINE_SAVED →
        style = if l = GetCurrentLine e.ctrl then STYLE_CURRENT_LINE else STYLE_NORMAL_LINE)) ∧
    (∀ l ∈ renderedLines e,
      ∃ style, Call.MarginSetStyle l style ∈ DoUpdateLineNumbers e relative_numbers true) := by
  constructor
  · intro force l style h
    obtain ⟨l2, _, hc | hc⟩ := mem_DoUpdateLineNumbers e relative_numbers force _ h
    · cases hc
    · injection hc with h1 h2
      subst h1
      rw [h2]
      unfold marginStyle
      refine ⟨?_, ?_, ?_, ?_⟩
      · intro ht
        simp [ht]
      · intro ht hf
        simp [ht, hf]
      · intro ht hf
        simp [ht, hf]
      · intro ht hf1 hf2
        cases hf : modifiedLinesFind e.m_modifiedLines l with
        | none => simp [ht]
        | some s =>
          rw [hf] at hf1 hf2
          cases s
          · simp [ht]
          · exact absurd rfl hf1
          · exact absurd rfl hf2
  · intro l hl
    exact ⟨_, (DoUpdateLineNumbers_forced e relative_numbers l hl).2⟩

/-- Witness of C7: in the sample editor with tracked lines and the caret on
line 20, the style of the rendered line 18 (no status) is the normal one. -/
theorem DoUpdateLineNumbers_style_witness :
    Call.MarginSetStyle 18 STYLE_NORMAL_LINE ∈ DoUpdateLineNumbers trackedEditor true true ∧
    STYLE_NORMAL_LINE = (if (18 : Int) = GetCurrentLine trackedEditor.ctrl
      then STYLE_CURRENT_LINE else STYLE_NORMAL_LINE) :=
  ⟨by decide,
    ((DoUpdateLineNumbers_style trackedEditor true).1 true 18 STYLE_NORMAL_LINE
      (by decide)).2.2.2 (by decide) (by decide) (by decide)⟩

/-! ## Bookmarks -/

/-- Search of a predicate over the line numbers below `n`: a hit is the first
line satisfying it. -/
theorem find_range_some (p : Nat → Bool) (n l : Nat)
    (h : (List.range n).find? p = some l) :
    l < n ∧ p l = true ∧ ∀ j, j < l → p j = false := by
  induction n with
  | zero => simp at h
  | succ n ih =>
    rw [List.range_succ, List.find?_append] at h
    cases hf : (List.range n).find? p with
    | some l2 =>
      rw [hf] at h
      simp at h
      subst h
      obtain ⟨h1, h2, h3⟩ := ih hf
      exact ⟨by omega, h2, h3⟩
    | none =>
      rw [hf] at h
      simp at h
      obtain ⟨hp, hl⟩ := h
      subst hl
      refine ⟨by omega, hp, ?_⟩
      intro j hj
      have := List.find?_eq_none.mp hf j (List.mem_range.mpr hj)
      simpa using this

/-- Search of a predicate over the line numbers below `n`: a miss means no line
satisfies it. -/
theorem find_range_none (p : Nat → Bool) (n : Nat)
    (h : (List.range n).find? p = none) : ∀ j, j < n → p j = false := by
  intro j hj
  have := List.find?_eq_none.mp h j (List.mem_range.mpr hj)
  simpa using this

/-- What `MarkerNext` returns: either -1, and then no line of the document at
or after the start line carries the mask, or the first such line. -/
theorem MarkerNext_spec (c : wxStyledTextCtrl) (lineStart : Int) (mask : Nat) :
    (MarkerNext c lineStart mask = -1 ∧
      ∀ j : Nat, j < c.lineCount → lineStart ≤ (j : Int) → MarkerGet c (j : Int) &&& mask = 0) ∨
    (∃ l : Nat, MarkerNext c lineStart mask = (l : Int) ∧ l < c.lineCount ∧
      lineStart ≤ (l : Int) ∧ MarkerGet c (l : Int) &&& mask ≠ 0 ∧
      ∀ j : Nat, lineStart ≤ (j : Int) → j < l → MarkerGet c (j : Int) &&& mask = 0) := by
  unfold MarkerNext
  cases hf : (List.range c.lineCount).find?
      (fun (l : Nat) => decide (lineStart ≤ (l : Int)) && (MarkerGet c (l : Int) &&& mask != 0)) with
  | none =>
    left
    refine ⟨rfl, ?_⟩
    intro j hj hs
    have := find_range_none _ _ hf j hj
    simpa [hs] using this
  | some l =>
    right
    obtain ⟨h1, h2, h3⟩ := find_range_some _ _ _ hf
    simp at h2
    refine ⟨l, rfl, h1, h2.1, h2.2, ?_⟩
    intro j hs hj
    have := h3 j hj
    simpa [hs] using this

/-- C8 (counterexample): the caret line of `findMarkedEditor` carries the find
bookmark, so its marker bits intersect the all-bookmarks mask, and yet
`AddMarker` adds a marker to it: the bits change from 0x80 to 0x88. -/
theorem AddMarker_on_find_bookmark :
    MarkerGet findMarkedEditor.ctrl (GetCurrentLine findMarkedEditor.ctrl)
      &&& codeliteMarkers.mmt_all_bookmarks ≠ 0 ∧
    MarkerGet findMarkedEditor.ctrl (GetCurrentLine findMarkedEditor.ctrl) = 0x80 ∧
    MarkerGet (AddMarker codeliteMarkers findMarkedEditor).ctrl
      (GetCurrentLine findMarkedEditor.ctrl) = 0x88 ∧
    (AddMarker codeliteMarkers findMarkedEditor).ctrl.markers.length = 2 := by
  decide

/-- C8 (amended): when the marker bits of the caret line intersect the
standard-bookmarks mask, `AddMarker` is a no-op: the editor is left as it was,
so no marker is added, the marker bits of every line are unchanged and no
marker change is notified. -/
theorem AddMarker_noop_on_standard_bookmark (K : MarkerConstants) (e : clEditor)
    (hbits : MarkerGet e.ctrl (GetCurrentLine e.ctrl) &&& K.mmt_standard_bookmarks ≠ 0) :
    AddMarker K e = e ∧
    (AddMarker K e).ctrl.markers = e.ctrl.markers ∧
    (∀ line : Int, MarkerGet (AddMarker K e).ctrl line = MarkerGet e.ctrl line) ∧
    (AddMarker K e).log = e.log := by
  have h : AddMarker K e = e := by
    unfold AddMarker
    unfold GetCurrentLine at hbits
    simp [hbits]
  rw [h]
  exact ⟨rfl, rfl, fun _ => rfl, rfl⟩

/-- Witness of C8 (amended): the caret line of `bookmarkedEditor` carries a
standard bookmark and `AddMarker` leaves the editor alone. -/
theorem AddMarker_noop_on_standard_bookmark_witness :
    MarkerGet bookmarkedEditor.ctrl (GetCurrentLine bookmarkedEditor.ctrl)
      &&& codeliteMarkers.mmt_standard_bookmarks ≠ 0 ∧
    (AddMarker codeliteMarkers bookmarkedEditor).ctrl.markers = bookmarkedEditor.ctrl.markers :=
  ⟨by decide,
    (AddMarker_noop_on_standard_bookmark codeliteMarkers bookmarkedEditor (by decide)).2.1⟩

/-- C9: when some line of the document carries the active bookmark mask,
`FindNextMarker` finds a line of the document that carries it, centres it and
makes it visible; when a marked line lies below the caret line the found line
is the smallest of those, and otherwise it is the smallest marked line of the
document (wrap-around), which is what happens from the last marked line. -/
theorem FindNextMarker_wraps_around (K : MarkerConstants) (e : clEditor)
    (hmarked : ∃ l : Nat, l < e.ctrl.lineCount ∧
      MarkerGet e.ctrl (l : Int) &&& GetActiveBookmarkMask K e ≠ 0) :
    ∃ found : Nat,
      FindNextMarkerLine K e = (found : Int) ∧
      found < e.ctrl.lineCount ∧
      MarkerGet e.ctrl (found : Int) &&& GetActiveBookmarkMask K e ≠ 0 ∧
      (FindNextMarker K e).log = e.log ++
        [Call.CenterLine (found : Int), Call.EnsureVisible (found : Int),
         Call.EnsureCaretVisible] ∧
      ((∃ j : Nat, j < e.ctrl.lineCount ∧ GetCurrentLine e.ctrl < (j : Int) ∧
          MarkerGet e.ctrl (j : Int) &&& GetActiveBookmarkMask K e ≠ 0) →
        GetCurrentLine e.ctrl < (found : Int) ∧
        ∀ j : Nat, j < e.ctrl.lineCount → GetCurrentLine e.ctrl < (j : Int) →
          MarkerGet e.ctrl (j : Int) &&& GetActiveBookmarkMask K e ≠ 0 → found ≤ j) ∧
      ((¬ ∃ j : Nat, j < e.ctrl.lineCount ∧ GetCurrentLine e.ctrl < (j : Int) ∧
          MarkerGet e.ctrl (j : Int) &&& GetActiveBookmarkMask K e ≠ 0) →
        ∀ j : Nat, j < e.ctrl.lineCount →
          MarkerGet e.ctrl (j : Int) &&& GetActiveBookmarkMask K e ≠ 0 → found ≤ j) := by
  obtain ⟨m, hm, hmbits⟩ := hmarked
  have hlog : ∀ found : Nat, FindNextMarkerLine K e = (found : Int) →
      (FindNextMarker K e).log = e.log ++
        [Call.CenterLine (found : Int), Call.EnsureVisible (found : Int),
         Call.EnsureCaretVisible] := by
    intro found hfound
    unfold FindNextMarker
    simp [hfound]
  have hzero : LineFromPosition e.ctrl 0 = 0 := by simp [LineFromPosition]
  rcases MarkerNext_spec e.ctrl (GetCurrentLine e.ctrl + 1) (GetActiveBookmarkMask K e) with
    ⟨hnone, hno⟩ | ⟨l, hl, hlt, hge, hbits, hfirst⟩
  · -- nothing below the caret: the search restarts from the top
    rcases MarkerNext_spec e.ctrl 0 (GetActiveBookmarkMask K e) with
      ⟨hnone2, hno2⟩ | ⟨l, hl, hlt, _, hbits, hfirst⟩
    · exact absurd (hno2 m hm (by omega)) hmbits
    · have hfound : FindNextMarkerLine K e = (l : Int) := by
        unfold FindNextMarkerLine
        unfold GetCurrentLine at hnone
        simp only [hnone, hzero, hl]
        simp
      refine ⟨l, hfound, hlt, hbits, hlog l hfound, ?_, ?_⟩
      · rintro ⟨j, hj, hcj, hjb⟩
        exact absurd (hno j hj (by omega)) hjb
      · intro _ j hj hjb
        by_contra hlt2
        exact hjb (hfirst j (by omega) (by omega))
  · have hfound : FindNextMarkerLine K e = (l : Int) := by
      unfold FindNextMarkerLine
      unfold GetCurrentLine at hl
      simp only [hl]
      simp
    refine ⟨l, hfound, hlt, hbits, hlog l hfound, ?_, ?_⟩
    · intro _
      refine ⟨by omega, ?_⟩
      intro j hj hcj hjb
      by_contra hlt2
      exact hjb (hfirst j (by omega) (by omega))
    · intro hnot
      exact absurd ⟨l, hlt, by omega, hbits⟩ hnot

/-- Witness of C9: with bookmarks on lines 5 and 20 and the caret on line 20,
the last marked line, `FindNextMarker` goes to line 5, the first marked line. -/
theorem FindNextMarker_wraps_around_witness :
    FindNextMarkerLine codeliteMarkers twoBookmarksEditor = 5 ∧
    GetCurrentLine twoBookmarksEditor.ctrl = 20 ∧
    (FindNextMarker codeliteMarkers twoBookmarksEditor).log =
      [Call.CenterLine 5, Call.EnsureVisible 5, Call.EnsureCaretVisible] ∧
    ∃ found : Nat, FindNextMarkerLine codeliteMarkers twoBookmarksEditor = (found : Int) ∧
      found < twoBookmarksEditor.ctrl.lineCount := by
  refine ⟨by decide, by decide, by decide, ?_⟩
  obtain ⟨found, h1, h2, _⟩ :=
    FindNextMarker_wraps_around codeliteMarkers twoBookmarksEditor ⟨5, by decide, by decide⟩
  exact ⟨found, h1, h2⟩

/-! ## Breakpoints -/

/-- A marker added on a line of the document gets the next handle, and the
handle leads back to the line. -/
theorem MarkerAdd_handle (c : wxStyledTextCtrl) (line : Int) (markerNumber : Nat)
    (hline : 0 ≤ line ∧ line < (c.lineCount : Int)) :
    (MarkerAdd c line markerNumber).2 = c.handleCurrent + 1 ∧
    MarkerLineFromHandle (MarkerAdd c line markerNumber).1 (c.handleCurrent + 1) = line := by
  unfold MarkerAdd MarkerLineFromHandle
  simp [hline]

/-- Moving the markers of the lines from `i` on down by `k` commutes with the
lookup of a handle. -/
theorem find_handle_shift (ms : List MarkerHandleNumber) (i : Int) (k : Nat) (handle : Int) :
    (ms.map (fun m => if i ≤ m.line then { m with line := m.line + (k : Int) } else m)).find?
        (fun m => m.handle == handle)
      = (ms.find? (fun m => m.handle == handle)).map
          (fun m => if i ≤ m.line then { m with line := m.line + (k : Int) } else m) := by
  induction ms with
  | nil => rfl
  | cons m rest ih =>
    by_cases hh : m.handle = handle
    · by_cases hi : i ≤ m.line
      · simp [List.find?_cons, hh, hi]
      · simp [List.find?_cons, hh, hi]
    · have hb : (m.handle == handle) = false := by simpa using hh
      by_cases hi : i ≤ m.line
      · simp only [List.map_cons, List.find?_cons, hi, if_true, hb]
        exact ih
      · simp only [List.map_cons, List.find?_cons, hi, if_false, hb]
        exact ih

/-- A marker on line `l`, at or after the line where `k` lines are inserted,
is on line `l + k` afterwards. -/
theorem MarkerLineFromHandle_InsertLines (c : wxStyledTextCtrl) (i : Int) (k : Nat)
    (handle l : Int) (hl : MarkerLineFromHandle c handle = l) (h0 : 0 ≤ l) (hi : i ≤ l) :
    MarkerLineFromHandle (InsertLines c i k) handle = l + (k : Int) := by
  unfold MarkerLineFromHandle at hl ⊢
  unfold InsertLines
  simp only [find_handle_shift]
  cases hf : c.markers.find? (fun m => m.handle == handle) with
  | none =>
    rw [hf] at hl
    simp at hl
    omega
  | some m =>
    rw [hf] at hl
    simp at hl
    subst hl
    simp [hi]

/-- The handles stored in the table and the number of records under each are
left alone by `UpdateBreakpoints`. -/
theorem UpdateBreakpoints_handles (e : clEditor) :
    (UpdateBreakpoints e).m_breakpointsInfo.map (fun d => (d.1, d.2.length))
      = e.m_breakpointsInfo.map (fun d => (d.1, d.2.length)) := by
  unfold UpdateBreakpoints
  simp only [List.map_map]
  apply List.map_congr_left
  intro d _
  simp only [Function.comp]
  split_ifs <;> simp

/-- C10: `UpdateBreakpoints` keeps the handles and the number of records under
each, gives every record stored under a handle whose marker sits on line
`l ≥ 0` the line number `l + 1`, and pushes every stored list to the breakpoint
manager.  Hence a breakpoint registered by `SetBreakpointMarker` at line `n` of
the document, with a type of the marker table and a fresh handle, has line
number `n + k` once `k` lines have been inserted at or above its line and
`UpdateBreakpoints` has run. -/
theorem UpdateBreakpoints_lineno (e : clEditor) :
    (UpdateBreakpoints e).m_breakpointsInfo.map (fun d => (d.1, d.2.length))
      = e.m_breakpointsInfo.map (fun d => (d.1, d.2.length)) ∧
    (∀ d ∈ (UpdateBreakpoints e).m_breakpointsInfo, 0 ≤ MarkerLineFromHandle e.ctrl d.1 →
      ∀ bp ∈ d.2, bp.lineno = MarkerLineFromHandle e.ctrl d.1 + 1) ∧
    (∀ d ∈ (UpdateBreakpoints e).m_breakpointsInfo,
      Call.SetBreakpoints d.2 ∈ (UpdateBreakpoints e).log) ∧
    (∀ (n i : Int) (k : Nat) (bptype : BreakpointType) (is_disabled : Bool)
        (bps : List clDebuggerBreakpoint),
      1 ≤ n → n ≤ (e.ctrl.lineCount : Int) → 0 ≤ i → i ≤ n - 1 →
      (GetMarkerForBreakpt e bptype).isSome = true →
      (∀ d ∈ e.m_breakpointsInfo, d.1 ≤ e.ctrl.handleCurrent) →
      ∃ e1 stored, SetBreakpointMarker e n bptype is_disabled bps = some e1 ∧
        (e.ctrl.handleCurrent + 1, stored) ∈
          (UpdateBreakpoints { e1 with ctrl := InsertLines e1.ctrl i k }).m_breakpointsInfo ∧
        stored.length = bps.length ∧
        ∀ bp ∈ stored, bp.lineno = n + (k : Int)) := by
  refine ⟨UpdateBreakpoints_handles e, ?_, ?_, ?_⟩
  · intro d hd hline bp hbp
    unfold UpdateBreakpoints at hd
    simp only [List.mem_map] at hd
    obtain ⟨d0, _, hd0⟩ := hd
    by_cases h0 : MarkerLineFromHandle e.ctrl d0.1 ≥ 0
    · rw [if_pos h0] at hd0
      subst hd0
      simp only [List.mem_map] at hbp
      obtain ⟨bp0, _, hbp0⟩ := hbp
      subst hbp0
      rfl
    · rw [if_neg h0] at hd0
      subst hd0
      exact absurd hline h0
  · intro d hd
    unfold UpdateBreakpoints at hd ⊢
    simp only [List.mem_append, List.mem_flatMap]
    right
    exact ⟨d, hd, by simp⟩
  · intro n i k bptype is_disabled bps hn1 hn2 hi0 hi hsome hfresh
    obtain ⟨bpm, hbpm⟩ := Option.isSome_iff_exists.mp hsome
    have hline : 0 ≤ n - 1 ∧ n - 1 < (e.ctrl.lineCount : Int) := ⟨by omega, by omega⟩
    obtain ⟨hh, hl⟩ := MarkerAdd_handle e.ctrl (n - 1)
      (if is_disabled then bpm.marker_disabled else bpm.marker) hline
    have hany : e.m_breakpointsInfo.any (fun d => d.1 == e.ctrl.handleCurrent + 1) = false := by
      rw [List.any_eq_false]
      intro d hd
      have := hfresh d hd
      simp
      omega
    have hshift := MarkerLineFromHandle_InsertLines _ i k _ _ hl hline.1 hi
    have hset : SetBreakpointMarker e n bptype is_disabled bps = some
        { e with
          ctrl := (MarkerAdd e.ctrl (n - 1)
            (if is_disabled then bpm.marker_disabled else bpm.marker)).1
          log := e.log ++ [Call.NotifyMarkerChanged (n - 1)]
          m_breakpointsInfo := breakpointsInfoInsert e.m_breakpointsInfo
            (MarkerAdd e.ctrl (n - 1)
              (if is_disabled then bpm.marker_disabled else bpm.marker)).2 bps } := by
      unfold SetBreakpointMarker
      rw [hbpm]
    refine ⟨_, bps.map (fun bp =>
        { bp with lineno := n - 1 + (k : Int) + 1, origin := BreakpointOrigin.BO_Editor,
                  file := e.remotePathOrLocal }), hset, ?_, ?_, ?_⟩
    · unfold UpdateBreakpoints
      simp only [List.mem_map]
      refine ⟨(e.ctrl.handleCurrent + 1, bps), ?_, ?_⟩
      · simp only [hh, breakpointsInfoInsert, hany]
        simp
      · simp only [hshift]
        rw [if_pos (by omega)]
    · simp
    · intro bp hbp
      simp only [List.mem_map] at hbp
      obtain ⟨bp0, _, hbp0⟩ := hbp
      subst hbp0
      show n - 1 + (k : Int) + 1 = n + (k : Int)
      omega

/-- Witness of C10: a breakpoint registered at line 10 of the sample document
reports line 13 after three lines are inserted at the top of the document. -/
theorem UpdateBreakpoints_lineno_witness :
    (∃ e1, SetBreakpointMarker sampleEditor 10 BreakpointType.BP_type_break false
        [sampleBreakpoint] = some e1 ∧
      (UpdateBreakpoints { e1 with ctrl := InsertLines e1.ctrl 0 3 }).m_breakpointsInfo
        = [(1, [{ sampleBreakpoint with lineno := 13, origin := BreakpointOrigin.BO_Editor }])]) ∧
    ∃ e1 stored, SetBreakpointMarker sampleEditor 10 BreakpointType.BP_type_break false
        [sampleBreakpoint] = some e1 ∧
      (sampleEditor.ctrl.handleCurrent + 1, stored) ∈
        (UpdateBreakpoints { e1 with ctrl := InsertLines e1.ctrl 0 3 }).m_breakpointsInfo ∧
      stored.length = [sampleBreakpoint].length ∧
      ∀ bp ∈ stored, bp.lineno = 10 + ((3 : Nat) : Int) :=
  ⟨⟨_, rfl, by decide⟩,
    (UpdateBreakpoints_lineno sampleEditor).2.2.2 10 0 3 BreakpointType.BP_type_break false
      [sampleBreakpoint] (by decide) (by decide) (by decide) (by decide) (by decide)
      (by decide)⟩

/-! ## Change notification: synchronisation of the breakpoints -/

/-- What `UpdateBreakpoints` leaves in the record of calls: the calls recorded
before, and behind them the calls it makes, which do not depend on that
record. -/
theorem UpdateBreakpoints_log (e : clEditor) (l : List Call) :
    (UpdateBreakpoints { e with log := l }).log
      = l ++ (UpdateBreakpoints { e with log := [] }).log ∧
    (UpdateBreakpoints { e with log := l }).m_breakpointsInfo
      = (UpdateBreakpoints e).m_breakpointsInfo := by
  unfold UpdateBreakpoints
  simp

/-- The calls of `UpdateBreakpoints` begin with the one call that deletes the
breakpoints of the file; the others are of another kind. -/
theorem UpdateBreakpoints_calls (e : clEditor) :
    (UpdateBreakpoints { e with log := [] }).log.head?
      = some (Call.DeleteAllBreakpointsByFileName e.remotePathOrLocal) ∧
    (UpdateBreakpoints { e with log := [] }).log.count
      (Call.DeleteAllBreakpointsByFileName e.remotePathOrLocal) = 1 ∧
    ∀ x ∈ (UpdateBreakpoints { e with log := [] }).log, isBreakpointsCall x = true := by
  unfold UpdateBreakpoints
  simp only [List.nil_append, List.singleton_append, List.head?_cons, List.count_cons_self,
    true_and]
  constructor
  · rw [add_left_eq_self, List.count_eq_zero]
    intro hmem
    simp only [List.mem_flatMap] at hmem
    obtain ⟨d, _, hd⟩ := hmem
    simp at hd
  · intro x hx
    rw [List.mem_cons] at hx
    rcases hx with rfl | hx
    · rfl
    · simp only [List.mem_flatMap] at hx
      obtain ⟨d, _, hd⟩ := hx
      simp only [List.mem_cons, List.mem_singleton, List.not_mem_nil, or_false] at hd
      rcases hd with rfl | rfl <;> rfl

/-- The blocks of `OnChange` under `isInsert || isDelete`: the calls of the
other blocks, none of them to the breakpoint manager, and, exactly when lines
were added or removed outside a reload, what `UpdateBreakpoints` does. -/
theorem OnChange_blocks_breakpoints (e : clEditor) (recording isUndo isDelete : Bool)
    (event : wxStyledTextEvent) (numlines : Int) :
    ∃ other : List Call, (∀ x ∈ other, isBreakpointsCall x = false) ∧
      (OnChange_trackLines
        (OnChange_syncBreakpoints
          (OnChange_cacheDeltas (OnChange_recordCommand e recording event) isUndo isDelete event)
          numlines) event numlines).log
        = e.log ++ other ++
          (if numlines ≠ 0 ∧ e.m_reloadingFile = false
            then (UpdateBreakpoints { e with log := [] }).log else []) ∧
      (OnChange_trackLines
        (OnChange_syncBreakpoints
          (OnChange_cacheDeltas (OnChange_recordCommand e recording event) isUndo isDelete event)
          numlines) event numlines).m_breakpointsInfo
        = (if numlines ≠ 0 ∧ e.m_reloadingFile = false
            then (UpdateBreakpoints e).m_breakpointsInfo else e.m_breakpointsInfo) := by
  have h1 : ∃ l1 : List Call, (∀ x ∈ l1, isBreakpointsCall x = false) ∧
      OnChange_recordCommand e recording event = { e with log := e.log ++ l1 } := by
    unfold OnChange_recordCommand
    cases recording
    · exact ⟨[], by simp, by simp⟩
    · exact ⟨[Call.AppendToTextCommand event.position], by simp [isBreakpointsCall],
        by simp [logCalls]⟩
  have h2 : ∀ e2 : clEditor, ∃ l2 : List Call, (∀ x ∈ l2, isBreakpointsCall x = false) ∧
      OnChange_cacheDeltas e2 isUndo isDelete event = { e2 with log := e2.log ++ l2 } := by
    intro e2
    unfold OnChange_cacheDeltas
    cases isUndo
    · exact ⟨[Call.DeltasPush event.position (event.length * (if isDelete then -1 else 1))],
        by simp [isBreakpointsCall], by simp [logCalls]⟩
    · exact ⟨[Call.DeltasPop], by simp [isBreakpointsCall], by simp [logCalls]⟩
  have h4 : ∀ e4 : clEditor, (OnChange_trackLines e4 event numlines).log = e4.log ∧
      (OnChange_trackLines e4 event numlines).m_breakpointsInfo = e4.m_breakpointsInfo := by
    intro e4
    unfold OnChange_trackLines
    split_ifs <;> exact ⟨rfl, rfl⟩
  have hpre : ∃ l : List Call, (∀ x ∈ l, isBreakpointsCall x = false) ∧
      OnChange_cacheDeltas (OnChange_recordCommand e recording event) isUndo isDelete event
        = { e with log := e.log ++ l } := by
    obtain ⟨l1, hl1, e1⟩ := h1
    obtain ⟨l2, hl2, e2⟩ := h2 { e with log := e.log ++ l1 }
    refine ⟨l1 ++ l2, ?_, ?_⟩
    · intro x hx
      rcases List.mem_append.1 hx with h | h
      · exact hl1 x h
      · exact hl2 x h
    · rw [e1, e2]
      simp
  obtain ⟨l, hl, hpre⟩ := hpre
  rw [(h4 _).1, (h4 _).2, hpre]
  have hsync : OnChange_syncBreakpoints { e with log := e.log ++ l } numlines
      = if numlines ≠ 0 then
          if e.m_reloadingFile = false then UpdateBreakpoints { e with log := e.log ++ l }
          else { e with log := e.log ++ l ++ [Call.DeltasClear] }
        else { e with log := e.log ++ l } := rfl
  rw [hsync]
  by_cases hn : numlines ≠ 0
  · by_cases hr : e.m_reloadingFile = false
    · rw [if_pos hn, if_pos hr, if_pos ⟨hn, hr⟩, if_pos ⟨hn, hr⟩]
      exact ⟨l, hl, (UpdateBreakpoints_log e (e.log ++ l)).1,
        (UpdateBreakpoints_log e (e.log ++ l)).2⟩
    · rw [if_pos hn, if_neg hr, if_neg (fun h => hr h.2), if_neg (fun h => hr h.2)]
      refine ⟨l ++ [Call.DeltasClear], ?_, ?_, rfl⟩
      · intro x hx
        rcases List.mem_append.1 hx with h | h
        · exact hl x h
        · rw [List.mem_singleton] at h
          subst h
          rfl
      · simp
  · rw [if_neg hn, if_neg (fun h => hn h.1), if_neg (fun h => hn h.1)]
    exact ⟨l, hl, by simp, rfl⟩

/-- C11: `OnChange`, both assertions on the command processor passing, runs
`UpdateBreakpoints` when the notification is a text insertion or deletion with
`linesAdded ≠ 0` and the editor is not reloading, and does not otherwise: the
calls it has made are those of its other blocks, none of which goes to the
breakpoint manager, followed in the first case by the calls `UpdateBreakpoints`
makes (the breakpoints of the file are deleted once more than before), and the
table of breakpoints is the one `UpdateBreakpoints` leaves, in the other case
the one it was.  Whatever the command processor answers, a notification with
`linesAdded = 0` makes no call to the breakpoint manager and leaves the table
as it was. -/
theorem OnChange_calls_UpdateBreakpoints (e : clEditor) (cmd : CommandsProcessorView)
    (event : wxStyledTextEvent) :
    (cmd.hasOpenCommand = true ∧ cmd.canAppend = true →
      ∃ other : List Call, (∀ x ∈ other, isBreakpointsCall x = false) ∧
        (OnChange e cmd event).log
          = e.log ++ other ++
            (if (event.modificationType &&& wxSTC_MOD_INSERTTEXT ≠ 0 ∨
                  event.modificationType &&& wxSTC_MOD_DELETETEXT ≠ 0) ∧
                event.linesAdded ≠ 0 ∧ e.m_reloadingFile = false
              then (UpdateBreakpoints { e with log := [] }).log else []) ∧
        (OnChange e cmd event).m_breakpointsInfo
          = (if (event.modificationType &&& wxSTC_MOD_INSERTTEXT ≠ 0 ∨
                  event.modificationType &&& wxSTC_MOD_DELETETEXT ≠ 0) ∧
                event.linesAdded ≠ 0 ∧ e.m_reloadingFile = false
              then (UpdateBreakpoints e).m_breakpointsInfo else e.m_breakpointsInfo) ∧
        (OnChange e cmd event).log.count
            (Call.DeleteAllBreakpointsByFileName e.remotePathOrLocal)
          = e.log.count (Call.DeleteAllBreakpointsByFileName e.remotePathOrLocal)
            + (if (event.modificationType &&& wxSTC_MOD_INSERTTEXT ≠ 0 ∨
                  event.modificationType &&& wxSTC_MOD_DELETETEXT ≠ 0) ∧
                event.linesAdded ≠ 0 ∧ e.m_reloadingFile = false then 1 else 0)) ∧
    (event.linesAdded = 0 →
      ∃ other : List Call, (∀ x ∈ other, isBreakpointsCall x = false) ∧
        (OnChange e cmd event).log = e.log ++ other ∧
        (OnChange e cmd event).m_breakpointsInfo = e.m_breakpointsInfo) := by
  have hcount : ∀ (other : List Call) (f : String),
      (∀ x ∈ other, isBreakpointsCall x = false) →
      other.count (Call.DeleteAllBreakpointsByFileName f) = 0 := by
    intro other f h
    rw [List.count_eq_zero]
    intro hmem
    have := h _ hmem
    exact Bool.noConfusion this
  constructor
  · rintro ⟨hc1, hc2⟩
    by_cases hmod : event.modificationType &&& wxSTC_MOD_INSERTTEXT ≠ 0 ∨
        event.modificationType &&& wxSTC_MOD_DELETETEXT ≠ 0
    · have hmod2 : (event.modificationType &&& wxSTC_MOD_INSERTTEXT != 0 ||
          event.modificationType &&& wxSTC_MOD_DELETETEXT != 0) = true := by
        rcases hmod with h | h
        · simp [h]
        · simp [h]
      have hrun : OnChange e cmd event
          = OnChange_trackLines
              (OnChange_syncBreakpoints
                (OnChange_cacheDeltas
                  (OnChange_recordCommand e
                    (!e.m_reloadingFile &&
                      !(event.modificationType &&& wxSTC_PERFORMED_UNDO != 0) &&
                      !(event.modificationType &&& wxSTC_PERFORMED_REDO != 0)) event)
                  (event.modificationType &&& wxSTC_PERFORMED_UNDO != 0)
                  (event.modificationType &&& wxSTC_MOD_DELETETEXT != 0) event)
                event.linesAdded) event event.linesAdded := by
        unfold OnChange
        simp only [hmod2, hc1, hc2]
        simp
      obtain ⟨other, hother, hlog, hinfo⟩ := OnChange_blocks_breakpoints e
        (!e.m_reloadingFile &&
          !(event.modificationType &&& wxSTC_PERFORMED_UNDO != 0) &&
          !(event.modificationType &&& wxSTC_PERFORMED_REDO != 0))
        (event.modificationType &&& wxSTC_PERFORMED_UNDO != 0)
        (event.modificationType &&& wxSTC_MOD_DELETETEXT != 0) event event.linesAdded
      rw [← hrun] at hlog hinfo
      refine ⟨other, hother, ?_, ?_, ?_⟩
      · rw [hlog]
        by_cases hn : event.linesAdded ≠ 0 ∧ e.m_reloadingFile = false
        · rw [if_pos hn, if_pos ⟨hmod, hn⟩]
        · rw [if_neg hn, if_neg (fun h => hn h.2)]
      · rw [hinfo]
        by_cases hn : event.linesAdded ≠ 0 ∧ e.m_reloadingFile = false
        · rw [if_pos hn, if_pos ⟨hmod, hn⟩]
        · rw [if_neg hn, if_neg (fun h => hn h.2)]
      · rw [hlog, List.count_append, List.count_append, hcount other _ hother]
        by_cases hn : event.linesAdded ≠ 0 ∧ e.m_reloadingFile = false
        · rw [if_pos hn, if_pos ⟨hmod, hn⟩, (UpdateBreakpoints_calls e).2.1]
        · rw [if_neg hn, if_neg (fun h => hn h.2)]
          rfl
    · have hmod2 : (event.modificationType &&& wxSTC_MOD_INSERTTEXT != 0 ||
          event.modificationType &&& wxSTC_MOD_DELETETEXT != 0) = false := by
        push_neg at hmod
        simp [hmod.1, hmod.2]
      have hrun : OnChange e cmd event = e := by
        unfold OnChange
        simp only [hmod2]
        simp
      rw [hrun, if_neg (fun h => hmod h.1), if_neg (fun h => hmod h.1),
        if_neg (fun h => hmod h.1)]
      exact ⟨[], by simp, by simp, rfl, rfl⟩
  · intro hzero
    have hkeep : ∃ other : List Call, (∀ x ∈ other, isBreakpointsCall x = false) ∧
        e.log = e.log ++ other ∧ e.m_breakpointsInfo = e.m_breakpointsInfo :=
      ⟨[], by simp, by simp, rfl⟩
    unfold OnChange
    simp only []
    split_ifs
    · exact hkeep
    · exact hkeep
    · obtain ⟨other, hother, hlog, hinfo⟩ := OnChange_blocks_breakpoints e
        (!e.m_reloadingFile &&
          !(event.modificationType &&& wxSTC_PERFORMED_UNDO != 0) &&
          !(event.modificationType &&& wxSTC_PERFORMED_REDO != 0))
        (event.modificationType &&& wxSTC_PERFORMED_UNDO != 0)
        (event.modificationType &&& wxSTC_MOD_DELETETEXT != 0) event event.linesAdded
      rw [if_neg (fun h => h.1 hzero)] at hlog hinfo
      rw [List.append_nil] at hlog
      exact ⟨other, hother, hlog, hinfo⟩
    · exact hkeep

/-- Witness of C11: the insertion of two lines in the editor with the moved
breakpoint runs `UpdateBreakpoints`: after the two calls of the other blocks
the breakpoints of the file are deleted and the stored breakpoint is handed to
the breakpoint manager with the line of its marker, and the table holds it
with that line. -/
theorem OnChange_calls_UpdateBreakpoints_witness :
    (OnChange movedBreakpointEditor sampleCmd sampleInsert).log
      = [Call.AppendToTextCommand 55, Call.DeltasPush 55 3,
          Call.DeleteAllBreakpointsByFileName "main.cpp",
          Call.SetBreakpoints
            [{ sampleBreakpoint with lineno := 12, origin := BreakpointOrigin.BO_Editor }],
          Call.BreakpointViewInitialize] ∧
    (OnChange movedBreakpointEditor sampleCmd sampleInsert).m_breakpointsInfo
      = [(1, [{ sampleBreakpoint with lineno := 12, origin := BreakpointOrigin.BO_Editor }])] ∧
    (∃ other : List Call, (∀ x ∈ other, isBreakpointsCall x = false) ∧
      (OnChange movedBreakpointEditor sampleCmd sampleInsert).log
        = movedBreakpointEditor.log ++ other ++
          (if (sampleInsert.modificationType &&& wxSTC_MOD_INSERTTEXT ≠ 0 ∨
                sampleInsert.modificationType &&& wxSTC_MOD_DELETETEXT ≠ 0) ∧
              sampleInsert.linesAdded ≠ 0 ∧ movedBreakpointEditor.m_reloadingFile = false
            then (UpdateBreakpoints { movedBreakpointEditor with log := [] }).log else []) ∧
      (OnChange movedBreakpointEditor sampleCmd sampleInsert).m_breakpointsInfo
        = (if (sampleInsert.modificationType &&& wxSTC_MOD_INSERTTEXT ≠ 0 ∨
                sampleInsert.modificationType &&& wxSTC_MOD_DELETETEXT ≠ 0) ∧
              sampleInsert.linesAdded ≠ 0 ∧ movedBreakpointEditor.m_reloadingFile = false
            then (UpdateBreakpoints movedBreakpointEditor).m_breakpointsInfo
            else movedBreakpointEditor.m_breakpointsInfo) ∧
      (OnChange movedBreakpointEditor sampleCmd sampleInsert).log.count
          (Call.DeleteAllBreakpointsByFileName movedBreakpointEditor.remotePathOrLocal)
        = movedBreakpointEditor.log.count
            (Call.DeleteAllBreakpointsByFileName movedBreakpointEditor.remotePathOrLocal)
          + (if (sampleInsert.modificationType &&& wxSTC_MOD_INSERTTEXT ≠ 0 ∨
                sampleInsert.modificationType &&& wxSTC_MOD_DELETETEXT ≠ 0) ∧
              sampleInsert.linesAdded ≠ 0 ∧ movedBreakpointEditor.m_reloadingFile = false
            then 1 else 0)) :=
  ⟨by decide, by decide,
    (OnChange_calls_UpdateBreakpoints movedBreakpointEditor sampleCmd sampleInsert).1
      ⟨by decide, by decide⟩⟩

/-! ## Breakpoints: toggling -/

/-- C12: `ToggleBreakpoint` at a line (the line after the caret line when the
argument is -1) first offers the toggle event to the plugins.  When a plugin
handles it nothing else is requested.  Otherwise the breakpoint manager is asked
for the breakpoint at the file and line; when there is none the editor goes on
as `AddBreakpoint` with that line and the default arguments does, requesting an
unconditional, permanent, enabled breakpoint and no deletion, and when there is
one it goes on as `DelBreakpoint` with that line does, requesting its deletion
and no addition. -/
theorem ToggleBreakpoint_requests (e : clEditor) (mgr : BreakpointsManagerView) (lineno : Int) :
    (mgr.toggleEventHandled = true →
      (ToggleBreakpoint e mgr lineno).log = e.log ++
        [Call.ProcessToggleBreakpointEvent e.remotePathOrLocal
          (if lineno = -1 then GetCurrentLine e.ctrl + 1 else lineno)]) ∧
    (mgr.toggleEventHandled = false →
      mgr.breakpointIsNull e.remotePathOrLocal
        (if lineno = -1 then GetCurrentLine e.ctrl + 1 else lineno) = true →
      ToggleBreakpoint e mgr lineno
        = AddBreakpoint
            (logCalls e
              [Call.ProcessToggleBreakpointEvent e.remotePathOrLocal
                (if lineno = -1 then GetCurrentLine e.ctrl + 1 else lineno),
               Call.GetBreakpoint e.remotePathOrLocal
                (if lineno = -1 then GetCurrentLine e.ctrl + 1 else lineno)])
            mgr (if lineno = -1 then GetCurrentLine e.ctrl + 1 else lineno) "" false false ∧
      ∃ rest, (ToggleBreakpoint e mgr lineno).log = e.log ++
        [Call.ProcessToggleBreakpointEvent e.remotePathOrLocal
          (if lineno = -1 then GetCurrentLine e.ctrl + 1 else lineno),
         Call.GetBreakpoint e.remotePathOrLocal
          (if lineno = -1 then GetCurrentLine e.ctrl + 1 else lineno),
         Call.SetExpectingControl true,
         Call.AddBreakpointByLineno e.remotePathOrLocal
          (if lineno = -1 then GetCurrentLine e.ctrl + 1 else lineno) "" false false] ++ rest ∧
        ∀ file line, Call.DelBreakpointByLineno file line ∉ rest) ∧
    (mgr.toggleEventHandled = false →
      mgr.breakpointIsNull e.remotePathOrLocal
        (if lineno = -1 then GetCurrentLine e.ctrl + 1 else lineno) = false →
      ToggleBreakpoint e mgr lineno
        = DelBreakpoint
            (logCalls e
              [Call.ProcessToggleBreakpointEvent e.remotePathOrLocal
                (if lineno = -1 then GetCurrentLine e.ctrl + 1 else lineno),
               Call.GetBreakpoint e.remotePathOrLocal
                (if lineno = -1 then GetCurrentLine e.ctrl + 1 else lineno)])
            mgr (if lineno = -1 then GetCurrentLine e.ctrl + 1 else lineno) ∧
      ∃ rest, (ToggleBreakpoint e mgr lineno).log = e.log ++
        [Call.ProcessToggleBreakpointEvent e.remotePathOrLocal
          (if lineno = -1 then GetCurrentLine e.ctrl + 1 else lineno),
         Call.GetBreakpoint e.remotePathOrLocal
          (if lineno = -1 then GetCurrentLine e.ctrl + 1 else lineno),
         Call.SetExpectingControl true,
         Call.DelBreakpointByLineno e.remotePathOrLocal
          (if lineno = -1 then GetCurrentLine e.ctrl + 1 else lineno)] ++ rest ∧
        ∀ file line conditions is_temp is_disabled,
          Call.AddBreakpointByLineno file line conditions is_temp is_disabled ∉ rest) := by
  generalize hl : (if lineno = -1 then GetCurrentLine e.ctrl + 1 else lineno) = l
  have hl2 : (if l = -1 then GetCurrentLine e.ctrl + 1 else l) = l := by
    by_cases h : lineno = -1
    · rw [if_pos h] at hl
      subst hl
      by_cases h2 : GetCurrentLine e.ctrl + 1 = -1
      · rw [if_pos h2]
      · rw [if_neg h2]
    · rw [if_neg h] at hl
      subst hl
      rw [if_neg h]
  refine ⟨?_, ?_, ?_⟩
  · intro hh
    unfold ToggleBreakpoint
    simp only [hl, hh, if_true, logCalls]
  · intro hh hnull
    have hrun : ToggleBreakpoint e mgr lineno
        = AddBreakpoint
            (logCalls e [Call.ProcessToggleBreakpointEvent e.remotePathOrLocal l,
              Call.GetBreakpoint e.remotePathOrLocal l]) mgr l "" false false := by
      unfold ToggleBreakpoint
      simp only [hl, hh, hnull, if_true, logCalls]
      simp
    refine ⟨hrun, ?_⟩
    rw [hrun]
    unfold AddBreakpoint
    simp only [logCalls, GetCurrentLine] at hl2 ⊢
    simp only [hl2]
    by_cases hadd : mgr.addBreakpointByLineno = true
    · refine ⟨[Call.BreakpointViewInitialize,
        Call.StatusBarMessage ("" ++ "Breakpoint successfully added")], ?_, ?_⟩
      · have hempty : ("" : String).isEmpty = true := rfl
        simp [hadd, hempty]
      · intro file line
        simp
    · refine ⟨[Call.MessageBox "Failed to insert breakpoint"], ?_, ?_⟩
      · simp [hadd]
      · intro file line
        simp
  · intro hh hnull
    have hrun : ToggleBreakpoint e mgr lineno
        = DelBreakpoint
            (logCalls e [Call.ProcessToggleBreakpointEvent e.remotePathOrLocal l,
              Call.GetBreakpoint e.remotePathOrLocal l]) mgr l := by
      unfold ToggleBreakpoint
      simp only [hl, hh, hnull, logCalls]
      simp
    refine ⟨hrun, ?_⟩
    rw [hrun]
    unfold DelBreakpoint
    simp only [logCalls, GetCurrentLine] at hl2 ⊢
    simp only [hl2]
    by_cases h1 : mgr.delBreakpointByLineno = 1
    · refine ⟨[Call.BreakpointViewInitialize,
        Call.StatusBarMessage "Breakpoint successfully deleted"], ?_, ?_⟩
      · simp [h1]
      · intros
        simp
    · by_cases h2 : mgr.delBreakpointByLineno = wxID_CANCEL
      · refine ⟨[], ?_, ?_⟩
        · simp [h2, wxID_CANCEL]
        · intros
          simp
      · by_cases h3 : mgr.delBreakpointByLineno = 0
        · refine ⟨[Call.MessageBox "No breakpoint found on this line"], ?_, ?_⟩
          · simp [h3, wxID_CANCEL]
          · intros
            simp
        · refine ⟨[Call.MessageBox "Breakpoint deletion failed"], ?_, ?_⟩
          · simp [h1, h2, h3]
          · intros
            simp

/-- Witness of C12: in the sample editor a toggle at line 7 of `main.cpp`, where
the manager has no breakpoint, requests a standard breakpoint there, and a
toggle at line 3, where it has one, requests its deletion. -/
theorem ToggleBreakpoint_requests_witness :
    (ToggleBreakpoint sampleEditor sampleManager 7).log =
      [Call.ProcessToggleBreakpointEvent "main.cpp" 7, Call.GetBreakpoint "main.cpp" 7,
       Call.SetExpectingControl true, Call.AddBreakpointByLineno "main.cpp" 7 "" false false,
       Call.BreakpointViewInitialize, Call.StatusBarMessage "Breakpoint successfully added"] ∧
    (ToggleBreakpoint sampleEditor sampleManager 3).log =
      [Call.ProcessToggleBreakpointEvent "main.cpp" 3, Call.GetBreakpoint "main.cpp" 3,
       Call.SetExpectingControl true, Call.DelBreakpointByLineno "main.cpp" 3,
       Call.BreakpointViewInitialize, Call.StatusBarMessage "Breakpoint successfully deleted"] ∧
    ToggleBreakpoint sampleEditor sampleManager 3
      = DelBreakpoint
          (logCalls sampleEditor
            [Call.ProcessToggleBreakpointEvent sampleEditor.remotePathOrLocal
              (if (3 : Int) = -1 then GetCurrentLine sampleEditor.ctrl + 1 else 3),
             Call.GetBreakpoint sampleEditor.remotePathOrLocal
              (if (3 : Int) = -1 then GetCurrentLine sampleEditor.ctrl + 1 else 3)])
          sampleManager (if (3 : Int) = -1 then GetCurrentLine sampleEditor.ctrl + 1 else 3) :=
  ⟨by decide, by decide,
    ((ToggleBreakpoint_requests sampleEditor sampleManager 3).2.2 (by decide) (by decide)).1⟩

/-! ## Brace matching -/

/-- For a non-negative number and a positive width the truncating division of
C++ is the floor of the quotient. -/
theorem tdiv_eq_floor (a w : Int) (ha : 0 ≤ a) (hw : 0 < w) :
    Int.tdiv a w = ⌊(a : ℚ) / (w : ℚ)⌋ := by
  rw [Int.tdiv_eq_ediv ha (le_of_lt hw)]
  obtain ⟨n, hn⟩ := Int.eq_ofNat_of_zero_le (le_of_lt hw)
  subst hn
  have h := Rat.floor_intCast_div_natCast a n
  simpa using h.symm

/-- C14: in `BraceMatch(pos)`, when the structural matcher finds a match at
`m`, indentation guides are on and the indent width `w` is positive (line
indentations being non-negative), the two positions are highlighted and the
guide column highlighted last is `w` times the floor of the smaller of the
indentations of the two lines divided by `w`; when the matcher finds nothing
the position gets the bad-match highlight and the guide column is 0. -/
theorem BraceMatch_highlight_guide (e : clEditor) (pos : Int) :
    (∀ m w : Int, e.ctrl.braceMatch pos = m → m ≠ wxSTC_INVALID_POSITION →
      e.ctrl.indentationGuides ≠ 0 → e.ctrl.indent = w → 0 < w →
      0 ≤ e.ctrl.lineIndentation (LineFromPosition e.ctrl pos) →
      0 ≤ e.ctrl.lineIndentation (LineFromPosition e.ctrl m) →
      (BraceMatch e pos).log = e.log ++
        [Call.BraceHighlight pos m,
         Call.SetHighlightGuide (e.ctrl.lineIndentation (LineFromPosition e.ctrl pos)),
         Call.SetHighlightGuide
          (w * ⌊((min (e.ctrl.lineIndentation (LineFromPosition e.ctrl pos))
                    (e.ctrl.lineIndentation (LineFromPosition e.ctrl m)) : Int) : ℚ)
                  / (w : ℚ)⌋)] ∧
      (BraceMatch e pos).log.getLast? = some
        (Call.SetHighlightGuide
          (w * ⌊((min (e.ctrl.lineIndentation (LineFromPosition e.ctrl pos))
                    (e.ctrl.lineIndentation (LineFromPosition e.ctrl m)) : Int) : ℚ)
                  / (w : ℚ)⌋))) ∧
    (e.ctrl.braceMatch pos = wxSTC_INVALID_POSITION →
      (BraceMatch e pos).log = e.log ++ [Call.BraceBadLight pos, Call.SetHighlightGuide 0] ∧
      (BraceMatch e pos).log.getLast? = some (Call.SetHighlightGuide 0)) := by
  constructor
  · intro m w hm hvalid hguides hw hpos h1 h2
    have hmin : 0 ≤ min (e.ctrl.lineIndentation (LineFromPosition e.ctrl pos))
        (e.ctrl.lineIndentation (LineFromPosition e.ctrl m)) := le_min h1 h2
    have hlog : (BraceMatch e pos).log = e.log ++
        [Call.BraceHighlight pos m,
         Call.SetHighlightGuide (e.ctrl.lineIndentation (LineFromPosition e.ctrl pos)),
         Call.SetHighlightGuide
          (w * ⌊((min (e.ctrl.lineIndentation (LineFromPosition e.ctrl pos))
                    (e.ctrl.lineIndentation (LineFromPosition e.ctrl m)) : Int) : ℚ)
                  / (w : ℚ)⌋)] := by
      rw [← tdiv_eq_floor _ w hmin hpos]
      unfold BraceMatch
      simp only [logCalls, hm, hw]
      rw [if_pos hvalid, if_pos ⟨hguides, hpos⟩]
      simp [LineFromPosition, mul_comm]
    refine ⟨hlog, ?_⟩
    rw [hlog]
    simp
  · intro hm
    have hlog : (BraceMatch e pos).log
        = e.log ++ [Call.BraceBadLight pos, Call.SetHighlightGuide 0] := by
      unfold BraceMatch
      simp only [logCalls, hm]
      simp
    refine ⟨hlog, ?_⟩
    rw [hlog]
    simp

/-- Witness of C14: with an indent width of 4 and the matching braces on lines
indented by 10 and 6 columns, the guide column highlighted last is 4. -/
theorem BraceMatch_highlight_guide_witness :
    (BraceMatch braceEditor 105).log =
      [Call.BraceHighlight 105 307, Call.SetHighlightGuide 10, Call.SetHighlightGuide 4] ∧
    (BraceMatch braceEditor 105).log.getLast? = some
      (Call.SetHighlightGuide
        (4 * ⌊((min (braceEditor.ctrl.lineIndentation (LineFromPosition braceEditor.ctrl 105))
                  (braceEditor.ctrl.lineIndentation (LineFromPosition braceEditor.ctrl 307)) : Int)
                : ℚ) / ((4 : Int) : ℚ)⌋)) :=
  ⟨by decide,
    ((BraceMatch_highlight_guide braceEditor 105).1 307 4 (by decide) (by decide) (by decide)
      (by decide) (by decide) (by decide) (by decide)).2⟩

/-! ## User-interface update tick -/

/-- The margin calls of `DoUpdateLineNumbers` are not navigation-bar
notifications. -/
theorem UpdateLineNumbers_no_navbar (e : clEditor) (force : Bool) :
    (UpdateLineNumbers e force).countP isUpdateNavBar = 0 := by
  rw [List.countP_eq_zero]
  intro call hcall
  unfold UpdateLineNumbers at hcall
  split_ifs at hcall
  · simp at hcall
  · obtain ⟨l, _, hc | hc⟩ := mem_DoUpdateLineNumbers e _ force call hcall
    · rw [hc]
      simp [isUpdateNavBar]
    · rw [hc]
      simp [isUpdateNavBar]

/-- One tick: the navigation bar is notified exactly when the line of the caret
differs from the recorded one, and the line of the caret is recorded. -/
theorem OnSciUpdateUI_tick (e : clEditor) :
    (OnSciUpdateUI e).log.countP isUpdateNavBar
      = e.log.countP isUpdateNavBar
        + (if GetCurrentLine e.ctrl ≠ e.m_editorState.current_line then 1 else 0) ∧
    (OnSciUpdateUI e).m_editorState.current_line = GetCurrentLine e.ctrl ∧
    (OnSciUpdateUI e).ctrl = e.ctrl := by
  unfold OnSciUpdateUI
  simp only [logCalls, GetCurrentLine]
  by_cases h : LineFromPosition e.ctrl e.ctrl.currentPos ≠ e.m_editorState.current_line
  · rw [if_pos h, if_pos h]
    simp [List.countP_append, UpdateLineNumbers_no_navbar, isUpdateNavBar, EditorViewState.From,
      GetCurrentLine]
  · rw [if_neg h, if_neg h]
    simp [List.countP_append, UpdateLineNumbers_no_navbar, EditorViewState.From, GetCurrentLine]

/-- C17: a tick of `OnSciUpdateUI` posts the navigation-bar update exactly when
the line of the caret differs from the current line recorded in the view state,
and records the line of the caret; so a tick repeated without a move of the
caret posts nothing, and over any run of ticks the number of notifications is
the number of ticks on which the line differs from the line of the tick
before. -/
theorem OnSciUpdateUI_navbar (e : clEditor) :
    ((OnSciUpdateUI e).log.countP isUpdateNavBar
      = e.log.countP isUpdateNavBar
        + (if GetCurrentLine e.ctrl ≠ e.m_editorState.current_line then 1 else 0)) ∧
    ((OnSciUpdateUI (OnSciUpdateUI e)).log.countP isUpdateNavBar
      = (OnSciUpdateUI e).log.countP isUpdateNavBar) ∧
    (∀ states : List wxStyledTextCtrl,
      (updateTicks e states).log.countP isUpdateNavBar
        = e.log.countP isUpdateNavBar
          + lineChanges e.m_editorState.current_line (states.map GetCurrentLine)) := by
  refine ⟨(OnSciUpdateUI_tick e).1, ?_, ?_⟩
  · obtain ⟨_, h2, h3⟩ := OnSciUpdateUI_tick e
    rw [(OnSciUpdateUI_tick (OnSciUpdateUI e)).1, h2, h3]
    simp
  · intro states
    induction states generalizing e with
    | nil => simp [updateTicks, lineChanges]
    | cons c rest ih =>
      obtain ⟨h1, h2, _⟩ := OnSciUpdateUI_tick { e with ctrl := c }
      simp only [updateTicks, List.map_cons, lineChanges]
      rw [ih, h1, h2]
      show e.log.countP isUpdateNavBar
          + (if GetCurrentLine c ≠ e.m_editorState.current_line then 1 else 0)
          + lineChanges (GetCurrentLine c) (rest.map GetCurrentLine) = _
      omega

/-- Witness of C17: in the sample editor, whose view state records line 0 and
whose caret is on line 20, a first tick posts the notification for line 20, a
second tick posts nothing more, and ticks on the lines 20, 20, 21 and 30 post
three notifications. -/
theorem OnSciUpdateUI_navbar_witness :
    (OnSciUpdateUI sampleEditor).log.countP isUpdateNavBar = 1 ∧
    Call.UpdateNavBar 20 ∈ (OnSciUpdateUI sampleEditor).log ∧
    (updateTicks sampleEditor [sampleCtrl, sampleCtrl, { sampleCtrl with currentPos := 215 },
        { sampleCtrl with currentPos := 300 }]).log.countP isUpdateNavBar = 3 ∧
    (OnSciUpdateUI (OnSciUpdateUI sampleEditor)).log.countP isUpdateNavBar
      = (OnSciUpdateUI sampleEditor).log.countP isUpdateNavBar :=
  ⟨by decide, by decide, by decide, (OnSciUpdateUI_navbar sampleEditor).2.1⟩

/-! ## Language-server detector -/

/-- C20: `DoLocate` returns true exactly when the platform finds an executable
for `clangd` among the versions 16 to 25.  Then the command is the quoted path
followed by the fixed flags with the configured number of completion items, the
languages `c` and `cpp` are added to the language list (which is exactly
`["c", "cpp"]` for a detector that had none) and the connection string is
`stdio`.  When nothing is found the detector is left as it was. -/
theorem DoLocate_configures (P : DetectorPlatform) (d : LSPDetector) :
    ((LSPClangdDetector.DoLocate P d).1 = true ↔
      ∃ path, P.WhichWithVersion "clangd" [16, 17, 18, 19, 20, 21, 22, 23, 24, 25] = some path) ∧
    (∀ path, P.WhichWithVersion "clangd" [16, 17, 18, 19, 20, 21, 22, 23, 24, 25] = some path →
      (LSPClangdDetector.DoLocate P d).1 = true ∧
      (LSPClangdDetector.DoLocate P d).2.m_command
        = P.WrapWithQuotes path ++ " --limit-results=" ++ toString P.ccNumberOfDisplayItems
          ++ " --header-insertion-decorators=0 --compile-commands-dir=$(WorkspacePath) --background-index" ∧
      (LSPClangdDetector.DoLocate P d).2.m_languages = d.m_languages ++ ["c", "cpp"] ∧
      (d.m_languages = [] → (LSPClangdDetector.DoLocate P d).2.m_languages = ["c", "cpp"]) ∧
      (LSPClangdDetector.DoLocate P d).2.m_connectionString = "stdio") ∧
    (P.WhichWithVersion "clangd" [16, 17, 18, 19, 20, 21, 22, 23, 24, 25] = none →
      LSPClangdDetector.DoLocate P d = (false, d)) := by
  refine ⟨?_, ?_, ?_⟩
  · unfold LSPClangdDetector.DoLocate
    cases h : P.WhichWithVersion "clangd" [16, 17, 18, 19, 20, 21, 22, 23, 24, 25] with
    | none => simp
    | some path => simp
  · intro path hpath
    unfold LSPClangdDetector.DoLocate
    rw [hpath]
    refine ⟨rfl, rfl, ?_, ?_, rfl⟩
    · simp [LSPClangdDetector.ConfigureFile]
    · intro hnil
      simp [LSPClangdDetector.ConfigureFile, hnil]
  · intro hnone
    unfold LSPClangdDetector.DoLocate
    rw [hnone]

/-- Witness of C20: on the sample platform clangd 18 is found and configured;
on a platform without clangd nothing is configured. -/
theorem DoLocate_configures_witness :
    LSPClangdDetector.DoLocate samplePlatform sampleDetector =
      (true,
        { m_name := "clangd",
          m_command := "/usr/bin/clangd-18 --limit-results=150 --header-insertion-decorators=0 --compile-commands-dir=$(WorkspacePath) --background-index",
          m_languages := ["c", "cpp"],
          m_connectionString := "stdio" }) ∧
    LSPClangdDetector.DoLocate barePlatform sampleDetector = (false, sampleDetector) ∧
    (LSPClangdDetector.DoLocate samplePlatform sampleDetector).2.m_languages = ["c", "cpp"] :=
  ⟨by decide, by decide,
    ((DoLocate_configures samplePlatform sampleDetector).2.1 "/usr/bin/clangd-18"
      (by decide)).2.2.2.1 rfl⟩

/-! ## Folds: the caret after a fold -/

/-- The upward search finds the nearest visible fold header at or above the
line it starts from. -/
theorem visibleHeaderAtOrAbove_some (c : wxStyledTextCtrl) (n h : Nat)
    (hfound : visibleHeaderAtOrAbove c n = some h) : nearestVisibleHeader c (n : Int) h := by
  induction n with
  | zero =>
    unfold visibleHeaderAtOrAbove at hfound
    split_ifs at hfound with hc
    injection hfound with hh
    subst hh
    refine ⟨le_refl _, hc.1, hc.2, ?_⟩
    intro j hj hj2
    omega
  | succ n ih =>
    unfold visibleHeaderAtOrAbove at hfound
    split_ifs at hfound with hc
    · injection hfound with hh
      subst hh
      refine ⟨le_refl _, hc.1, hc.2, ?_⟩
      intro j hj hj2
      omega
    · obtain ⟨h1, h2, h3, h4⟩ := ih hfound
      refine ⟨by push_cast at h1 ⊢; omega, h2, h3, ?_⟩
      intro j hj hj2
      by_cases hjn : j = n + 1
      · subst hjn
        exact hc
      · exact h4 j hj (by push_cast at hj2 ⊢; omega)

/-- The upward search fails only when no line at or above is a visible fold
header. -/
theorem visibleHeaderAtOrAbove_none (c : wxStyledTextCtrl) (n : Nat)
    (hnone : visibleHeaderAtOrAbove c n = none) :
    ∀ j : Nat, j ≤ n →
      ¬ (isFoldHeader c (j : Int) = true ∧ c.lineVisible (j : Int) = true) := by
  induction n with
  | zero =>
    unfold visibleHeaderAtOrAbove at hnone
    split_ifs at hnone with hc
    intro j hj
    have : j = 0 := by omega
    subst this
    exact hc
  | succ n ih =>
    unfold visibleHeaderAtOrAbove at hnone
    split_ifs at hnone with hc
    intro j hj
    by_cases hjn : j = n + 1
    · subst hjn
      exact hc
    · exact ih hnone j (by omega)

/-- The nearest visible fold header at or above a line is unique. -/
theorem nearestVisibleHeader_unique (c : wxStyledTextCtrl) (line : Int) (h1 h2 : Nat)
    (H1 : nearestVisibleHeader c line h1) (H2 : nearestVisibleHeader c line h2) : h1 = h2 := by
  obtain ⟨a1, a2, a3, a4⟩ := H1
  obtain ⟨b1, b2, b3, b4⟩ := H2
  rcases Nat.lt_trichotomy h1 h2 with hlt | heq | hgt
  · exact absurd ⟨b2, b3⟩ (a4 h2 hlt b1)
  · exact heq
  · exact absurd ⟨a2, a3⟩ (b4 h1 hgt a1)

/-- The caret-repair loop puts the caret at the start of the nearest visible
fold header at or above the line. -/
theorem moveCaretToVisibleHeader_spec (e : clEditor) (line : Int) (h : Nat)
    (hnear : nearestVisibleHeader e.ctrl line h) :
    moveCaretToVisibleHeader e line = SetCaretAt e (e.ctrl.positionFromLine (h : Int)) := by
  have hline : 0 ≤ line := le_trans (Int.natCast_nonneg h) hnear.1
  unfold moveCaretToVisibleHeader
  rw [if_pos hline]
  cases hf : visibleHeaderAtOrAbove e.ctrl line.toNat with
  | none =>
    have := visibleHeaderAtOrAbove_none e.ctrl _ hf h (by have := hnear.1; omega)
    exact absurd ⟨hnear.2.1, hnear.2.2.1⟩ this
  | some h2 =>
    have hn2 := visibleHeaderAtOrAbove_some e.ctrl _ _ hf
    rw [Int.toNat_of_nonneg hline] at hn2
    rw [nearestVisibleHeader_unique e.ctrl line h2 h hn2 hnear]

/-- After `SetCaretAt` to the start of a visible line, the line of the caret is
visible. -/
theorem SetCaretAt_visible (e : clEditor) (h : Nat)
    (hvis : e.ctrl.lineVisible (h : Int) = true)
    (hround : LineFromPosition e.ctrl (e.ctrl.positionFromLine (h : Int)) = (h : Int)) :
    caretLineVisible (SetCaretAt e (e.ctrl.positionFromLine (h : Int))) = true ∧
    GetCurrentLine (SetCaretAt e (e.ctrl.positionFromLine (h : Int))).ctrl = (h : Int) := by
  unfold caretLineVisible GetCurrentLine SetCaretAt
  unfold LineFromPosition at hround ⊢
  simp only []
  rw [hround]
  exact ⟨hvis, rfl⟩

/-- The block that repairs the caret: a caret on a visible line stays, a caret
on a hidden line goes to the start of the nearest visible fold header at or
above. -/
theorem repairCaret_spec (e : clEditor) :
    (caretLineVisible e = true → repairCaret e = e) ∧
    (caretLineVisible e = false → ∀ h : Nat,
      nearestVisibleHeader e.ctrl (GetCurrentLine e.ctrl) h →
      repairCaret e = SetCaretAt e (e.ctrl.positionFromLine (h : Int))) := by
  constructor
  · intro hvis
    unfold caretLineVisible GetCurrentLine at hvis
    unfold repairCaret
    simp [hvis]
  · intro hhid h hnear
    have hline : 0 ≤ GetCurrentLine e.ctrl := le_trans (Int.natCast_nonneg h) hnear.1
    have hpos : e.ctrl.currentPos ≠ wxNOT_FOUND := by
      intro hp
      have hz : GetCurrentLine e.ctrl = 0 := by
        unfold GetCurrentLine LineFromPosition
        rw [hp]
        simp [wxNOT_FOUND]
      have h0 : h = 0 := by
        have := hnear.1
        omega
      subst h0
      unfold caretLineVisible at hhid
      rw [hz] at hhid
      have := hnear.2.2.1
      simp only [Nat.cast_zero] at this
      rw [this] at hhid
      exact Bool.noConfusion hhid
    unfold caretLineVisible at hhid
    unfold repairCaret
    unfold GetCurrentLine at hhid hline hnear
    rw [if_pos hpos, if_pos ⟨by unfold wxNOT_FOUND; omega, hhid⟩]
    exact moveCaretToVisibleHeader_spec e _ h hnear

/-- The scrolling at the end of a click in the fold margin leaves the control
alone. -/
theorem OnMarginClick_FOLD_MARGIN_ctrl (toggle : wxStyledTextCtrl → Int → wxStyledTextCtrl)
    (e : clEditor) (position : Int) :
    (OnMarginClick_FOLD_MARGIN toggle e position).ctrl
      = (repairCaret (DoToggleFold toggle e (LineFromPosition e.ctrl position))).ctrl := by
  unfold OnMarginClick_FOLD_MARGIN
  simp only []
  split_ifs <;> simp [logCalls]

/-- C15: `ToggleCurrentFold`, `FoldAll` and a click in the fold margin repair
the caret after their toggling.  When the line of the caret is still visible
the caret stays.  When it has been hidden, the caret is put at the start of the
nearest line at or above it that is a visible fold header, so that the caret is
then on that line, which is visible (the start of a line being a position of
that line).  Where `FoldAll` returns before toggling anything the editor is
left as it was. -/
theorem fold_caret_repaired (toggle : wxStyledTextCtrl → Int → wxStyledTextCtrl)
    (e : clEditor) (position : Int) :
    (0 ≤ GetCurrentLine e.ctrl →
      ((DoToggleFold toggle e (GetCurrentLine e.ctrl)).ctrl.lineVisible (GetCurrentLine e.ctrl)
          = true →
        ToggleCurrentFold toggle e = DoToggleFold toggle e (GetCurrentLine e.ctrl)) ∧
      ((DoToggleFold toggle e (GetCurrentLine e.ctrl)).ctrl.lineVisible (GetCurrentLine e.ctrl)
          = false →
        ∀ h : Nat,
          nearestVisibleHeader (DoToggleFold toggle e (GetCurrentLine e.ctrl)).ctrl
            (GetCurrentLine e.ctrl) h →
          ToggleCurrentFold toggle e
            = SetCaretAt (DoToggleFold toggle e (GetCurrentLine e.ctrl))
                ((DoToggleFold toggle e (GetCurrentLine e.ctrl)).ctrl.positionFromLine (h : Int)) ∧
          (LineFromPosition (DoToggleFold toggle e (GetCurrentLine e.ctrl)).ctrl
              ((DoToggleFold toggle e (GetCurrentLine e.ctrl)).ctrl.positionFromLine (h : Int))
              = (h : Int) →
            caretLineVisible (ToggleCurrentFold toggle e) = true ∧
            GetCurrentLine (ToggleCurrentFold toggle e).ctrl = (h : Int)))) ∧
    (FoldAll_toggled toggle e = none → FoldAll toggle e = e) ∧
    (∀ s : clEditor, FoldAll_toggled toggle e = some s →
      (caretLineVisible s = true → FoldAll toggle e = s) ∧
      (caretLineVisible s = false →
        ∀ h : Nat, nearestVisibleHeader s.ctrl (GetCurrentLine s.ctrl) h →
          FoldAll toggle e = SetCaretAt s (s.ctrl.positionFromLine (h : Int)) ∧
          (LineFromPosition s.ctrl (s.ctrl.positionFromLine (h : Int)) = (h : Int) →
            caretLineVisible (FoldAll toggle e) = true ∧
            GetCurrentLine (FoldAll toggle e).ctrl = (h : Int)))) ∧
    ((caretLineVisible (DoToggleFold toggle e (LineFromPosition e.ctrl position)) = true →
        (OnMarginClick_FOLD_MARGIN toggle e position).ctrl
          = (DoToggleFold toggle e (LineFromPosition e.ctrl position)).ctrl ∧
        caretLineVisible (OnMarginClick_FOLD_MARGIN toggle e position) = true) ∧
      (caretLineVisible (DoToggleFold toggle e (LineFromPosition e.ctrl position)) = false →
        ∀ h : Nat,
          nearestVisibleHeader (DoToggleFold toggle e (LineFromPosition e.ctrl position)).ctrl
            (GetCurrentLine (DoToggleFold toggle e (LineFromPosition e.ctrl position)).ctrl) h →
          (OnMarginClick_FOLD_MARGIN toggle e position).ctrl
            = (SetCaretAt (DoToggleFold toggle e (LineFromPosition e.ctrl position))
                ((DoToggleFold toggle e (LineFromPosition e.ctrl position)).ctrl.positionFromLine
                  (h : Int))).ctrl ∧
          (LineFromPosition (DoToggleFold toggle e (LineFromPosition e.ctrl position)).ctrl
              ((DoToggleFold toggle e (LineFromPosition e.ctrl position)).ctrl.positionFromLine
                (h : Int)) = (h : Int) →
            caretLineVisible (OnMarginClick_FOLD_MARGIN toggle e position) = true ∧
            GetCurrentLine (OnMarginClick_FOLD_MARGIN toggle e position).ctrl = (h : Int)))) := by
  refine ⟨?_, ?_, ?_, ?_, ?_⟩
  · intro hline
    constructor
    · intro hvis
      unfold ToggleCurrentFold
      simp only []
      rw [if_pos hline, if_neg (by rw [hvis]; exact Bool.noConfusion)]
    · intro hhid h hnear
      have hrun : ToggleCurrentFold toggle e
          = SetCaretAt (DoToggleFold toggle e (GetCurrentLine e.ctrl))
              ((DoToggleFold toggle e (GetCurrentLine e.ctrl)).ctrl.positionFromLine (h : Int)) := by
        unfold ToggleCurrentFold
        simp only []
        rw [if_pos hline, if_pos hhid]
        exact moveCaretToVisibleHeader_spec _ _ h hnear
      refine ⟨hrun, ?_⟩
      intro hround
      rw [hrun]
      exact SetCaretAt_visible _ h hnear.2.2.1 hround
  · intro hnone
    unfold FoldAll
    rw [hnone]
  · intro s hs
    have hrun : FoldAll toggle e = repairCaret s := by
      unfold FoldAll
      rw [hs]
    constructor
    · intro hvis
      rw [hrun]
      exact (repairCaret_spec s).1 hvis
    · intro hhid h hnear
      have hrun2 := (repairCaret_spec s).2 hhid h hnear
      refine ⟨hrun.trans hrun2, ?_⟩
      intro hround
      rw [hrun, hrun2]
      exact SetCaretAt_visible _ h hnear.2.2.1 hround
  · intro hvis
    have hc := OnMarginClick_FOLD_MARGIN_ctrl toggle e position
    rw [(repairCaret_spec _).1 hvis] at hc
    refine ⟨hc, ?_⟩
    unfold caretLineVisible at hvis ⊢
    rw [hc]
    exact hvis
  · intro hhid h hnear
    have hc := OnMarginClick_FOLD_MARGIN_ctrl toggle e position
    rw [(repairCaret_spec _).2 hhid h hnear] at hc
    refine ⟨hc, ?_⟩
    intro hround
    have hv := SetCaretAt_visible _ h hnear.2.2.1 hround
    unfold caretLineVisible at hv ⊢
    rw [hc]
    exact hv

set_option maxRecDepth 8000 in
/-- Witness of C15: in the header file under an include guard, with the caret
on line 7, `ToggleCurrentFold` contracts the fold 6..8 and so does a click in
the fold margin of line 6, and `FoldAll` contracts the folds 2..4 and 6..8; each
hides line 7 and leaves the caret at the start of line 6, which is visible. -/
theorem fold_caret_repaired_witness :
    (ToggleCurrentFold sampleToggleFold guardedHeaderEditor).ctrl.currentPos = 60 ∧
    caretLineVisible (ToggleCurrentFold sampleToggleFold guardedHeaderEditor) = true ∧
    (FoldAll sampleToggleFold guardedHeaderEditor).ctrl.currentPos = 60 ∧
    caretLineVisible (FoldAll sampleToggleFold guardedHeaderEditor) = true ∧
    (FoldAll sampleToggleFold guardedHeaderEditor).ctrl.lineVisible 7 = false ∧
    (OnMarginClick_FOLD_MARGIN sampleToggleFold guardedHeaderEditor 65).ctrl.currentPos = 60 ∧
    (caretLineVisible (ToggleCurrentFold sampleToggleFold guardedHeaderEditor) = true ∧
      GetCurrentLine (ToggleCurrentFold sampleToggleFold guardedHeaderEditor).ctrl
        = ((6 : Nat) : Int)) :=
  ⟨by decide, by decide, by decide, by decide, by decide, by decide,
    (((fold_caret_repaired sampleToggleFold guardedHeaderEditor 65).1 (by decide)).2
      (by decide) 6
      ⟨by decide, by decide, by decide, fun j hj hj2 => by
        have h7 : j = 7 := by
          have : GetCurrentLine guardedHeaderEditor.ctrl = 7 := by decide
          rw [this] at hj2
          omega
        subst h7
        decide⟩).2 (by decide)⟩

/-! ## Folds: what `FoldAll` toggles -/

/-- With enough fuel, the header search stops at the first fold header from
`line` on when there is one before `maxLine`. -/
theorem FoldAll_nextHeader_found (c : wxStyledTextCtrl) (maxLine : Int) (fuel : Nat)
    (line t : Int) (hle : line ≤ t) (hlt : t < maxLine) (hfuel : (t - line).toNat + 1 ≤ fuel)
    (hheader : isFoldHeader c t = true)
    (hfirst : ∀ l : Int, line ≤ l → l < t → isFoldHeader c l = false) :
    FoldAll_nextHeader c maxLine fuel line = some t := by
  induction fuel generalizing line with
  | zero => omega
  | succ fuel ih =>
    unfold FoldAll_nextHeader
    by_cases hl : isFoldHeader c line = true
    · rw [if_pos hl]
      by_cases heq : line = t
      · rw [heq]
      · have := hfirst line (le_refl _) (by omega)
        rw [this] at hl
        exact Bool.noConfusion hl
    · rw [if_neg hl]
      have hne : line ≠ t := by
        intro heq
        rw [heq] at hl
        exact hl hheader
      rw [if_neg (by omega)]
      exact ih (line + 1) (by omega) (by omega) (fun l h1 h2 => hfirst l (by omega) h2)

/-- With enough fuel, the header search fails only when there is no fold
header from `line` up to `maxLine`. -/
theorem FoldAll_nextHeader_none_spec (c : wxStyledTextCtrl) (maxLine : Int) (fuel : Nat)
    (line : Int) (hfuel : (maxLine - line).toNat + 1 ≤ fuel)
    (hnone : FoldAll_nextHeader c maxLine fuel line = none) :
    ∀ l : Int, line ≤ l → l < maxLine → isFoldHeader c l = false := by
  induction fuel generalizing line with
  | zero => omega
  | succ fuel ih =>
    unfold FoldAll_nextHeader at hnone
    by_cases hl : isFoldHeader c line = true
    · rw [if_pos hl] at hnone
      exact Option.noConfusion hnone
    · rw [if_neg hl] at hnone
      intro l h1 h2
      by_cases hnext : line + 1 ≥ maxLine
      · have : l = line := by omega
        rw [this]
        simpa using hl
      · rw [if_neg hnext] at hnone
        by_cases heq : l = line
        · rw [heq]
          simpa using hl
        · exact ih (line + 1) (by omega) hnone l (by omega) h2

/-- The header search fails when there is no fold header from `line` up to
`maxLine`, `line` included even where it is `maxLine`. -/
theorem FoldAll_nextHeader_none_of (c : wxStyledTextCtrl) (maxLine : Int) (fuel : Nat)
    (line : Int) (hhere : isFoldHeader c line = false)
    (hno : ∀ l : Int, line ≤ l → l < maxLine → isFoldHeader c l = false) :
    FoldAll_nextHeader c maxLine fuel line = none := by
  induction fuel generalizing line with
  | zero => rfl
  | succ fuel ih =>
    unfold FoldAll_nextHeader
    rw [if_neg (by rw [hhere]; exact Bool.noConfusion)]
    by_cases hnext : line + 1 ≥ maxLine
    · rw [if_pos hnext]
    · rw [if_neg hnext]
      exact ih (line + 1) (hno (line + 1) (by omega) (by omega))
        (fun l h1 h2 => hno l (by omega) h2)

/-- A line past the end of the document is not a fold header. -/
theorem isFoldHeader_past_end (c : wxStyledTextCtrl) (line : Int)
    (hline : (c.lineCount : Int) ≤ line) : isFoldHeader c line = false := by
  unfold isFoldHeader GetFoldLevel
  rw [if_neg (by omega)]
  decide

/-- The calls of the caret repair are not fold toggles. -/
theorem toggledLines_repairCaret (e : clEditor) :
    toggledLines (repairCaret e).log = toggledLines e.log := by
  have hmove : ∀ line : Int,
      toggledLines (moveCaretToVisibleHeader e line).log = toggledLines e.log := by
    intro line
    unfold moveCaretToVisibleHeader
    split_ifs
    · cases visibleHeaderAtOrAbove e.ctrl line.toNat with
      | none => rfl
      | some h =>
        unfold SetCaretAt
        simp only []
        split_ifs <;> simp [toggledLines, List.filterMap_append]
    · rfl
  unfold repairCaret
  simp only []
  split_ifs
  · exact hmove _
  · rfl
  · rfl

/-- The last loop of `FoldAll` when collapsing, run over the lines below `n`:
the levels and the expansion state of the lines from `n` on are as before, and
the folds toggled are those of the expanded fold headers at the level looked
for, in order. -/
theorem FoldAll_loop (toggle : wxStyledTextCtrl → Int → wxStyledTextCtrl) (e : clEditor)
    (skip : Bool)
    (hframe : ∀ (c : wxStyledTextCtrl) (l : Int), isFoldHeader c l = true →
      (toggle c l).foldLevel = c.foldLevel ∧ (toggle c l).lineCount = c.lineCount ∧
      ∀ l2 : Int, l2 ≠ l → (toggle c l).foldExpanded l2 = c.foldExpanded l2)
    (n : Nat) :
    ((List.range n).foldl (FoldAll_toggleLine toggle true skip) e).ctrl.foldLevel
      = e.ctrl.foldLevel ∧
    ((List.range n).foldl (FoldAll_toggleLine toggle true skip) e).ctrl.lineCount
      = e.ctrl.lineCount ∧
    (∀ l : Int, (n : Int) ≤ l →
      ((List.range n).foldl (FoldAll_toggleLine toggle true skip) e).ctrl.foldExpanded l
        = e.ctrl.foldExpanded l) ∧
    toggledLines ((List.range n).foldl (FoldAll_toggleLine toggle true skip) e).log
      = toggledLines e.log ++
        ((List.range n).filter (fun (l : Nat) =>
          isFoldHeader e.ctrl (l : Int) &&
          ((GetFoldLevel e.ctrl (l : Int) &&& wxSTC_FOLDLEVELNUMBERMASK)
            == wxSTC_FOLDLEVELBASE + (if skip then 1 else 0)) &&
          e.ctrl.foldExpanded (l : Int))).map (fun (l : Nat) => (l : Int)) := by
  induction n with
  | zero => simp
  | succ n ih =>
    obtain ⟨h1, h2, h3, h4⟩ := ih
    rw [List.range_succ, List.foldl_append, List.filter_append, List.map_append]
    simp only [List.foldl_cons, List.foldl_nil]
    generalize hs : (List.range n).foldl (FoldAll_toggleLine toggle true skip) e = s at *
    have hlevel : GetFoldLevel s.ctrl (n : Int) = GetFoldLevel e.ctrl (n : Int) := by
      unfold GetFoldLevel
      rw [h1, h2]
    have hexp : s.ctrl.foldExpanded (n : Int) = e.ctrl.foldExpanded (n : Int) :=
      h3 (n : Int) (le_refl _)
    have hmatch : FoldAll_levelMatches (GetFoldLevel e.ctrl (n : Int)) true skip
        = (isFoldHeader e.ctrl (n : Int) &&
          ((GetFoldLevel e.ctrl (n : Int) &&& wxSTC_FOLDLEVELNUMBERMASK)
            == wxSTC_FOLDLEVELBASE + (if skip then 1 else 0))) := by
      unfold FoldAll_levelMatches isFoldHeader
      simp
    unfold FoldAll_toggleLine
    simp only [hlevel, hexp]
    by_cases hm : FoldAll_levelMatches (GetFoldLevel e.ctrl (n : Int)) true skip = true
    · rw [if_pos hm]
      have hheader : isFoldHeader s.ctrl (n : Int) = true := by
        have : isFoldHeader e.ctrl (n : Int) = true := by
          rw [hmatch] at hm
          simp at hm
          exact hm.1
        unfold isFoldHeader at this ⊢
        rw [hlevel]
        exact this
      by_cases hx : e.ctrl.foldExpanded (n : Int) = true
      · rw [if_pos hx]
        obtain ⟨f1, f2, f3⟩ := hframe s.ctrl (n : Int) hheader
        refine ⟨?_, ?_, ?_, ?_⟩
        · simp only [DoToggleFold]
          rw [f1, h1]
        · simp only [DoToggleFold]
          rw [f2, h2]
        · intro l hl
          simp only [DoToggleFold]
          rw [f3 l (by push_cast at hl; omega)]
          exact h3 l (by push_cast at hl; omega)
        · rw [hmatch] at hm
          simp only [DoToggleFold, toggledLines, List.filterMap_append] at h4 ⊢
          rw [h4]
          simp [hm, hx]
      · rw [if_neg hx]
        refine ⟨h1, h2, fun l hl => h3 l (by push_cast at hl; omega), ?_⟩
        rw [h4]
        simp [hx]
    · rw [if_neg hm]
      refine ⟨h1, h2, fun l hl => h3 l (by push_cast at hl; omega), ?_⟩
      rw [h4]
      rw [hmatch] at hm
      simp [hm]

/-- When collapsing with a first fold header `top` whose fold ends inside the
document, `FoldAll` runs its last loop over the whole document, with the
all-encompassing fold skipped exactly when no fold header follows that fold. -/
theorem FoldAll_toggled_collapsing (toggle : wxStyledTextCtrl → Int → wxStyledTextCtrl)
    (e : clEditor) (lineSeek : Int) (top : Nat)
    (hcaret : 0 ≤ GetCurrentLine e.ctrl)
    (hseek : FoldAll_seek e.ctrl (GetCurrentLine e.ctrl).toNat = some lineSeek)
    (hexp : e.ctrl.foldExpanded lineSeek = true)
    (htop : top < e.ctrl.lineCount ∧ isFoldHeader e.ctrl (top : Int) = true ∧
      ∀ l : Nat, l < top → isFoldHeader e.ctrl (l : Int) = false)
    (hbottom : 0 ≤ e.ctrl.lastChild (top : Int) ∧
      e.ctrl.lastChild (top : Int) < (e.ctrl.lineCount : Int)) :
    FoldAll_toggled toggle e = some ((List.range e.ctrl.lineCount).foldl
      (FoldAll_toggleLine toggle true
        (FoldAll_nextHeader e.ctrl (e.ctrl.lineCount : Int)
          (((e.ctrl.lineCount : Int) - (e.ctrl.lastChild (top : Int) + 1)).toNat + 1)
          (e.ctrl.lastChild (top : Int) + 1)).isNone) e) := by
  have hfirst : FoldAll_nextHeader e.ctrl (e.ctrl.lineCount : Int)
      ((e.ctrl.lineCount : Int).toNat + 1) 0 = some (top : Int) := by
    apply FoldAll_nextHeader_found
    · omega
    · omega
    · omega
    · exact htop.2.1
    · intro l h1 h2
      have := htop.2.2 l.toNat (by omega)
      rwa [Int.toNat_of_nonneg h1] at this
  unfold FoldAll_toggled
  simp only [ge_iff_le]
  rw [if_pos hcaret, hseek]
  simp only [hexp, if_true, hfirst]
  rw [if_neg (by omega)]

/-- C16: when `FoldAll` is collapsing (the fold point of the caret line is
expanded) and the fold of the first fold header ends inside the document, the
folds it toggles are exactly those of the expanded fold headers with level
number base + 1 when no fold header follows the first fold before the end of
the document, the first header (of level number base) not being among them, and
exactly those of the expanded fold headers with level number base when some
fold header follows.  The control's fold toggle is taken to leave the fold
levels, the line count and the expansion state of other lines alone. -/
theorem FoldAll_toggles (toggle : wxStyledTextCtrl → Int → wxStyledTextCtrl)
    (e : clEditor) (lineSeek : Int) (top : Nat)
    (hframe : ∀ (c : wxStyledTextCtrl) (l : Int), isFoldHeader c l = true →
      (toggle c l).foldLevel = c.foldLevel ∧ (toggle c l).lineCount = c.lineCount ∧
      ∀ l2 : Int, l2 ≠ l → (toggle c l).foldExpanded l2 = c.foldExpanded l2)
    (hcaret : 0 ≤ GetCurrentLine e.ctrl)
    (hseek : FoldAll_seek e.ctrl (GetCurrentLine e.ctrl).toNat = some lineSeek)
    (hexp : e.ctrl.foldExpanded lineSeek = true)
    (htop : top < e.ctrl.lineCount ∧ isFoldHeader e.ctrl (top : Int) = true ∧
      ∀ l : Nat, l < top → isFoldHeader e.ctrl (l : Int) = false)
    (hbottom : 0 ≤ e.ctrl.lastChild (top : Int) ∧
      e.ctrl.lastChild (top : Int) < (e.ctrl.lineCount : Int)) :
    ((∀ l : Nat, e.ctrl.lastChild (top : Int) < (l : Int) → l < e.ctrl.lineCount →
        isFoldHeader e.ctrl (l : Int) = false) →
      toggledLines (FoldAll toggle e).log
        = toggledLines e.log ++ expandedHeadersAtLevel e.ctrl (wxSTC_FOLDLEVELBASE + 1) ∧
      (GetFoldLevel e.ctrl (top : Int) &&& wxSTC_FOLDLEVELNUMBERMASK = wxSTC_FOLDLEVELBASE →
        (top : Int) ∉ expandedHeadersAtLevel e.ctrl (wxSTC_FOLDLEVELBASE + 1))) ∧
    ((∃ l : Nat, e.ctrl.lastChild (top : Int) < (l : Int) ∧ l < e.ctrl.lineCount ∧
        isFoldHeader e.ctrl (l : Int) = true) →
      toggledLines (FoldAll toggle e).log
        = toggledLines e.log ++ expandedHeadersAtLevel e.ctrl wxSTC_FOLDLEVELBASE) := by
  have hrun := FoldAll_toggled_collapsing toggle e lineSeek top hcaret hseek hexp htop hbottom
  have hlog : ∀ skip : Bool,
      FoldAll_nextHeader e.ctrl (e.ctrl.lineCount : Int)
          (((e.ctrl.lineCount : Int) - (e.ctrl.lastChild (top : Int) + 1)).toNat + 1)
          (e.ctrl.lastChild (top : Int) + 1) = (if skip then none else
        FoldAll_nextHeader e.ctrl (e.ctrl.lineCount : Int)
          (((e.ctrl.lineCount : Int) - (e.ctrl.lastChild (top : Int) + 1)).toNat + 1)
          (e.ctrl.lastChild (top : Int) + 1)) →
      (skip = false → (FoldAll_nextHeader e.ctrl (e.ctrl.lineCount : Int)
          (((e.ctrl.lineCount : Int) - (e.ctrl.lastChild (top : Int) + 1)).toNat + 1)
          (e.ctrl.lastChild (top : Int) + 1)).isNone = false) →
      toggledLines (FoldAll toggle e).log
        = toggledLines e.log ++
          expandedHeadersAtLevel e.ctrl (wxSTC_FOLDLEVELBASE + (if skip then 1 else 0)) := by
    intro skip h1 h2
    have hskip : (FoldAll_nextHeader e.ctrl (e.ctrl.lineCount : Int)
          (((e.ctrl.lineCount : Int) - (e.ctrl.lastChild (top : Int) + 1)).toNat + 1)
          (e.ctrl.lastChild (top : Int) + 1)).isNone = skip := by
      cases skip with
      | true =>
        rw [h1]
        rfl
      | false => exact h2 rfl
    unfold FoldAll
    rw [hrun, hskip]
    simp only []
    rw [toggledLines_repairCaret]
    exact (FoldAll_loop toggle e skip hframe e.ctrl.lineCount).2.2.2
  constructor
  · intro hno
    have hnone : FoldAll_nextHeader e.ctrl (e.ctrl.lineCount : Int)
          (((e.ctrl.lineCount : Int) - (e.ctrl.lastChild (top : Int) + 1)).toNat + 1)
          (e.ctrl.lastChild (top : Int) + 1) = none := by
      apply FoldAll_nextHeader_none_of
      · by_cases hend : e.ctrl.lastChild (top : Int) + 1 < (e.ctrl.lineCount : Int)
        · have := hno (e.ctrl.lastChild (top : Int) + 1).toNat (by omega) (by omega)
          rwa [Int.toNat_of_nonneg (by omega)] at this
        · exact isFoldHeader_past_end _ _ (by omega)
      · intro l h1 h2
        have := hno l.toNat (by omega) (by omega)
        rwa [Int.toNat_of_nonneg (by omega)] at this
    refine ⟨?_, ?_⟩
    · have := hlog true (by simpa using hnone) (by intro h; exact Bool.noConfusion h)
      simpa using this
    · intro hlevel hmem
      unfold expandedHeadersAtLevel at hmem
      simp only [List.mem_map, List.mem_filter, Bool.and_eq_true, beq_iff_eq] at hmem
      obtain ⟨l, ⟨_, ⟨_, hl⟩, _⟩, hcast⟩ := hmem
      have hlt : l = top := by exact_mod_cast hcast
      subst hlt
      rw [hlevel] at hl
      simp [wxSTC_FOLDLEVELBASE] at hl
  · rintro ⟨l, h1, h2, h3⟩
    have hsome : (FoldAll_nextHeader e.ctrl (e.ctrl.lineCount : Int)
          (((e.ctrl.lineCount : Int) - (e.ctrl.lastChild (top : Int) + 1)).toNat + 1)
          (e.ctrl.lastChild (top : Int) + 1)).isNone = false := by
      cases hn : FoldAll_nextHeader e.ctrl (e.ctrl.lineCount : Int)
          (((e.ctrl.lineCount : Int) - (e.ctrl.lastChild (top : Int) + 1)).toNat + 1)
          (e.ctrl.lastChild (top : Int) + 1) with
      | some t => rfl
      | none =>
        have := FoldAll_nextHeader_none_spec _ _ _ _ (le_refl _) hn (l : Int) (by omega)
          (by omega)
        rw [this] at h3
        exact Bool.noConfusion h3
    have := hlog false (by simp) (fun _ => hsome)
    simpa using this

/-- The sample fold toggle leaves the fold levels, the line count and the
expansion state of the other lines alone. -/
theorem sampleToggleFold_frame (c : wxStyledTextCtrl) (l : Int)
    (hheader : isFoldHeader c l = true) :
    (sampleToggleFold c l).foldLevel = c.foldLevel ∧
    (sampleToggleFold c l).lineCount = c.lineCount ∧
    ∀ l2 : Int, l2 ≠ l → (sampleToggleFold c l).foldExpanded l2 = c.foldExpanded l2 := by
  unfold sampleToggleFold
  simp only [hheader, if_true]
  split_ifs
  · refine ⟨rfl, rfl, ?_⟩
    intro l2 hl2
    simp [hl2]
  · exact ⟨rfl, rfl, fun _ _ => rfl⟩

set_option maxRecDepth 8000 in
/-- Witness of C16: in the header file under an include guard `FoldAll` toggles
the folds of the lines 2 and 6 and not the fold of line 0; in the file with two
functions side by side it toggles the folds of the lines 0 and 5. -/
theorem FoldAll_toggles_witness :
    toggledLines (FoldAll sampleToggleFold guardedHeaderEditor).log = [2, 6] ∧
    expandedHeadersAtLevel guardedHeaderEditor.ctrl (wxSTC_FOLDLEVELBASE + 1) = [2, 6] ∧
    toggledLines (FoldAll sampleToggleFold twoFunctionsEditor).log = [0, 5] ∧
    toggledLines (FoldAll sampleToggleFold guardedHeaderEditor).log
      = toggledLines guardedHeaderEditor.log
        ++ expandedHeadersAtLevel guardedHeaderEditor.ctrl (wxSTC_FOLDLEVELBASE + 1) :=
  ⟨by decide, by decide, by decide,
    ((FoldAll_toggles sampleToggleFold guardedHeaderEditor 6 0 sampleToggleFold_frame
      (by decide) (by decide) (by decide)
      ⟨by decide, by decide, fun l hl => absurd hl (Nat.not_lt_zero l)⟩
      ⟨by decide, by decide⟩).1
      (fun l h1 h2 => by
        have h9 : guardedHeaderEditor.ctrl.lastChild ((0 : Nat) : Int) = 9 := by decide
        have h10 : guardedHeaderEditor.ctrl.lineCount = 10 := by decide
        rw [h9] at h1
        rw [h10] at h2
        omega)).1⟩

/-! ## Backward brace matching -/

/-- In a balanced stretch of text the opening braces waiting at its start are
all used up by its closing braces. -/
theorem braceBalanced_excess (o c : Char) (l : List (Option Char)) (waiting : Nat)
    (h : braceBalanced o c l waiting = true) : (waiting : Int) + braceExcess o c l = 0 := by
  induction l generalizing waiting with
  | nil =>
    simp [braceBalanced] at h
    simp [braceExcess, h]
  | cons x rest ih =>
    unfold braceBalanced at h
    unfold braceExcess
    by_cases ho : x = some o
    · rw [if_pos ho] at h ⊢
      have := ih _ h
      push_cast at this
      omega
    · rw [if_neg ho] at h ⊢
      by_cases hc : x = some c
      · rw [if_pos hc] at h ⊢
        cases waiting with
        | zero => simp at h
        | succ w =>
          simp only [] at h
          have := ih _ h
          push_cast
          omega
      · rw [if_neg hc] at h ⊢
        have := ih _ h
        omega

/-- Every end of a balanced stretch of text is balanced for some number of
opening braces waiting. -/
theorem braceBalanced_drop (o c : Char) (l : List (Option Char)) (waiting i : Nat)
    (h : braceBalanced o c l waiting = true) :
    ∃ w, braceBalanced o c (l.drop i) w = true := by
  induction l generalizing waiting i with
  | nil => exact ⟨waiting, by simpa using h⟩
  | cons x rest ih =>
    cases i with
    | zero => exact ⟨waiting, by simpa using h⟩
    | succ i =>
      simp only [List.drop_succ_cons]
      unfold braceBalanced at h
      by_cases ho : x = some o
      · rw [if_pos ho] at h
        exact ih _ i h
      · rw [if_neg ho] at h
        by_cases hc : x = some c
        · rw [if_pos hc] at h
          cases waiting with
          | zero => simp at h
          | succ w => exact ih _ i h
        · rw [if_neg hc] at h
          exact ih _ i h

/-- In every end of a balanced stretch of text the closing braces are at least
as many as the opening braces. -/
theorem braceBalanced_suffix (o c : Char) (l : List (Option Char))
    (h : braceBalanced o c l 0 = true) (i : Nat) : braceExcess o c (l.drop i) ≤ 0 := by
  obtain ⟨w, hw⟩ := braceBalanced_drop o c l 0 i h
  have := braceBalanced_excess o c _ w hw
  omega

/-- The backward scan crosses a stretch of text, in every end of which the
closing braces are at least as many as the opening ones, without stopping, and
comes out with the depth raised by the closing braces left without partner. -/
theorem MatchBraceBack_scan_segment (t : TextEditor) (o c : Char) (n a : Nat) (depth : Int)
    (hdepth : 1 ≤ depth)
    (hsuffix : ∀ i, braceExcess o c (((List.range' a n).map (codeCharAt t)).drop i) ≤ 0) :
    MatchBraceBack_scan t o c (a + n) depth
      = MatchBraceBack_scan t o c a
          (depth - braceExcess o c ((List.range' a n).map (codeCharAt t))) := by
  induction n generalizing a depth with
  | zero => simp [braceExcess]
  | succ n ih =>
    have hrange : (List.range' a (n + 1)).map (codeCharAt t)
        = codeCharAt t a :: (List.range' (a + 1) n).map (codeCharAt t) := by
      rw [List.range'_succ, List.map_cons]
    rw [hrange] at hsuffix ⊢
    have hsuffix2 : ∀ i, braceExcess o c
        (((List.range' (a + 1) n).map (codeCharAt t)).drop i) ≤ 0 := by
      intro i
      have := hsuffix (i + 1)
      simpa using this
    have hrest := hsuffix2 0
    have hall := hsuffix 0
    simp only [List.drop_zero] at hrest hall
    have hstep := ih (a + 1) depth hdepth hsuffix2
    have heq : a + (n + 1) = a + 1 + n := by omega
    rw [heq, hstep]
    have hcons : ∀ (x : Option Char) (rest : List (Option Char)),
        braceExcess o c (x :: rest)
          = (if x = some o then 1 else if x = some c then -1 else 0) + braceExcess o c rest :=
      fun _ _ => rfl
    rw [hcons] at hall ⊢
    generalize braceExcess o c ((List.range' (a + 1) n).map (codeCharAt t)) = r at *
    rw [MatchBraceBack_scan]
    unfold codeCharAt at hall ⊢
    by_cases hcs : t.IsCommentOrString (a : Int) = true
    · simp only [hcs, if_true] at hall ⊢
      simp
    · simp only [hcs] at hall ⊢
      simp only [Bool.false_eq_true, if_false, Option.some.injEq] at hall ⊢
      by_cases ho : GetCharAt t (a : Int) = o
      · simp only [ho, if_true] at hall ⊢
        rw [if_neg (by omega)]
        congr 1
        omega
      · simp only [ho, if_false] at hall ⊢
        by_cases hc : GetCharAt t (a : Int) = c
        · simp only [hc, if_true] at hall ⊢
          congr 1
          omega
        · simp only [hc, if_false] at hall ⊢
          congr 1
          omega

/-- C13 (counterexample): in `a(b(c)d)e` the character just before position 8
is the closing brace at position 7, whose balanced opening partner is at
position 1, and `MatchBraceBack(')', 8)` returns false: the scan, which starts
at the position before `pos`, counts that closing brace as a nested one. -/
theorem MatchBraceBack_after_closing_brace :
    codeCharAt nestedBraces 7 = some ')' ∧
    isOpeningPartner nestedBraces '(' ')' 1 7 ∧
    MatchBraceBack nestedBraces ')' 8 = none :=
  ⟨by decide, ⟨by decide, by decide, by decide⟩, by decide⟩

/-- C13 (amended): when the closing brace stands at position `pos` itself and
its balanced opening partner, comments and strings ignored, is at position `q`,
`MatchBraceBack(closing brace, pos)` returns true with `matchedPos = q`. -/
theorem MatchBraceBack_finds_partner (t : TextEditor) (chCloseBrace chOpenBrace : Char)
    (q pos : Nat) (hbrace : openBraceOf chCloseBrace = some chOpenBrace)
    (hpartner : isOpeningPartner t chOpenBrace chCloseBrace q pos) :
    MatchBraceBack t chCloseBrace (pos : Int) = some (q : Int) := by
  obtain ⟨hlt, hopen, hbal⟩ := hpartner
  have hexcess := braceBalanced_excess _ _ _ 0 hbal
  have hscan := MatchBraceBack_scan_segment t chOpenBrace chCloseBrace (pos - q - 1) (q + 1) 1
    (le_refl _) (braceBalanced_suffix _ _ _ hbal)
  have hpos : q + 1 + (pos - q - 1) = pos := by omega
  rw [hpos] at hscan
  have hdepth : (1 : Int) - braceExcess chOpenBrace chCloseBrace
      ((List.range' (q + 1) (pos - q - 1)).map (codeCharAt t)) = 1 := by
    simp only [Nat.cast_zero] at hexcess
    omega
  rw [hdepth] at hscan
  unfold MatchBraceBack
  rw [if_neg (by omega), hbrace]
  simp only [Int.toNat_ofNat]
  rw [hscan, MatchBraceBack_scan]
  unfold codeCharAt at hopen
  by_cases hcs : t.IsCommentOrString (q : Int) = true
  · rw [if_pos hcs] at hopen
    exact Option.noConfusion hopen
  · rw [if_neg hcs] at hopen
    injection hopen with hch
    rw [if_neg hcs]
    simp [hch]

/-- Witness of C13 (amended): in `a(b(c)d)e`, with `pos` the position of the
last closing brace, the match is the first opening brace and not the inner one. -/
theorem MatchBraceBack_finds_partner_witness :
    isOpeningPartner nestedBraces '(' ')' 1 7 ∧
    MatchBraceBack nestedBraces ')' 7 = some 1 ∧
    MatchBraceBack nestedBraces ')' ((7 : Nat) : Int) = some ((1 : Nat) : Int) :=
  ⟨⟨by decide, by decide, by decide⟩, by decide,
    MatchBraceBack_finds_partner nestedBraces ')' '(' 1 7 (by decide)
      ⟨by decide, by decide, by decide⟩⟩

/-! ## Saving -/

/-- With both of its arguments false `TrimText` does nothing, the flags being
distinct bits. -/
theorem TrimText_off (K : TrimConstants) (t : TextEditor)
    (h1 : K.TRIM_MODIFIED_LINES &&& K.TRIM_ENABLED = 0)
    (h2 : K.TRIM_IGNORE_CARET_LINE &&& K.TRIM_ENABLED = 0)
    (h3 : K.TRIM_MODIFIED_LINES &&& K.TRIM_APPEND_LF = 0)
    (h4 : K.TRIM_IGNORE_CARET_LINE &&& K.TRIM_APPEND_LF = 0) :
    TrimText K t false false = t := by
  have hflags : ∀ flags : Nat, flags &&& K.TRIM_ENABLED = 0 → flags &&& K.TRIM_APPEND_LF = 0 →
      TrimText_flags K t flags = t := by
    intro flags e1 e2
    unfold TrimText_flags
    simp [e1, e2]
  unfold TrimText
  apply hflags
  · by_cases hm : t.trimOnlyModifiedLines = true <;> by_cases hc : t.dontTrimCaretLine = true <;>
      simp [hm, hc, Nat.and_distrib_right, h1, h2]
  · by_cases hm : t.trimOnlyModifiedLines = true <;> by_cases hc : t.dontTrimCaretLine = true <;>
      simp [hm, hc, Nat.and_distrib_right, h3, h4]

/-- On every path of `SaveToFile` after the veto test the text is the one
`TrimText` has left. -/
theorem SaveToFile_text (K : TrimConstants) (t : TextEditor) (env : SaveEnvironment)
    (hallowed : env.saveAllowed = true) :
    (SaveToFile K t env).2.text = (TrimText K t t.trimLine t.appendLF).text := by
  unfold SaveToFile
  simp only [hallowed, Bool.not_true, Bool.false_eq_true, if_false]
  generalize TrimText K t t.trimLine t.appendLF = t1
  by_cases h1 : env.intermediateFileExists = true
  · rw [if_pos h1]
  · rw [if_neg h1]
    by_cases h2 : (!env.fileOpened) = true
    · rw [if_pos h2]
    · rw [if_neg h2]
      cases env.mb_str t1.text with
      | none => rfl
      | some buf =>
        simp only []
        by_cases h3 : buf.length = 0 ∧ t1.text ≠ []
        · rw [if_pos h3]
        · rw [if_neg h3]
          by_cases h4 : env.targetReadOnly = true ∧ env.continueAnswer = false
          · rw [if_pos h4]
          · rw [if_neg h4]
            by_cases h5 : (!env.renameFile) = true
            · rw [if_pos h5]
            · rw [if_neg h5]

/-- C19 (counterexample): saving the document `abc`, to which a line end is to
be appended, fails because the intermediate file cannot be opened; `SaveToFile`
returns false and the buffer text is `abc` followed by a line end, not the text
from before the call. -/
theorem SaveToFile_failure_changes_text :
    (SaveToFile trimBits unterminatedText unwritableSave).1 = false ∧
    unterminatedText.text = ['a', 'b', 'c'] ∧
    (SaveToFile trimBits unterminatedText unwritableSave).2.text = ['a', 'b', 'c', '\n'] ∧
    (SaveToFile trimBits unterminatedText unwritableSave).2.text ≠ unterminatedText.text := by
  decide

/-- C19 (amended): on every return of `SaveToFile`, and so whenever it returns
false, the buffer text is the text from before the call when the save was
vetoed (the call then returns false and leaves the whole editor alone), and
otherwise the text as `TrimText`, called with the trim-lines and append-LF
options, has left it; that is the text from before the call when both options
are off (the flags of `TrimText` being distinct bits). -/
theorem SaveToFile_failure_text (K : TrimConstants) (t : TextEditor) (env : SaveEnvironment) :
    (env.saveAllowed = false → SaveToFile K t env = (false, t)) ∧
    (env.saveAllowed = true →
      (SaveToFile K t env).2.text = (TrimText K t t.trimLine t.appendLF).text) ∧
    (t.trimLine = false → t.appendLF = false →
      K.TRIM_MODIFIED_LINES &&& K.TRIM_ENABLED = 0 →
      K.TRIM_IGNORE_CARET_LINE &&& K.TRIM_ENABLED = 0 →
      K.TRIM_MODIFIED_LINES &&& K.TRIM_APPEND_LF = 0 →
      K.TRIM_IGNORE_CARET_LINE &&& K.TRIM_APPEND_LF = 0 →
      (SaveToFile K t env).2.text = t.text) := by
  refine ⟨?_, SaveToFile_text K t env, ?_⟩
  · intro hveto
    unfold SaveToFile
    simp [hveto]
  · intro ht ha h1 h2 h3 h4
    by_cases hallowed : env.saveAllowed = true
    · rw [SaveToFile_text K t env hallowed, ht, ha, TrimText_off K t h1 h2 h3 h4]
    · have hveto : env.saveAllowed = false := by simpa using hallowed
      unfold SaveToFile
      simp [hveto]

/-- Witness of C19 (amended): a vetoed save of the document with blanks at the
end of a line leaves the editor as it was, and a save of it that fails later
leaves the trimmed text. -/
theorem SaveToFile_failure_text_witness :
    (SaveToFile trimBits blankEndedText vetoedSave).1 = false ∧
    (SaveToFile trimBits blankEndedText unwritableSave).1 = false ∧
    (SaveToFile trimBits blankEndedText unwritableSave).2.text = ['a', 'b', '\n', 'c', 'd'] ∧
    (SaveToFile trimBits blankEndedText vetoedSave).2.text = blankEndedText.text ∧
    (SaveToFile trimBits nestedBraces unwritableSave).2.text = nestedBraces.text :=
  ⟨by decide, by decide, by decide,
    congrArg (fun r => r.2.text)
      ((SaveToFile_failure_text trimBits blankEndedText vetoedSave).1 (by decide)),
    (SaveToFile_failure_text trimBits nestedBraces unwritableSave).2.2
      (by decide) (by decide) (by decide) (by decide) (by decide) (by decide)⟩

/-! ## Character added: undo of the close-and-indent sequence -/

/-- The closing of a group touches the undo history only. -/
theorem EndUndoAction_fields (t : TextEditor) :
    (EndUndoAction t).text = t.text ∧
    (EndUndoAction t).currentPos = t.currentPos ∧
    (EndUndoAction t).selectionStart = t.selectionStart ∧
    (EndUndoAction t).selectionEnd = t.selectionEnd ∧
    (EndUndoAction t).m_modifiedLines = t.m_modifiedLines ∧
    (EndUndoAction t).selections = t.selections ∧
    (EndUndoAction t).undoDepth = t.undoDepth - 1 ∧
    (t.undoGroupFresh = false → (EndUndoAction t).undoStack = t.undoStack) := by
  unfold EndUndoAction
  simp only []
  split_ifs with h
  · exact ⟨rfl, rfl, rfl, rfl, rfl, rfl, rfl, fun hf => by rw [hf] at h; exact absurd h.2 (by decide)⟩
  · exact ⟨rfl, rfl, rfl, rfl, rfl, rfl, rfl, fun _ => rfl⟩

theorem EndUndoAction_currentPos (t : TextEditor) :
    (EndUndoAction t).currentPos = t.currentPos := (EndUndoAction_fields t).2.1

theorem EndUndoAction_selectionStart (t : TextEditor) :
    (EndUndoAction t).selectionStart = t.selectionStart := (EndUndoAction_fields t).2.2.1

theorem EndUndoAction_selectionEnd (t : TextEditor) :
    (EndUndoAction t).selectionEnd = t.selectionEnd := (EndUndoAction_fields t).2.2.2.1

theorem EndUndoAction_modifiedLines (t : TextEditor) :
    (EndUndoAction t).m_modifiedLines = t.m_modifiedLines := (EndUndoAction_fields t).2.2.2.2.1

theorem EndUndoAction_selections (t : TextEditor) :
    (EndUndoAction t).selections = t.selections := (EndUndoAction_fields t).2.2.2.2.2.1

theorem EndUndoAction_currentLine (t : TextEditor) :
    (EndUndoAction t).GetCurrentLine = t.GetCurrentLine := by
  unfold TextEditor.GetCurrentLine TextEditor.LineFromPosition
  rw [(EndUndoAction_fields t).1, (EndUndoAction_fields t).2.1]

/-- The scan of `TrimText` over the blanks at the end of a line needs no more
fuel than the length of the stretch it scans. -/
theorem TrimText_scan_fuel (t : TextEditor) (lineStart : Int) (fuel extra : Nat) (i : Int)
    (hfuel : (i + 1 - lineStart).toNat ≤ fuel) :
    TrimText_scan t lineStart (fuel + extra) i = TrimText_scan t lineStart fuel i := by
  induction fuel generalizing i with
  | zero =>
    cases extra with
    | zero => rfl
    | succ extra =>
      rw [Nat.zero_add]
      unfold TrimText_scan
      rw [if_neg (by intro h; omega)]
  | succ fuel ih =>
    have hsucc : fuel + 1 + extra = (fuel + extra) + 1 := by omega
    rw [hsucc]
    unfold TrimText_scan
    by_cases h : i ≥ lineStart ∧ (GetCharAt t i = ' ' ∨ GetCharAt t i = '\t')
    · rw [if_pos h, if_pos h]
      exact ih (i - 1) (by omega)
    · rw [if_neg h, if_neg h]

/-- In an open group that holds a change already, a further change is recorded
in the step of the group. -/
theorem recordUndoStep_open (s : TextEditor) (undoCaret : Int) (h : 0 < s.undoDepth)
    (hfresh : s.undoGroupFresh = false) : recordUndoStep s undoCaret = s := by
  unfold recordUndoStep
  rw [if_neg (by omega), hfresh]
  rfl

theorem InsertText_keepsUndoGroup (pos : Int) (text : TextEditor → List Char) :
    keepsUndoGroup (fun s => InsertText s pos (text s)) := by
  intro s hs hfresh
  simp only [InsertText, recordUndoStep_open s pos hs hfresh]
  split_ifs <;> exact ⟨rfl, rfl, hfresh⟩

theorem CharRight_keepsUndoGroup : keepsUndoGroup CharRight :=
  fun _ _ h => ⟨rfl, rfl, h⟩

theorem SetCaretAt_keepsUndoGroup (pos : Int) :
    keepsUndoGroup (fun s => s.SetCaretAt pos) :=
  fun _ _ h => ⟨rfl, rfl, h⟩

theorem keepsUndoGroup_comp (f g : TextEditor → TextEditor) (hf : keepsUndoGroup f)
    (hg : keepsUndoGroup g) : keepsUndoGroup (fun s => g (f s)) := by
  intro s hs hfresh
  obtain ⟨f1, f2, f3⟩ := hf s hs hfresh
  obtain ⟨g1, g2, g3⟩ := hg (f s) (by omega) f3
  exact ⟨g1.trans f1, g2.trans f2, g3⟩

theorem keepsUndoGroup_if (c : Bool) (f : TextEditor → TextEditor) (hf : keepsUndoGroup f) :
    keepsUndoGroup (fun s => if c then f s else s) := by
  intro s hs hfresh
  cases c with
  | true => exact hf s hs hfresh
  | false => exact ⟨rfl, rfl, hfresh⟩

/-- A line starts inside the text or at its end. -/
theorem lineStart_le_length (text : List Char) : ∀ line : Nat, lineStart text line ≤ text.length := by
  induction text with
  | nil => intro line; cases line <;> simp [lineStart]
  | cons ch rest ih =>
    intro line
    cases line with
    | zero => simp [lineStart]
    | succ n =>
      have hstep : lineStart (ch :: rest) (n + 1)
          = 1 + (if completesLineEnd ch rest then lineStart rest n
            else lineStart rest (n + 1)) := rfl
      rw [hstep, List.length_cons]
      split_ifs
      · have := ih n; omega
      · have := ih (n + 1); omega

/-- The editor's `LineEnd` is a position of the document at most. -/
theorem LineEnd_le_length (t : TextEditor) (line : Int) : LineEnd t line ≤ GetLength t := by
  unfold LineEnd LineLength TextEditor.PositionFromLine GetLength
  simp only []
  have h1 := lineStart_le_length t.text (t.LineFromPosition t.selectionStart).toNat
  have h2 := lineStart_le_length t.text line.toNat
  have h3 := lineStart_le_length t.text (line.toNat + 1)
  split_ifs <;> omega

/-- The code to be moved between the braces is a stretch of the line behind
`pos`: it starts inside the document and the line ends behind `pos`. -/
theorem OnCharAdded_shiftCode_range (t : TextEditor) (pos : Int)
    (h : OnCharAdded_shiftCode t pos = true) :
    pos < OnCharAdded_lineEndPos t ∧ OnCharAdded_lineEndPos t ≤ GetLength t := by
  constructor
  · by_contra hle
    have hempty : GetTextRange t pos (OnCharAdded_lineEndPos t) = [] := by
      unfold GetTextRange
      have : (OnCharAdded_lineEndPos t - pos).toNat = 0 := by omega
      rw [this, List.take_zero]
    unfold OnCharAdded_shiftCode at h
    rw [hempty] at h
    exact absurd h (by decide)
  · have := LineEnd_le_length t t.GetCurrentLine
    unfold OnCharAdded_lineEndPos
    omega

/-- The control's `BeginUndoAction` with no group open. -/
theorem BeginUndoAction_outermost (t : TextEditor) (h : t.undoDepth = 0) :
    BeginUndoAction t
      = { t with
          undoStack := (t.text, t.currentPos) :: t.undoStack
          undoGroupFresh := true
          undoDepth := 1
          calls := t.calls ++ [TextCall.BeginUndoAction] } := by
  unfold BeginUndoAction
  simp [h]

/-- The first change of the close-and-indent sequence, made in the group just
opened, settles the caret of the undo step of the group: the removal of the
rest of the line when there is code to move, the insertion of the closing
brace otherwise. -/
theorem OnCharAdded_firstChange (s : TextEditor) (pos lineEndPos : Int) (shiftCode : Bool)
    (text : List Char) (caret : Int) (rest : List (List Char × Int))
    (hdepth : s.undoDepth = 1) (hfresh : s.undoGroupFresh = true)
    (hstack : s.undoStack = (text, caret) :: rest)
    (hpos : 0 ≤ pos ∧ pos ≤ GetLength s)
    (hshift : shiftCode = true → pos < lineEndPos ∧ lineEndPos ≤ GetLength s) :
    (InsertText (if shiftCode then ReplaceSelection_empty (SetSelection s pos lineEndPos) else s)
        pos ['}']).undoDepth = 1 ∧
    (InsertText (if shiftCode then ReplaceSelection_empty (SetSelection s pos lineEndPos) else s)
        pos ['}']).undoGroupFresh = false ∧
    (InsertText (if shiftCode then ReplaceSelection_empty (SetSelection s pos lineEndPos) else s)
        pos ['}']).undoStack = (text, if shiftCode then lineEndPos else pos) :: rest := by
  have hrecord : ∀ (s2 : TextEditor) (c : Int), s2.undoDepth = 1 → s2.undoGroupFresh = true →
      s2.undoStack = (text, caret) :: rest →
      (recordUndoStep s2 c).undoDepth = 1 ∧ (recordUndoStep s2 c).undoGroupFresh = false ∧
      (recordUndoStep s2 c).undoStack = (text, c) :: rest := by
    intro s2 c h1 h2 h3
    unfold recordUndoStep
    rw [if_neg (by omega), if_pos h2, h3]
    exact ⟨h1, rfl, rfl⟩
  cases shiftCode with
  | false =>
    simp only [Bool.false_eq_true, if_false]
    unfold InsertText
    rw [if_pos hpos]
    have hne : ¬ (['}'] = ([] : List Char)) := by decide
    simp only [hne, if_false]
    exact hrecord s pos hdepth hfresh hstack
  | true =>
    simp only [if_true]
    obtain ⟨hlt, hle⟩ := hshift rfl
    have hsel : (SetSelection s pos lineEndPos).selectionStart = pos ∧
        (SetSelection s pos lineEndPos).selectionEnd = lineEndPos := by
      unfold SetSelection
      simp only []
      exact ⟨min_eq_left (le_of_lt hlt), max_eq_right (le_of_lt hlt)⟩
    have hremoved : (ReplaceSelection_empty (SetSelection s pos lineEndPos)).undoDepth = 1 ∧
        (ReplaceSelection_empty (SetSelection s pos lineEndPos)).undoGroupFresh = false ∧
        (ReplaceSelection_empty (SetSelection s pos lineEndPos)).undoStack
          = (text, lineEndPos) :: rest := by
      unfold ReplaceSelection_empty
      rw [hsel.1, hsel.2]
      have hin : 0 ≤ pos ∧ pos ≤ lineEndPos ∧ lineEndPos ≤ GetLength (SetSelection s pos lineEndPos) :=
        ⟨hpos.1, le_of_lt hlt, hle⟩
      rw [if_pos hin]
      have hne : ¬ (pos = lineEndPos) := by omega
      simp only [hne, if_false]
      exact hrecord (SetSelection s pos lineEndPos) lineEndPos hdepth hfresh hstack
    obtain ⟨h1, h2, h3⟩ := hremoved
    obtain ⟨k1, k2, k3⟩ := InsertText_keepsUndoGroup pos (fun _ => ['}'])
      (ReplaceSelection_empty (SetSelection s pos lineEndPos)) (by omega) h2
    exact ⟨k1.trans h1, k3, k2.trans h3⟩

/-- The close-and-indent sequence is one group of changes: started with no
group open from a caret inside the document, it leaves no group open and has
added one undo step, which goes back to the text it started from and leaves
the caret at the first change of the sequence. -/
theorem OnCharAdded_closeAndIndent_undo (AutoIndent : Char → TextEditor → TextEditor)
    (hAuto : ∀ ch : Char, keepsUndoGroup (AutoIndent ch)) (t : TextEditor)
    (hdepth : t.undoDepth = 0) (hcaret : 0 ≤ t.currentPos ∧ t.currentPos ≤ GetLength t) :
    (OnCharAdded_closeAndIndent AutoIndent t t.currentPos).undoDepth = 0 ∧
    (OnCharAdded_closeAndIndent AutoIndent t t.currentPos).undoStack
      = (t.text, if OnCharAdded_shiftCode t t.currentPos then OnCharAdded_lineEndPos t
          else t.currentPos) :: t.undoStack := by
  have htail : ∀ (shiftCode : Bool) (restOfLine : List Char),
      keepsUndoGroup (fun s =>
        AutoIndent '\n'
          ((fun s => if shiftCode then InsertText s t.currentPos restOfLine else s)
            ((fun s => s.SetCaretAt t.currentPos)
              (CharRight
                ((fun s => InsertText s t.currentPos s.eolString)
                  (AutoIndent '}'
                    (CharRight s))))))) := by
    intro shiftCode restOfLine
    apply keepsUndoGroup_comp _ _ _ (hAuto '\n')
    apply keepsUndoGroup_comp _ _ _
      (keepsUndoGroup_if shiftCode _ (InsertText_keepsUndoGroup t.currentPos (fun _ => restOfLine)))
    apply keepsUndoGroup_comp _ _ _ (SetCaretAt_keepsUndoGroup t.currentPos)
    apply keepsUndoGroup_comp _ _ _ CharRight_keepsUndoGroup
    apply keepsUndoGroup_comp _ _ _ (InsertText_keepsUndoGroup t.currentPos (fun s => s.eolString))
    apply keepsUndoGroup_comp _ _ _ (hAuto '}')
    exact CharRight_keepsUndoGroup
  have hbegin := BeginUndoAction_outermost t hdepth
  have hline : OnCharAdded_lineEndPos (BeginUndoAction t) = OnCharAdded_lineEndPos t := by
    rw [hbegin]; rfl
  have hshiftSame : OnCharAdded_shiftCode (BeginUndoAction t) t.currentPos
      = OnCharAdded_shiftCode t t.currentPos := by
    rw [hbegin]; rfl
  have hfirst := OnCharAdded_firstChange (BeginUndoAction t) t.currentPos
    (OnCharAdded_lineEndPos t) (OnCharAdded_shiftCode t t.currentPos) t.text t.currentPos
    t.undoStack (by rw [hbegin]) (by rw [hbegin]) (by rw [hbegin])
    (by rw [hbegin]; exact hcaret)
    (fun h => by
      have := OnCharAdded_shiftCode_range t t.currentPos h
      rw [hbegin]
      exact this)
  obtain ⟨h1, h2, h3⟩ := hfirst
  obtain ⟨k1, k2, k3⟩ := htail (OnCharAdded_shiftCode t t.currentPos)
    (GetTextRange (BeginUndoAction t) t.currentPos (OnCharAdded_lineEndPos t)) _ (by omega) h2
  have hrun : OnCharAdded_closeAndIndent AutoIndent t t.currentPos
      = EndUndoAction
          (AutoIndent '\n'
            ((fun s => if OnCharAdded_shiftCode (BeginUndoAction t) t.currentPos then
                InsertText s t.currentPos
                  (GetTextRange (BeginUndoAction t) t.currentPos
                    (OnCharAdded_lineEndPos (BeginUndoAction t))) else s)
              ((fun s => s.SetCaretAt t.currentPos)
                (CharRight
                  ((fun s => InsertText s t.currentPos s.eolString)
                    (AutoIndent '}'
                      (CharRight
                        (InsertText
                          (if OnCharAdded_shiftCode (BeginUndoAction t) t.currentPos then
                            ReplaceSelection_empty (SetSelection (BeginUndoAction t) t.currentPos
                              (OnCharAdded_lineEndPos (BeginUndoAction t)))
                           else BeginUndoAction t)
                          t.currentPos ['}'])))))))) := rfl
  rw [hrun, hshiftSame, hline]
  simp only [] at k1 k2 k3
  constructor
  · rw [(EndUndoAction_fields _).2.2.2.2.2.2.1, k1, h1]
  · rw [(EndUndoAction_fields _).2.2.2.2.2.2.2 k3, k2, h3]

/-- C18 (counterexample): a newline is typed behind the brace of `f(a, {b);`
just entered; the control puts it into the text, the caret going from 6 to 7,
and `OnCharAdded` runs the close-and-indent sequence.  A single `Undo` then
takes back that sequence and no more: the text still holds the typed newline,
and the caret is at position 10, behind the rest of the line that the first
change of the sequence had removed.  Neither the text nor the caret position
from before the newline is restored. -/
theorem OnCharAdded_newline_undo_keeps_newline :
    OnCharAdded_closesBrace (AddCharacter braceTyped '\n') = true ∧
    (OnCharAdded_newline sampleAutoIndent (AddCharacter braceTyped '\n')).text
      = "f(a, \x7b\n    b);\n\x7d\n".data ∧
    (Undo (OnCharAdded_newline sampleAutoIndent (AddCharacter braceTyped '\n'))).text
      = "f(a, \x7b\nb);\n".data ∧
    (Undo (OnCharAdded_newline sampleAutoIndent (AddCharacter braceTyped '\n'))).text
      ≠ braceTyped.text ∧
    (Undo (OnCharAdded_newline sampleAutoIndent (AddCharacter braceTyped '\n'))).currentPos = 10 ∧
    braceTyped.currentPos = 6 ∧
    (AddCharacter braceTyped '\n').currentPos = 7 := by
  decide

/-- C18 (amended): in `OnCharAdded`, when a newline is typed directly after an
auto-matched `{` (the close-and-indent branch) with no group of changes open
and the caret inside the document, the whole compound sequence between
`BeginUndoAction` and `EndUndoAction` makes up one undo step: the group is
closed again, exactly one step has been added to the undo history, and a
single `Undo` gives back the text the handler started from, the one with the
typed newline, and the undo history from before.  It leaves the caret at the
first change of the sequence: where the handler started, right behind the
typed newline, when the rest of the line was not removed, and at the end of
the removed rest of the line, which is behind that position, when it was.  The
context's `AutoIndent` is taken to edit through the control without closing
the open group. -/
theorem OnCharAdded_newline_single_undo (AutoIndent : Char → TextEditor → TextEditor)
    (t : TextEditor) (hAuto : ∀ ch : Char, keepsUndoGroup (AutoIndent ch))
    (hbranch : OnCharAdded_closesBrace t = true) (hdepth : t.undoDepth = 0)
    (hcaret : 0 ≤ t.currentPos ∧ t.currentPos ≤ GetLength t) :
    OnCharAdded_newline AutoIndent t
      = { OnCharAdded_closeAndIndent AutoIndent t t.currentPos with
          m_lastCharEntered := '\n'
          m_lastCharEnteredPos :=
            PositionBefore (OnCharAdded_closeAndIndent AutoIndent t t.currentPos)
              (OnCharAdded_closeAndIndent AutoIndent t t.currentPos).currentPos } ∧
    (OnCharAdded_newline AutoIndent t).undoDepth = 0 ∧
    (OnCharAdded_newline AutoIndent t).undoStack
      = (t.text, if OnCharAdded_shiftCode t t.currentPos then OnCharAdded_lineEndPos t
          else t.currentPos) :: t.undoStack ∧
    (Undo (OnCharAdded_newline AutoIndent t)).text = t.text ∧
    (Undo (OnCharAdded_newline AutoIndent t)).currentPos
      = (if OnCharAdded_shiftCode t t.currentPos then OnCharAdded_lineEndPos t
          else t.currentPos) ∧
    (OnCharAdded_shiftCode t t.currentPos = true → t.currentPos < OnCharAdded_lineEndPos t) ∧
    (Undo (OnCharAdded_newline AutoIndent t)).undoStack = t.undoStack := by
  have hrun : OnCharAdded_newline AutoIndent t
      = { OnCharAdded_closeAndIndent AutoIndent t t.currentPos with
          m_lastCharEntered := '\n'
          m_lastCharEnteredPos :=
            PositionBefore (OnCharAdded_closeAndIndent AutoIndent t t.currentPos)
              (OnCharAdded_closeAndIndent AutoIndent t t.currentPos).currentPos } := by
    unfold OnCharAdded_newline
    simp only [hbranch, if_true]
  obtain ⟨h1, h2⟩ := OnCharAdded_closeAndIndent_undo AutoIndent hAuto t hdepth hcaret
  have hstack : (OnCharAdded_newline AutoIndent t).undoStack
      = (t.text, if OnCharAdded_shiftCode t t.currentPos then OnCharAdded_lineEndPos t
          else t.currentPos) :: t.undoStack := by
    rw [hrun]
    exact h2
  refine ⟨hrun, ?_, hstack, ?_, ?_, ?_, ?_⟩
  · rw [hrun]
    exact h1
  · unfold Undo
    rw [hstack]
  · unfold Undo
    rw [hstack]
  · exact fun h => (OnCharAdded_shiftCode_range t t.currentPos h).1
  · unfold Undo
    rw [hstack]

/-- The sample indenter edits through the control and keeps an open group of
changes open. -/
theorem sampleAutoIndent_keepsUndoGroup (ch : Char) : keepsUndoGroup (sampleAutoIndent ch) := by
  intro s hs hfresh
  unfold sampleAutoIndent
  split_ifs
  · have h := InsertText_keepsUndoGroup s.currentPos (fun _ => [' ', ' ', ' ', ' ']) s hs hfresh
    exact h
  · exact ⟨rfl, rfl, hfresh⟩

/-- Witness of C18 (amended): a newline typed after the brace of `f(a, {` with `b);`
behind the caret gives the text with the code shifted into the braces, in one
undo step; `Undo` gives back the text from before and leaves the caret at
position 10, the end of the rest of the line that was removed first, the
handler having started at position 7.  With nothing behind the caret
(`if (x) {`) the caret is left at position 9, where the handler started. -/
theorem OnCharAdded_newline_single_undo_witness :
    (OnCharAdded_newline sampleAutoIndent braceBeforeCode).text = "f(a, \x7b\n    b);\n\x7d\n".data ∧
    (OnCharAdded_newline sampleAutoIndent braceBeforeCode).calls =
      [TextCall.BeginUndoAction, TextCall.SetSelection 7 10, TextCall.ReplaceSelection [],
       TextCall.InsertText 7 ['}'], TextCall.CharRight, TextCall.InsertText 7 ['\n'],
       TextCall.CharRight, TextCall.SetCaretAt 7, TextCall.InsertText 7 ['b', ')', ';'],
       TextCall.InsertText 7 [' ', ' ', ' ', ' '], TextCall.SetCaretAt 11,
       TextCall.EndUndoAction] ∧
    (Undo (OnCharAdded_newline sampleAutoIndent braceBeforeCode)).text = braceBeforeCode.text ∧
    (Undo (OnCharAdded_newline sampleAutoIndent braceBeforeCode)).currentPos
      = (if OnCharAdded_shiftCode braceBeforeCode braceBeforeCode.currentPos then
          OnCharAdded_lineEndPos braceBeforeCode else braceBeforeCode.currentPos) ∧
    (Undo (OnCharAdded_newline sampleAutoIndent braceBeforeCode)).currentPos = 10 ∧
    braceBeforeCode.currentPos = 7 ∧
    (Undo (OnCharAdded_newline sampleAutoIndent braceThenNewline)).text = braceThenNewline.text ∧
    (Undo (OnCharAdded_newline sampleAutoIndent braceThenNewline)).currentPos = 9 ∧
    braceThenNewline.currentPos = 9 :=
  ⟨by decide, by decide,
    (OnCharAdded_newline_single_undo sampleAutoIndent braceBeforeCode
      sampleAutoIndent_keepsUndoGroup (by decide) (by decide) (by decide)).2.2.2.1,
    (OnCharAdded_newline_single_undo sampleAutoIndent braceBeforeCode
      sampleAutoIndent_keepsUndoGroup (by decide) (by decide) (by decide)).2.2.2.2.1,
    by decide, by decide, by decide, by decide, by decide⟩

/-! ## Backward brace matching: the reference scan -/

/-- The signed count of braces is additive over stretches of text. -/
theorem braceExcess_append (o c : Char) (l1 l2 : List (Option Char)) :
    braceExcess o c (l1 ++ l2) = braceExcess o c l1 + braceExcess o c l2 := by
  induction l1 with
  | nil => simp [braceExcess]
  | cons x rest ih =>
    have hcons : ∀ (y : Option Char) (l : List (Option Char)),
        braceExcess o c (y :: l)
          = (if y = some o then 1 else if y = some c then -1 else 0) + braceExcess o c l :=
      fun _ _ => rfl
    rw [List.cons_append, hcons, hcons, ih]
    omega

/-- Two tests that agree on the members of a list find the same member. -/
theorem find_congr_mem {α : Type} (p q : α → Bool) (l : List α)
    (h : ∀ x ∈ l, p x = q x) : l.find? p = l.find? q := by
  induction l with
  | nil => rfl
  | cons x rest ih =>
    have hx := h x (List.mem_cons_self _ _)
    have hrest := ih (fun y hy => h y (List.mem_cons_of_mem _ hy))
    simp only [List.find?_cons, hx, hrest]

/-- The loop of `MatchBraceBack` started below position `n` with depth `d`
stops at the first position, going down, at which the depth, counted from `d`,
reaches 0. -/
theorem MatchBraceBack_scan_find (t : TextEditor) (o c : Char) (n : Nat) (d : Int)
    (hd : 1 ≤ d) :
    MatchBraceBack_scan t o c n d
      = ((List.range n).reverse.find? (fun q => decide
          (d - braceExcess o c ((List.range' q (n - q)).map (codeCharAt t)) = 0))).map
          Int.ofNat := by
  induction n generalizing d with
  | zero => simp [MatchBraceBack_scan]
  | succ n ih =>
    have hone : braceExcess o c [codeCharAt t n]
        = (if codeCharAt t n = some o then 1 else if codeCharAt t n = some c then -1 else 0) := by
      simp [braceExcess]
    have hsplit : ∀ q ∈ (List.range n).reverse,
        braceExcess o c ((List.range' q (n + 1 - q)).map (codeCharAt t))
          = braceExcess o c ((List.range' q (n - q)).map (codeCharAt t))
            + braceExcess o c [codeCharAt t n] := by
      intro q hq
      have hlt : q < n := by simpa using hq
      have h1 : n + 1 - q = (n - q) + 1 := by omega
      rw [h1, List.range'_concat, List.map_append, braceExcess_append]
      have h2 : q + 1 * (n - q) = n := by omega
      rw [h2]
      rfl
    have hhead : braceExcess o c ((List.range' n (n + 1 - n)).map (codeCharAt t))
        = braceExcess o c [codeCharAt t n] := by
      have : n + 1 - n = 1 := by omega
      rw [this]
      rfl
    -- what the reference does with the positions below `n`, for a contribution `e` of `n`
    have hrest : ∀ e : Int, braceExcess o c [codeCharAt t n] = e → 1 ≤ d - e →
        (List.range n).reverse.find? (fun q => decide
          (d - braceExcess o c ((List.range' q (n + 1 - q)).map (codeCharAt t)) = 0))
        = (List.range n).reverse.find? (fun q => decide
          (d - e - braceExcess o c ((List.range' q (n - q)).map (codeCharAt t)) = 0)) := by
      intro e he _
      apply find_congr_mem
      intro q hq
      rw [hsplit q hq, he]
      congr 1
      apply propext
      constructor <;> intro h <;> omega
    rw [List.range_succ, List.reverse_append, List.reverse_singleton, List.singleton_append,
      List.find?_cons, hhead, MatchBraceBack_scan]
    by_cases hcs : t.IsCommentOrString (n : Int) = true
    · have hcode : codeCharAt t n = none := by unfold codeCharAt; rw [if_pos hcs]
      have he : braceExcess o c [codeCharAt t n] = 0 := by rw [hone, hcode]; simp
      rw [if_pos hcs, he]
      have hne : decide (d - 0 = 0) = false := by simp; omega
      rw [hne, hrest 0 he (by omega), ih d hd]
      simp
    · have hcode : codeCharAt t n = some (GetCharAt t (n : Int)) := by
        unfold codeCharAt; rw [if_neg hcs]
      rw [if_neg hcs]
      simp only []
      by_cases ho : GetCharAt t (n : Int) = o
      · have he : braceExcess o c [codeCharAt t n] = 1 := by rw [hone, hcode, ho]; simp
        rw [if_pos ho, he]
        by_cases hz : d - 1 = 0
        · rw [if_pos hz]
          simp [hz]
        · rw [if_neg hz]
          have hne : decide (d - 1 = 0) = false := by simp [hz]
          rw [hne, hrest 1 he (by omega), ih (d - 1) (by omega)]
      · rw [if_neg ho]
        by_cases hc : GetCharAt t (n : Int) = c
        · have he : braceExcess o c [codeCharAt t n] = -1 := by
            have h1 : ¬ (some (GetCharAt t (n : Int)) = some o) := fun h => ho (Option.some.inj h)
            have h2 : some (GetCharAt t (n : Int)) = some c := congrArg some hc
            rw [hone, hcode, if_neg h1, if_pos h2]
          rw [if_pos hc, he]
          have hne : decide (d - -1 = 0) = false := by simp; omega
          rw [hne, hrest (-1) he (by omega), ih (d + 1) (by omega)]
          simp
        · have he : braceExcess o c [codeCharAt t n] = 0 := by
            rw [hone, hcode]
            simp [ho, hc]
          rw [if_neg hc, he]
          have hne : decide (d - 0 = 0) = false := by simp; omega
          rw [hne, hrest 0 he (by omega), ih d hd]
          simp

/-- The opener read off the table is the one the `switch` of `MatchBraceBack`
picks. -/
theorem referenceOpener_eq (c : Char) : referenceOpener c = openBraceOf c := by
  unfold referenceOpener openBraceOf
  by_cases h1 : c = '}'
  · subst h1; rfl
  · by_cases h2 : c = ')'
    · subst h2; rfl
    · by_cases h3 : c = ']'
      · subst h3; rfl
      · by_cases h4 : c = '>'
        · subst h4; rfl
        · have b1 : (c == '}') = false := by simpa using h1
          have b2 : (c == ')') = false := by simpa using h2
          have b3 : (c == ']') = false := by simpa using h3
          have b4 : (c == '>') = false := by simpa using h4
          simp [List.lookup, h1, h2, h3, h4, b1, b2, b3, b4]


/-- What a search down from `n - 1` finds: a position below `n` that passes the
test, all positions above it failing. -/
theorem find_range_reverse_some (p : Nat → Bool) (n q : Nat)
    (h : (List.range n).reverse.find? p = some q) :
    q < n ∧ p q = true ∧ ∀ r, q < r → r < n → p r = false := by
  induction n with
  | zero => simp at h
  | succ n ih =>
    rw [List.range_succ, List.reverse_append, List.reverse_singleton, List.singleton_append,
      List.find?_cons] at h
    cases hp : p n with
    | true =>
      rw [hp] at h
      injection h with h
      subst h
      exact ⟨by omega, hp, fun r h1 h2 => by omega⟩
    | false =>
      rw [hp] at h
      obtain ⟨h1, h2, h3⟩ := ih h
      refine ⟨by omega, h2, fun r hr1 hr2 => ?_⟩
      by_cases hrn : r = n
      · rw [hrn]; exact hp
      · exact h3 r hr1 (by omega)

/-- A position the loop of `MatchBraceBack` returns is below its start, outside
comments and strings, and holds the opening brace. -/
theorem MatchBraceBack_scan_some (t : TextEditor) (o c : Char) (n : Nat) (d m : Int)
    (h : MatchBraceBack_scan t o c n d = some m) :
    0 ≤ m ∧ m < (n : Int) ∧ t.IsCommentOrString m = false ∧ GetCharAt t m = o := by
  induction n generalizing d with
  | zero => simp [MatchBraceBack_scan] at h
  | succ n ih =>
    rw [MatchBraceBack_scan] at h
    have hup : ∀ d2, MatchBraceBack_scan t o c n d2 = some m →
        0 ≤ m ∧ m < ((n + 1 : Nat) : Int) ∧ t.IsCommentOrString m = false ∧ GetCharAt t m = o := by
      intro d2 h2
      obtain ⟨h1, h2, h3, h4⟩ := ih d2 h2
      exact ⟨h1, by push_cast; omega, h3, h4⟩
    by_cases hcs : t.IsCommentOrString (n : Int) = true
    · rw [if_pos hcs] at h
      exact hup _ h
    · rw [if_neg hcs] at h
      simp only [] at h
      by_cases ho : GetCharAt t (n : Int) = o
      · rw [if_pos ho] at h
        by_cases hz : d - 1 = 0
        · rw [if_pos hz] at h
          injection h with h
          subst h
          exact ⟨by omega, by push_cast; omega, by simpa using hcs, ho⟩
        · rw [if_neg hz] at h
          exact hup _ h
      · rw [if_neg ho] at h
        by_cases hc : GetCharAt t (n : Int) = c
        · rw [if_pos hc] at h
          exact hup _ h
        · rw [if_neg hc] at h
          exact hup _ h

/-- C21: `MatchBraceBack(c, pos)` equals the reference backward scan (depth
seeded at 1, positions `pos - 1` down to 0, comments and strings skipped, the
opener of `c` lowering the depth and `c` raising it, the result being the first
visited position at which the depth reaches 0); at a position it returns, the
character is the opener, outside comments and strings, and the position is
below `pos`; it returns false when `pos <= 0` and when `c` is none of the four
closing braces. -/
theorem MatchBraceBack_eq_referenceScan (t : TextEditor) (c : Char) (pos : Int) :
    MatchBraceBack t c pos = referenceBackwardScan t c pos ∧
    (∀ matchedPos, MatchBraceBack t c pos = some matchedPos →
      0 ≤ matchedPos ∧ matchedPos < pos ∧
      some (GetCharAt t matchedPos) = referenceOpener c ∧
      t.IsCommentOrString matchedPos = false ∧
      referenceDepth t (GetCharAt t matchedPos) c pos.toNat matchedPos.toNat = 0 ∧
      ∀ q : Nat, matchedPos < (q : Int) → (q : Int) < pos →
        referenceDepth t (GetCharAt t matchedPos) c pos.toNat q ≠ 0) ∧
    (pos ≤ 0 → MatchBraceBack t c pos = none) ∧
    (c ∉ ['}', ')', ']', '>'] → MatchBraceBack t c pos = none) ∧
    ((∀ o, referenceOpener c = some o →
        ∀ q : Nat, (q : Int) < pos → referenceDepth t o c pos.toNat q ≠ 0) →
      MatchBraceBack t c pos = none) := by
  have heq : MatchBraceBack t c pos = referenceBackwardScan t c pos := by
    unfold MatchBraceBack referenceBackwardScan
    rw [referenceOpener_eq]
    by_cases hpos : pos ≤ 0
    · rw [if_pos hpos, if_pos hpos]
    · rw [if_neg hpos, if_neg hpos]
      cases hbrace : openBraceOf c with
      | none => rfl
      | some o =>
        simp only []
        rw [MatchBraceBack_scan_find t o c pos.toNat 1 (le_refl _)]
        rfl
  refine ⟨heq, ?_, ?_, ?_, ?_⟩
  · intro matchedPos hm
    have hsrc := hm
    unfold MatchBraceBack at hsrc
    rw [heq] at hm
    unfold referenceBackwardScan at hm
    by_cases hpos : pos ≤ 0
    · rw [if_pos hpos] at hm
      exact Option.noConfusion hm
    · rw [if_neg hpos] at hm hsrc
      cases hbrace : referenceOpener c with
      | none =>
        rw [hbrace] at hm
        exact Option.noConfusion hm
      | some o =>
        rw [hbrace] at hm
        rw [← referenceOpener_eq, hbrace] at hsrc
        simp only [] at hsrc
        obtain ⟨h0, hlt, hcs, hch⟩ := MatchBraceBack_scan_some t o c _ _ _ hsrc
        simp only [Option.map_eq_some'] at hm
        obtain ⟨q, hfind, hq⟩ := hm
        obtain ⟨_, hdepth, hfirst⟩ := find_range_reverse_some _ _ _ hfind
        have hq2 : matchedPos.toNat = q := by rw [← hq]; rfl
        have hq3 : matchedPos = (q : Int) := hq.symm
        refine ⟨h0, by omega, by rw [hch], hcs, ?_, ?_⟩
        · rw [hch, hq2]
          simpa using hdepth
        · intro r hr1 hr2
          rw [hch]
          have := hfirst r (by omega) (by omega)
          simpa using this
  · intro hpos
    unfold MatchBraceBack
    rw [if_pos hpos]
  · intro hc
    unfold MatchBraceBack
    have hnone : openBraceOf c = none := by
      unfold openBraceOf
      simp only [List.mem_cons, List.mem_singleton, List.not_mem_nil, or_false, not_or] at hc
      rw [if_neg hc.1, if_neg hc.2.1, if_neg hc.2.2.1, if_neg hc.2.2.2]
    rw [hnone]
    split_ifs <;> rfl
  · intro hall
    rw [heq]
    unfold referenceBackwardScan
    by_cases hpos : pos ≤ 0
    · rw [if_pos hpos]
    · rw [if_neg hpos]
      cases hbrace : referenceOpener c with
      | none => rfl
      | some o =>
        simp only [Option.map_eq_none']
        rw [List.find?_eq_none]
        intro q hq
        have hlt : q < pos.toNat := by simpa using hq
        have := hall o hbrace q (by omega)
        simpa using this

/-- Witness of C21: in `a(b(c)d)e` the scan from position 7 and the reference
scan both stop at position 1, and both find nothing from position 8. -/
theorem MatchBraceBack_eq_referenceScan_witness :
    MatchBraceBack nestedBraces ')' 7 = referenceBackwardScan nestedBraces ')' 7 ∧
    referenceBackwardScan nestedBraces ')' 7 = some 1 ∧
    referenceBackwardScan nestedBraces ')' 8 = none ∧
    referenceBackwardScan nestedBraces 'x' 8 = none :=
  ⟨(MatchBraceBack_eq_referenceScan nestedBraces ')' 7).1, by decide, by decide, by decide⟩

/-! ## End-of-line mode of the content -/

/-- A string is not found at a place where its first character does not stand. -/
theorem startsWith_head_ne (a b : Char) (rest sub : List Char) (h : a ≠ b) :
    startsWith (a :: rest) (b :: sub) = false := by
  simp [startsWith, h]

/-- The index `Find` returns for a string that is not empty is `wxNOT_FOUND` or
an index of the text. -/
theorem Find_range (s : List Char) (a : Char) (sub : List Char) :
    Find s (a :: sub) = wxNOT_FOUND ∨ (0 ≤ Find s (a :: sub) ∧ Find s (a :: sub) < (s.length : Int)) := by
  induction s with
  | nil => left; simp [Find]
  | cons ch rest ih =>
    rw [Find]
    by_cases h1 : startsWith (ch :: rest) (a :: sub) = true
    · rw [if_pos h1]
      right
      refine ⟨le_refl _, ?_⟩
      have : (0 : Int) ≤ (rest.length : Int) := Int.ofNat_nonneg _
      simp only [List.length_cons]
      push_cast
      omega
    · rw [if_neg h1]
      by_cases h2 : Find rest (a :: sub) = wxNOT_FOUND
      · rw [if_pos h2]; left; rfl
      · rw [if_neg h2]
        right
        rcases ih with h | h
        · exact absurd h h2
        · simp only [List.length_cons]
          push_cast
          omega

/-- Characters other than the first character of the string searched for are
stepped over. -/
theorem Find_skip (pre s : List Char) (a : Char) (sub : List Char) (h : a ∉ pre) :
    Find (pre ++ s) (a :: sub)
      = if Find s (a :: sub) = wxNOT_FOUND then wxNOT_FOUND
        else (pre.length : Int) + Find s (a :: sub) := by
  induction pre with
  | nil => 
    simp only [List.nil_append, List.length_nil]
    split_ifs with h1
    · exact h1
    · simp
  | cons ch rest ih =>
    have hne : ch ≠ a := fun e => h (by rw [e]; exact List.mem_cons_self _ _)
    have hrest : a ∉ rest := fun e => h (List.mem_cons_of_mem _ e)
    rw [List.cons_append, Find, startsWith_head_ne _ _ _ _ hne, ih hrest]
    simp only [Bool.false_eq_true, if_false]
    by_cases h2 : Find s (a :: sub) = wxNOT_FOUND
    · simp [h2]
    · simp only [h2, if_false]
      rcases Find_range s a sub with h3 | h3
      · exact absurd h3 h2
      · have : ¬ ((rest.length : Int) + Find s (a :: sub) = wxNOT_FOUND) := by
          unfold wxNOT_FOUND
          omega
        rw [if_neg this]
        simp only [List.length_cons]
        push_cast
        omega

/-- A string whose first character is not in the text is not found. -/
theorem Find_absent (s : List Char) (a : Char) (sub : List Char) (h : a ∉ s) :
    Find s (a :: sub) = wxNOT_FOUND := by
  have := Find_skip s [] a sub h
  simpa [Find] using this

/-- Where `Find` sees a string behind characters that are not its first one:
not at all, or at an index of the text at or behind those characters; at the
first index behind them when the string starts there. -/
theorem Find_behind (pre s : List Char) (a : Char) (sub : List Char) (h : a ∉ pre) :
    (Find (pre ++ s) (a :: sub) = wxNOT_FOUND ∨
      ((pre.length : Int) ≤ Find (pre ++ s) (a :: sub) ∧
        Find (pre ++ s) (a :: sub) < ((pre ++ s).length : Int))) ∧
    (startsWith s (a :: sub) = true → Find (pre ++ s) (a :: sub) = (pre.length : Int)) ∧
    (startsWith s (a :: sub) = false → Find (pre ++ s) (a :: sub) ≠ (pre.length : Int)) := by
  rw [Find_skip pre s a sub h]
  refine ⟨?_, ?_, ?_⟩
  · rcases Find_range s a sub with h1 | h1
    · left; rw [if_pos h1]
    · right
      have : ¬ (Find s (a :: sub) = wxNOT_FOUND) := by unfold wxNOT_FOUND; omega
      rw [if_neg this, List.length_append]
      push_cast
      omega
  · intro hs
    cases s with
    | nil => simp [startsWith] at hs
    | cons ch rest =>
      rw [Find, if_pos hs]
      simp [wxNOT_FOUND]
  · intro hs
    cases s with
    | nil => simp [Find, wxNOT_FOUND]
    | cons ch rest =>
      rw [Find, hs]
      simp only [Bool.false_eq_true, if_false]
      by_cases h2 : Find rest (a :: sub) = wxNOT_FOUND
      · simp [h2, wxNOT_FOUND]
      · simp only [h2, if_false]
        rcases Find_range rest a sub with h3 | h3
        · exact absurd h3 h2
        · have : ¬ (Find rest (a :: sub) + 1 = wxNOT_FOUND) := by unfold wxNOT_FOUND; omega
          rw [if_neg this]
          omega

/-- The character at the first position behind a stretch of text. -/
theorem SafeGetChar_behind (t : TextEditor) (pre : List Char) (x : Char) (rest : List Char)
    (h : t.text = pre ++ x :: rest) : SafeGetChar t (pre.length : Int) = x := by
  unfold SafeGetChar GetCharAt GetLength
  rw [h]
  have h1 : ¬ (((pre.length : Nat) : Int) < 0 ∨
      ((pre.length : Nat) : Int) ≥ (((pre ++ x :: rest).length : Nat) : Int)) := by
    simp only [List.length_append, List.length_cons]
    push_cast
    omega
  have h2 : 0 ≤ ((pre.length : Nat) : Int) ∧
      ((pre.length : Nat) : Int) < (((pre ++ x :: rest).length : Nat) : Int) := by
    simp only [List.length_append, List.length_cons]
    push_cast
    omega
  rw [if_neg h1, if_pos h2]
  simp [List.getElem_append_right]

/-- The character at the second position behind a stretch of text, NUL at the
end of the text. -/
theorem SafeGetChar_second (t : TextEditor) (pre : List Char) (x : Char) (rest : List Char)
    (h : t.text = pre ++ x :: rest) :
    SafeGetChar t ((pre.length : Int) + 1) = rest.headD (Char.ofNat 0) := by
  cases rest with
  | nil =>
    unfold SafeGetChar GetLength
    rw [h]
    have h1 : ((pre.length : Nat) : Int) + 1 < 0 ∨
        ((pre.length : Nat) : Int) + 1 ≥ (((pre ++ [x]).length : Nat) : Int) := by
      right
      simp only [List.length_append, List.length_cons, List.length_nil]
      push_cast
      omega
    rw [if_pos h1]
    rfl
  | cons y rest =>
    have h2 : t.text = (pre ++ [x]) ++ y :: rest := by rw [h]; simp
    have := SafeGetChar_behind t (pre ++ [x]) y rest h2
    simp only [List.length_append, List.length_cons, List.length_nil] at this
    push_cast at this
    simpa using this

/-- The conversion to `size_t` of what `Find` returns in a text an `int` can
index: the largest `size_t` for `wxNOT_FOUND`, the index itself otherwise. -/
theorem static_cast_size_t_Find (F : Int) (p len : Nat) (hlen : len < 2147483648)
    (h : F = wxNOT_FOUND ∨ ((p : Int) ≤ F ∧ F < (len : Int))) :
    (F = -1 ∧ static_cast_size_t F = 18446744073709551615) ∨
    ((static_cast_size_t F : Int) = F ∧ p ≤ static_cast_size_t F ∧ static_cast_size_t F < len) := by
  unfold static_cast_size_t
  rcases h with h | h
  · left
    rw [h]
    exact ⟨rfl, by decide⟩
  · right
    have h0 : F % 18446744073709551616 = F := Int.emod_eq_of_lt (by omega) (by omega)
    rw [h0]
    omega

/-- The end-of-line mode `GetEOLByContent` returns for a document of one byte
per character (the string `GetText()` answers is the text of the control) whose
first line terminator character is `x`, standing behind `pre`. -/
theorem GetEOLByContent_first (t : TextEditor) (pre rest : List Char) (x : Char)
    (hlen : t.text.length < 2147483648) (hn : '\n' ∉ pre) (hr : '\r' ∉ pre)
    (hx : x = '\n' ∨ x = '\r') (h : t.text = pre ++ x :: rest) :
    GetEOLByContent t t.text
      = if x = '\n' then wxSTC_EOL_LF
        else if rest.headD (Char.ofNat 0) = '\n' then wxSTC_EOL_CRLF else wxSTC_EOL_CR := by
  have hlen2 : t.text.length = pre.length + rest.length + 1 := by
    rw [h]; simp; omega
  have hp : pre.length < t.text.length := by omega
  obtain ⟨a1, b1, c1⟩ := Find_behind pre (x :: rest) '\n' [] hn
  obtain ⟨a2, b2, c2⟩ := Find_behind pre (x :: rest) '\r' ['\n'] hr
  obtain ⟨a3, b3, c3⟩ := Find_behind pre (x :: rest) '\r' [] hr
  rw [← h] at a1 b1 c1 a2 b2 c2 a3 b3 c3
  have k1 := static_cast_size_t_Find _ pre.length t.text.length hlen a1
  have k2 := static_cast_size_t_Find _ pre.length t.text.length hlen a2
  have k3 := static_cast_size_t_Find _ pre.length t.text.length hlen a3
  have hmax : static_cast_size_t (-1) = 18446744073709551615 := by decide
  have hch := SafeGetChar_behind t pre x rest h
  have hch2 := SafeGetChar_second t pre x rest h
  have hint : ∀ n : Nat, n < 2147483648 → size_t_to_int n = (n : Int) := by
    intro n hn
    unfold size_t_to_int
    have : n % 4294967296 = n := Nat.mod_eq_of_lt (by omega)
    rw [this, if_pos hn]
  have hfirst : (if static_cast_size_t (Find t.text ['\r']) <
        (if static_cast_size_t (Find t.text ['\r', '\n']) < static_cast_size_t (Find t.text ['\n'])
          then static_cast_size_t (Find t.text ['\r', '\n'])
          else static_cast_size_t (Find t.text ['\n']))
      then static_cast_size_t (Find t.text ['\r'])
      else (if static_cast_size_t (Find t.text ['\r', '\n']) < static_cast_size_t (Find t.text ['\n'])
          then static_cast_size_t (Find t.text ['\r', '\n'])
          else static_cast_size_t (Find t.text ['\n']))) = pre.length ∧
      ¬ (static_cast_size_t (Find t.text ['\n']) = 18446744073709551615 ∧
         static_cast_size_t (Find t.text ['\r', '\n']) = 18446744073709551615 ∧
         static_cast_size_t (Find t.text ['\r']) = 18446744073709551615) := by
    rcases hx with hx | hx
    · subst hx
      have e1 := b1 (by simp [startsWith])
      have e3 := c3 (by simp [startsWith])
      have e2 := c2 (by simp [startsWith])
      constructor
      · split_ifs <;> omega
      · omega
    · subst hx
      have e3 := b3 (by simp [startsWith])
      have e1 := c1 (by simp [startsWith])
      constructor
      · split_ifs <;> omega
      · omega
  unfold GetEOLByContent
  have hne : ¬ (GetLength t = 0) := by unfold GetLength; omega
  rw [if_neg hne]
  simp only [hmax]
  rw [if_neg hfirst.2, hfirst.1]
  have hmod : (pre.length + 1) % 18446744073709551616 = pre.length + 1 :=
    Nat.mod_eq_of_lt (by omega)
  rw [hmod, hint _ (by omega), hint _ (by omega)]
  push_cast
  rw [hch, hch2]
  rcases hx with hx | hx
  · subst hx
    simp
  · subst hx
    have : ¬ ('\r' = '\n') := by decide
    rw [if_neg this, if_neg this, if_pos rfl]

/-- For a document of one byte per character that an `int` can index,
`GetEOLByContent` returns not-found when the buffer is empty and when it holds
neither a line feed nor a carriage return; otherwise it returns the mode of
the first line terminator: LF when the first terminator character is a line
feed, CRLF when it is a carriage return with a line feed right behind it, CR
when it is a carriage return without one. -/
theorem GetEOLByContent_single_byte (t : TextEditor) (hlen : t.text.length < 2147483648) :
    (t.text = [] → GetEOLByContent t t.text = wxNOT_FOUND) ∧
    ('\n' ∉ t.text ∧ '\r' ∉ t.text → GetEOLByContent t t.text = wxNOT_FOUND) ∧
    (∀ pre rest : List Char, '\n' ∉ pre → '\r' ∉ pre →
      (t.text = pre ++ '\n' :: rest → GetEOLByContent t t.text = wxSTC_EOL_LF) ∧
      (t.text = pre ++ '\r' :: '\n' :: rest → GetEOLByContent t t.text = wxSTC_EOL_CRLF) ∧
      (t.text = pre ++ '\r' :: rest → rest.head? ≠ some '\n' →
        GetEOLByContent t t.text = wxSTC_EOL_CR)) := by
  refine ⟨?_, ?_, ?_⟩
  · intro h
    unfold GetEOLByContent GetLength
    rw [h]
    rfl
  · rintro ⟨hn, hr⟩
    unfold GetEOLByContent
    split_ifs with h0
    · rfl
    · simp only [Find_absent _ _ _ hn, Find_absent _ _ _ hr]
      rw [if_pos ⟨rfl, rfl, rfl⟩]
  · intro pre rest hn hr
    refine ⟨?_, ?_, ?_⟩
    · intro h
      rw [GetEOLByContent_first t pre rest '\n' hlen hn hr (Or.inl rfl) h]
      rfl
    · intro h
      rw [GetEOLByContent_first t pre ('\n' :: rest) '\r' hlen hn hr (Or.inr rfl) h]
      rfl
    · intro h hhead
      rw [GetEOLByContent_first t pre rest '\r' hlen hn hr (Or.inr rfl) h]
      have h1 : ¬ ('\r' = '\n') := by decide
      have h2 : ¬ (rest.headD (Char.ofNat 0) = '\n') := by
        cases rest with
        | nil => decide
        | cons y r =>
          intro e
          apply hhead
          simp only [List.headD_cons] at e
          simp [e]
      rw [if_neg h1, if_neg h2]

/-- A string of characters below 128 is its own encoding. -/
theorem utf8Encode_ascii (txt : List Char) (h : ∀ c ∈ txt, c.toNat < 128) :
    utf8Encode txt = txt := by
  induction txt with
  | nil => rfl
  | cons c rest ih =>
    have hc : utf8Bytes c = [c] := by
      unfold utf8Bytes
      simp only []
      rw [if_pos (h c (List.mem_cons_self _ _))]
    have hcons : utf8Encode (c :: rest) = utf8Bytes c ++ utf8Encode rest := rfl
    rw [hcons, hc, ih (fun d hd => h d (List.mem_cons_of_mem _ hd))]
    rfl

/-- C25 (evaluation at the failing input): the document is an accented letter
(U+00E9) followed by a carriage return and a line feed, so its first line
terminator is CRLF.  The control holds the four bytes C3 A9 0D 0A.  `Find`
answers index 1 for the carriage return, counted in characters; position 1 of
the control is the second byte of the letter, which is neither a carriage
return nor a line feed, and `GetEOLByContent` returns not-found.  Without the
letter in front (`ab\r\ncd\nef`, one byte per character) it returns CRLF. -/
theorem GetEOLByContent_behind_accented_letter :
    accentedCrlfText.text = utf8Encode ([Char.ofNat 0xE9] ++ '\r' :: '\n' :: []) ∧
    accentedCrlfText.text = [Char.ofNat 0xC3, Char.ofNat 0xA9, '\r', '\n'] ∧
    Find [Char.ofNat 0xE9, '\r', '\n'] ['\r'] = 1 ∧
    SafeGetChar accentedCrlfText 1 = Char.ofNat 0xA9 ∧
    GetEOLByContent accentedCrlfText [Char.ofNat 0xE9, '\r', '\n'] = wxNOT_FOUND ∧
    utf8Encode crlfText.text = crlfText.text ∧
    GetEOLByContent crlfText crlfText.text = wxSTC_EOL_CRLF := by
  decide

/-- C26 (evaluation at the failing input): in `a;{b` with the caret at the end
and no calltip shown, `DoGetOpenBracePos` returns position 1.  The text holds no
opening parenthesis at all; the character before position 1 is `a`.  The scan
raised the depth to 1 at the opening brace and stopped at the semicolon. -/
theorem DoGetOpenBracePos_after_statement :
    DoGetOpenBracePos braceAfterStatement none = 1 ∧
    GetCharAt braceAfterStatement 0 = 'a' ∧
    '(' ∉ braceAfterStatement.text ∧
    braceAfterStatement.currentPos = GetLength braceAfterStatement := by
  refine ⟨by decide, by decide, by decide, by decide⟩

/-! ## Saving and restoring the bookmarks -/

set_option maxRecDepth 8000 in
/-- C27 (evaluation at the failing input): with bookmarks of the first type on
lines 5 and 20, `DoSaveMarkers` saves nothing, its test reading the markers of
line 0; after the bookmarks are lost and `DoRestoreMarkers` has run, lines 5
and 20 carry no bookmark, where they carried one when `DoSaveMarkers` was
called.  With two bookmarks on line 0 the two are saved, and none is restored,
the loop of `DoRestoreMarkers` starting at the fourth saved marker. -/
theorem saveFormatRestore_loses_bookmarks :
    DoSaveMarkers codeliteMarkers twoBookmarksEditor = some [] ∧
    MarkerGet twoBookmarksEditor.ctrl 5 = 8 ∧
    MarkerGet twoBookmarksEditor.ctrl 20 = 8 ∧
    (saveFormatRestore codeliteMarkers twoBookmarksEditor).map
        (fun r => (MarkerGet r.1.ctrl 5, MarkerGet r.1.ctrl 20, r.2)) = some (0, 0, []) ∧
    DoSaveMarkers codeliteMarkers bookmarksOnFirstLine = some [(0, 3), (0, 4)] ∧
    MarkerGet bookmarksOnFirstLine.ctrl 0 = 24 ∧
    (saveFormatRestore codeliteMarkers bookmarksOnFirstLine).map
        (fun r => (MarkerGet r.1.ctrl 0, r.2)) = some (0, []) := by
  refine ⟨by decide, by decide, by decide, by decide, by decide, by decide, by decide⟩

/-! ## Cscope results -/

/-- C30 (evaluation at the failing input): line 3 of `main` reads `int x;` in
`a.c` and in `b.c`.  `BuildTable` writes the entry of `a.c` on view line 1 and
records it there; for `b.c` it writes the file line only: the entry of `b.c`,
whose display string has not occurred before for `b.c`, is neither written nor
recorded. -/
theorem BuildTable_drops_entry_of_other_file :
    (BuildTable emptyTab (some sameLineInTwoFiles)).m_stc
      = "a.c\n     3: int x;\nb.c\n".toList ∧
    (BuildTable emptyTab (some sameLineInTwoFiles)).m_matchesInStc
      = [(1, { m_file := "a.c".toList, m_line := 3, m_scope := "main".toList,
               m_pattern := "int x;".toList })] := by
  refine ⟨by decide, by decide⟩

/-! ## The text after the primitives of the control -/

/-- The recording of a change in the undo history touches the undo history
only. -/
theorem recordUndoStep_fields (t : TextEditor) (undoCaret : Int) :
    (recordUndoStep t undoCaret).text = t.text ∧
    (recordUndoStep t undoCaret).currentPos = t.currentPos ∧
    (recordUndoStep t undoCaret).selectionStart = t.selectionStart ∧
    (recordUndoStep t undoCaret).selectionEnd = t.selectionEnd ∧
    (recordUndoStep t undoCaret).m_modifiedLines = t.m_modifiedLines ∧
    (recordUndoStep t undoCaret).m_prevSelectionInfo = t.m_prevSelectionInfo ∧
    (recordUndoStep t undoCaret).calls = t.calls ∧
    (recordUndoStep t undoCaret).undoDepth = t.undoDepth := by
  unfold recordUndoStep
  split_ifs
  · exact ⟨rfl, rfl, rfl, rfl, rfl, rfl, rfl, rfl⟩
  · split <;> exact ⟨rfl, rfl, rfl, rfl, rfl, rfl, rfl, rfl⟩
  · exact ⟨rfl, rfl, rfl, rfl, rfl, rfl, rfl, rfl⟩

theorem recordUndoStep_text (t : TextEditor) (undoCaret : Int) :
    (recordUndoStep t undoCaret).text = t.text :=
  (recordUndoStep_fields t undoCaret).1

theorem BeginUndoAction_text (t : TextEditor) : (BeginUndoAction t).text = t.text := by
  unfold BeginUndoAction
  split_ifs <;> rfl

theorem EndUndoAction_text (t : TextEditor) : (EndUndoAction t).text = t.text :=
  (EndUndoAction_fields t).1

/-- The text after `InsertText` at a position of the document. -/
theorem InsertText_text (t : TextEditor) (pos : Nat) (text : List Char)
    (h : pos ≤ t.text.length) :
    (InsertText t (pos : Int) text).text = t.text.take pos ++ text ++ t.text.drop pos := by
  unfold InsertText
  have hc : 0 ≤ (pos : Int) ∧ (pos : Int) ≤ GetLength t := by
    unfold GetLength
    omega
  rw [if_pos hc]
  by_cases htext : text = []
  · simp only [htext, if_true, Int.toNat_ofNat]
  · simp only [htext, if_false, recordUndoStep_text, Int.toNat_ofNat]

/-- The text after `ReplaceTarget("")` for a target inside the document. -/
theorem ReplaceTarget_empty_text (t : TextEditor) (a b : Nat) (hab : a ≤ b)
    (hb : b ≤ t.text.length) :
    (ReplaceTarget_empty t (a : Int) (b : Int)).text = t.text.take a ++ t.text.drop b := by
  unfold ReplaceTarget_empty
  have hc : 0 ≤ (a : Int) ∧ (a : Int) ≤ (b : Int) ∧ (b : Int) ≤ GetLength t := by
    unfold GetLength
    omega
  rw [if_pos hc]
  split_ifs <;> simp only [deleteRange, recordUndoStep_text, Int.toNat_ofNat]

/-! ## Text dropped on the editor -/

/-- A list cut at two places. -/
theorem split_three {α : Type} (l : List α) (a b : Nat) (hab : a ≤ b) (hb : b ≤ l.length) :
    ∃ A B C : List α, l = A ++ (B ++ C) ∧ A.length = a ∧ B.length = b - a := by
  refine ⟨l.take a, (l.drop a).take (b - a), l.drop b, ?_, ?_, ?_⟩
  · have h1 : l.drop b = (l.drop a).drop (b - a) := by
      rw [List.drop_drop]
      congr 1
      omega
    rw [h1, List.take_append_drop, List.take_append_drop]
  · simp; omega
  · simp; omega

theorem take_left_eq {α : Type} (l1 l2 : List α) (n : Nat) (h : l1.length = n) :
    (l1 ++ l2).take n = l1 := by
  subst h
  exact List.take_left' rfl

theorem drop_left_eq {α : Type} (l1 l2 : List α) (n : Nat) (h : l1.length = n) :
    (l1 ++ l2).drop n = l2 := by
  subst h
  exact List.drop_left' rfl

/-- A stretch of a text taken out and put in further on. -/
theorem move_forward {α : Type} (A S B C : List α) (s e p : Nat) (hs : A.length = s)
    (he : (A ++ S).length = e) (hp : (A ++ S ++ B).length = p) :
    let doc := A ++ (S ++ (B ++ C))
    let inserted := doc.take p ++ (doc.drop s).take (e - s) ++ doc.drop p
    inserted.take s ++ inserted.drop e = A ++ B ++ S ++ C ∧
    (doc.drop s).take (e - s) = S ∧
    doc.take s ++ doc.drop e = A ++ B ++ C := by
  have hS : S.length = e - s := by
    simp only [List.length_append] at he
    omega
  have h1 : (A ++ (S ++ (B ++ C))).take p = A ++ S ++ B := by
    rw [← List.append_assoc, ← List.append_assoc]
    exact take_left_eq _ _ _ hp
  have h2 : (A ++ (S ++ (B ++ C))).drop p = C := by
    rw [← List.append_assoc, ← List.append_assoc]
    exact drop_left_eq _ _ _ hp
  have h3 : (A ++ (S ++ (B ++ C))).drop s = S ++ (B ++ C) := drop_left_eq _ _ _ hs
  have h4 : (S ++ (B ++ C)).take (e - s) = S := take_left_eq _ _ _ hS
  have h5 : (A ++ (S ++ (B ++ C))).drop e = B ++ C := by
    rw [← List.append_assoc]
    exact drop_left_eq _ _ _ he
  have h6 : (A ++ (S ++ (B ++ C))).take s = A := take_left_eq _ _ _ hs
  simp only [h1, h2, h3, h4, h5, h6]
  refine ⟨?_, trivial, by simp⟩
  have h7 : (A ++ S ++ B ++ S ++ C).take s = A := by
    simp only [List.append_assoc]
    exact take_left_eq _ _ _ hs
  have h8 : (A ++ S ++ B ++ S ++ C).drop e = B ++ S ++ C := by
    have : A ++ S ++ B ++ S ++ C = (A ++ S) ++ (B ++ S ++ C) := by simp
    rw [this]
    exact drop_left_eq _ _ _ he
  rw [h7, h8]
  simp

/-- A stretch of a text taken out and put in further back. -/
theorem move_backward {α : Type} (A B S C : List α) (s e p : Nat) (hp : A.length = p)
    (hs : (A ++ B).length = s) (he : (A ++ B ++ S).length = e) :
    let doc := A ++ (B ++ (S ++ C))
    let inserted := doc.take p ++ (doc.drop s).take (e - s) ++ doc.drop p
    inserted.take (s + (e - s)) ++ inserted.drop (e + (e - s)) = A ++ S ++ B ++ C ∧
    (doc.drop s).take (e - s) = S ∧
    doc.take s ++ doc.drop e = A ++ B ++ C := by
  have hS : S.length = e - s := by
    simp only [List.length_append] at he hs
    omega
  have h1 : (A ++ (B ++ (S ++ C))).take p = A := take_left_eq _ _ _ hp
  have h2 : (A ++ (B ++ (S ++ C))).drop p = B ++ (S ++ C) := drop_left_eq _ _ _ hp
  have h3 : (A ++ (B ++ (S ++ C))).drop s = S ++ C := by
    rw [← List.append_assoc]
    exact drop_left_eq _ _ _ hs
  have h4 : (S ++ C).take (e - s) = S := take_left_eq _ _ _ hS
  have h5 : (A ++ (B ++ (S ++ C))).drop e = C := by
    rw [← List.append_assoc, ← List.append_assoc]
    exact drop_left_eq _ _ _ he
  have h6 : (A ++ (B ++ (S ++ C))).take s = A ++ B := by
    rw [← List.append_assoc]
    exact take_left_eq _ _ _ hs
  simp only [h1, h2, h3, h4, h5, h6]
  refine ⟨?_, trivial, by simp⟩
  have h7 : (A ++ S ++ (B ++ (S ++ C))).take (s + (e - s)) = A ++ S ++ B := by
    have : A ++ S ++ (B ++ (S ++ C)) = (A ++ S ++ B) ++ (S ++ C) := by simp
    rw [this]
    apply take_left_eq
    simp only [List.length_append] at hs he ⊢
    omega
  have h8 : (A ++ S ++ (B ++ (S ++ C))).drop (e + (e - s)) = C := by
    have : A ++ S ++ (B ++ (S ++ C)) = (A ++ S ++ B ++ S) ++ C := by simp
    rw [this]
    apply drop_left_eq
    simp only [List.length_append] at hs he ⊢
    omega
  rw [h7, h8]

/-- C29 (counterexample): the selected text is the description of a notebook
tab and is dropped, moving, at the end of the document, outside the selection:
`DoTextDrop` returns false and leaves the document as it is, where moving the
selected text to the drop point gives another document. -/
theorem DoTextDrop_rejects_tab_description :
    tabDescriptionSelected.selectionStart = 0 ∧ tabDescriptionSelected.selectionEnd = 30 ∧
    GetLength tabDescriptionSelected = 33 ∧
    (DoTextDrop tabDescriptionSelected (GetTextRange tabDescriptionSelected 0 30) 33 true).1
      = false ∧
    (DoTextDrop tabDescriptionSelected (GetTextRange tabDescriptionSelected 0 30) 33 true).2.text
      = tabDescriptionSelected.text ∧
    (movedText tabDescriptionSelected.text 0 30 33).1 ≠ tabDescriptionSelected.text := by
  refine ⟨by decide, by decide, by decide, by decide, by decide, by decide⟩

/-- C29 (amended): with the dropped text equal to the current selection
`[s, e)`, a drop at a position `p` with `s <= p <= e` is rejected: the result
is false and the editor is unchanged.  A moving drop at `p` outside `[s, e]` of
a text that is not the description of a notebook tab returns true and yields
the original document with the selected text removed from its old place and
inserted at the drop point: same length, same characters, the caret being the
start of the moved text in the new document, for `p > e` and for `p < s`. -/
theorem DoTextDrop_moves_selection (t : TextEditor) (text : List Char) (s e p : Nat)
    (hs : t.selectionStart = (s : Int)) (he : t.selectionEnd = (e : Int))
    (hse : s ≤ e) (hel : e ≤ t.text.length) (hpl : p ≤ t.text.length)
    (htext : text = GetTextRange t (s : Int) (e : Int)) :
    (s ≤ p ∧ p ≤ e → ∀ moving, DoTextDrop t text (p : Int) moving = (false, t)) ∧
    (notebookTabMatches text = false → p < s ∨ e < p →
      (DoTextDrop t text (p : Int) true).1 = true ∧
      (DoTextDrop t text (p : Int) true).2.text = (movedText t.text s e p).1 ∧
      (DoTextDrop t text (p : Int) true).2.currentPos = ((movedText t.text s e p).2 : Int) ∧
      GetTextRange (DoTextDrop t text (p : Int) true).2 ((movedText t.text s e p).2 : Int)
        (((movedText t.text s e p).2 : Int) + ((e : Int) - (s : Int))) = text ∧
      (DoTextDrop t text (p : Int) true).2.text.length = t.text.length ∧
      List.Perm (DoTextDrop t text (p : Int) true).2.text t.text) := by
  have hnf : ¬ ((p : Int) = wxNOT_FOUND) := by unfold wxNOT_FOUND; omega
  have htext2 : text = (t.text.drop s).take (e - s) := by
    rw [htext]
    unfold GetTextRange
    have : ((e : Int) - (s : Int)).toNat = e - s := by omega
    rw [this, Int.toNat_ofNat]
  constructor
  · rintro ⟨h1, h2⟩ moving
    unfold DoTextDrop
    rw [if_neg hnf]
    by_cases h3 : notebookTabMatches text = true
    · rw [if_pos h3]
    · rw [if_neg h3]
      simp only []
      rw [if_pos (by rw [hs, he]; omega)]
  · intro hre hout
    have hsel : ¬ ((p : Int) ≥ t.selectionStart ∧ (p : Int) ≤ t.selectionEnd) := by
      rw [hs, he]
      omega
    have hrun : DoTextDrop t text (p : Int) true
        = (true, EndUndoAction
            (let r : TextEditor × Int :=
              if decide ((p : Int) > (e : Int)) = true then
                (ReplaceTarget_empty (InsertText (BeginUndoAction t) (p : Int) text) (s : Int) (e : Int),
                  (p : Int) - ((e : Int) - (s : Int)))
              else
                (ReplaceTarget_empty (InsertText (BeginUndoAction t) (p : Int) text)
                  ((s : Int) + ((e : Int) - (s : Int))) ((e : Int) + ((e : Int) - (s : Int))),
                  (p : Int))
             { r.1 with selectionStart := r.2, selectionEnd := r.2, currentPos := r.2 })) := by
      unfold DoTextDrop
      rw [if_neg hnf, hre, if_neg hsel]
      simp only [Bool.false_eq_true, if_false, if_true, hs, he]
    rw [hrun]
    have hins : (InsertText (BeginUndoAction t) (p : Int) text).text
        = t.text.take p ++ (t.text.drop s).take (e - s) ++ t.text.drop p := by
      rw [InsertText_text _ _ _ (by rw [BeginUndoAction_text]; exact hpl), BeginUndoAction_text,
        htext2]
    have hinslen : (InsertText (BeginUndoAction t) (p : Int) text).text.length
        = t.text.length + (e - s) := by
      rw [hins]
      simp
      omega
    by_cases hfw : e < p
    · -- moving forward
      have hdec : decide ((p : Int) > (e : Int)) = true := by
        simp only [gt_iff_lt, decide_eq_true_eq]
        omega
      rw [hdec]
      simp only [if_true, EndUndoAction_text, EndUndoAction_currentPos,
        EndUndoAction_selectionStart, EndUndoAction_selectionEnd]
      obtain ⟨AS, B, C, hdoc, hAS, hB⟩ := split_three t.text e p (by omega) hpl
      obtain ⟨A, S, S2, hAS2, hA, hS⟩ := split_three AS s e hse (by omega)
      have hS2 : S2 = [] := by
        have : (A ++ (S ++ S2)).length = e := by rw [← hAS2]; exact hAS
        simp only [List.length_append] at this
        apply List.eq_nil_of_length_eq_zero
        omega
      subst hS2
      simp only [List.append_nil] at hAS2
      subst hAS2
      have hmv := move_forward A S B C s e p hA hAS (by simp only [List.length_append] at hAS hB ⊢; omega)
      simp only [] at hmv
      rw [List.append_assoc] at hdoc
      rw [← hdoc] at hmv
      obtain ⟨m1, m2, m3⟩ := hmv
      have htxt : (ReplaceTarget_empty (InsertText (BeginUndoAction t) (p : Int) text)
          (s : Int) (e : Int)).text = A ++ B ++ S ++ C := by
        rw [ReplaceTarget_empty_text _ _ _ hse (by omega), hins]
        exact m1
      have hpoint : (if p > e then p - (e - s) else p) = (A ++ B).length := by
        rw [if_pos hfw]
        simp only [List.length_append] at hAS hB ⊢
        omega
      have hmoved : movedText t.text s e p = (A ++ B ++ S ++ C, (A ++ B).length) := by
        unfold movedText
        simp only [m2, m3, hpoint]
        have k1 : (A ++ B ++ C).take (A ++ B).length = A ++ B := List.take_left' rfl
        have k2 : (A ++ B ++ C).drop (A ++ B).length = C := List.drop_left' rfl
        rw [k1, k2]
      rw [hmoved]
      have hcaret : (p : Int) - ((e : Int) - (s : Int)) = (((A ++ B).length : Nat) : Int) := by
        simp only [List.length_append] at hAS hB ⊢
        omega
      refine ⟨trivial, htxt, hcaret, ?_, ?_, ?_⟩
      · unfold GetTextRange
        simp only [EndUndoAction_text, htxt]
        have : (((A ++ B).length : Nat) : Int) + ((e : Int) - (s : Int))
            - (((A ++ B).length : Nat) : Int) = ((S.length : Nat) : Int) := by omega
        rw [this, Int.toNat_ofNat, Int.toNat_ofNat, htext2, m2]
        have k3 : (A ++ B ++ S ++ C).drop (A ++ B).length = S ++ C := by
          rw [List.append_assoc]
          exact List.drop_left' rfl
        rw [k3]
        exact List.take_left' rfl
      · rw [htxt, hdoc]
        simp only [List.length_append]
        omega
      · rw [htxt, hdoc]
        have : A ++ B ++ S ++ C = A ++ (B ++ S) ++ C := by simp
        rw [this]
        have : A ++ (S ++ (B ++ C)) = A ++ (S ++ B) ++ C := by simp
        rw [this]
        exact (List.Perm.append_right C (List.Perm.append_left A List.perm_append_comm))
    · -- moving backward
      have hbw : p < s := by omega
      have hdec : decide ((p : Int) > (e : Int)) = false := by
        simp only [gt_iff_lt, decide_eq_false_iff_not]
        omega
      rw [hdec]
      simp only [Bool.false_eq_true, if_false, EndUndoAction_text, EndUndoAction_currentPos,
        EndUndoAction_selectionStart, EndUndoAction_selectionEnd]
      obtain ⟨AB, S, C, hdoc, hAB, hS⟩ := split_three t.text s e hse hel
      obtain ⟨A, B, B2, hAB2, hA, hB⟩ := split_three AB p s (by omega) (by omega)
      have hB2 : B2 = [] := by
        have : (A ++ (B ++ B2)).length = s := by rw [← hAB2]; exact hAB
        simp only [List.length_append] at this
        apply List.eq_nil_of_length_eq_zero
        omega
      subst hB2
      simp only [List.append_nil] at hAB2
      subst hAB2
      have hmv := move_backward A B S C s e p hA hAB (by simp only [List.length_append] at hAB hS ⊢; omega)
      simp only [] at hmv
      rw [List.append_assoc] at hdoc
      rw [← hdoc] at hmv
      obtain ⟨m1, m2, m3⟩ := hmv
      have hidx1 : (s : Int) + ((e : Int) - (s : Int)) = ((s + (e - s) : Nat) : Int) := by omega
      have hidx2 : (e : Int) + ((e : Int) - (s : Int)) = ((e + (e - s) : Nat) : Int) := by omega
      have htxt : (ReplaceTarget_empty (InsertText (BeginUndoAction t) (p : Int) text)
          ((s : Int) + ((e : Int) - (s : Int))) ((e : Int) + ((e : Int) - (s : Int)))).text
          = A ++ S ++ B ++ C := by
        rw [hidx1, hidx2, ReplaceTarget_empty_text _ _ _ (by omega) (by omega), hins]
        exact m1
      have hpoint : (if p > e then p - (e - s) else p) = A.length := by
        rw [if_neg (by omega)]
        exact hA.symm
      have hmoved : movedText t.text s e p = (A ++ S ++ B ++ C, A.length) := by
        unfold movedText
        simp only [m2, m3, hpoint]
        have k1 : (A ++ B ++ C).take A.length = A := by
          rw [List.append_assoc]; exact List.take_left' rfl
        have k2 : (A ++ B ++ C).drop A.length = B ++ C := by
          rw [List.append_assoc]; exact List.drop_left' rfl
        rw [k1, k2]
        simp
      rw [hmoved]
      have hcaret : (p : Int) = ((A.length : Nat) : Int) := by omega
      refine ⟨trivial, htxt, hcaret, ?_, ?_, ?_⟩
      · unfold GetTextRange
        simp only [EndUndoAction_text, htxt]
        have : ((A.length : Nat) : Int) + ((e : Int) - (s : Int))
            - ((A.length : Nat) : Int) = ((S.length : Nat) : Int) := by omega
        rw [this, Int.toNat_ofNat, Int.toNat_ofNat, htext2, m2]
        have k3 : (A ++ S ++ B ++ C).drop A.length = S ++ (B ++ C) := by
          simp only [List.append_assoc]
          exact List.drop_left' rfl
        rw [k3]
        exact List.take_left' rfl
      · rw [htxt, hdoc]
        simp only [List.length_append]
        omega
      · rw [htxt, hdoc]
        have : A ++ S ++ B ++ C = A ++ (S ++ B) ++ C := by simp
        rw [this]
        have : A ++ (B ++ (S ++ C)) = A ++ (B ++ S) ++ C := by simp
        rw [this]
        exact (List.Perm.append_right C (List.Perm.append_left A List.perm_append_comm))

/-- Witness of C29 (amended): in `one two three` with `two ` selected, a moving
drop at the end of the document gives `one threetwo ` with the caret at
position 9, and a moving drop at the start gives `two one three`. -/
theorem DoTextDrop_moves_selection_witness :
    notebookTabMatches "two ".toList = false ∧
    (DoTextDrop wordSelected "two ".toList ((13 : Nat) : Int) true).2.text
      = (movedText wordSelected.text 4 8 13).1 ∧
    movedText wordSelected.text 4 8 13 = ("one threetwo ".toList, 9) ∧
    (DoTextDrop wordSelected "two ".toList ((0 : Nat) : Int) true).2.text
      = (movedText wordSelected.text 4 8 0).1 ∧
    movedText wordSelected.text 4 8 0 = ("two one three".toList, 0) :=
  ⟨by decide,
    ((DoTextDrop_moves_selection wordSelected "two ".toList 4 8 13 (by decide) (by decide)
      (by decide) (by decide) (by decide) (by decide)).2 (by decide) (Or.inr (by decide))).2.1,
    by decide,
    ((DoTextDrop_moves_selection wordSelected "two ".toList 4 8 0 (by decide) (by decide)
      (by decide) (by decide) (by decide) (by decide)).2 (by decide) (Or.inl (by decide))).2.1,
    by decide⟩

/-! ## Trimming: the lines taken as modified -/

/-- Lookup in a map with one entry added at its end. -/
theorem modifiedLinesFind_append (m : List (Int × LineStatus)) (k : Int) (v : LineStatus)
    (line : Int) :
    modifiedLinesFind (m ++ [(k, v)]) line
      = match modifiedLinesFind m line with
        | some s => some s
        | none => if k = line then some v else none := by
  induction m with
  | nil => simp [modifiedLinesFind]
  | cons p rest ih =>
    obtain ⟨k2, v2⟩ := p
    simp only [List.cons_append, modifiedLinesFind]
    by_cases h : k2 = line
    · simp [h]
    · simp only [h, if_false]
      exact ih

/-- A line that has an entry in the map is one of its keys. -/
theorem modifiedLinesFind_mem (m : List (Int × LineStatus)) (line : Int)
    (h : modifiedLinesFind m line ≠ none) : line ∈ m.map Prod.fst := by
  induction m with
  | nil => simp [modifiedLinesFind] at h
  | cons p rest ih =>
    obtain ⟨k2, v2⟩ := p
    simp only [modifiedLinesFind] at h
    by_cases hk : k2 = line
    · simp [hk]
    · rw [if_neg hk] at h
      simp only [List.map_cons, List.mem_cons]
      right
      exact ih h

/-- A map that has entries for the lines below `l` and for a line `L` not
below `l` has more than `l` entries. -/
theorem modifiedLines_size (m : List (Int × LineStatus)) (l L : Nat) (hL : l ≤ L)
    (hbelow : ∀ j : Nat, j < l → modifiedLinesFind m (j : Int) ≠ none)
    (hline : modifiedLinesFind m (L : Int) ≠ none) : l < m.length := by
  have hsub : ((List.range l).map (fun j : Nat => (j : Int)) ++ [(L : Int)]) ⊆ m.map Prod.fst := by
    intro x hx
    simp only [List.mem_append, List.mem_map, List.mem_range, List.mem_singleton] at hx
    rcases hx with ⟨j, hj, rfl⟩ | rfl
    · exact modifiedLinesFind_mem m _ (hbelow j hj)
    · exact modifiedLinesFind_mem m _ hline
  have hnodup : ((List.range l).map (fun j : Nat => (j : Int)) ++ [(L : Int)]).Nodup := by
    rw [List.nodup_append]
    refine ⟨?_, List.nodup_singleton _, ?_⟩
    · exact (List.nodup_range l).map (fun a b h => by simpa using h)
    · intro x hx hx2
      simp only [List.mem_map, List.mem_range] at hx
      simp only [List.mem_singleton] at hx2
      obtain ⟨j, hj, rfl⟩ := hx
      omega
  have hlen := (List.subperm_of_subset hnodup hsub).length_le
  simp only [List.length_append, List.length_map, List.length_range, List.length_singleton] at hlen
  omega

/-- The map after the test of `TrimText` on a line: old entries keep their
status, no line becomes a modified one, and the tested line has an entry if
the guard let the subscript run. -/
theorem TrimText_isModifiedLine_map (m : List (Int × LineStatus)) (line : Int) :
    (∀ k s, modifiedLinesFind m k = some s →
      modifiedLinesFind (TrimText_isModifiedLine m line).2 k = some s) ∧
    (∀ k, modifiedLinesFind (TrimText_isModifiedLine m line).2 k = some LineStatus.LINE_MODIFIED →
      modifiedLinesFind m k = some LineStatus.LINE_MODIFIED) ∧
    (line < (m.length : Int) → modifiedLinesFind (TrimText_isModifiedLine m line).2 line ≠ none) := by
  unfold TrimText_isModifiedLine
  by_cases hg : line < (m.length : Int)
  · rw [if_pos hg]
    cases hfind : modifiedLinesFind m line with
    | some status =>
      simp only []
      exact ⟨fun k s h => h, fun k h => h, fun _ => by rw [hfind]; exact Option.noConfusion⟩
    | none =>
      simp only []
      refine ⟨?_, ?_, ?_⟩
      · intro k s h
        rw [modifiedLinesFind_append, h]
      · intro k h
        rw [modifiedLinesFind_append] at h
        cases hk : modifiedLinesFind m k with
        | some s =>
          rw [hk] at h
          exact h
        | none =>
          rw [hk] at h
          simp only [] at h
          split_ifs at h
          injection h with h
          exact LineStatus.noConfusion h
      · intro _
        rw [modifiedLinesFind_append, hfind]
        simp
  · rw [if_neg hg]
    exact ⟨fun k s h => h, fun k h => h, fun h => absurd h hg⟩

/-- The trimming of a line leaves the map of the modified lines alone. -/
theorem TrimText_line_modifiedLines (t : TextEditor) (line : Int) :
    (TrimText_line t line).m_modifiedLines = t.m_modifiedLines := by
  unfold TrimText_line
  simp only []
  split_ifs
  · unfold ReplaceTarget_empty
    split_ifs
    · rfl
    · exact (recordUndoStep_fields _ _).2.2.2.2.1
    · rfl
  · rfl

/-- The map after one round of the loop of `TrimText` is the map after its
test. -/
theorem TrimText_step_modifiedLines (dontTrimCaretLine trimOnlyModifiedLInes : Bool)
    (currLine : Int) (t : TextEditor) (line : Nat) :
    (TrimText_step dontTrimCaretLine trimOnlyModifiedLInes currLine t line).m_modifiedLines
      = (TrimText_isModifiedLine t.m_modifiedLines (line : Int)).2 := by
  unfold TrimText_step
  simp only []
  split_ifs
  · rfl
  · rfl
  · rw [TrimText_line_modifiedLines]

/-- The map while the loop of `TrimText` walks the lines: old entries keep
their status and no line becomes a modified one. -/
theorem TrimText_loop_map (dontTrimCaretLine trimOnlyModifiedLInes : Bool) (currLine : Int)
    (t : TextEditor) (l : Nat) :
    (∀ k s, modifiedLinesFind t.m_modifiedLines k = some s →
      modifiedLinesFind ((List.range l).foldl
        (TrimText_step dontTrimCaretLine trimOnlyModifiedLInes currLine) t).m_modifiedLines k
        = some s) ∧
    (∀ k, modifiedLinesFind ((List.range l).foldl
        (TrimText_step dontTrimCaretLine trimOnlyModifiedLInes currLine) t).m_modifiedLines k
        = some LineStatus.LINE_MODIFIED →
      modifiedLinesFind t.m_modifiedLines k = some LineStatus.LINE_MODIFIED) := by
  induction l with
  | zero => exact ⟨fun k s h => h, fun k h => h⟩
  | succ l ih =>
    rw [List.range_succ, List.foldl_append]
    simp only [List.foldl_cons, List.foldl_nil]
    rw [TrimText_step_modifiedLines]
    obtain ⟨h1, h2, _⟩ := TrimText_isModifiedLine_map
      ((List.range l).foldl
        (TrimText_step dontTrimCaretLine trimOnlyModifiedLInes currLine) t).m_modifiedLines (l : Int)
    exact ⟨fun k s h => h1 k s (ih.1 k s h), fun k h => ih.2 k (h2 k h)⟩

/-- While the loop of `TrimText` walks up to a line whose status is
`LINE_MODIFIED`, every line it has passed has an entry in the map. -/
theorem TrimText_loop_entries (dontTrimCaretLine trimOnlyModifiedLInes : Bool) (currLine : Int)
    (t : TextEditor) (L : Nat)
    (hL : modifiedLinesFind t.m_modifiedLines (L : Int) = some LineStatus.LINE_MODIFIED)
    (l : Nat) (hl : l ≤ L) :
    ∀ j : Nat, j < l → modifiedLinesFind ((List.range l).foldl
        (TrimText_step dontTrimCaretLine trimOnlyModifiedLInes currLine) t).m_modifiedLines (j : Int)
        ≠ none := by
  induction l with
  | zero => intro j hj; omega
  | succ l ih =>
    intro j hj
    have ihl := ih (by omega)
    rw [List.range_succ, List.foldl_append]
    simp only [List.foldl_cons, List.foldl_nil]
    rw [TrimText_step_modifiedLines]
    have hmap := TrimText_loop_map dontTrimCaretLine trimOnlyModifiedLInes currLine t l
    generalize ((List.range l).foldl
        (TrimText_step dontTrimCaretLine trimOnlyModifiedLInes currLine) t).m_modifiedLines = m
      at ihl hmap ⊢
    obtain ⟨h1, _, h3⟩ := TrimText_isModifiedLine_map m (l : Int)
    by_cases hjl : j = l
    · subst hjl
      apply h3
      have hsize := modifiedLines_size m j L (by omega) ihl
        (by rw [hmap.1 _ _ hL]; exact Option.noConfusion)
      omega
    · have hj2 := ihl j (by omega)
      cases hfind : modifiedLinesFind m (j : Int) with
      | none => exact absurd hfind hj2
      | some s =>
        rw [h1 _ _ hfind]
        exact Option.noConfusion

/-- C23: in the loop of `TrimText` with `TRIM_MODIFIED_LINES` set, for every
modified-lines map and every line `L`, the test made when the loop reaches `L`,
after it has walked the lines `0..L-1`, takes `L` as a modified line exactly
when the status of `L` in the map `TrimText` started with is `LINE_MODIFIED`:
the guard `line < m_modifiedLines.size()` does not exclude such a line, and a
line with another status or none keeps its text in that round. -/
theorem TrimText_modified_line_guard (t : TextEditor) (dontTrimCaretLine : Bool)
    (currLine : Int) (L : Nat) :
    (TrimText_isModifiedLine ((List.range L).foldl
        (TrimText_step dontTrimCaretLine true currLine) t).m_modifiedLines (L : Int)).1
      = decide (modifiedLinesFind t.m_modifiedLines (L : Int) = some LineStatus.LINE_MODIFIED) ∧
    (modifiedLinesFind t.m_modifiedLines (L : Int) = some LineStatus.LINE_MODIFIED →
      (L : Int) < (((List.range L).foldl
        (TrimText_step dontTrimCaretLine true currLine) t).m_modifiedLines.length : Int)) ∧
    (modifiedLinesFind t.m_modifiedLines (L : Int) ≠ some LineStatus.LINE_MODIFIED →
      (TrimText_step dontTrimCaretLine true currLine ((List.range L).foldl
        (TrimText_step dontTrimCaretLine true currLine) t) L).text
      = ((List.range L).foldl (TrimText_step dontTrimCaretLine true currLine) t).text) := by
  have hmap := TrimText_loop_map dontTrimCaretLine true currLine t L
  have hentries := fun hL =>
    TrimText_loop_entries dontTrimCaretLine true currLine t L hL L (le_refl _)
  generalize hb : (List.range L).foldl (TrimText_step dontTrimCaretLine true currLine) t = before
    at hmap hentries
  have hguard : modifiedLinesFind t.m_modifiedLines (L : Int) = some LineStatus.LINE_MODIFIED →
      (L : Int) < (before.m_modifiedLines.length : Int) := by
    intro hL
    have := modifiedLines_size before.m_modifiedLines L L (le_refl _)
      (hentries hL) (by rw [hmap.1 _ _ hL]; exact Option.noConfusion)
    omega
  have hvalue : (TrimText_isModifiedLine before.m_modifiedLines (L : Int)).1
      = decide (modifiedLinesFind t.m_modifiedLines (L : Int) = some LineStatus.LINE_MODIFIED) := by
    by_cases hL : modifiedLinesFind t.m_modifiedLines (L : Int) = some LineStatus.LINE_MODIFIED
    · unfold TrimText_isModifiedLine
      rw [if_pos (hguard hL), hmap.1 _ _ hL]
      simp [hL]
    · have hnot : modifiedLinesFind before.m_modifiedLines (L : Int)
          ≠ some LineStatus.LINE_MODIFIED := fun h => hL (hmap.2 _ h)
      unfold TrimText_isModifiedLine
      split_ifs with hg
      · cases hfind : modifiedLinesFind before.m_modifiedLines (L : Int) with
        | none => simp [hL]
        | some s =>
          rw [hfind] at hnot
          have : s ≠ LineStatus.LINE_MODIFIED := fun h => hnot (by rw [h])
          simp [hL, this]
      · simp [hL]
  refine ⟨hvalue, hguard, ?_⟩
  intro hL
  unfold TrimText_step
  simp only []
  rw [hvalue]
  simp [hL]

/-- Witness of C23: in a document whose map gives line 2 the status
`LINE_MODIFIED` and holds no other entry, the loop reaches line 2 with a map of
three entries and takes the line as modified. -/
theorem TrimText_modified_line_guard_witness :
    modifiedLinesFind modifiedThirdLine.m_modifiedLines 2 = some LineStatus.LINE_MODIFIED ∧
    modifiedThirdLine.m_modifiedLines.length = 1 ∧
    (2 : Int) < (((List.range 2).foldl
        (TrimText_step false true 0) modifiedThirdLine).m_modifiedLines.length : Int) :=
  ⟨by decide, by decide,
    (TrimText_modified_line_guard modifiedThirdLine false 0 2).2.1 (by decide)⟩

/-! ## Wrapping the previous selections -/

/-- Ascending ranges start at or behind `pos` and end inside the text. -/
theorem ascendingRanges_le (len : Nat) (pos : Nat) (sels : List (Nat × Nat))
    (h : ascendingRanges len pos sels) : pos ≤ len := by
  induction sels generalizing pos with
  | nil => exact h
  | cons p rest ih =>
    obtain ⟨s, e⟩ := p
    obtain ⟨h1, h2, h3⟩ := h
    have := ih e h3
    omega

theorem Undo_inOpenedGroup_prev (t : TextEditor) :
    (Undo_inOpenedGroup t).m_prevSelectionInfo = t.m_prevSelectionInfo := by
  unfold Undo_inOpenedGroup
  split <;> rfl

theorem BeginUndoAction_prev (t : TextEditor) :
    (BeginUndoAction t).m_prevSelectionInfo = t.m_prevSelectionInfo := by
  unfold BeginUndoAction
  split_ifs <;> rfl

/-- The first loop of `DoWrapPrevSelectionWithChars` from a text of which the
part `W` is done, the rest being the rest of the restored text `R`: the text
and the vector of selections it ends with. -/
theorem DoWrapPrevSelectionWithChars_insert_loop (R : List Char) (first last : Char)
    (todo : List (Nat × Nat)) :
    ∀ (t : TextEditor) (W : List Char) (pos k : Nat) (out : List (Int × Int)),
      t.text = W ++ R.drop pos → W.length = pos + 2 * k → ascendingRanges R.length pos todo →
      ((todo.map (fun p => ((p.1 : Int), (p.2 : Int)))).foldl
          (DoWrapPrevSelectionWithChars_insert first last) (t, ((2 * k : Nat) : Int), out)).1.text
        = W ++ wrappedText R first last pos todo ∧
      ((todo.map (fun p => ((p.1 : Int), (p.2 : Int)))).foldl
          (DoWrapPrevSelectionWithChars_insert first last) (t, ((2 * k : Nat) : Int), out)).2.2
        = out ++ (todo.enumFrom k).map
            (fun p => ((p.2.1 : Int) + 2 * (p.1 : Int) + 1, (p.2.2 : Int) + 2 * (p.1 : Int) + 1)) := by
  induction todo with
  | nil =>
    intro t W pos k out ht _ _
    simp [wrappedText, ht]
  | cons p rest ih =>
    obtain ⟨s, e⟩ := p
    intro t W pos k out ht hW hasc
    obtain ⟨h1, h2, h3⟩ := hasc
    have he := ascendingRanges_le _ _ _ h3
    simp only [List.map_cons, List.foldl_cons]
    -- the two insertions
    have hstart : (s : Int) + ((2 * k : Nat) : Int) = ((s + 2 * k : Nat) : Int) := by push_cast; ring
    have hend : (e : Int) + (((2 * k : Nat) : Int) + 1) = ((e + 2 * k + 1 : Nat) : Int) := by
      push_cast; ring
    have hD : (R.drop pos).length = R.length - pos := List.length_drop _ _
    have ht1 : (InsertText t ((s + 2 * k : Nat) : Int) [first]).text
        = (W ++ (R.drop pos).take (s - pos) ++ [first]) ++ R.drop s := by
      rw [InsertText_text _ _ _ (by rw [ht]; simp only [List.length_append, hD]; omega), ht]
      have hsplit : s + 2 * k = W.length + (s - pos) := by omega
      rw [hsplit, List.take_append, List.drop_append, List.drop_drop]
      have : pos + (s - pos) = s := by omega
      rw [this]
    have hW1 : (W ++ (R.drop pos).take (s - pos) ++ [first]).length = s + 2 * k + 1 := by
      simp only [List.length_append, List.length_take, hD, List.length_singleton]
      omega
    have ht2 : (InsertText (InsertText t ((s + 2 * k : Nat) : Int) [first])
          ((e + 2 * k + 1 : Nat) : Int) [last]).text
        = (W ++ (R.drop pos).take (s - pos) ++ [first] ++ (R.drop s).take (e - s) ++ [last])
          ++ R.drop e := by
      rw [InsertText_text _ _ _ (by rw [ht1]; simp only [List.length_append, hW1, List.length_drop]; omega), ht1]
      have hsplit : e + 2 * k + 1 = (W ++ (R.drop pos).take (s - pos) ++ [first]).length + (e - s) := by
        rw [hW1]; omega
      rw [hsplit, List.take_append, List.drop_append, List.drop_drop]
      have : s + (e - s) = e := by omega
      rw [this]
    have hW2 : (W ++ (R.drop pos).take (s - pos) ++ [first] ++ (R.drop s).take (e - s)
        ++ [last]).length = e + 2 * (k + 1) := by
      rw [List.length_append, List.length_append, hW1]
      simp only [List.length_take, List.length_drop, List.length_singleton]
      omega
    have hstep : DoWrapPrevSelectionWithChars_insert first last (t, ((2 * k : Nat) : Int), out)
          ((s : Int), (e : Int))
        = (InsertText (InsertText t ((s + 2 * k : Nat) : Int) [first])
              ((e + 2 * k + 1 : Nat) : Int) [last],
            ((2 * (k + 1) : Nat) : Int),
            out ++ [((s : Int) + 2 * (k : Int) + 1, (e : Int) + 2 * (k : Int) + 1)]) := by
      unfold DoWrapPrevSelectionWithChars_insert
      simp only []
      rw [hend, hstart]
      refine Prod.ext rfl (Prod.ext ?_ ?_)
      · simp only []
        push_cast
        ring_nf
      · show out ++ [(((s + 2 * k : Nat) : Int) + 1, ((e + 2 * k + 1 : Nat) : Int))] = _
        have ha : ((s + 2 * k : Nat) : Int) + 1 = (s : Int) + 2 * (k : Int) + 1 := by
          push_cast; ring
        have hb : ((e + 2 * k + 1 : Nat) : Int) = (e : Int) + 2 * (k : Int) + 1 := by
          push_cast; ring
        rw [ha, hb]
    rw [hstep]
    obtain ⟨r1, r2⟩ := ih _ _ e (k + 1) _ ht2 hW2 h3
    rw [r1, r2]
    constructor
    · simp [wrappedText]
    · simp [List.enumFrom_cons]

/-- Every one of the ascending ranges starts at or before its end. -/
theorem ascendingRanges_mem (len : Nat) (pos : Nat) (sels : List (Nat × Nat))
    (h : ascendingRanges len pos sels) : ∀ p ∈ sels, p.1 ≤ p.2 := by
  induction sels generalizing pos with
  | nil => intro p hp; simp at hp
  | cons q rest ih =>
    obtain ⟨s, e⟩ := q
    obtain ⟨h1, h2, h3⟩ := h
    intro p hp
    rcases List.mem_cons.mp hp with rfl | hp
    · exact h2
    · exact ih e h3 p hp

/-- The length of the wrapped text: two characters more for every range. -/
theorem wrappedText_length (R : List Char) (first last : Char) (todo : List (Nat × Nat)) :
    ∀ pos : Nat, ascendingRanges R.length pos todo →
      (wrappedText R first last pos todo).length = R.length - pos + 2 * todo.length := by
  induction todo with
  | nil => intro pos _; simp [wrappedText]
  | cons p rest ih =>
    obtain ⟨s, e⟩ := p
    intro pos hasc
    obtain ⟨h1, h2, h3⟩ := hasc
    have he := ascendingRanges_le _ _ _ h3
    have a1 : ((R.drop pos).take (s - pos)).length = s - pos := by
      rw [List.length_take, List.length_drop]
      omega
    have a2 : ((R.drop s).take (e - s)).length = e - s := by
      rw [List.length_take, List.length_drop]
      omega
    simp only [wrappedText, List.length_append, ih e h3, a1, a2,
      List.length_singleton, List.length_cons, List.length_nil]
    omega

/-- In the wrapped text the i-th range, moved on by `2i + 1`, holds the text of
the i-th range of the original. -/
theorem wrappedText_selected (R : List Char) (first last : Char) (todo : List (Nat × Nat)) :
    ∀ (W : List Char) (pos k : Nat), W.length = pos + 2 * k → ascendingRanges R.length pos todo →
      ∀ (i s e : Nat), todo.get? i = some (s, e) →
        ((W ++ wrappedText R first last pos todo).drop (s + 2 * (k + i) + 1)).take (e - s)
          = (R.drop s).take (e - s) := by
  induction todo with
  | nil => intro W pos k _ _ i s e h; simp at h
  | cons p rest ih =>
    obtain ⟨s0, e0⟩ := p
    intro W pos k hW hasc i s e hget
    obtain ⟨h1, h2, h3⟩ := hasc
    have he := ascendingRanges_le _ _ _ h3
    have hW1 : (W ++ (R.drop pos).take (s0 - pos) ++ [first]).length = s0 + 2 * k + 1 := by
      simp only [List.length_append, List.length_take, List.length_drop, List.length_singleton]
      omega
    have hS : ((R.drop s0).take (e0 - s0)).length = e0 - s0 := by
      simp only [List.length_take, List.length_drop]
      omega
    cases i with
    | zero =>
      simp only [List.get?_cons_zero, Option.some.injEq, Prod.mk.injEq] at hget
      obtain ⟨rfl, rfl⟩ := hget
      have hform : W ++ wrappedText R first last pos ((s0, e0) :: rest)
          = (W ++ (R.drop pos).take (s0 - pos) ++ [first])
            ++ ((R.drop s0).take (e0 - s0) ++ ([last] ++ wrappedText R first last e0 rest)) := by
        simp [wrappedText]
      rw [hform]
      have hidx : s0 + 2 * (k + 0) + 1 = (W ++ (R.drop pos).take (s0 - pos) ++ [first]).length := by
        rw [hW1]
        omega
      rw [hidx, List.drop_left]
      exact List.take_left' hS
    | succ i =>
      simp only [List.get?_cons_succ] at hget
      have hW2 : (W ++ (R.drop pos).take (s0 - pos) ++ [first] ++ (R.drop s0).take (e0 - s0)
          ++ [last]).length = e0 + 2 * (k + 1) := by
        rw [List.length_append, List.length_append, hW1, hS]
        simp only [List.length_singleton]
        omega
      have := ih _ e0 (k + 1) hW2 h3 i s e hget
      have hform : W ++ wrappedText R first last pos ((s0, e0) :: rest)
          = (W ++ (R.drop pos).take (s0 - pos) ++ [first] ++ (R.drop s0).take (e0 - s0) ++ [last])
            ++ wrappedText R first last e0 rest := by
        simp [wrappedText]
      rw [hform]
      have hidx : s + 2 * (k + (i + 1)) + 1 = s + 2 * (k + 1 + i) + 1 := by omega
      rw [hidx]
      exact this

/-- The second loop of `DoWrapPrevSelectionWithChars` leaves the text alone and
makes the ranges of the vector the selections of the control. -/
theorem DoWrapPrevSelectionWithChars_select_loop (l : List (Int × Int))
    (hl : ∀ x ∈ l, x.1 ≤ x.2) :
    ∀ (t : TextEditor) (k : Nat),
      ((l.enumFrom k).foldl
        (fun t range => DoWrapPrevSelectionWithChars_select t range.1 range.2) t).text = t.text ∧
      (0 < k →
        ((l.enumFrom k).foldl
          (fun t range => DoWrapPrevSelectionWithChars_select t range.1 range.2) t).selections
          = t.selections ++ l) ∧
      (k = 0 → l ≠ [] →
        ((l.enumFrom k).foldl
          (fun t range => DoWrapPrevSelectionWithChars_select t range.1 range.2) t).selections
          = l) := by
  induction l with
  | nil =>
    intro t k
    simp
  | cons x rest ih =>
    intro t k
    have hx := hl x (List.mem_cons_self _ _)
    have hrest : ∀ y ∈ rest, y.1 ≤ y.2 := fun y hy => hl y (List.mem_cons_of_mem _ hy)
    simp only [List.enumFrom_cons, List.foldl_cons]
    obtain ⟨i1, i2, _⟩ := ih hrest (DoWrapPrevSelectionWithChars_select t k x) (k + 1)
    have hmin : min x.2 x.1 = x.1 := min_eq_right hx
    have hmax : max x.2 x.1 = x.2 := max_eq_left hx
    have hmin2 : min x.1 x.2 = x.1 := min_eq_left hx
    have hmax2 : max x.1 x.2 = x.2 := max_eq_right hx
    refine ⟨?_, ?_, ?_⟩
    · rw [i1]
      unfold DoWrapPrevSelectionWithChars_select
      split_ifs <;> rfl
    · intro hk
      rw [i2 (by omega)]
      unfold DoWrapPrevSelectionWithChars_select
      rw [if_neg (by omega)]
      simp only [AddSelection, hmin, hmax]
      simp
    · intro hk _
      rw [i2 (by omega)]
      unfold DoWrapPrevSelectionWithChars_select
      rw [if_pos hk]
      simp only [SetSelection, hmin2, hmax2]
      simp

/-- C28: for previous selections `[s_i, e_i)` that are sorted ascending and
pairwise disjoint, `DoWrapPrevSelectionWithChars(first, last)` turns the
restored text into the same text with `first` right before and `last` right
after each selected range, two characters more for every selection; the i-th
selection afterwards is `[s_i + 2i + 1, e_i + 2i + 1)` and holds the text that
was selected. -/
theorem DoWrapPrevSelectionWithChars_wraps (t : TextEditor) (first last : Char)
    (sels : List (Nat × Nat))
    (hprev : t.m_prevSelectionInfo = sels.map (fun p => ((p.1 : Int), (p.2 : Int))))
    (hasc : ascendingRanges (Undo_inOpenedGroup (BeginUndoAction t)).text.length 0 sels) :
    (DoWrapPrevSelectionWithChars t first last).text
      = wrappedText (Undo_inOpenedGroup (BeginUndoAction t)).text first last 0 sels ∧
    (DoWrapPrevSelectionWithChars t first last).text.length
      = (Undo_inOpenedGroup (BeginUndoAction t)).text.length + 2 * sels.length ∧
    (sels ≠ [] →
      (DoWrapPrevSelectionWithChars t first last).selections = wrappedSelections sels) ∧
    (∀ (i s e : Nat), sels.get? i = some (s, e) →
      (wrappedSelections sels).get? i
        = some ((s : Int) + 2 * (i : Int) + 1, (e : Int) + 2 * (i : Int) + 1) ∧
      GetTextRange (DoWrapPrevSelectionWithChars t first last)
          ((s : Int) + 2 * (i : Int) + 1) ((e : Int) + 2 * (i : Int) + 1)
        = GetTextRange (Undo_inOpenedGroup (BeginUndoAction t)) (s : Int) (e : Int)) := by
  generalize hR : (Undo_inOpenedGroup (BeginUndoAction t)).text = R at hasc ⊢
  have hloop := DoWrapPrevSelectionWithChars_insert_loop R first last sels
    (ClearSelections (Undo_inOpenedGroup (BeginUndoAction t))) [] 0 0 []
    (by simp [ClearSelections, hR]) (by simp) hasc
  simp only [Nat.mul_zero, Nat.cast_zero, List.nil_append] at hloop
  obtain ⟨htext, hsel⟩ := hloop
  have hprev2 : (ClearSelections (Undo_inOpenedGroup (BeginUndoAction t))).m_prevSelectionInfo
      = sels.map (fun p => ((p.1 : Int), (p.2 : Int))) := by
    show (Undo_inOpenedGroup (BeginUndoAction t)).m_prevSelectionInfo = _
    rw [Undo_inOpenedGroup_prev, BeginUndoAction_prev, hprev]
  have hsel2 : ((sels.map (fun p => ((p.1 : Int), (p.2 : Int)))).foldl
        (DoWrapPrevSelectionWithChars_insert first last)
        (ClearSelections (Undo_inOpenedGroup (BeginUndoAction t)), 0, [])).2.2
      = wrappedSelections sels := by
    rw [hsel]
    rfl
  have hle : ∀ x ∈ wrappedSelections sels, x.1 ≤ x.2 := by
    intro x hx
    unfold wrappedSelections at hx
    simp only [List.mem_map] at hx
    obtain ⟨p, hp, rfl⟩ := hx
    have hmem : p.2 ∈ sels := by
      have := List.mem_enumFrom hp
      rw [this.2.2]
      apply List.getElem_mem
    have : p.2.1 ≤ p.2.2 := ascendingRanges_mem _ _ _ hasc _ hmem
    simp only []
    omega
  have hselloop := DoWrapPrevSelectionWithChars_select_loop (wrappedSelections sels) hle
    ((sels.map (fun p => ((p.1 : Int), (p.2 : Int)))).foldl
        (DoWrapPrevSelectionWithChars_insert first last)
        (ClearSelections (Undo_inOpenedGroup (BeginUndoAction t)), 0, [])).1 0
  have hresult : (DoWrapPrevSelectionWithChars t first last).text
      = wrappedText R first last 0 sels := by
    unfold DoWrapPrevSelectionWithChars
    simp only [EndUndoAction_text, hprev2, hsel2, List.enum]
    rw [hselloop.1, htext]
  have hlen := wrappedText_length R first last sels 0 hasc
  refine ⟨hresult, by rw [hresult, hlen]; omega, ?_, ?_⟩
  · intro hne
    have hne2 : wrappedSelections sels ≠ [] := by
      unfold wrappedSelections
      cases sels with
      | nil => exact absurd rfl hne
      | cons p rest => simp [List.enum, List.enumFrom_cons]
    unfold DoWrapPrevSelectionWithChars
    simp only [hprev2, hsel2, List.enum, EndUndoAction_selections]
    exact hselloop.2.2 rfl hne2
  · intro i s e hget
    constructor
    · unfold wrappedSelections
      rw [List.get?_eq_getElem?, List.getElem?_map, List.enum, List.getElem?_enumFrom, ← List.get?_eq_getElem?, hget]
      simp
    · unfold GetTextRange
      rw [hresult, hR]
      have h1 : ((s : Int) + 2 * (i : Int) + 1).toNat = s + 2 * (0 + i) + 1 := by omega
      have h2 : ((e : Int) + 2 * (i : Int) + 1 - ((s : Int) + 2 * (i : Int) + 1)).toNat = e - s := by
        omega
      have h3 : ((e : Int) - (s : Int)).toNat = e - s := by omega
      rw [h1, h2, h3, Int.toNat_ofNat]
      have := wrappedText_selected R first last sels [] 0 0 (by simp) hasc i s e hget
      simpa using this

/-- Witness of C28: an opening parenthesis was typed over the words `abc` and
`de` selected in `x abc y de`; the wrapping restores that text and gives
`x (abc) y (de)` with the two words selected. -/
theorem DoWrapPrevSelectionWithChars_wraps_witness :
    (Undo_inOpenedGroup (BeginUndoAction typedOverSelections)).text = "x abc y de".toList ∧
    (DoWrapPrevSelectionWithChars typedOverSelections '(' ')').text
      = wrappedText (Undo_inOpenedGroup (BeginUndoAction typedOverSelections)).text
          '(' ')' 0 [(2, 5), (8, 10)] ∧
    (DoWrapPrevSelectionWithChars typedOverSelections '(' ')').text = "x (abc) y (de)".toList ∧
    (DoWrapPrevSelectionWithChars typedOverSelections '(' ')').selections = [(3, 6), (11, 13)] :=
  ⟨by decide,
    (DoWrapPrevSelectionWithChars_wraps typedOverSelections '(' ')' [(2, 5), (8, 10)]
      (by decide)
      (by
        rw [show (Undo_inOpenedGroup (BeginUndoAction typedOverSelections)).text
          = "x abc y de".toList from by decide]
        simp [ascendingRanges])).1,
    by decide, by decide⟩

/-! ## Trimming: the lines of a text -/

/-- A text has at least one line. -/
theorem splitLines_ne_nil (text : List Char) : splitLines text ≠ [] := by
  cases text with
  | nil => simp [splitLines]
  | cons ch rest =>
    unfold splitLines
    split_ifs
    · simp
    · split <;> simp

/-- The lines of a text hold no line end. -/
theorem splitLines_no_newline (text : List Char) : ∀ line ∈ splitLines text, '\n' ∉ line := by
  induction text with
  | nil => simp [splitLines]
  | cons ch rest ih =>
    unfold splitLines
    split_ifs with h
    · intro line hl
      rcases List.mem_cons.mp hl with rfl | hl
      · simp
      · exact ih line hl
    · split
      · intro line hl
        simp only [List.mem_singleton] at hl
        rw [hl]
        simp only [List.mem_singleton]
        exact fun e => h e.symm
      · rename_i l ls heq
        intro line hl
        rcases List.mem_cons.mp hl with rfl | hl
        · intro hmem
          rcases List.mem_cons.mp hmem with e | e
          · exact h e.symm
          · exact ih l (by rw [heq]; exact List.mem_cons_self _ _) e
        · exact ih line (by rw [heq]; exact List.mem_cons_of_mem _ hl)

/-- A text is its lines joined. -/
theorem joinLines_splitLines (text : List Char) : joinLines (splitLines text) = text := by
  induction text with
  | nil => simp [splitLines, joinLines]
  | cons ch rest ih =>
    unfold splitLines
    split_ifs with h
    · have hne := splitLines_ne_nil rest
      cases hs : splitLines rest with
      | nil => exact absurd hs hne
      | cons l ls =>
        rw [hs] at ih
        simp only [joinLines, List.nil_append, ih, h]
    · have hne := splitLines_ne_nil rest
      cases hs : splitLines rest with
      | nil => exact absurd hs hne
      | cons l ls =>
        rw [hs] at ih
        simp only []
        cases ls with
        | nil =>
          simp only [joinLines] at ih ⊢
          rw [ih]
        | cons l2 ls2 =>
          simp only [joinLines, List.cons_append] at ih ⊢
          rw [ih]

/-- The lines of joined lines are those lines. -/
theorem splitLines_joinLines (lines : List (List Char)) (hne : lines ≠ [])
    (h : ∀ line ∈ lines, '\n' ∉ line) : splitLines (joinLines lines) = lines := by
  induction lines with
  | nil => exact absurd rfl hne
  | cons line rest ih =>
    have hline := h line (List.mem_cons_self _ _)
    have hrest : ∀ l ∈ rest, '\n' ∉ l := fun l hl => h l (List.mem_cons_of_mem _ hl)
    cases rest with
    | nil =>
      simp only [joinLines]
      clear ih h hrest hne
      induction line with
      | nil => simp [splitLines]
      | cons ch l ihl =>
        have hch : ¬ ch = '\n' := fun e => hline (by rw [e]; exact List.mem_cons_self _ _)
        have hl : '\n' ∉ l := fun e => hline (List.mem_cons_of_mem _ e)
        unfold splitLines
        rw [if_neg hch, ihl hl]
    | cons next rest2 =>
      have ih2 := ih (by simp) hrest
      simp only [joinLines]
      clear ih h hrest hne
      induction line with
      | nil =>
        simp only [List.nil_append]
        unfold splitLines
        rw [if_pos rfl]
        simp only [joinLines] at ih2
        rw [ih2]
      | cons ch l ihl =>
        have hch : ¬ ch = '\n' := fun e => hline (by rw [e]; exact List.mem_cons_self _ _)
        have hl : '\n' ∉ l := fun e => hline (List.mem_cons_of_mem _ e)
        simp only [List.cons_append]
        unfold splitLines
        rw [if_neg hch, ihl hl]

/-- The number of line ends in joined lines. -/
theorem count_newline_joinLines (lines : List (List Char)) (hne : lines ≠ [])
    (h : ∀ line ∈ lines, '\n' ∉ line) : (joinLines lines).count '\n' + 1 = lines.length := by
  induction lines with
  | nil => exact absurd rfl hne
  | cons line rest ih =>
    have hline := h line (List.mem_cons_self _ _)
    have hrest : ∀ l ∈ rest, '\n' ∉ l := fun l hl => h l (List.mem_cons_of_mem _ hl)
    cases rest with
    | nil =>
      simp only [joinLines, List.length_singleton]
      rw [List.count_eq_zero_of_not_mem hline]
    | cons next rest2 =>
      have ih2 := ih (by simp) hrest
      simp only [joinLines, List.length_cons] at ih2 ⊢
      rw [List.count_append, List.count_eq_zero_of_not_mem hline, List.count_cons_self]
      omega

/-- A character other than a carriage return completes a line end exactly when
it is a line feed. -/
theorem completesLineEnd_of_ne (ch : Char) (rest : List Char) (h : ch ≠ '\r') :
    completesLineEnd ch rest = decide (ch = '\n') := by
  unfold completesLineEnd
  simp [h]

/-- In a text without carriage return the line ends are the line feeds. -/
theorem countLineEnds_eq_count (text : List Char) (h : '\r' ∉ text) :
    countLineEnds text = text.count '\n' := by
  induction text with
  | nil => rfl
  | cons ch rest ih =>
    have hch : ch ≠ '\r' := fun e => h (by rw [e]; exact List.mem_cons_self _ _)
    have hrest : '\r' ∉ rest := fun e => h (List.mem_cons_of_mem _ e)
    have hstep : countLineEnds (ch :: rest)
        = (if completesLineEnd ch rest then 1 else 0) + countLineEnds rest := rfl
    rw [hstep, completesLineEnd_of_ne ch rest hch, ih hrest, List.count_cons]
    by_cases hn : ch = '\n'
    · simp [hn]; omega
    · simp [hn]

/-- In a text without carriage return the line ends before a position are the
line feeds before it. -/
theorem lineEndsBefore_eq_count (text : List Char) (h : '\r' ∉ text) (n : Nat) :
    lineEndsBefore text n = (text.take n).count '\n' := by
  induction text generalizing n with
  | nil => cases n <;> rfl
  | cons ch rest ih =>
    cases n with
    | zero => rfl
    | succ n =>
      have hch : ch ≠ '\r' := fun e => h (by rw [e]; exact List.mem_cons_self _ _)
      have hrest : '\r' ∉ rest := fun e => h (List.mem_cons_of_mem _ e)
      have hstep : lineEndsBefore (ch :: rest) (n + 1)
          = (if completesLineEnd ch rest then 1 else 0) + lineEndsBefore rest n := rfl
      rw [hstep, completesLineEnd_of_ne ch rest hch, ih hrest, List.take_succ_cons,
        List.count_cons]
      by_cases hn : ch = '\n'
      · simp [hn]; omega
      · simp [hn]

/-- The start and the end of line 0 of a text that begins with a line. -/
theorem lineEnd_zero (line post : List Char) (hline : '\n' ∉ line) (hcr : '\r' ∉ line)
    (hpost : post = [] ∨ ∃ rest, post = '\n' :: rest) :
    lineEnd (line ++ post) 0 = line.length := by
  induction line with
  | nil =>
    rcases hpost with rfl | ⟨rest, rfl⟩
    · simp [lineEnd]
    · simp [lineEnd]
  | cons ch l ih =>
    have hch : ¬ (ch = '\n' ∨ ch = '\r') := by
      rintro (e | e)
      · exact hline (by rw [e]; exact List.mem_cons_self _ _)
      · exact hcr (by rw [e]; exact List.mem_cons_self _ _)
    have hl : '\n' ∉ l := fun e => hline (List.mem_cons_of_mem _ e)
    have hl2 : '\r' ∉ l := fun e => hcr (List.mem_cons_of_mem _ e)
    have hstep : lineEnd (ch :: (l ++ post)) 0
        = if ch = '\n' ∨ ch = '\r' then 0 else 1 + lineEnd (l ++ post) 0 := rfl
    rw [List.cons_append, hstep, if_neg hch, ih hl hl2, List.length_cons]
    omega

/-- The start of a later line behind a first line and its line end. -/
theorem lineStart_succ (line rest : List Char) (n : Nat) (hline : '\n' ∉ line)
    (hcr : '\r' ∉ line) :
    lineStart (line ++ '\n' :: rest) (n + 1) = line.length + 1 + lineStart rest n := by
  induction line with
  | nil => simp [lineStart, completesLineEnd]
  | cons ch l ih =>
    have hch : ¬ ch = '\n' := fun e => hline (by rw [e]; exact List.mem_cons_self _ _)
    have hch2 : ch ≠ '\r' := fun e => hcr (by rw [e]; exact List.mem_cons_self _ _)
    have hl : '\n' ∉ l := fun e => hline (List.mem_cons_of_mem _ e)
    have hl2 : '\r' ∉ l := fun e => hcr (List.mem_cons_of_mem _ e)
    have hstep : lineStart (ch :: (l ++ '\n' :: rest)) (n + 1)
        = 1 + (if completesLineEnd ch (l ++ '\n' :: rest) then lineStart (l ++ '\n' :: rest) n
          else lineStart (l ++ '\n' :: rest) (n + 1)) := rfl
    rw [List.cons_append, hstep, completesLineEnd_of_ne _ _ hch2, decide_eq_false hch,
      if_neg Bool.false_ne_true, ih hl hl2, List.length_cons]
    omega

/-- The end of a later line behind a first line and its line end. -/
theorem lineEnd_succ (line rest : List Char) (n : Nat) (hline : '\n' ∉ line)
    (hcr : '\r' ∉ line) :
    lineEnd (line ++ '\n' :: rest) (n + 1) = line.length + 1 + lineEnd rest n := by
  induction line with
  | nil => simp [lineEnd, completesLineEnd]
  | cons ch l ih =>
    have hch : ¬ ch = '\n' := fun e => hline (by rw [e]; exact List.mem_cons_self _ _)
    have hch2 : ch ≠ '\r' := fun e => hcr (by rw [e]; exact List.mem_cons_self _ _)
    have hl : '\n' ∉ l := fun e => hline (List.mem_cons_of_mem _ e)
    have hl2 : '\r' ∉ l := fun e => hcr (List.mem_cons_of_mem _ e)
    have hstep : lineEnd (ch :: (l ++ '\n' :: rest)) (n + 1)
        = 1 + (if completesLineEnd ch (l ++ '\n' :: rest) then lineEnd (l ++ '\n' :: rest) n
          else lineEnd (l ++ '\n' :: rest) (n + 1)) := rfl
    rw [List.cons_append, hstep, completesLineEnd_of_ne _ _ hch2, decide_eq_false hch,
      if_neg Bool.false_ne_true, ih hl hl2, List.length_cons]
    omega

theorem lineStart_zero (text : List Char) : lineStart text 0 = 0 := by
  cases text <;> rfl

/-- The characters of the lines of a text are characters of the text. -/
theorem mem_splitLines (text : List Char) (ch : Char) :
    ∀ line ∈ splitLines text, ch ∈ line → ch ∈ text := by
  induction text with
  | nil =>
    intro line hl hch
    simp only [splitLines, List.mem_singleton] at hl
    rw [hl] at hch
    exact hch
  | cons c rest ih =>
    unfold splitLines
    split_ifs with h
    · intro line hl hch
      rcases List.mem_cons.mp hl with rfl | hl
      · exact absurd hch (List.not_mem_nil _)
      · exact List.mem_cons_of_mem _ (ih line hl hch)
    · split
      · intro line hl hch
        simp only [List.mem_singleton] at hl
        rw [hl] at hch
        simp only [List.mem_singleton] at hch
        rw [hch]
        exact List.mem_cons_self _ _
      · rename_i l ls heq
        intro line hl hch
        rcases List.mem_cons.mp hl with rfl | hl
        · rcases List.mem_cons.mp hch with e | e
          · rw [e]; exact List.mem_cons_self _ _
          · exact List.mem_cons_of_mem _
              (ih l (by rw [heq]; exact List.mem_cons_self _ _) e)
        · exact List.mem_cons_of_mem _
            (ih line (by rw [heq]; exact List.mem_cons_of_mem _ hl) hch)

/-- A character of joined lines is a line feed or a character of a line. -/
theorem mem_joinLines (lines : List (List Char)) (ch : Char) (h : ch ∈ joinLines lines) :
    ch = '\n' ∨ ∃ line ∈ lines, ch ∈ line := by
  induction lines with
  | nil => exact absurd h (List.not_mem_nil _)
  | cons line rest ih =>
    cases rest with
    | nil =>
      simp only [joinLines] at h
      exact Or.inr ⟨line, List.mem_cons_self _ _, h⟩
    | cons next rest2 =>
      simp only [joinLines, List.mem_append, List.mem_cons] at h
      rcases h with h | h | h
      · exact Or.inr ⟨line, List.mem_cons_self _ _, h⟩
      · exact Or.inl h
      · rcases ih h with e | ⟨l, hl, hc⟩
        · exact Or.inl e
        · exact Or.inr ⟨l, List.mem_cons_of_mem _ hl, hc⟩

/-- Joined lines hold no carriage return if no line holds one. -/
theorem joinLines_no_cr (lines : List (List Char)) (h : ∀ line ∈ lines, '\r' ∉ line) :
    '\r' ∉ joinLines lines := by
  intro hmem
  rcases mem_joinLines lines '\r' hmem with e | ⟨l, hl, hc⟩
  · exact absurd e (by decide)
  · exact h l hl hc

/-- A line among its neighbours: the joined text is the line between a part
before and a part behind it that do not depend on the line, and the line
starts and ends where those parts say. -/
theorem joinLines_line (A B : List (List Char)) (hA : ∀ line ∈ A, '\n' ∉ line)
    (hAcr : ∀ line ∈ A, '\r' ∉ line) :
    ∃ pre post : List Char,
      (∀ y, joinLines (A ++ y :: B) = pre ++ y ++ post) ∧
      pre.count '\n' = A.length ∧
      (∀ y, '\n' ∉ y → '\r' ∉ y →
        lineStart (pre ++ y ++ post) A.length = pre.length ∧
        lineEnd (pre ++ y ++ post) A.length = pre.length + y.length) := by
  induction A with
  | nil =>
    cases B with
    | nil =>
      refine ⟨[], [], fun y => by simp [joinLines], rfl, fun y hy hycr => ?_⟩
      simp only [List.nil_append, List.length_nil, List.append_nil, lineStart_zero]
      have := lineEnd_zero y [] hy hycr (Or.inl rfl)
      simp only [List.append_nil] at this
      exact ⟨trivial, by omega⟩
    | cons b B2 =>
      refine ⟨[], '\n' :: joinLines (b :: B2), fun y => by simp [joinLines], rfl,
        fun y hy hycr => ?_⟩
      simp only [List.nil_append, List.length_nil, lineStart_zero]
      have := lineEnd_zero y ('\n' :: joinLines (b :: B2)) hy hycr (Or.inr ⟨_, rfl⟩)
      exact ⟨trivial, by omega⟩
  | cons a A2 ih =>
    have ha := hA a (List.mem_cons_self _ _)
    have hacr := hAcr a (List.mem_cons_self _ _)
    obtain ⟨pre, post, h1, h2, h3⟩ := ih (fun l hl => hA l (List.mem_cons_of_mem _ hl))
      (fun l hl => hAcr l (List.mem_cons_of_mem _ hl))
    refine ⟨a ++ '\n' :: pre, post, ?_, ?_, ?_⟩
    · intro y
      have hform : ∀ (l : List (List Char)), l ≠ [] → joinLines (a :: l) = a ++ '\n' :: joinLines l := by
        intro l hl
        cases l with
        | nil => exact absurd rfl hl
        | cons x xs => rfl
      rw [List.cons_append, hform _ (by simp), h1 y]
      simp
    · rw [List.count_append, List.count_eq_zero_of_not_mem ha, List.count_cons_self, h2]
      simp
    · intro y hy hycr
      obtain ⟨e1, e2⟩ := h3 y hy hycr
      have hre : (a ++ '\n' :: pre) ++ y ++ post = a ++ '\n' :: (pre ++ y ++ post) := by simp
      rw [hre, List.length_cons, lineStart_succ _ _ _ ha hacr, lineEnd_succ _ _ _ ha hacr, e1, e2]
      simp only [List.length_append, List.length_cons]
      omega

/-- A line is what is left without its trailing blanks, followed by blanks. -/
theorem withoutTrailingBlanks_append (line : List Char) :
    ∃ blanks : List Char, line = withoutTrailingBlanks line ++ blanks ∧
      ∀ ch ∈ blanks, isBlank ch = true := by
  refine ⟨(line.reverse.takeWhile isBlank).reverse, ?_, ?_⟩
  · unfold withoutTrailingBlanks
    rw [← List.reverse_append, List.takeWhile_append_dropWhile, List.reverse_reverse]
  · intro ch hch
    rw [List.mem_reverse] at hch
    exact List.mem_takeWhile_imp hch

theorem withoutTrailingBlanks_concat (l : List Char) (c : Char) :
    withoutTrailingBlanks (l ++ [c])
      = if isBlank c then withoutTrailingBlanks l else l ++ [c] := by
  unfold withoutTrailingBlanks
  rw [List.reverse_append, List.reverse_singleton, List.singleton_append, List.dropWhile_cons]
  split_ifs
  · rfl
  · simp

/-- A line without trailing blanks is no longer than the line. -/
theorem withoutTrailingBlanks_length (line : List Char) :
    (withoutTrailingBlanks line).length ≤ line.length := by
  obtain ⟨b, h1, _⟩ := withoutTrailingBlanks_append line
  have := congrArg List.length h1
  rw [List.length_append] at this
  omega

/-- A line that ends in no blank has no trailing blanks to lose, and the other
way round. -/
theorem withoutTrailingBlanks_idem (line : List Char) :
    withoutTrailingBlanks (withoutTrailingBlanks line) = withoutTrailingBlanks line := by
  induction line using List.reverseRecOn with
  | nil => rfl
  | append_singleton l c ih =>
    rw [withoutTrailingBlanks_concat]
    by_cases hc : isBlank c = true
    · rw [if_pos hc, ih]
    · rw [if_neg hc, withoutTrailingBlanks_concat, if_neg hc]

/-- The characters of a line without its trailing blanks are characters of the
line. -/
theorem mem_withoutTrailingBlanks (line : List Char) (ch : Char)
    (h : ch ∈ withoutTrailingBlanks line) : ch ∈ line := by
  obtain ⟨b, h1, _⟩ := withoutTrailingBlanks_append line
  rw [h1]
  exact List.mem_append_left _ h

/-- A line without trailing blanks holds no line end if the line holds none. -/
theorem withoutTrailingBlanks_no_newline (line : List Char) (h : '\n' ∉ line) :
    '\n' ∉ withoutTrailingBlanks line := by
  obtain ⟨b, h1, _⟩ := withoutTrailingBlanks_append line
  intro hmem
  apply h
  rw [h1]
  exact List.mem_append_left _ hmem

/-- The character behind a stretch of text. -/
theorem GetCharAt_behind (t : TextEditor) (X Y : List Char) (c : Char)
    (h : t.text = X ++ c :: Y) : GetCharAt t (X.length : Int) = c := by
  unfold GetCharAt
  rw [h]
  have h2 : 0 ≤ ((X.length : Nat) : Int) ∧
      ((X.length : Nat) : Int) < (((X ++ c :: Y).length : Nat) : Int) := by
    simp only [List.length_append, List.length_cons]
    push_cast
    omega
  rw [if_pos h2]
  simp [List.getElem_append_right]

/-- The loop of `TrimText` over the end of a line stops right before the
trailing blanks of the line. -/
theorem TrimText_scan_line (t : TextEditor) (pre line : List Char) :
    ∀ post : List Char, t.text = pre ++ line ++ post →
      TrimText_scan t (pre.length : Int) line.length ((pre.length : Int) + (line.length : Int) - 1)
        = (pre.length : Int) + ((withoutTrailingBlanks line).length : Int) - 1 := by
  induction line using List.reverseRecOn with
  | nil =>
    intro post _
    simp [TrimText_scan, withoutTrailingBlanks]
  | append_singleton l c ih =>
    intro post ht
    have hlen : (l ++ [c]).length = l.length + 1 := by simp
    rw [hlen, TrimText_scan]
    have hch : GetCharAt t ((pre.length : Int) + ((l.length + 1 : Nat) : Int) - 1) = c := by
      have h1 : t.text = (pre ++ l) ++ c :: post := by rw [ht]; simp
      have := GetCharAt_behind t (pre ++ l) post c h1
      rw [List.length_append] at this
      rw [← this]
      congr 1
      push_cast
      omega
    rw [hch, withoutTrailingBlanks_concat]
    by_cases hc : isBlank c = true
    · have hc2 : c = ' ' ∨ c = '\t' := by
        unfold isBlank at hc
        simpa using hc
      rw [if_pos ⟨by push_cast; omega, hc2⟩, if_pos hc]
      have := ih (c :: post) (by rw [ht]; simp)
      rw [← this]
      congr 1
      push_cast
      omega
    · have hc2 : ¬ (c = ' ' ∨ c = '\t') := by
        unfold isBlank at hc
        simpa using hc
      rw [if_neg (fun h => hc2 h.2), if_neg hc, hlen]

/-- The text after `TrimText` has dealt with the end of a line that stands
between `pre` and `post`, `pre` holding the lines before it. -/
theorem TrimText_line_text (t : TextEditor) (pre line post : List Char) (L : Nat)
    (hcr : '\r' ∉ t.text)
    (ht : t.text = pre ++ line ++ post) (hpre : pre.count '\n' = L)
    (hstart : lineStart t.text L = pre.length)
    (hend : lineEnd t.text L = pre.length + line.length) :
    (TrimText_line t (L : Int)).text = pre ++ withoutTrailingBlanks line ++ post := by
  have hcount : L ≤ t.text.count '\n' := by
    rw [ht, List.count_append, List.count_append, hpre]
    omega
  have hposition : t.PositionFromLine (L : Int) = (pre.length : Int) := by
    unfold TextEditor.PositionFromLine GetLineCount
    simp only []
    have h0 : ¬ ((L : Int) < 0) := by omega
    rw [if_neg h0, countLineEnds_eq_count _ hcr]
    have h1 : ¬ ((L : Int) > ((t.text.count '\n' + 1 : Nat) : Int)) := by push_cast; omega
    rw [if_neg h1, Int.toNat_ofNat, hstart]
  have hlineEnd : GetLineEndPosition t (L : Int) = (pre.length : Int) + (line.length : Int) := by
    unfold GetLineEndPosition
    rw [Int.toNat_ofNat, hend]
    push_cast
    rfl
  obtain ⟨blanks, hb, _⟩ := withoutTrailingBlanks_append line
  have hwl := withoutTrailingBlanks_length line
  unfold TrimText_line
  simp only [hposition, hlineEnd]
  have hfuel : ((pre.length : Int) + (line.length : Int) - (pre.length : Int)).toNat = line.length := by
    omega
  rw [hfuel, TrimText_scan_line t pre line post ht]
  by_cases hlt : (withoutTrailingBlanks line).length < line.length
  · rw [if_pos (by omega)]
    have e1 : (pre.length : Int) + ((withoutTrailingBlanks line).length : Int) - 1 + 1
        = ((pre.length + (withoutTrailingBlanks line).length : Nat) : Int) := by push_cast; omega
    have e2 : (pre.length : Int) + (line.length : Int) = ((pre.length + line.length : Nat) : Int) := by
      push_cast; rfl
    rw [e1, e2, ReplaceTarget_empty_text _ _ _ (by omega)
      (by rw [ht]; simp only [List.length_append]; omega), ht]
    have k1 : (pre ++ line ++ post).take (pre.length + (withoutTrailingBlanks line).length)
        = pre ++ withoutTrailingBlanks line := by
      have : pre ++ line ++ post
          = (pre ++ withoutTrailingBlanks line) ++ (blanks ++ post) := by
        conv_lhs => rw [hb]
        simp
      rw [this]
      exact List.take_left' (by simp)
    have k2 : (pre ++ line ++ post).drop (pre.length + line.length) = post :=
      List.drop_left' (by simp)
    rw [k1, k2]
  · rw [if_neg (by omega)]
    have hbl : blanks = [] := by
      have := congrArg List.length hb
      rw [List.length_append] at this
      apply List.eq_nil_of_length_eq_zero
      omega
    rw [hbl, List.append_nil] at hb
    rw [← hb, ht]

/-- The value of the test of `TrimText` when its loop reaches a line: whether
the status of the line in the map the loop started with is `LINE_MODIFIED`. -/
theorem TrimText_loop_isModified (dontTrimCaretLine trimOnlyModifiedLInes : Bool)
    (currLine : Int) (t : TextEditor) (L : Nat) :
    (TrimText_isModifiedLine ((List.range L).foldl
        (TrimText_step dontTrimCaretLine trimOnlyModifiedLInes currLine) t).m_modifiedLines
        (L : Int)).1
      = decide (modifiedLinesFind t.m_modifiedLines (L : Int) = some LineStatus.LINE_MODIFIED) := by
  have hmap := TrimText_loop_map dontTrimCaretLine trimOnlyModifiedLInes currLine t L
  have hentries := fun hL =>
    TrimText_loop_entries dontTrimCaretLine trimOnlyModifiedLInes currLine t L hL L (le_refl _)
  generalize (List.range L).foldl
    (TrimText_step dontTrimCaretLine trimOnlyModifiedLInes currLine) t = before at hmap hentries
  by_cases hL : modifiedLinesFind t.m_modifiedLines (L : Int) = some LineStatus.LINE_MODIFIED
  · have hsize := modifiedLines_size before.m_modifiedLines L L (le_refl _)
      (hentries hL) (by rw [hmap.1 _ _ hL]; exact Option.noConfusion)
    unfold TrimText_isModifiedLine
    rw [if_pos (by omega), hmap.1 _ _ hL]
    simp [hL]
  · have hnot : modifiedLinesFind before.m_modifiedLines (L : Int)
        ≠ some LineStatus.LINE_MODIFIED := fun h => hL (hmap.2 _ h)
    unfold TrimText_isModifiedLine
    split_ifs with hg
    · cases hfind : modifiedLinesFind before.m_modifiedLines (L : Int) with
      | none => simp [hL]
      | some s =>
        rw [hfind] at hnot
        have : s ≠ LineStatus.LINE_MODIFIED := fun h => hnot (by rw [h])
        simp [hL, this]
    · simp [hL]

/-- The text after one round of the loop of `TrimText`, for a line that stands
between `pre` and `post`. -/
theorem TrimText_step_text (dontTrimCaretLine trimOnlyModifiedLInes : Bool) (currLine : Int)
    (s : TextEditor) (pre line post : List Char) (L : Nat) (hcr : '\r' ∉ s.text)
    (hs : s.text = pre ++ line ++ post) (hpre : pre.count '\n' = L)
    (hstart : lineStart s.text L = pre.length)
    (hend : lineEnd s.text L = pre.length + line.length) :
    (TrimText_step dontTrimCaretLine trimOnlyModifiedLInes currLine s L).text
      = pre ++ (if ((!trimOnlyModifiedLInes ||
                    (TrimText_isModifiedLine s.m_modifiedLines (L : Int)).1) &&
                  (decide ((L : Int) ≠ currLine) || !dontTrimCaretLine)) = true
                then withoutTrailingBlanks line else line) ++ post := by
  unfold TrimText_step
  simp only []
  generalize (TrimText_isModifiedLine s.m_modifiedLines (L : Int)) = r
  have hline := TrimText_line_text { s with m_modifiedLines := r.2 } pre line post L hcr hs hpre
    hstart hend
  have hsame : ({ s with m_modifiedLines := r.2 } : TextEditor).text = pre ++ line ++ post := hs
  generalize ({ s with m_modifiedLines := r.2 } : TextEditor) = s2 at hline hsame
  have hd : decide ((L : Int) = currLine) = !decide ((L : Int) ≠ currLine) := by simp
  rw [hd]
  generalize decide ((L : Int) ≠ currLine) = b
  generalize r.1 = isModified
  cases isModified <;> cases trimOnlyModifiedLInes <;> cases dontTrimCaretLine <;> cases b <;>
    simp [hsame, hline]

/-- The text while the loop of `TrimText` walks the lines: the lines it has
passed are trimmed where that is allowed, the others are as they were. -/
theorem TrimText_loop_text (dontTrimCaretLine trimOnlyModifiedLInes : Bool)
    (t : TextEditor) (hcr : '\r' ∉ t.text) (l : Nat) (hl : l ≤ (splitLines t.text).length) :
    ((List.range l).foldl
        (TrimText_step dontTrimCaretLine trimOnlyModifiedLInes t.GetCurrentLine) t).text
      = joinLines (((splitLines t.text).take l).enum.map
            (trimmedLine t dontTrimCaretLine trimOnlyModifiedLInes)
          ++ (splitLines t.text).drop l) := by
  generalize hcurr : t.GetCurrentLine = currLine
  have htrims : ∀ (n : Nat) (line : List Char),
      trimmedLine t dontTrimCaretLine trimOnlyModifiedLInes (n, line)
        = if ((!trimOnlyModifiedLInes ||
                decide (modifiedLinesFind t.m_modifiedLines (n : Int)
                  = some LineStatus.LINE_MODIFIED)) &&
              (decide ((n : Int) ≠ currLine) || !dontTrimCaretLine)) = true
          then withoutTrailingBlanks line else line := by
    intro n line
    unfold trimmedLine TrimText_allowed
    rw [hcurr]
  induction l with
  | zero => simp [joinLines_splitLines]
  | succ l ih =>
    have ihl := ih (by omega)
    have hlt : l < (splitLines t.text).length := by omega
    rw [List.range_succ, List.foldl_append]
    simp only [List.foldl_cons, List.foldl_nil]
    have hmod := TrimText_loop_isModified dontTrimCaretLine trimOnlyModifiedLInes currLine t l
    generalize (List.range l).foldl
      (TrimText_step dontTrimCaretLine trimOnlyModifiedLInes currLine) t = s at ihl hmod
    have hfree := splitLines_no_newline t.text
    have hfreecr : ∀ line ∈ splitLines t.text, '\r' ∉ line :=
      fun line hline hc => hcr (mem_splitLines t.text '\r' line hline hc)
    generalize splitLines t.text = ls at ihl hlt hfree hfreecr ⊢
    have hdrop : ls.drop l = ls[l] :: ls.drop (l + 1) := List.drop_eq_getElem_cons hlt
    have hx : '\n' ∉ ls[l] := hfree _ (List.getElem_mem _)
    have hA : ∀ line ∈ (ls.take l).enum.map
        (trimmedLine t dontTrimCaretLine trimOnlyModifiedLInes), '\n' ∉ line := by
      intro line hline
      simp only [List.mem_map] at hline
      obtain ⟨p, hp, rfl⟩ := hline
      have hmem : p.2 ∈ ls := by
        have := List.mem_enumFrom hp
        rw [this.2.2]
        exact List.mem_of_mem_take (List.getElem_mem _)
      unfold trimmedLine
      split_ifs
      · exact withoutTrailingBlanks_no_newline _ (hfree _ hmem)
      · exact hfree _ hmem
    have hxcr : '\r' ∉ ls[l] := hfreecr _ (List.getElem_mem _)
    have hAcr : ∀ line ∈ (ls.take l).enum.map
        (trimmedLine t dontTrimCaretLine trimOnlyModifiedLInes), '\r' ∉ line := by
      intro line hline
      simp only [List.mem_map] at hline
      obtain ⟨p, hp, rfl⟩ := hline
      have hmem : p.2 ∈ ls := by
        have := List.mem_enumFrom hp
        rw [this.2.2]
        exact List.mem_of_mem_take (List.getElem_mem _)
      unfold trimmedLine
      split_ifs
      · exact fun hc => hfreecr _ hmem (mem_withoutTrailingBlanks _ _ hc)
      · exact hfreecr _ hmem
    have hscr : '\r' ∉ joinLines ((ls.take l).enum.map
        (trimmedLine t dontTrimCaretLine trimOnlyModifiedLInes) ++ ls[l] :: ls.drop (l + 1)) := by
      apply joinLines_no_cr
      intro line hline
      rcases List.mem_append.1 hline with h | h
      · exact hAcr line h
      · rcases List.mem_cons.1 h with h | h
        · rw [h]; exact hxcr
        · exact hfreecr line (List.mem_of_mem_drop h)
    have hAlen : ((ls.take l).enum.map
        (trimmedLine t dontTrimCaretLine trimOnlyModifiedLInes)).length = l := by
      simp only [List.length_map, List.enum_length, List.length_take]
      omega
    obtain ⟨pre, post, h1, h2, h3⟩ := joinLines_line _ (ls.drop (l + 1)) hA hAcr
    rw [hAlen] at h2 h3
    rw [hdrop, h1] at ihl
    rw [h1] at hscr
    obtain ⟨hstart, hend⟩ := h3 ls[l] hx hxcr
    rw [← ihl] at hstart hend hscr
    rw [TrimText_step_text _ _ _ s pre ls[l] post l hscr ihl h2 hstart hend, hmod]
    have htake : (ls.take (l + 1)).enum.map
          (trimmedLine t dontTrimCaretLine trimOnlyModifiedLInes)
        = (ls.take l).enum.map (trimmedLine t dontTrimCaretLine trimOnlyModifiedLInes)
          ++ [trimmedLine t dontTrimCaretLine trimOnlyModifiedLInes (l, ls[l])] := by
      rw [List.take_succ, List.getElem?_eq_getElem hlt]
      simp only [Option.toList_some, List.enum_append, List.map_append, List.enumFrom_singleton,
        List.map_cons, List.map_nil, List.length_take]
      have : min l ls.length = l := by omega
      rw [this]
    rw [htake]
    have hcons : ∀ (A B : List (List Char)) (y : List Char), A ++ [y] ++ B = A ++ y :: B := by
      intro A B y
      simp
    rw [hcons, h1, htrims]

/-- The line ends before a position survive the removal of a stretch of text
that holds none: counted before the position as the removal moves it. -/
theorem count_take_removed (X D Y : List Char) (hD : '\n' ∉ D) (n : Nat) :
    ((X ++ Y).take (if n ≥ X.length + D.length then n - D.length
        else if n > X.length then X.length else n)).count '\n'
      = ((X ++ D ++ Y).take n).count '\n' := by
  have hDtake : ∀ k, (D.take k).count '\n' = 0 := fun k =>
    List.count_eq_zero_of_not_mem (fun h => hD (List.mem_of_mem_take h))
  have hDall : D.count '\n' = 0 := List.count_eq_zero_of_not_mem hD
  by_cases h1 : n ≥ X.length + D.length
  · rw [if_pos h1]
    have e1 : (X ++ D ++ Y).take n = X ++ D ++ Y.take (n - X.length - D.length) := by
      have : n = (X ++ D).length + (n - X.length - D.length) := by
        simp only [List.length_append]; omega
      conv_lhs => rw [this]
      rw [List.take_append]
    have e2 : (X ++ Y).take (n - D.length) = X ++ Y.take (n - X.length - D.length) := by
      have : n - D.length = X.length + (n - X.length - D.length) := by omega
      rw [this, List.take_append]
    rw [e1, e2]
    simp only [List.count_append, hDall]
    omega
  · rw [if_neg h1]
    by_cases h2 : n > X.length
    · rw [if_pos h2]
      have e1 : (X ++ D ++ Y).take n = X ++ D.take (n - X.length) := by
        rw [List.append_assoc]
        have : n = X.length + (n - X.length) := by omega
        conv_lhs => rw [this]
        rw [List.take_append, List.take_append_of_le_length (by omega)]
      have e2 : (X ++ Y).take X.length = X := List.take_left' rfl
      rw [e1, e2, List.count_append, hDtake]
      omega
    · rw [if_neg h2]
      have e1 : (X ++ D ++ Y).take n = X.take n := by
        rw [List.append_assoc, List.take_append_of_le_length (by omega)]
      have e2 : (X ++ Y).take n = X.take n := List.take_append_of_le_length (by omega)
      rw [e1, e2]

/-- The caret stays on its line when a stretch of text that holds no line end
is removed. -/
theorem deleteRange_currentLine (s : TextEditor) (X D Y : List Char) (hcr : '\r' ∉ s.text)
    (hs : s.text = X ++ D ++ Y) (hD : '\n' ∉ D) :
    (deleteRange s (X.length : Int) ((X.length + D.length : Nat) : Int)).GetCurrentLine
      = s.GetCurrentLine := by
  have htext : (deleteRange s (X.length : Int) ((X.length + D.length : Nat) : Int)).text = X ++ Y := by
    simp only [deleteRange, Int.toNat_ofNat, hs]
    have k1 : (X ++ D ++ Y).take X.length = X := by
      rw [List.append_assoc]; exact List.take_left' rfl
    have k2 : (X ++ D ++ Y).drop (X.length + D.length) = Y := List.drop_left' (by simp)
    rw [k1, k2]
  have hcaret : (deleteRange s (X.length : Int) ((X.length + D.length : Nat) : Int)).currentPos
      = if s.currentPos ≥ ((X.length + D.length : Nat) : Int) then
          s.currentPos - (((X.length + D.length : Nat) : Int) - (X.length : Int))
        else if s.currentPos > (X.length : Int) then (X.length : Int) else s.currentPos := rfl
  have hcr2 : '\r' ∉ X ++ Y := by
    intro hmem
    apply hcr
    rw [hs]
    rcases List.mem_append.1 hmem with h | h
    · exact List.mem_append_left _ (List.mem_append_left _ h)
    · exact List.mem_append_right _ h
  rw [hs] at hcr
  unfold TextEditor.GetCurrentLine TextEditor.LineFromPosition
  rw [htext, hcaret, hs]
  simp only [lineEndsBefore_eq_count _ hcr, lineEndsBefore_eq_count _ hcr2]
  by_cases h0 : s.currentPos ≤ 0
  · rw [if_pos h0]
    have : (if s.currentPos ≥ ((X.length + D.length : Nat) : Int) then
          s.currentPos - (((X.length + D.length : Nat) : Int) - (X.length : Int))
        else if s.currentPos > (X.length : Int) then (X.length : Int) else s.currentPos) ≤ 0 := by
      split_ifs <;> push_cast at * <;> omega
    rw [if_pos this]
  · rw [if_neg h0]
    have hcount := count_take_removed X D Y hD s.currentPos.toNat
    split_ifs with h1 h2 h3 h4
    · -- new caret at or before 0 although the caret was behind the stretch
      have hX : X = [] := List.eq_nil_of_length_eq_zero (by push_cast at *; omega)
      have hn : s.currentPos.toNat = D.length := by push_cast at *; omega
      subst hX
      simp only [List.nil_append, List.length_nil, Nat.zero_add] at hcount ⊢
      rw [hn, List.take_left' rfl, List.count_eq_zero_of_not_mem hD]
      rfl
    · rw [if_pos (by push_cast at *; omega)] at hcount
      rw [← hcount]
      congr 3
      push_cast at *
      omega
    · have hX : X = [] := List.eq_nil_of_length_eq_zero (by push_cast at *; omega)
      subst hX
      simp only [List.nil_append, List.length_nil] at h1 h3 ⊢
      have : (D ++ Y).take s.currentPos.toNat = D.take s.currentPos.toNat :=
        List.take_append_of_le_length (by push_cast at *; omega)
      rw [this, List.count_eq_zero_of_not_mem (fun h => hD (List.mem_of_mem_take h))]
      rfl
    · rw [if_neg (by push_cast at *; omega), if_pos (by push_cast at *; omega)] at hcount
      rw [← hcount, Int.toNat_ofNat]
    · rw [if_neg (by push_cast at *; omega), if_neg (by push_cast at *; omega)] at hcount
      rw [← hcount]

theorem recordUndoStep_currentLine (t : TextEditor) (undoCaret : Int) :
    (recordUndoStep t undoCaret).GetCurrentLine = t.GetCurrentLine := by
  unfold TextEditor.GetCurrentLine TextEditor.LineFromPosition
  rw [(recordUndoStep_fields t undoCaret).1, (recordUndoStep_fields t undoCaret).2.1]

/-- The caret stays on its line when `TrimText` deals with the end of a line. -/
theorem TrimText_line_currentLine (t : TextEditor) (pre line post : List Char) (L : Nat)
    (hcr : '\r' ∉ t.text)
    (ht : t.text = pre ++ line ++ post) (hpre : pre.count '\n' = L)
    (hstart : lineStart t.text L = pre.length)
    (hend : lineEnd t.text L = pre.length + line.length) :
    (TrimText_line t (L : Int)).GetCurrentLine = t.GetCurrentLine := by
  have hcount : L ≤ t.text.count '\n' := by
    rw [ht, List.count_append, List.count_append, hpre]
    omega
  have hposition : t.PositionFromLine (L : Int) = (pre.length : Int) := by
    unfold TextEditor.PositionFromLine GetLineCount
    simp only []
    have h0 : ¬ ((L : Int) < 0) := by omega
    rw [if_neg h0, countLineEnds_eq_count _ hcr]
    have h1 : ¬ ((L : Int) > ((t.text.count '\n' + 1 : Nat) : Int)) := by push_cast; omega
    rw [if_neg h1, Int.toNat_ofNat, hstart]
  have hlineEnd : GetLineEndPosition t (L : Int) = (pre.length : Int) + (line.length : Int) := by
    unfold GetLineEndPosition
    rw [Int.toNat_ofNat, hend]
    push_cast
    rfl
  obtain ⟨blanks, hb, hblank⟩ := withoutTrailingBlanks_append line
  have hnl : '\n' ∉ blanks := fun h => by
    have := hblank _ h
    simp [isBlank] at this
  have hlen : line.length = (withoutTrailingBlanks line).length + blanks.length := by
    have := congrArg List.length hb
    rw [List.length_append] at this
    exact this
  unfold TrimText_line
  simp only [hposition, hlineEnd]
  have hfuel : ((pre.length : Int) + (line.length : Int) - (pre.length : Int)).toNat = line.length := by
    omega
  rw [hfuel, TrimText_scan_line t pre line post ht]
  by_cases hlt : (withoutTrailingBlanks line).length < line.length
  · rw [if_pos (by omega)]
    have e1 : (pre.length : Int) + ((withoutTrailingBlanks line).length : Int) - 1 + 1
        = (((pre ++ withoutTrailingBlanks line).length : Nat) : Int) := by
      rw [List.length_append]; push_cast; omega
    have e2 : (pre.length : Int) + (line.length : Int)
        = (((pre ++ withoutTrailingBlanks line).length + blanks.length : Nat) : Int) := by
      rw [List.length_append]; push_cast; omega
    rw [e1, e2]
    unfold ReplaceTarget_empty
    have hin : 0 ≤ (((pre ++ withoutTrailingBlanks line).length : Nat) : Int) ∧
        (((pre ++ withoutTrailingBlanks line).length : Nat) : Int)
          ≤ (((pre ++ withoutTrailingBlanks line).length + blanks.length : Nat) : Int) ∧
        (((pre ++ withoutTrailingBlanks line).length + blanks.length : Nat) : Int) ≤ GetLength t := by
      unfold GetLength
      rw [ht]
      simp only [List.length_append]
      push_cast
      omega
    rw [if_pos hin]
    have hsame : ∀ s : TextEditor, s.text = t.text → s.GetCurrentLine = t.GetCurrentLine →
        (deleteRange s (((pre ++ withoutTrailingBlanks line).length : Nat) : Int)
          (((pre ++ withoutTrailingBlanks line).length + blanks.length : Nat) : Int)).GetCurrentLine
          = t.GetCurrentLine := by
      intro s hs hline
      have hform : s.text = (pre ++ withoutTrailingBlanks line) ++ blanks ++ post := by
        rw [hs, ht]
        conv_lhs => rw [hb]
        simp
      have := deleteRange_currentLine s _ blanks post (by rw [hs]; exact hcr) hform hnl
      rw [hline] at this
      exact this
    split_ifs
    · exact hsame t rfl rfl
    · exact hsame _ (recordUndoStep_text t _) (recordUndoStep_currentLine t _)
  · rw [if_neg (by omega)]

/-- The caret stays on its line in a round of the loop of `TrimText`. -/
theorem TrimText_step_currentLine (dontTrimCaretLine trimOnlyModifiedLInes : Bool)
    (currLine : Int) (s : TextEditor) (pre line post : List Char) (L : Nat)
    (hcr : '\r' ∉ s.text)
    (hs : s.text = pre ++ line ++ post) (hpre : pre.count '\n' = L)
    (hstart : lineStart s.text L = pre.length)
    (hend : lineEnd s.text L = pre.length + line.length) :
    (TrimText_step dontTrimCaretLine trimOnlyModifiedLInes currLine s L).GetCurrentLine
      = s.GetCurrentLine := by
  unfold TrimText_step
  simp only []
  generalize (TrimText_isModifiedLine s.m_modifiedLines (L : Int)) = r
  have hline := TrimText_line_currentLine { s with m_modifiedLines := r.2 } pre line post L hcr
    hs hpre hstart hend
  have hsame : ({ s with m_modifiedLines := r.2 } : TextEditor).GetCurrentLine
      = s.GetCurrentLine := rfl
  generalize ({ s with m_modifiedLines := r.2 } : TextEditor) = s2 at hline hsame
  split_ifs
  · exact hsame
  · exact hsame
  · rw [hline, hsame]

/-- The caret stays on its line while the loop of `TrimText` walks the lines. -/
theorem TrimText_loop_currentLine (dontTrimCaretLine trimOnlyModifiedLInes : Bool)
    (t : TextEditor) (hcr : '\r' ∉ t.text) (l : Nat) (hl : l ≤ (splitLines t.text).length) :
    ((List.range l).foldl
        (TrimText_step dontTrimCaretLine trimOnlyModifiedLInes t.GetCurrentLine) t).GetCurrentLine
      = t.GetCurrentLine := by
  induction l with
  | zero => rfl
  | succ l ih =>
    have ihl := ih (by omega)
    have hlt : l < (splitLines t.text).length := by omega
    have htext := TrimText_loop_text dontTrimCaretLine trimOnlyModifiedLInes t hcr l (by omega)
    rw [List.range_succ, List.foldl_append]
    simp only [List.foldl_cons, List.foldl_nil]
    generalize (List.range l).foldl
      (TrimText_step dontTrimCaretLine trimOnlyModifiedLInes t.GetCurrentLine) t = s at ihl htext
    have hfree := splitLines_no_newline t.text
    have hfreecr : ∀ line ∈ splitLines t.text, '\r' ∉ line :=
      fun line hline hc => hcr (mem_splitLines t.text '\r' line hline hc)
    generalize splitLines t.text = ls at htext hlt hfree hfreecr
    have hdrop : ls.drop l = ls[l] :: ls.drop (l + 1) := List.drop_eq_getElem_cons hlt
    have hx : '\n' ∉ ls[l] := hfree _ (List.getElem_mem _)
    have hA : ∀ line ∈ (ls.take l).enum.map
        (trimmedLine t dontTrimCaretLine trimOnlyModifiedLInes), '\n' ∉ line := by
      intro line hline
      simp only [List.mem_map] at hline
      obtain ⟨p, hp, rfl⟩ := hline
      have hmem : p.2 ∈ ls := by
        have := List.mem_enumFrom hp
        rw [this.2.2]
        exact List.mem_of_mem_take (List.getElem_mem _)
      unfold trimmedLine
      split_ifs
      · exact withoutTrailingBlanks_no_newline _ (hfree _ hmem)
      · exact hfree _ hmem
    have hxcr : '\r' ∉ ls[l] := hfreecr _ (List.getElem_mem _)
    have hAcr : ∀ line ∈ (ls.take l).enum.map
        (trimmedLine t dontTrimCaretLine trimOnlyModifiedLInes), '\r' ∉ line := by
      intro line hline
      simp only [List.mem_map] at hline
      obtain ⟨p, hp, rfl⟩ := hline
      have hmem : p.2 ∈ ls := by
        have := List.mem_enumFrom hp
        rw [this.2.2]
        exact List.mem_of_mem_take (List.getElem_mem _)
      unfold trimmedLine
      split_ifs
      · exact fun hc => hfreecr _ hmem (mem_withoutTrailingBlanks _ _ hc)
      · exact hfreecr _ hmem
    have hscr : '\r' ∉ joinLines ((ls.take l).enum.map
        (trimmedLine t dontTrimCaretLine trimOnlyModifiedLInes) ++ ls[l] :: ls.drop (l + 1)) := by
      apply joinLines_no_cr
      intro line hline
      rcases List.mem_append.1 hline with h | h
      · exact hAcr line h
      · rcases List.mem_cons.1 h with h | h
        · rw [h]; exact hxcr
        · exact hfreecr line (List.mem_of_mem_drop h)
    have hAlen : ((ls.take l).enum.map
        (trimmedLine t dontTrimCaretLine trimOnlyModifiedLInes)).length = l := by
      simp only [List.length_map, List.enum_length, List.length_take]
      omega
    obtain ⟨pre, post, h1, h2, h3⟩ := joinLines_line _ (ls.drop (l + 1)) hA hAcr
    rw [hAlen] at h2 h3
    rw [hdrop, h1] at htext
    rw [h1] at hscr
    obtain ⟨hstart, hend⟩ := h3 ls[l] hx hxcr
    rw [← htext] at hstart hend hscr
    rw [TrimText_step_currentLine _ _ _ s pre ls[l] post l hscr htext h2 hstart hend, ihl]

theorem BeginUndoAction_modifiedLines (t : TextEditor) :
    (BeginUndoAction t).m_modifiedLines = t.m_modifiedLines := by
  unfold BeginUndoAction
  split_ifs <;> rfl

theorem BeginUndoAction_currentLine (t : TextEditor) :
    (BeginUndoAction t).GetCurrentLine = t.GetCurrentLine := by
  unfold BeginUndoAction
  split_ifs <;> rfl

/-- Whether a line may be trimmed depends on the statuses `LINE_MODIFIED` of
the map and on the line of the caret only. -/
theorem trimmedLine_congr (t t2 : TextEditor) (dontTrimCaretLine trimOnlyModifiedLInes : Bool)
    (hmap : ∀ k, modifiedLinesFind t2.m_modifiedLines k = some LineStatus.LINE_MODIFIED ↔
      modifiedLinesFind t.m_modifiedLines k = some LineStatus.LINE_MODIFIED)
    (hcaret : t2.GetCurrentLine = t.GetCurrentLine) (p : Nat × List Char) :
    trimmedLine t2 dontTrimCaretLine trimOnlyModifiedLInes p
      = trimmedLine t dontTrimCaretLine trimOnlyModifiedLInes p := by
  unfold trimmedLine TrimText_allowed
  rw [hcaret]
  have : decide (modifiedLinesFind t2.m_modifiedLines (p.1 : Int) = some LineStatus.LINE_MODIFIED)
      = decide (modifiedLinesFind t.m_modifiedLines (p.1 : Int) = some LineStatus.LINE_MODIFIED) := by
    rw [decide_eq_decide]
    exact hmap _
  rw [this]

/-- The lines after the trimming hold no line end, and there is one at least. -/
theorem trimmedLines_lines (t : TextEditor) (dontTrimCaretLine trimOnlyModifiedLInes : Bool) :
    trimmedLines t dontTrimCaretLine trimOnlyModifiedLInes ≠ [] ∧
    ∀ line ∈ trimmedLines t dontTrimCaretLine trimOnlyModifiedLInes, '\n' ∉ line := by
  unfold trimmedLines
  constructor
  · have := splitLines_ne_nil t.text
    cases h : splitLines t.text with
    | nil => exact absurd h this
    | cons l ls => simp [List.enum, List.enumFrom_cons]
  · intro line hline
    simp only [List.mem_map] at hline
    obtain ⟨p, hp, rfl⟩ := hline
    have hmem : p.2 ∈ splitLines t.text := by
      have := List.mem_enumFrom hp
      rw [this.2.2]
      exact List.getElem_mem _
    unfold trimmedLine
    split_ifs
    · exact withoutTrailingBlanks_no_newline _ (splitLines_no_newline _ _ hmem)
    · exact splitLines_no_newline _ _ hmem

/-- Trimming the trimmed lines once more changes none of them. -/
theorem enumFrom_map_idem {α : Type} (g : Nat × α → α) (hg : ∀ i x, g (i, g (i, x)) = g (i, x))
    (l : List α) : ∀ k, (((l.enumFrom k).map g).enumFrom k).map g = (l.enumFrom k).map g := by
  induction l with
  | nil => intro k; rfl
  | cons x rest ih =>
    intro k
    simp only [List.enumFrom_cons, List.map_cons, hg, ih (k + 1)]

/-- `TrimText` with trimming on and without the appending of a line end: the
loop over the lines between `BeginUndoAction` and `EndUndoAction`. -/
theorem TrimText_flags_trimming (K : TrimConstants) (t : TextEditor) (flags : Nat)
    (hcr : '\r' ∉ t.text)
    (htrim : flags &&& K.TRIM_ENABLED ≠ 0) (hlf : flags &&& K.TRIM_APPEND_LF = 0) :
    TrimText_flags K t flags
      = EndUndoAction ((List.range (splitLines (BeginUndoAction t).text).length).foldl
          (TrimText_step (flags &&& K.TRIM_IGNORE_CARET_LINE != 0)
            (flags &&& K.TRIM_MODIFIED_LINES != 0) (BeginUndoAction t).GetCurrentLine)
          (BeginUndoAction t)) := by
  have hcount : (GetLineCount (BeginUndoAction t)).toNat
      = (splitLines (BeginUndoAction t).text).length := by
    unfold GetLineCount
    rw [Int.toNat_ofNat, countLineEnds_eq_count _ (by rw [BeginUndoAction_text]; exact hcr)]
    have := count_newline_joinLines (splitLines (BeginUndoAction t).text)
      (splitLines_ne_nil _) (splitLines_no_newline _)
    rw [joinLines_splitLines] at this
    exact this
  unfold TrimText_flags
  simp only [hlf, hcount]
  simp [htrim]

/-- The state `TrimText` ends in, trimming on and no line end to append: the
text is the trimmed lines joined, the statuses `LINE_MODIFIED` of the map and
the line of the caret are as before. -/
theorem TrimText_flags_state (K : TrimConstants) (t : TextEditor) (flags : Nat)
    (hcr : '\r' ∉ t.text)
    (htrim : flags &&& K.TRIM_ENABLED ≠ 0) (hlf : flags &&& K.TRIM_APPEND_LF = 0) :
    (TrimText_flags K t flags).text
      = joinLines (trimmedLines t (flags &&& K.TRIM_IGNORE_CARET_LINE != 0)
          (flags &&& K.TRIM_MODIFIED_LINES != 0)) ∧
    (∀ k, modifiedLinesFind (TrimText_flags K t flags).m_modifiedLines k
        = some LineStatus.LINE_MODIFIED ↔
      modifiedLinesFind t.m_modifiedLines k = some LineStatus.LINE_MODIFIED) ∧
    (TrimText_flags K t flags).GetCurrentLine = t.GetCurrentLine := by
  rw [TrimText_flags_trimming K t flags hcr htrim hlf]
  have hcr1 : '\r' ∉ (BeginUndoAction t).text := by rw [BeginUndoAction_text]; exact hcr
  generalize (flags &&& K.TRIM_IGNORE_CARET_LINE != 0) = dont
  generalize (flags &&& K.TRIM_MODIFIED_LINES != 0) = only
  have hcongr : ∀ p, trimmedLine (BeginUndoAction t) dont only p = trimmedLine t dont only p :=
    trimmedLine_congr t (BeginUndoAction t) dont only
      (fun k => by rw [BeginUndoAction_modifiedLines]) (BeginUndoAction_currentLine t)
  refine ⟨?_, ?_, ?_⟩
  · rw [EndUndoAction_text, TrimText_loop_text dont only (BeginUndoAction t) hcr1 _ (le_refl _)]
    unfold trimmedLines
    rw [List.take_length, List.drop_length, List.append_nil, BeginUndoAction_text]
    congr 1
    exact List.map_congr_left (fun p _ => hcongr p)
  · intro k
    have hmap := TrimText_loop_map dont only (BeginUndoAction t).GetCurrentLine (BeginUndoAction t)
      (splitLines (BeginUndoAction t).text).length
    rw [BeginUndoAction_modifiedLines] at hmap
    rw [EndUndoAction_modifiedLines]
    constructor
    · exact hmap.2 k
    · exact hmap.1 k _
  · have := TrimText_loop_currentLine dont only (BeginUndoAction t) hcr1 _ (le_refl _)
    rw [BeginUndoAction_currentLine t] at this ⊢
    rw [EndUndoAction_currentLine]
    exact this

/-- The last character of a line without its trailing blanks is no blank. -/
theorem withoutTrailingBlanks_last (line : List Char) :
    ∀ ch, (withoutTrailingBlanks line).getLast? = some ch → isBlank ch = false := by
  induction line using List.reverseRecOn with
  | nil => intro ch h; simp [withoutTrailingBlanks] at h
  | append_singleton l c ih =>
    intro ch h
    rw [withoutTrailingBlanks_concat] at h
    by_cases hc : isBlank c = true
    · rw [if_pos hc] at h
      exact ih ch h
    · rw [if_neg hc] at h
      simp only [List.getLast?_append, List.getLast?_singleton] at h
      have h2 : c = ch := by
        simpa [Option.or] using h
      rw [← h2]
      simpa using hc

/-- In a document whose line ends are line feeds (it holds no carriage
return), with `TRIM_ENABLED` set and no line end to append, the lines of the
document after `TrimText` are its lines before, each line that may be trimmed
(not excluded by the caret-line or the modified-only option) without the
longest run of spaces and tabs at its end and every other line unchanged, the
line ends being kept; what is taken off a line is a run of spaces and tabs,
and what is left does not end in one; trimming the trimmed document changes
nothing. -/
theorem TrimText_line_feed_document (K : TrimConstants) (t : TextEditor) (flags : Nat)
    (hcr : '\r' ∉ t.text)
    (htrim : flags &&& K.TRIM_ENABLED ≠ 0) (hlf : flags &&& K.TRIM_APPEND_LF = 0) :
    splitLines (TrimText_flags K t flags).text
      = trimmedLines t (flags &&& K.TRIM_IGNORE_CARET_LINE != 0)
          (flags &&& K.TRIM_MODIFIED_LINES != 0) ∧
    (∀ (L : Nat) (line : List Char), (splitLines t.text).get? L = some line →
      (splitLines (TrimText_flags K t flags).text).get? L
        = some (if TrimText_allowed t (flags &&& K.TRIM_IGNORE_CARET_LINE != 0)
                    (flags &&& K.TRIM_MODIFIED_LINES != 0) L = true
                then withoutTrailingBlanks line else line)) ∧
    (∀ line : List Char, ∃ blanks : List Char,
      line = withoutTrailingBlanks line ++ blanks ∧
      (∀ ch ∈ blanks, ch = ' ' ∨ ch = '\t') ∧
      ∀ ch, (withoutTrailingBlanks line).getLast? = some ch → ¬ (ch = ' ' ∨ ch = '\t')) ∧
    (TrimText_flags K (TrimText_flags K t flags) flags).text = (TrimText_flags K t flags).text := by
  obtain ⟨htext, hmap, hcaret⟩ := TrimText_flags_state K t flags hcr htrim hlf
  have hcr2 : '\r' ∉ (TrimText_flags K t flags).text := by
    rw [htext]
    apply joinLines_no_cr
    intro line hline
    unfold trimmedLines at hline
    simp only [List.mem_map] at hline
    obtain ⟨p, hp, rfl⟩ := hline
    have hmem : p.2 ∈ splitLines t.text := by
      have := List.mem_enumFrom hp
      rw [this.2.2]
      exact List.getElem_mem _
    have hfree : '\r' ∉ p.2 := fun hc => hcr (mem_splitLines t.text '\r' p.2 hmem hc)
    unfold trimmedLine
    split_ifs
    · exact fun hc => hfree (mem_withoutTrailingBlanks _ _ hc)
    · exact hfree
  obtain ⟨htext2, _, _⟩ := TrimText_flags_state K (TrimText_flags K t flags) flags hcr2 htrim hlf
  generalize (flags &&& K.TRIM_IGNORE_CARET_LINE != 0) = dont at htext htext2 ⊢
  generalize (flags &&& K.TRIM_MODIFIED_LINES != 0) = only at htext htext2 ⊢
  obtain ⟨hne, hfree⟩ := trimmedLines_lines t dont only
  have hsplit : splitLines (TrimText_flags K t flags).text = trimmedLines t dont only := by
    rw [htext, splitLines_joinLines _ hne hfree]
  refine ⟨hsplit, ?_, ?_, ?_⟩
  · intro L line hget
    rw [hsplit]
    unfold trimmedLines
    rw [List.get?_eq_getElem?, List.getElem?_map, List.enum, List.getElem?_enumFrom,
      ← List.get?_eq_getElem?, hget]
    simp [trimmedLine]
  · intro line
    obtain ⟨blanks, h1, h2⟩ := withoutTrailingBlanks_append line
    refine ⟨blanks, h1, ?_, ?_⟩
    · intro ch hch
      have := h2 ch hch
      simpa [isBlank] using this
    · intro ch hch
      have := withoutTrailingBlanks_last line ch hch
      simpa [isBlank] using this
  · rw [htext2, htext]
    congr 1
    unfold trimmedLines
    rw [hsplit]
    unfold trimmedLines
    have hcongr : ∀ p, trimmedLine (TrimText_flags K t flags) dont only p
        = trimmedLine t dont only p :=
      trimmedLine_congr t (TrimText_flags K t flags) dont only hmap hcaret
    rw [List.map_congr_left (fun p _ => hcongr p)]
    exact enumFrom_map_idem (trimmedLine t dont only)
      (fun i x => by
        unfold trimmedLine
        simp only []
        split_ifs
        · exact withoutTrailingBlanks_idem x
        · rfl) _ 0

set_option maxRecDepth 8000 in
/-- The document of the lines `a `, `b` with a tab and `c` with two blanks,
the caret on the first line and the third line the only modified one:
trimming takes the blanks off all three lines; with the modified-only option
it takes them off the third line only, and with the caret-line option off all
lines but the first. -/
theorem TrimText_line_feed_document_sample :
    '\r' ∉ modifiedThirdLine.text ∧
    splitLines (TrimText_flags trimBits modifiedThirdLine 5).text
      = trimmedLines modifiedThirdLine (5 &&& trimBits.TRIM_IGNORE_CARET_LINE != 0)
          (5 &&& trimBits.TRIM_MODIFIED_LINES != 0) ∧
    (TrimText_flags trimBits modifiedThirdLine 1).text = "a\nb\nc".toList ∧
    (TrimText_flags trimBits modifiedThirdLine 5).text = "a \nb\t\nc".toList ∧
    (TrimText_flags trimBits modifiedThirdLine 9).text = "a \nb\nc".toList :=
  ⟨by decide,
    (TrimText_line_feed_document trimBits modifiedThirdLine 5 (by decide) (by decide)
      (by decide)).1,
    by decide, by decide, by decide⟩

set_option maxRecDepth 8000 in
/-- C24 (evaluation at the failing input): the document `a`, carriage return,
two blanks, line feed, `b` and two blanks has three lines, the second of them
the two blanks between the carriage return and the line feed, the third `b`
with its two blanks at the positions 5 to 8; the caret is on the first line
and only `TRIM_ENABLED` is set, so every line may be trimmed.  `TrimText`
takes the two blanks of the second line away; the carriage return and the line
feed now are one line end, the document has two lines, and the round of the
loop for line 2 finds an empty line at the end of the document: the third
line keeps its two blanks.  Trimming the result once more takes them away, so
trimming the trimmed document does change it.  In the document of the two
lines `ab` with two blanks and `cd` with a tab, each ended by a carriage
return and a line feed, both lines are trimmed. -/
theorem TrimText_lone_carriage_return :
    mixedLineEnds.text = "a\r  \nb  ".toList ∧
    GetLineCount mixedLineEnds = 3 ∧
    mixedLineEnds.GetCurrentLine = 0 ∧
    TrimText_allowed mixedLineEnds (1 &&& trimBits.TRIM_IGNORE_CARET_LINE != 0)
      (1 &&& trimBits.TRIM_MODIFIED_LINES != 0) 2 = true ∧
    (mixedLineEnds.PositionFromLine 1, GetLineEndPosition mixedLineEnds 1) = (2, 4) ∧
    (mixedLineEnds.PositionFromLine 2, GetLineEndPosition mixedLineEnds 2) = (5, 8) ∧
    (TrimText_flags trimBits mixedLineEnds 1).text = "a\r\nb  ".toList ∧
    GetLineCount (TrimText_flags trimBits mixedLineEnds 1) = 2 ∧
    (TrimText_flags trimBits (TrimText_flags trimBits mixedLineEnds 1) 1).text
      = "a\r\nb".toList ∧
    (TrimText_flags trimBits crlfLines 1).text = "ab\r\ncd\r\n".toList := by
  decide

/-! ## Expanding and collapsing the folds of a range of lines -/

/-- A call of a first stretch of a list comes before a call of a later one. -/
theorem occursBefore_of_mem (x y : Call) (l1 l2 : List Call) (hx : x ∈ l1) (hy : y ∈ l2) :
    occursBefore x y (l1 ++ l2) := by
  obtain ⟨a, b, rfl⟩ := List.append_of_mem hx
  obtain ⟨c, d, rfl⟩ := List.append_of_mem hy
  exact ⟨a, b ++ c, d, by simp⟩

end CodeLite
